import Mathlib

/-!
# SPL hash tables: open-addressing table, map and set facades, iterator, default hash

A shallow embedding of `library/header/hash_tables/basic_table.hpp`,
`hash_entry.hpp`, `hash_map.hpp`, `hash_set.hpp`, `entry_iterator.hpp`, `hash_function.hpp`
and of the helpers they call (`core/compare.hpp`, `core/np2.hpp`, `math/min.hpp`,
`math/max.hpp`, `hashes/fnv1.hpp`).

Conventions of the embedding.

* `Size` and `Index` are `unsigned int`: naturals below `2 ^ 32`; arithmetic that can wrap
  carries an explicit `% 2 ^ 32`.  `Id` is an unsigned integer of `w` bits (`w = 64` on x64,
  `w = 32` otherwise), which is also `Metadata::Device::Bit`; the width is a parameter of
  every function that adds to a hash or calls `NP2`.
* The sentinel `Index(-1)` returned by `load` and a null `EntryType*` are `none`.
* Undefined behaviour (dereferencing a null entry pointer, indexing an array at `-1` or
  past its end) makes the embedded function return `none`.
* Values are trivially movable (as the `float` values of the test-suite): `Move` of a value
  leaves the source unchanged.
* `float` is IEEE-754 binary32 restricted to non-negative values: a finite value is a
  natural number of units of `2 ^ -149`, so every finite non-negative binary32 number is
  represented exactly.
* A set entry `HashEntry<K>` is a map entry whose value is `Unit`; a slot returned by pointer
  (`findNext`, `next`) is its index in the array of entries.
* A pointer key handed to the default hash function is `none` (null) or `some` of the
  elements stored from the pointed address to the end of the array; a pointer stored as a
  key is compared by its address only.  A key that is not a pointer is hashed by
  `static_cast<Id>(key)` (`Function.scalar`).
* A copy (constructor or assignment) rehashes into a fresh table and is `none` when that
  rehash is undefined; a move returns the pair of the new container and the moved-from one.
* Definitions written from the words of the specification rather than from the source are
  named as such: `loadSpec` with `specProbe` and `specFirstFree` (the probe specification),
  `fnv1Reference`, and the reference map and set `refStep`, `refRun`.
* Two loops of the source are also given with a record of what they do: `loadOffsets`
  (the offsets at which `load` evaluates `(hash + offset) % capacity`) and `resizeScan` (the
  calls of `load` made by the loop of `resize`); `resizeScan` is proved to return what
  `resizeLoop` returns.
* A string object handed to the default hash function is the list of its characters.
* Two operations that are formally undefined but have one result in compiled code are given
  that result: a shift by the full width in `NP2` contributes no bit, and the `int` counter
  of the string hash counts on beyond `2 ^ 31 - 1` (see `Function.stringLoop`).
* `BasicTable.Inv` is the invariant of the tables of maps and sets (capacity zero or a power
  of two); `BasicTable.WellFormed` is the same without the condition on the capacity and
  holds of every table in `BasicTable.ReachableTable`.
-/

set_option linter.unusedSectionVars false
set_option linter.unusedVariables false

/-! # Definitions: the embedding of the source, and the predicates that state the results -/

namespace SPL

/-! ## Single-precision arithmetic used by `getLoadFactor` -/

/-- Nearest integer to the rational `n / d` (for `0 < d`), ties to even. -/
def roundNearestEven (n d : Nat) : Nat :=
  let q := n / d
  let r := n % d
  if 2 * r < d then q
  else if d < 2 * r then q + 1
  else if q % 2 = 0 then q else q + 1

/-- Exponent of the unit in the last place, in units of `2 ^ -149`, at a value whose integer
number of units is `i`: `0` below `2 ^ 24` (subnormal range and lowest binade), and one more
for each further binade.  `fuel` bounds the number of binades searched. -/
def ulpShift : Nat → Nat → Nat
  | 0, _ => 0
  | fuel + 1, i => if i < 2 ^ 24 then 0 else ulpShift fuel (i / 2) + 1

/-- Rounds the non-negative rational `n / d` to binary32 (round to nearest, ties to even);
the result is in units of `2 ^ -149`.  The search of the exponent covers the 254 binades of
binary32; overflow to infinity (values of `2 ^ 128` and more) is not represented: no value
computed here exceeds `2 ^ 32`. -/
def f32Round (n d : Nat) : Nat :=
  let scaled := n * 2 ^ 149
  let k := ulpShift 254 (scaled / d)
  roundNearestEven scaled (d * 2 ^ k) * 2 ^ k

/-- Non-negative binary32 values: not-a-number, positive infinity, or the finite
value `x / 2 ^ 149`. -/
inductive F32 where
  | nan : F32
  | inf : F32
  | fin (x : Nat) : F32
  deriving DecidableEq

namespace F32

/-- Conversion `static_cast<float>(n)` of an unsigned integer. -/
def ofNat (n : Nat) : F32 := fin (f32Round n 1)

/-- Decimal literal `p / q` written with the `f` suffix, e.g. `0.7f` is `lit 7 10`. -/
def lit (p q : Nat) : F32 := fin (f32Round p q)

/-- IEEE division of non-negative values. -/
def div : F32 → F32 → F32
  | fin x, fin y => if y = 0 then (if x = 0 then nan else inf) else fin (f32Round x y)
  | fin _, inf => fin 0
  | inf, fin _ => inf
  | _, _ => nan

/-- IEEE comparison `a < b` (false when an operand is not a number). -/
def lt : F32 → F32 → Bool
  | fin x, fin y => decide (x < y)
  | fin _, inf => true
  | _, _ => false

/-- IEEE comparison `a <= b` (false when an operand is not a number). -/
def le : F32 → F32 → Bool
  | fin x, fin y => decide (x ≤ y)
  | fin _, inf => true
  | inf, inf => true
  | _, _ => false

/-- IEEE comparison `a >= b`. -/
def ge (a b : F32) : Bool := le b a

end F32

namespace Math

/-- Function `Math::Max(first, second)`: `first > second ? first : second`. -/
def Max (first second : Nat) : Nat := if first > second then first else second

/-- Function `Math::Min(first, second)` on `float`: `first < second ? first : second`. -/
def Min (first second : F32) : F32 := if F32.lt first second then first else second

end Math

/-! ## `core/compare.hpp`, `core/np2.hpp` -/

/-- Function `Compare(source, target)` for keys ordered by `<` (integers, pointers). -/
def Compare {K : Type} [LinearOrder K] (source target : K) : Int :=
  if source < target then -1
  else if source > target then 1
  else 0

/-- Loop of `NP2`: `for (bit = 1; bit < Device::Bit; bit *= 2) value |= value >> bit`. -/
def NP2.loop (deviceBit : Nat) : Nat → Nat → Nat → Nat
  | 0, _, value => value
  | fuel + 1, bit, value =>
    if bit < deviceBit then NP2.loop deviceBit fuel (bit * 2) (value ||| (value >>> bit))
    else value

/-- Function `NP2(value)` on the 32-bit `Size`; `deviceBit` is `Metadata::Device::Bit`
(32 or 64).  A shift by 32 bits or more contributes no bit. -/
def NP2 (deviceBit : Nat) (value : Nat) : Nat :=
  let value := (value + 2 ^ 32 - 1) % 2 ^ 32
  let value := NP2.loop deviceBit deviceBit 1 value
  (value + 1) % 2 ^ 32

/-! ## `hash_tables/types.hpp`, `hash_tables/hash_entry.hpp` -/

/-- Entry states enumeration. -/
inductive EntryState where
  | Free : EntryState
  | Occupied : EntryState
  | Deleted : EntryState
  deriving DecidableEq

/-- Class `HashEntry<K, V>`: cached hash, state, key and value of one slot. -/
structure HashEntry (K V : Type) where
  hash : Nat
  state : EntryState
  key : K
  value : V
  deriving DecidableEq

/-- Default constructor `HashEntry()`: `hash(-1), state(Free), key(), value()`. -/
def HashEntry.empty {K V : Type} [Inhabited K] [Inhabited V] (w : Nat) : HashEntry K V :=
  { hash := 2 ^ w - 1, state := EntryState.Free, key := default, value := default }

/-! ## `hash_tables/basic_table.hpp` -/

/-- Class `BasicTable<H, K, V>`: capacity, array of entries, number of occupied entries. -/
structure BasicTable (K V : Type) where
  capacity : Nat
  entries : List (HashEntry K V)
  size : Nat
  deriving DecidableEq

namespace BasicTable

variable {K V : Type} [LinearOrder K] [Inhabited K] [Inhabited V]

/-- Array access `this->entries[index]`. -/
def entryAt (w : Nat) (t : BasicTable K V) (index : Nat) : HashEntry K V :=
  t.entries.getD index (HashEntry.empty w)

/-- Index probed at `offset`: `(hash + offset) % capacity`, the sum taken in `Id`. -/
def probe (w : Nat) (t : BasicTable K V) (hash offset : Nat) : Nat :=
  (hash + offset) % 2 ^ w % t.capacity

/-- Loop of `load`; `fuel` counts the iterations left (`capacity - offset`). -/
def loadLoop (w : Nat) (t : BasicTable K V) (hash : Nat) (key : K) :
    Nat → Nat → Option Nat → Option Nat
  | 0, _, preferred => preferred
  | fuel + 1, offset, preferred =>
    let index := probe w t hash offset
    let entry := entryAt w t index
    if entry.state = EntryState.Occupied then
      if Compare entry.key key = 0 then some index
      else loadLoop w t hash key fuel (offset + 1) preferred
    else
      let preferred := if preferred = none then some index else preferred
      if entry.state = EntryState.Free then preferred
      else loadLoop w t hash key fuel (offset + 1) preferred

/-- Method `load(hash, key)`: index of the entry for `key`, or of the preferred slot to
create it. -/
def load (w : Nat) (t : BasicTable K V) (hash : Nat) (key : K) : Option Nat :=
  loadLoop w t hash key t.capacity 0 none

/-- Initialized constructor `BasicTable(capacity)`. -/
def init (w : Nat) (capacity : Nat) : BasicTable K V :=
  { capacity := Math.Max capacity 4
    entries := List.replicate (Math.Max capacity 4) (HashEntry.empty w)
    size := 0 }

/-- Default constructor `BasicTable()`. -/
def empty : BasicTable K V :=
  { capacity := 0, entries := [], size := 0 }

/-- Loop of `resize` over the entries `this->entries[offset], this->entries[offset + 1], …`
(`rest`), filling the fresh `table` until it holds `size` entries.  `Swap` moves the old
entry into the fresh slot; what it leaves in the old array is never read again (the loop only
advances, and the old array is destroyed after the loop).  Reading past the end of the old
array, or storing at index `-1`, is undefined. -/
def resizeLoop (w : Nat) (size : Nat) :
    List (HashEntry K V) → BasicTable K V → Option (BasicTable K V)
  | [], table => if table.size < size then none else some table
  | entry :: rest, table =>
    if table.size < size then
      if entry.state = EntryState.Occupied then
        match load w table entry.hash entry.key with
        | none => none
        | some index =>
          resizeLoop w size rest
            { table with
              entries := table.entries.set index entry
              size := (table.size + 1) % 2 ^ 32 }
      else resizeLoop w size rest table
    else some table

/-- Method `resize(capacity)`: rehash every occupied entry into a fresh table, then adopt
it. -/
def resize (w : Nat) (t : BasicTable K V) (capacity : Nat) : Option (BasicTable K V) :=
  resizeLoop w t.size t.entries (init w capacity)

/-- Method `set(key)`: the table after the call and the index of the returned entry
(`none` for `nullptr`). -/
def set (w : Nat) (H : K → Nat) (t : BasicTable K V) (key : K) :
    BasicTable K V × Option Nat :=
  let hash := H key
  match load w t hash key with
  | some index =>
    let entry := entryAt w t index
    if entry.state ≠ EntryState.Occupied then
      ({ t with
         entries := t.entries.set index
           { entry with key := key, hash := hash, state := EntryState.Occupied }
         size := (t.size + 1) % 2 ^ 32 }, some index)
    else (t, some index)
  | none => (t, none)

/-- Method `get(key)`: index of the occupied entry of `key`, `none` for `nullptr`. -/
def get (w : Nat) (H : K → Nat) (t : BasicTable K V) (key : K) : Option Nat :=
  match load w t (H key) key with
  | some index => if (entryAt w t index).state = EntryState.Occupied then some index else none
  | none => none

/-- Method `unset(key)`: the table after the call and the index of the returned entry. -/
def unset (w : Nat) (H : K → Nat) (t : BasicTable K V) (key : K) :
    BasicTable K V × Option Nat :=
  match get w H t key with
  | some index =>
    ({ t with
       entries := t.entries.set index { entryAt w t index with state := EntryState.Deleted }
       size := (t.size + 2 ^ 32 - 1) % 2 ^ 32 }, some index)
  | none => (t, none)

/-- Method `clear()`: every slot `Free` (keys, hashes and values stay), size zero. -/
def clear (t : BasicTable K V) : BasicTable K V :=
  { t with
    entries := t.entries.map (fun entry => { entry with state := EntryState.Free })
    size := 0 }

/-- Method `enlarge(capacity)`. -/
def enlarge (w : Nat) (t : BasicTable K V) (capacity : Nat) : Option (BasicTable K V) :=
  let newer := Math.Max capacity 4
  if newer > t.capacity then resize w t newer else some t

/-- Method `shrink(capacity)`. -/
def shrink (w : Nat) (t : BasicTable K V) (capacity : Nat) : Option (BasicTable K V) :=
  let newer := Math.Max capacity 4
  if newer > t.size ∧ newer < t.capacity then resize w t newer else some t

/-- Friend `Swap(source, target)`: exchanges capacity, array of entries and size; the result
is the pair of `source` and `target` after the call. -/
def Swap (source target : BasicTable K V) : BasicTable K V × BasicTable K V :=
  ({ capacity := target.capacity, entries := target.entries, size := target.size },
   { capacity := source.capacity, entries := source.entries, size := source.size })

/-- Loop of the copy constructor over the entries `other.entries[offset],
other.entries[offset + 1], …` (`rest`), filling `self` until it holds `size` entries:
`this->entries[index] = entry` copies hash, state, key and value of an occupied entry into
the slot found by `load`.  Reading past the end of the array of `other`, or storing at index
`-1`, is undefined. -/
def copyLoop (w : Nat) (size : Nat) :
    List (HashEntry K V) → BasicTable K V → Option (BasicTable K V)
  | [], self => if self.size < size then none else some self
  | entry :: rest, self =>
    if self.size < size then
      if entry.state = EntryState.Occupied then
        match load w self entry.hash entry.key with
        | none => none
        | some index =>
          copyLoop w size rest
            { self with
              entries := self.entries.set index entry
              size := (self.size + 1) % 2 ^ 32 }
      else copyLoop w size rest self
    else some self

/-- Copy constructor `BasicTable(const BasicTable& other)`: delegates to
`BasicTable(other.capacity)`, then copies the occupied entries of `other`. -/
def copy (w : Nat) (other : BasicTable K V) : Option (BasicTable K V) :=
  copyLoop w other.size other.entries (init w other.capacity)

/-- Move constructor `BasicTable(BasicTable&& other)`: delegates to `BasicTable()`, then
`Swap(*this, other)`; the result is the new table and `other` after the call. -/
def move (other : BasicTable K V) : BasicTable K V × BasicTable K V :=
  Swap empty other

/-- Assignment `operator = (BasicTable other)`, the parameter taken by value:
`Swap(*this, other)`; the result is `*this` after the call (the parameter is destroyed). -/
def assign (self other : BasicTable K V) : BasicTable K V :=
  (Swap self other).1

end BasicTable

/-! ## `exceptions/key.hpp`, `hash_tables/hash_map.hpp` -/

/-- Exception `Exceptions::KeyNotFound<K>`: carries the key that was not found. -/
structure KeyNotFound (K : Type) where
  key : K
  deriving DecidableEq

/-- Class `HashMap<K, V, H>`: the facade owns exactly one table. -/
structure HashMap (K V : Type) where
  table : BasicTable K V
  deriving DecidableEq

namespace HashMap

variable {K V : Type} [LinearOrder K] [Inhabited K] [Inhabited V]

/-- Method `getCapacity()`. -/
def getCapacity (m : HashMap K V) : Nat := m.table.capacity

/-- Method `getSize()`. -/
def getSize (m : HashMap K V) : Nat := m.table.size

/-- Method `isEmpty()`. -/
def isEmpty (m : HashMap K V) : Bool := decide (m.table.size = 0)

/-- Method `getLoadFactor()`: `Min(static_cast<float>(getSize()) / getCapacity(), 1.0f)`. -/
def getLoadFactor (m : HashMap K V) : F32 :=
  Math.Min (F32.div (F32.ofNat m.getSize) (F32.ofNat m.getCapacity)) (F32.lit 1 1)

/-- Private `enlarge()`: doubles the capacity (`<< 1` on `Size`) at load factor `>= 0.7f`. -/
def enlarge (w : Nat) (m : HashMap K V) : Option (HashMap K V) :=
  if F32.ge m.getLoadFactor (F32.lit 7 10) then
    (BasicTable.enlarge w m.table (m.getCapacity * 2 % 2 ^ 32)).map HashMap.mk
  else some m

/-- Private `shrink()`: halves the capacity (`>> 1`) at load factor `<= 0.3f`. -/
def shrink (w : Nat) (m : HashMap K V) : Option (HashMap K V) :=
  if F32.le m.getLoadFactor (F32.lit 3 10) then
    (BasicTable.shrink w m.table (m.getCapacity / 2)).map HashMap.mk
  else some m

/-- Initialized constructor `HashMap(capacity)`: `table(NP2(capacity))`. -/
def init (w : Nat) (capacity : Nat) : HashMap K V :=
  { table := BasicTable.init w (NP2 w capacity) }

/-- Default constructor `HashMap()`. -/
def empty : HashMap K V := { table := BasicTable.empty }

/-- Writes `value` into the slot `index` (assignment through an entry reference). -/
def assignAt (w : Nat) (m : HashMap K V) (index : Nat) (value : V) : HashMap K V :=
  { table := { m.table with
      entries := m.table.entries.set index
        { BasicTable.entryAt w m.table index with value := value } } }

/-- Method `set(key, value)`: the previous value of the entry and the map after the call;
`none` when the entry pointer returned by the table is null. -/
def set (w : Nat) (H : K → Nat) (m : HashMap K V) (key : K) (value : V) :
    Option (V × HashMap K V) :=
  match m.enlarge w with
  | none => none
  | some m1 =>
    match BasicTable.set w H m1.table key with
    | (t, some index) =>
      some ((BasicTable.entryAt w t index).value, assignAt w { table := t } index value)
    | (_, none) => none

/-- Method `get(key)` by return: the value of the entry, or `KeyNotFound(key)`. -/
def get (w : Nat) (H : K → Nat) (m : HashMap K V) (key : K) : Except (KeyNotFound K) V :=
  match BasicTable.get w H m.table key with
  | none => Except.error { key := key }
  | some index => Except.ok (BasicTable.entryAt w m.table index).value

/-- Method `get(key, value)` by output parameter: the returned flag and the content of `value`
after the call. -/
def getOut (w : Nat) (H : K → Nat) (m : HashMap K V) (key : K) (value : V) : Bool × V :=
  match BasicTable.get w H m.table key with
  | some index => (true, (BasicTable.entryAt w m.table index).value)
  | none => (false, value)

/-- Method `has(key)`. -/
def has (w : Nat) (H : K → Nat) (m : HashMap K V) (key : K) : Bool :=
  (BasicTable.get w H m.table key).isSome

/-- Method `remove(key)` by return: the removed value or `KeyNotFound(key)`, and the map after the
call. -/
def remove (w : Nat) (H : K → Nat) (m : HashMap K V) (key : K) :
    Option (Except (KeyNotFound K) V × HashMap K V) :=
  match BasicTable.unset w H m.table key with
  | (_, none) => some (Except.error { key := key }, m)
  | (t, some index) =>
    match shrink w { table := t } with
    | none => none
    | some m1 => some (Except.ok (BasicTable.entryAt w t index).value, m1)

/-- Method `remove(key, value)` by output parameter: the returned flag, the content of `value`
after the call, and the map after the call. -/
def removeOut (w : Nat) (H : K → Nat) (m : HashMap K V) (key : K) (value : V) :
    Option (Bool × V × HashMap K V) :=
  match BasicTable.unset w H m.table key with
  | (t, some index) =>
    match shrink w { table := t } with
    | none => none
    | some m1 => some (true, (BasicTable.entryAt w t index).value, m1)
  | (_, none) => some (false, value, m)

/-- Method `clear()`. -/
def clear (m : HashMap K V) : HashMap K V := { table := m.table.clear }

/-- Mutable `operator[](key)`: the index of the entry whose value is returned by reference,
and the map after the call. -/
def subscript (w : Nat) (H : K → Nat) (m : HashMap K V) (key : K) :
    Option (Nat × HashMap K V) :=
  match m.enlarge w with
  | none => none
  | some m1 =>
    match BasicTable.set w H m1.table key with
    | (t, some index) => some (index, { table := t })
    | (_, none) => none

/-- Copy constructor `HashMap(const HashMap& other)`: `table(other.table)`. -/
def copy (w : Nat) (other : HashMap K V) : Option (HashMap K V) :=
  (BasicTable.copy w other.table).map HashMap.mk

/-- Move constructor `HashMap(HashMap&& other)`: `table(Move(other.table))`; the result is
the new map and `other` after the call. -/
def move (other : HashMap K V) : HashMap K V × HashMap K V :=
  let tables := BasicTable.move other.table
  ({ table := tables.1 }, { table := tables.2 })

/-- Assignment `operator = (HashMap other)`, the parameter taken by value:
`this->table = Move(other.table)`.  The table assignment takes its own parameter by value,
move-constructed from `other.table`.  The result is `*this` after the call. -/
def assign (self other : HashMap K V) : HashMap K V :=
  { table := BasicTable.assign self.table (BasicTable.move other.table).1 }

/-- Copy assignment `self = other`: the parameter of `operator =` is copy-constructed from
`other`, which stays as it is; the result is `self` after the call. -/
def assignCopy (w : Nat) (self other : HashMap K V) : Option (HashMap K V) :=
  (copy w other).map (fun parameter => assign self parameter)

/-- Move assignment `self = Move(other)`: the parameter of `operator =` is move-constructed
from `other`; the result is `self` and `other` after the call. -/
def assignMove (self other : HashMap K V) : HashMap K V × HashMap K V :=
  let moved := move other
  (assign self moved.1, moved.2)

end HashMap

/-! ## Predicates and invariants used to state and prove the results -/

namespace BasicTable

variable {K V : Type} [LinearOrder K] [Inhabited K] [Inhabited V]

/-- Slot `i` is occupied by `key`. -/
def Live (w : Nat) (t : BasicTable K V) (key : K) (i : Nat) : Prop :=
  i < t.capacity ∧ (entryAt w t i).state = EntryState.Occupied ∧ (entryAt w t i).key = key

/-- The table with slot `j` replaced by `e` and the size set to `s`. -/
def withEntry (t : BasicTable K V) (j : Nat) (e : HashEntry K V) (s : Nat) : BasicTable K V :=
  { t with entries := t.entries.set j e, size := s }

/-- Number of occupied entries of an array of entries. -/
def occupiedCount (l : List (HashEntry K V)) : Nat :=
  l.countP (fun e => decide (e.state = EntryState.Occupied))

/-- Invariant of a table whose hash function is `H`: the array has `capacity` entries,
probing visits every slot (`capacity` divides `2 ^ w`), `size` counts the occupied entries,
every occupied entry caches the hash of its key, no key occupies two slots, and every
occupied entry is reached from its first probe without crossing a `Free` slot. -/
structure Inv (w : Nat) (H : K → Nat) (t : BasicTable K V) : Prop where
  len : t.entries.length = t.capacity
  dvd : t.capacity = 0 ∨ t.capacity ∣ 2 ^ w
  bound : t.capacity < 2 ^ 32
  size_eq : t.size = occupiedCount t.entries
  hash_eq : ∀ i, i < t.capacity → (entryAt w t i).state = EntryState.Occupied →
    (entryAt w t i).hash = H (entryAt w t i).key
  uniq : ∀ k i j, Live w t k i → Live w t k j → i = j
  chain : ∀ i, i < t.capacity → (entryAt w t i).state = EntryState.Occupied →
    ∃ o, o < t.capacity ∧ probe w t (entryAt w t i).hash o = i ∧
      ∀ o', o' < o →
        (entryAt w t (probe w t (entryAt w t i).hash o')).state ≠ EntryState.Free

/-- The entry written by `set` into a vacant slot. -/
def claimed (w : Nat) (H : K → Nat) (t : BasicTable K V) (j : Nat) (k : K) : HashEntry K V :=
  { entryAt w t j with key := k, hash := H k, state := EntryState.Occupied }

/-- Some occupied slot holds `k` with value `v`. -/
def Holds (w : Nat) (t : BasicTable K V) (k : K) (v : V) : Prop :=
  ∃ i, Live w t k i ∧ (entryAt w t i).value = v

/-- The entry left in slot `i` by `unset`. -/
def tombstone (w : Nat) (t : BasicTable K V) (i : Nat) : HashEntry K V :=
  { entryAt w t i with state := EntryState.Deleted }

/-- The entry of slot `j` with its value replaced by `v`. -/
def revalued (w : Nat) (t : BasicTable K V) (j : Nat) (v : V) : HashEntry K V :=
  { entryAt w t j with value := v }

end BasicTable

/-- Capacities kept by the facade: `0` (default-constructed) or a power of two from `4` to
`2 ^ 31`. -/
def IsCap (c : Nat) : Prop := c = 0 ∨ ∃ j, 2 ≤ j ∧ j ≤ 31 ∧ c = 2 ^ j

namespace HashMap

variable {K V : Type} [LinearOrder K] [Inhabited K] [Inhabited V]

/-- Invariant of the facade: the table invariant, and a capacity that is `0` or a power of
two from `4` to `2 ^ 31`. -/
structure Inv (w : Nat) (H : K → Nat) (m : HashMap K V) : Prop where
  table : BasicTable.Inv w H m.table
  cap : IsCap m.table.capacity

/-- Capacity after the private `enlarge()`. -/
def enlargedCapacity (m : HashMap K V) : Nat :=
  if F32.ge m.getLoadFactor (F32.lit 7 10) = true ∧
      m.table.capacity < Math.Max (m.table.capacity * 2 % 2 ^ 32) 4
  then Math.Max (m.table.capacity * 2 % 2 ^ 32) 4 else m.table.capacity

/-- Capacity after the private `shrink()`. -/
def shrunkCapacity (m : HashMap K V) : Nat :=
  if F32.le m.getLoadFactor (F32.lit 3 10) = true ∧
      (Math.Max (m.table.capacity / 2) 4 > m.table.size ∧
        Math.Max (m.table.capacity / 2) 4 < m.table.capacity)
  then Math.Max (m.table.capacity / 2) 4 else m.table.capacity

end HashMap

/-- Bit `i` of `x` is set exactly when one of the `n` bits of `v` from position `i` is set. -/
def Smeared (n x v : Nat) : Prop :=
  ∀ i, x.testBit i = true ↔ ∃ d, d < n ∧ v.testBit (i + d) = true

/-! ## Reachable maps, call sequences and the reference map -/

/-- The maps a program can hold: built by the capacity constructor, the default constructor
or the copy constructor (the copy assignment leaves the same map) and changed by `set`,
mutable `operator[]`, assignment through a returned value reference, `remove` (both
overloads) and `clear`.  A move gives the map moved from and the default-constructed map,
which are in the list already. -/
inductive Reachable {K V : Type} [LinearOrder K] [Inhabited K] [Inhabited V]
    (w : Nat) (H : K → Nat) : HashMap K V → Prop
  | init (capacity : Nat) : Reachable w H (HashMap.init w capacity)
  | empty : Reachable w H HashMap.empty
  | set {m m' : HashMap K V} {k : K} {v r : V} :
    Reachable w H m → HashMap.set w H m k v = some (r, m') → Reachable w H m'
  | subscript {m m' : HashMap K V} {k : K} {i : Nat} :
    Reachable w H m → HashMap.subscript w H m k = some (i, m') → Reachable w H m'
  | assign {m : HashMap K V} {k : K} {i : Nat} (v : V) :
    Reachable w H m → BasicTable.get w H m.table k = some i →
    Reachable w H (HashMap.assignAt w m i v)
  | remove {m m' : HashMap K V} {k : K} {r : Except (KeyNotFound K) V} :
    Reachable w H m → HashMap.remove w H m k = some (r, m') → Reachable w H m'
  | removeOut {m m' : HashMap K V} {k : K} {out v : V} {b : Bool} :
    Reachable w H m → HashMap.removeOut w H m k out = some (b, v, m') → Reachable w H m'
  | clear {m : HashMap K V} : Reachable w H m → Reachable w H m.clear
  | copy {m c : HashMap K V} : Reachable w H m → HashMap.copy w m = some c → Reachable w H c

/-- One call of a sequence of `set` and `remove` calls. -/
inductive MapOp (K V : Type) where
  | set (key : K) (value : V) : MapOp K V
  | remove (key : K) : MapOp K V
  deriving DecidableEq

namespace HashMap

variable {K V : Type} [LinearOrder K] [Inhabited K] [Inhabited V]

/-- Performs one call on the map; a `KeyNotFound` thrown by `remove` is caught by the
caller, the map stays as the call left it. -/
def applyOp (w : Nat) (H : K → Nat) (m : HashMap K V) : MapOp K V → Option (HashMap K V)
  | MapOp.set k v => (set w H m k v).map Prod.snd
  | MapOp.remove k => (remove w H m k).map Prod.snd

/-- Performs a sequence of calls, first to last. -/
def run (w : Nat) (H : K → Nat) : HashMap K V → List (MapOp K V) → Option (HashMap K V)
  | m, [] => some m
  | m, op :: ops =>
    match applyOp w H m op with
    | none => none
    | some m' => run w H m' ops

/-- The capacity stays below `bound` before and after every call of the sequence. -/
def staysBelow (w : Nat) (H : K → Nat) (bound : Nat) :
    HashMap K V → List (MapOp K V) → Bool
  | m, [] => decide (m.getCapacity < bound)
  | m, op :: ops =>
    decide (m.getCapacity < bound) &&
      match applyOp w H m op with
      | none => true
      | some m' => staysBelow w H bound m' ops

/-- Reference finite map, from the words of the specification: one call applied to the set
of live keys. -/
def refStep (live : Finset K) : MapOp K V → Finset K
  | MapOp.set k _ => insert k live
  | MapOp.remove k => live.erase k

end HashMap

/-- The capacity-4 map with identity hash after `set(15, 15)`, `set(23, 23)`, `set(31, 31)`
and `remove(23)`: slot 0 is a tombstone, slots 1 and 3 are occupied. -/
def sampleMap : HashMap Nat Nat :=
  { table :=
    { capacity := 4
      entries :=
        [{ hash := 23, state := EntryState.Deleted, key := 23, value := 23 },
         { hash := 31, state := EntryState.Occupied, key := 31, value := 31 },
         HashEntry.empty 64,
         { hash := 15, state := EntryState.Occupied, key := 15, value := 15 }]
      size := 2 } }

/-! ## `hashes/fnv1.hpp`, `hash_tables/hash_function.hpp` -/

/-- The value `float()` of a value-initialized entry is `0.0f`. -/
instance : Inhabited F32 := ⟨F32.fin 0⟩

/-- Conversion of an integer element to the unsigned `Id` of `w` bits (two-complement:
the value modulo `2 ^ w`). -/
def toId (w : Nat) : Int → Nat
  | Int.ofNat n => n % 2 ^ w
  | Int.negSucc n => 2 ^ w - 1 - n % 2 ^ w

/-- Class `Hashes::FNV1<T>`: the accumulated hash, an `Id`. -/
structure FNV1 where
  hash : Nat
  deriving DecidableEq

namespace FNV1

/-- Default constructor `FNV1()`: `hash(0x811C9DC5)`. -/
def new (w : Nat) : FNV1 := { hash := 0x811C9DC5 % 2 ^ w }

/-- Method `getHash()`. -/
def getHash (self : FNV1) : Nat := self.hash

/-- Method `next(value)`: `hash *= 0x01000193; hash ^= value`, both in `Id`. -/
def next (w : Nat) (self : FNV1) (value : Int) : FNV1 :=
  let hash := self.hash * 0x01000193 % 2 ^ w
  { hash := hash ^^^ toId w value }

end FNV1

/-- Loop of `Function` on a pointer key: `while (*entries != KeyType()) fnv1.next(*entries++)`.
The list holds the elements stored from the pointed address to the end of the array; reading
past the end of the array is undefined. -/
def Function.loop (w : Nat) : List Int → FNV1 → Option FNV1
  | [], _ => none
  | value :: entries, fnv1 =>
    if value ≠ 0 then Function.loop w entries (fnv1.next w value) else some fnv1

/-- Function `HashTables::Function(key)` for a pointer key: `none` as key is `nullptr`,
`some entries` points to the elements `entries`.  The result is `none` when the call is
undefined (no terminator in the array). -/
def Function (w : Nat) (key : Option (List Int)) : Option Nat :=
  match key with
  | none => some (FNV1.new w).getHash
  | some entries => (Function.loop w entries (FNV1.new w)).map FNV1.getHash

/-- Hash of an element sequence, from the words of the specification:
`h_0 = 0x811C9DC5` and `h_i = ((h_(i-1) * 0x01000193) mod 2 ^ w) XOR e_i`, the element
`e_i` taken as the `w`-bit value it has in `Id`, its residue modulo `2 ^ w` (written with the
integer remainder, not with the conversion `toId` of the embedding). -/
def fnv1Reference (w : Nat) (elements : List Int) : Nat :=
  elements.foldl
    (fun h e => (h * 0x01000193 % 2 ^ w) ^^^ (e % ((2 ^ w : Nat) : Int)).toNat) 0x811C9DC5

/-! ## `exceptions/operation.hpp`, `hash_tables/entry_iterator.hpp` -/

/-- Exception `Exceptions::InvalidOperation`. -/
structure InvalidOperation where
  deriving DecidableEq

/-- Class `EntryIterator<H, K, V>`: the table iterated (a reference to a table that does not
change while the iterator lives), the number of entries returned, the next slot to look at. -/
structure EntryIterator (K V : Type) where
  table : BasicTable K V
  count : Nat
  index : Nat
  deriving DecidableEq

namespace EntryIterator

variable {K V : Type} [LinearOrder K] [Inhabited K] [Inhabited V]

/-- Constructor `EntryIterator(table)`: `count(0), index(0)`. -/
def new (table : BasicTable K V) : EntryIterator K V :=
  { table := table, count := 0, index := 0 }

/-- Loop of `findNext`; `fuel` counts the iterations left.  The result is the slot of the
returned entry (`none` for `nullptr`) and the iterator after the call. -/
def findNextLoop (w : Nat) : Nat → EntryIterator K V → Option Nat × EntryIterator K V
  | 0, self => (none, self)
  | fuel + 1, self =>
    if self.index < self.table.capacity then
      let index := self.index
      let self := { self with index := (self.index + 1) % 2 ^ 32 }
      if (BasicTable.entryAt w self.table index).state = EntryState.Occupied then
        (some index, { self with count := (self.count + 1) % 2 ^ 32 })
      else findNextLoop w fuel self
    else (none, self)

/-- Private `findNext()`.  The loop ends after at most `capacity - index` iterations: each
one moves `index` up by one (`index < capacity < 2 ^ 32`, so the increment does not wrap). -/
def findNext (w : Nat) (self : EntryIterator K V) : Option Nat × EntryIterator K V :=
  findNextLoop w (self.table.capacity - self.index) self

/-- Method `hasNext()`. -/
def hasNext (self : EntryIterator K V) : Bool := decide (self.count < self.table.size)

/-- Method `next()`: the slot of the returned entry or `InvalidOperation`, and the iterator
after the call. -/
def next (w : Nat) (self : EntryIterator K V) :
    Except InvalidOperation Nat × EntryIterator K V :=
  match findNext w self with
  | (none, self) => (Except.error {}, self)
  | (some index, self) => (Except.ok index, self)

/-- The client loop `while (iterator.hasNext()) iterator.next()`: the slots returned, in the
order of the calls, or the exception that ended the loop; `none` when `fuel` iterations
were not enough. -/
def drain (w : Nat) : Nat → EntryIterator K V → Option (Except InvalidOperation (List Nat))
  | 0, _ => none
  | fuel + 1, self =>
    if self.hasNext then
      match next w self with
      | (Except.error e, _) => some (Except.error e)
      | (Except.ok index, self) =>
        (drain w fuel self).map (fun rest => rest.map (fun slots => index :: slots))
    else some (Except.ok [])

end EntryIterator

/-! ## `hash_tables/hash_map.hpp`: literal constructor and iterator; `hash_tables/hash_set.hpp` -/

namespace HashMap

variable {K V : Type} [LinearOrder K] [Inhabited K] [Inhabited V]

/-- Initialized constructor `HashMap(pairs)` on an array of `N` pairs: `HashMap(N)`, then
`set(pair.key, pair.value)` for each pair in turn. -/
def ofPairs (w : Nat) (H : K → Nat) (pairs : List (K × V)) : Option (HashMap K V) :=
  run w H (init w pairs.length) (pairs.map (fun pair => MapOp.set pair.1 pair.2))

/-- Method `getIterator()`. -/
def getIterator (m : HashMap K V) : EntryIterator K V := EntryIterator.new m.table

end HashMap

/-- Class `HashSet<T, H>`: the facade owns one table of entries without value. -/
structure HashSet (T : Type) where
  table : BasicTable T Unit
  deriving DecidableEq

namespace HashSet

variable {T : Type} [LinearOrder T] [Inhabited T]

/-- Method `getCapacity()`. -/
def getCapacity (s : HashSet T) : Nat := s.table.capacity

/-- Method `getSize()`. -/
def getSize (s : HashSet T) : Nat := s.table.size

/-- Method `isEmpty()`. -/
def isEmpty (s : HashSet T) : Bool := decide (s.table.size = 0)

/-- Method `getLoadFactor()`: `Min(static_cast<float>(getSize()) / getCapacity(), 1.0f)`. -/
def getLoadFactor (s : HashSet T) : F32 :=
  Math.Min (F32.div (F32.ofNat s.getSize) (F32.ofNat s.getCapacity)) (F32.lit 1 1)

/-- Initialized constructor `HashSet(capacity)`: `table(NP2(capacity))`. -/
def init (w : Nat) (capacity : Nat) : HashSet T :=
  { table := BasicTable.init w (NP2 w capacity) }

/-- Default constructor `HashSet()`. -/
def empty : HashSet T := { table := BasicTable.empty }

/-- Method `add(value)`: enlarge at load factor `>= 0.7f`, then `table.set(value)`, whose
result is not used; `none` when the rehash is undefined. -/
def add (w : Nat) (H : T → Nat) (s : HashSet T) (value : T) : Option (HashSet T) :=
  let table :=
    if F32.ge s.getLoadFactor (F32.lit 7 10) then
      BasicTable.enlarge w s.table (s.getCapacity * 2 % 2 ^ 32)
    else some s.table
  table.map (fun t => { table := (BasicTable.set w H t value).1 })

/-- Initialized constructor `HashSet(values)` on an array of `N` values: `HashSet(N)`, then
`add(value)` for each value in turn. -/
def ofValues (w : Nat) (H : T → Nat) (values : List T) : Option (HashSet T) :=
  values.foldl (fun s value => s.bind (fun s => add w H s value)) (some (init w values.length))

/-- Method `has(value)`. -/
def has (w : Nat) (H : T → Nat) (s : HashSet T) (value : T) : Bool :=
  (BasicTable.get w H s.table value).isSome

/-- Method `remove(value)`: the returned flag and the set after the call. -/
def remove (w : Nat) (H : T → Nat) (s : HashSet T) (value : T) : Option (Bool × HashSet T) :=
  match BasicTable.unset w H s.table value with
  | (t, some _) =>
    let s1 : HashSet T := { table := t }
    if F32.le s1.getLoadFactor (F32.lit 3 10) then
      (BasicTable.shrink w t (s1.getCapacity / 2)).map (fun t => (true, { table := t }))
    else some (true, s1)
  | (_, none) => some (false, s)

/-- Method `clear()`. -/
def clear (s : HashSet T) : HashSet T := { table := s.table.clear }

/-- Method `getIterator()`. -/
def getIterator (s : HashSet T) : EntryIterator T Unit := EntryIterator.new s.table

/-- Copy constructor `HashSet(const HashSet& other)`: `table(other.table)`. -/
def copy (w : Nat) (other : HashSet T) : Option (HashSet T) :=
  (BasicTable.copy w other.table).map HashSet.mk

/-- Move constructor `HashSet(HashSet&& other)`: `table(Move(other.table))`; the result is
the new set and `other` after the call. -/
def move (other : HashSet T) : HashSet T × HashSet T :=
  let tables := BasicTable.move other.table
  ({ table := tables.1 }, { table := tables.2 })

/-- Assignment `operator = (HashSet other)`, the parameter taken by value:
`this->table = Move(other.table)`; the result is `*this` after the call. -/
def assign (self other : HashSet T) : HashSet T :=
  { table := BasicTable.assign self.table (BasicTable.move other.table).1 }

/-- Copy assignment `self = other`: the parameter of `operator =` is copy-constructed from
`other`; the result is `self` after the call. -/
def assignCopy (w : Nat) (self other : HashSet T) : Option (HashSet T) :=
  (copy w other).map (fun parameter => assign self parameter)

/-- Move assignment `self = Move(other)`: the parameter of `operator =` is move-constructed
from `other`; the result is `self` and `other` after the call. -/
def assignMove (self other : HashSet T) : HashSet T × HashSet T :=
  let moved := move other
  (assign self moved.1, moved.2)

end HashSet

/-! ## Reachable sets; containers created by an explicit constructor -/

/-- The sets a program can hold: built by the capacity constructor, the default constructor
or the copy constructor and changed by `add`, `remove` and `clear`. -/
inductive ReachableSet {T : Type} [LinearOrder T] [Inhabited T]
    (w : Nat) (H : T → Nat) : HashSet T → Prop
  | init (capacity : Nat) : ReachableSet w H (HashSet.init w capacity)
  | empty : ReachableSet w H HashSet.empty
  | add {s s' : HashSet T} {k : T} :
    ReachableSet w H s → HashSet.add w H s k = some s' → ReachableSet w H s'
  | remove {s s' : HashSet T} {k : T} {b : Bool} :
    ReachableSet w H s → HashSet.remove w H s k = some (b, s') → ReachableSet w H s'
  | clear {s : HashSet T} : ReachableSet w H s → ReachableSet w H s.clear
  | copy {s c : HashSet T} : ReachableSet w H s → HashSet.copy w s = some c →
    ReachableSet w H c

/-- The maps created by an explicit constructor (capacity hint or literal batch) and changed
by `set`, mutable `operator[]`, assignment through a returned value reference, `remove`
(both overloads) and `clear`. -/
inductive Constructed {K V : Type} [LinearOrder K] [Inhabited K] [Inhabited V]
    (w : Nat) (H : K → Nat) : HashMap K V → Prop
  | init (capacity : Nat) : Constructed w H (HashMap.init w capacity)
  | literal {pairs : List (K × V)} {m : HashMap K V} :
    HashMap.ofPairs w H pairs = some m → Constructed w H m
  | set {m m' : HashMap K V} {k : K} {v r : V} :
    Constructed w H m → HashMap.set w H m k v = some (r, m') → Constructed w H m'
  | subscript {m m' : HashMap K V} {k : K} {i : Nat} :
    Constructed w H m → HashMap.subscript w H m k = some (i, m') → Constructed w H m'
  | assign {m : HashMap K V} {k : K} {i : Nat} (v : V) :
    Constructed w H m → BasicTable.get w H m.table k = some i →
    Constructed w H (HashMap.assignAt w m i v)
  | remove {m m' : HashMap K V} {k : K} {r : Except (KeyNotFound K) V} :
    Constructed w H m → HashMap.remove w H m k = some (r, m') → Constructed w H m'
  | removeOut {m m' : HashMap K V} {k : K} {out v : V} {b : Bool} :
    Constructed w H m → HashMap.removeOut w H m k out = some (b, v, m') → Constructed w H m'
  | clear {m : HashMap K V} : Constructed w H m → Constructed w H m.clear

/-- The sets created by an explicit constructor (capacity hint or literal batch) and changed
by `add`, `remove` and `clear`. -/
inductive ConstructedSet {T : Type} [LinearOrder T] [Inhabited T]
    (w : Nat) (H : T → Nat) : HashSet T → Prop
  | init (capacity : Nat) : ConstructedSet w H (HashSet.init w capacity)
  | literal {values : List T} {s : HashSet T} :
    HashSet.ofValues w H values = some s → ConstructedSet w H s
  | add {s s' : HashSet T} {k : T} :
    ConstructedSet w H s → HashSet.add w H s k = some s' → ConstructedSet w H s'
  | remove {s s' : HashSet T} {k : T} {b : Bool} :
    ConstructedSet w H s → HashSet.remove w H s k = some (b, s') → ConstructedSet w H s'
  | clear {s : HashSet T} : ConstructedSet w H s → ConstructedSet w H s.clear

/-! ## Iteration: the slots an iterator returns, the states an iterator goes through -/

/-- The occupied slots of a table, by increasing index. -/
def BasicTable.occupiedSlots {K V : Type} [Inhabited K] [Inhabited V] (w : Nat)
    (t : BasicTable K V) : List Nat :=
  (List.range t.capacity).filter
    (fun i => decide ((BasicTable.entryAt w t i).state = EntryState.Occupied))

/-- The states of an iterator over the table `t`: the fresh iterator, and every state that a
successful call of `next()` leaves. -/
inductive EntryIterator.Reached {K V : Type} [LinearOrder K] [Inhabited K] [Inhabited V]
    (w : Nat) (t : BasicTable K V) : EntryIterator K V → Prop
  | fresh : EntryIterator.Reached w t (EntryIterator.new t)
  | next {self self' : EntryIterator K V} {index : Nat} :
    EntryIterator.Reached w t self → EntryIterator.next w self = (Except.ok index, self') →
    EntryIterator.Reached w t self'

/-- The map built by the literal constructor with identity hash from the pairs
`(15, 15), (23, 23), (31, 31)`: capacity 4, slots 3, 0 and 1 occupied in that order. -/
def sampleLiteral : HashMap Nat Nat :=
  { table :=
    { capacity := 4
      entries :=
        [{ hash := 23, state := EntryState.Occupied, key := 23, value := 23 },
         { hash := 31, state := EntryState.Occupied, key := 31, value := 31 },
         HashEntry.empty 64,
         { hash := 15, state := EntryState.Occupied, key := 15, value := 15 }]
      size := 3 } }

/-- The set built by the literal constructor with identity hash from the values
`15, 23, 31`: capacity 4, slots 3, 0 and 1 occupied in that order. -/
def sampleSet : HashSet Nat :=
  { table :=
    { capacity := 4
      entries :=
        [{ hash := 23, state := EntryState.Occupied, key := 23, value := () },
         { hash := 31, state := EntryState.Occupied, key := 31, value := () },
         HashEntry.empty 64,
         { hash := 15, state := EntryState.Occupied, key := 15, value := () }]
      size := 3 } }

/-- The facts a call sequence keeps track of: the facade invariant, the capacity, the size
and the set of keys that `has` reports. -/
def HashMap.Tracks {K V : Type} [LinearOrder K] [Inhabited K] [Inhabited V]
    (w : Nat) (H : K → Nat) (m : HashMap K V) (keys : Finset K) (capacity size : Nat) : Prop :=
  HashMap.Inv w H m ∧ m.table.capacity = capacity ∧ m.table.size = size ∧
    ∀ k, HashMap.has w H m k = true ↔ k ∈ keys

/-- Memory of the test-suite: the string literals `"abc"`, `"def"`, `"ghi"` and `"jkl"`,
stored at the addresses `1`, `2`, `3` and `4`; the address `0` is the null pointer. -/
def literals : Nat → Option (List Int)
  | 1 => some [97, 98, 99, 0]
  | 2 => some [100, 101, 102, 0]
  | 3 => some [103, 104, 105, 0]
  | 4 => some [106, 107, 108, 0]
  | _ => none

/-- The default hash function on the pointers into `literals`. -/
def literalHash (w : Nat) (key : Nat) : Nat := (Function w (literals key)).getD 0

/-! ## Call sequences on a set and the reference set -/

/-- One call of a sequence of `add` and `remove` calls on a set. -/
inductive SetOp (T : Type) where
  | add (value : T) : SetOp T
  | remove (value : T) : SetOp T
  deriving DecidableEq

namespace HashSet

variable {T : Type} [LinearOrder T] [Inhabited T]

/-- Performs one call on the set: the value returned (`none` for `add`, which returns
nothing) and the set after the call. -/
def applyOp (w : Nat) (H : T → Nat) (s : HashSet T) :
    SetOp T → Option (Option Bool × HashSet T)
  | SetOp.add value => (add w H s value).map (fun s' => (none, s'))
  | SetOp.remove value => (remove w H s value).map (fun r => (some r.1, r.2))

/-- Performs a sequence of calls, first to last: the values returned and the final set. -/
def run (w : Nat) (H : T → Nat) :
    HashSet T → List (SetOp T) → Option (List (Option Bool) × HashSet T)
  | s, [] => some ([], s)
  | s, op :: ops =>
    match applyOp w H s op with
    | none => none
    | some r => (run w H r.2 ops).map (fun rest => (r.1 :: rest.1, rest.2))

/-- The capacity stays below `bound` before and after every call of the sequence. -/
def staysBelow (w : Nat) (H : T → Nat) (bound : Nat) : HashSet T → List (SetOp T) → Bool
  | s, [] => decide (s.getCapacity < bound)
  | s, op :: ops =>
    decide (s.getCapacity < bound) &&
      match applyOp w H s op with
      | none => true
      | some r => staysBelow w H bound r.2 ops

/-- Reference set, from the words of the specification: one call applied to the set of live
values; `remove` returns whether the value was present immediately before the call. -/
def refStep (live : Finset T) : SetOp T → Option Bool × Finset T
  | SetOp.add value => (none, insert value live)
  | SetOp.remove value => (some (decide (value ∈ live)), live.erase value)

/-- Reference set, from the words of the specification: the values returned by the calls of
the sequence and the values that were added and not removed since. -/
def refRun : Finset T → List (SetOp T) → List (Option Bool) × Finset T
  | live, [] => ([], live)
  | live, op :: ops =>
    ((refStep live op).1 :: (refRun (refStep live op).2 ops).1,
      (refRun (refStep live op).2 ops).2)

end HashSet

/-! ## The probe specification of `load`, from the words of the specification -/

/-- First position `j` with `o <= j < o + n` at which `p` holds, if there is one. -/
def firstAt (p : Nat → Bool) : Nat → Nat → Option Nat
  | 0, _ => none
  | n + 1, o => if p o then some o else firstAt p n (o + 1)

namespace BasicTable

variable {K V : Type} [LinearOrder K] [Inhabited K] [Inhabited V]

/-- Probe sequence of the specification: `p_j = (h + j) mod c`. -/
def specProbe (t : BasicTable K V) (hash j : Nat) : Nat := (hash + j) % t.capacity

/-- Position `F` of the first `Free` slot in the probe sequence, `c` if none is `Free`. -/
def specFirstFree (w : Nat) (t : BasicTable K V) (hash : Nat) : Nat :=
  (firstAt (fun j => decide ((entryAt w t (specProbe t hash j)).state = EntryState.Free))
    t.capacity 0).getD t.capacity

/-- Result of `load(h, k)` by the specification: the first `p_j` with `j < F` that is
`Occupied` with a key equal to `k`; otherwise the first `p_j` with `j <= F` (and `j < c`)
whose slot is not `Occupied`; otherwise no index. -/
def loadSpec (w : Nat) (t : BasicTable K V) (hash : Nat) (key : K) : Option Nat :=
  match firstAt (fun j => decide ((entryAt w t (specProbe t hash j)).state =
      EntryState.Occupied ∧ (entryAt w t (specProbe t hash j)).key = key))
    (specFirstFree w t hash) 0 with
  | some j => some (specProbe t hash j)
  | none =>
    (firstAt (fun j => decide ((entryAt w t (specProbe t hash j)).state ≠
        EntryState.Occupied))
      (min (specFirstFree w t hash + 1) t.capacity) 0).map (specProbe t hash)

end BasicTable

/-- A table of capacity 5, as `BasicTable(5)` followed by `set` of the keys 5, 1, 2, 3 with
identity hash leaves it: slots 0 to 3 are occupied, slot 4 is `Free`. -/
def fiveTable : BasicTable Nat Nat :=
  { capacity := 5
    entries :=
      [{ hash := 5, state := EntryState.Occupied, key := 5, value := 0 },
       { hash := 1, state := EntryState.Occupied, key := 1, value := 0 },
       { hash := 2, state := EntryState.Occupied, key := 2, value := 0 },
       { hash := 3, state := EntryState.Occupied, key := 3, value := 0 },
       HashEntry.empty 64]
    size := 4 }

/-! ## The collision scenario of the test-suite (`FeatureCollisions`) -/

/-- Function `HashTables::Function(key)` for a key that is not a pointer:
`static_cast<Id>(key)`. -/
def Function.scalar (w : Nat) (key : Int) : Nat := toId w key

/-- The pairs `{ 15, 1.5f }, { 23, 2.3f }, { 31, 3.1f }` of the collision test. -/
def collisionPairs : List (Int × F32) :=
  [(15, F32.lit 3 2), (23, F32.lit 23 10), (31, F32.lit 31 10)]

/-- A table of capacity 8, as `BasicTable(8)` followed by `set` of the keys 0, 1, 2, 3 and
`2 ^ 64 - 2` with identity hash leaves it: the slots 0 to 3 and 6 are occupied. -/
def eightTable : BasicTable Nat Nat :=
  { capacity := 8
    entries :=
      [{ hash := 0, state := EntryState.Occupied, key := 0, value := 0 },
       { hash := 1, state := EntryState.Occupied, key := 1, value := 0 },
       { hash := 2, state := EntryState.Occupied, key := 2, value := 0 },
       { hash := 3, state := EntryState.Occupied, key := 3, value := 0 },
       HashEntry.empty 64,
       HashEntry.empty 64,
       { hash := 2 ^ 64 - 2, state := EntryState.Occupied, key := 2 ^ 64 - 2, value := 0 },
       HashEntry.empty 64]
    size := 5 }

/-- A full table of capacity 5, as `BasicTable(5)` followed by `set` of the keys 0, 1, 2, 3
and `2 ^ 64 - 2` with identity hash leaves it. -/
def fiveFull : BasicTable Nat Nat :=
  { capacity := 5
    entries :=
      [{ hash := 0, state := EntryState.Occupied, key := 0, value := 0 },
       { hash := 1, state := EntryState.Occupied, key := 1, value := 0 },
       { hash := 2, state := EntryState.Occupied, key := 2, value := 0 },
       { hash := 3, state := EntryState.Occupied, key := 3, value := 0 },
       { hash := 2 ^ 64 - 2, state := EntryState.Occupied, key := 2 ^ 64 - 2, value := 0 }]
    size := 5 }

/-! ## `hash_tables/hash_function.hpp`: the default hash of a string object -/

/-- Loop of `Function` on a string, `for (auto index = 0; index < length; ++index)
fnv1.next(key[index])`, on the characters `key` of the string (`length` is their number);
`fuel` counts the iterations left (`length - index`).  The counter `index` is an `int`,
converted to unsigned for the comparison with `length` and for the subscript.  The embedding
counts in the naturals: the loop visits `key[0], ..., key[length - 1]` for every length of
type `Size`, also from `2 ^ 31` characters on, where the increment of an `int` is formally an
overflow and the counter of the compiled loop wraps to the same unsigned values (in the same
way the shift by the full width in `NP2` is given its compiled result). -/
def Function.stringLoop (w : Nat) (key : List Int) : Nat → Nat → FNV1 → FNV1
  | 0, _, fnv1 => fnv1
  | fuel + 1, index, fnv1 =>
    if index < key.length then
      Function.stringLoop w key fuel (index + 1) (fnv1.next w (key.getD index 0))
    else fnv1

/-- Function `HashTables::Function(key)` for a string object `SPL::String<T>` holding the
characters `key`: `length = key.getLength()` iterations of the loop, then
`fnv1.getHash()`. -/
def Function.string (w : Nat) (key : List Int) : Nat :=
  (Function.stringLoop w key key.length 0 (FNV1.new w)).getHash

namespace BasicTable

variable {K V : Type} [LinearOrder K] [Inhabited K] [Inhabited V]

/-- The loop of `load` with its evaluations of the index `(hash + offset) % capacity`
recorded: the offsets at which the expression is evaluated, in order (`fuel` counts the
iterations left, as in `loadLoop`). -/
def loadOffsets (w : Nat) (t : BasicTable K V) (hash : Nat) (key : K) : Nat → Nat → List Nat
  | 0, _ => []
  | fuel + 1, offset =>
    let index := probe w t hash offset
    let entry := entryAt w t index
    if entry.state = EntryState.Occupied then
      if Compare entry.key key = 0 then [offset]
      else offset :: loadOffsets w t hash key fuel (offset + 1)
    else
      if entry.state = EntryState.Free then [offset]
      else offset :: loadOffsets w t hash key fuel (offset + 1)

/-- The offsets at which a call `load(hash, key)` evaluates `(hash + offset) % capacity`. -/
def moduloEvaluations (w : Nat) (t : BasicTable K V) (hash : Nat) (key : K) : List Nat :=
  loadOffsets w t hash key t.capacity 0

end BasicTable

/-! ## Tables of any capacity: well-formedness and reachability -/

namespace BasicTable

variable {K V : Type} [LinearOrder K] [Inhabited K] [Inhabited V]

/-- Well-formedness of a table of any capacity (a power of two or not), with hash function
`H`: the array has `capacity` entries, `size` counts the occupied entries, every occupied
entry caches the hash of its key, no key occupies two slots, and every occupied entry is
reached by the probes of its hash without crossing a `Free` slot. -/
structure WellFormed (w : Nat) (H : K → Nat) (t : BasicTable K V) : Prop where
  len : t.entries.length = t.capacity
  bound : t.capacity < 2 ^ 32
  size_eq : t.size = occupiedCount t.entries
  hash_eq : ∀ i, i < t.capacity → (entryAt w t i).state = EntryState.Occupied →
    (entryAt w t i).hash = H (entryAt w t i).key
  uniq : ∀ k i j, Live w t k i → Live w t k j → i = j
  chain : ∀ i, i < t.capacity → (entryAt w t i).state = EntryState.Occupied →
    ∃ o, o < t.capacity ∧ probe w t (entryAt w t i).hash o = i ∧
      ∀ o', o' < o →
        (entryAt w t (probe w t (entryAt w t i).hash o')).state ≠ EntryState.Free

/-- The tables a program can hold: built by the default constructor or the capacity
constructor (any capacity of type `Size`), changed by `set`, `unset` and `clear`, resized by
`enlarge` and `shrink` (any request of type `Size`), copied, moved and assigned.  A call
whose behaviour is undefined reaches no table. -/
inductive ReachableTable (w : Nat) (H : K → Nat) : BasicTable K V → Prop
  | empty : ReachableTable w H empty
  | init (capacity : Nat) : capacity < 2 ^ 32 → ReachableTable w H (init w capacity)
  | set {t : BasicTable K V} (key : K) :
    ReachableTable w H t → ReachableTable w H (set w H t key).1
  | unset {t : BasicTable K V} (key : K) :
    ReachableTable w H t → ReachableTable w H (unset w H t key).1
  | clear {t : BasicTable K V} : ReachableTable w H t → ReachableTable w H (clear t)
  | enlarge {t t' : BasicTable K V} (capacity : Nat) : capacity < 2 ^ 32 →
    ReachableTable w H t → enlarge w t capacity = some t' → ReachableTable w H t'
  | shrink {t t' : BasicTable K V} (capacity : Nat) : capacity < 2 ^ 32 →
    ReachableTable w H t → shrink w t capacity = some t' → ReachableTable w H t'
  | copy {t t' : BasicTable K V} :
    ReachableTable w H t → copy w t = some t' → ReachableTable w H t'
  | moved {t : BasicTable K V} : ReachableTable w H t → ReachableTable w H (move t).1
  | movedFrom {t : BasicTable K V} : ReachableTable w H t → ReachableTable w H (move t).2
  | assign {self other : BasicTable K V} :
    ReachableTable w H self → ReachableTable w H other →
    ReachableTable w H (assign self other)

end BasicTable

namespace BasicTable

variable {K V : Type} [LinearOrder K] [Inhabited K] [Inhabited V]

/-- The size field is the number of slots whose state is `Occupied`, and it does not exceed
the capacity. -/
def SizeCounts (w : Nat) (t : BasicTable K V) : Prop :=
  t.size = (occupiedSlots w t).length ∧ t.size ≤ t.capacity

/-- No two occupied slots hold keys that compare equal. -/
def UniqueKeys (w : Nat) (t : BasicTable K V) : Prop :=
  ∀ i j, i < t.capacity → j < t.capacity →
    (entryAt w t i).state = EntryState.Occupied →
    (entryAt w t j).state = EntryState.Occupied →
    Compare (entryAt w t i).key (entryAt w t j).key = 0 → i = j

/-- Every occupied slot `i` stores the hash `H(k)` of its key `k`, and none of the slots
probed from the hash `H(k)` before the probe that reaches `i` is `Free`. -/
def ChainIntact (w : Nat) (H : K → Nat) (t : BasicTable K V) : Prop :=
  ∀ i, i < t.capacity → (entryAt w t i).state = EntryState.Occupied →
    (entryAt w t i).hash = H (entryAt w t i).key ∧
    ∃ o, o < t.capacity ∧ probe w t (H (entryAt w t i).key) o = i ∧
      ∀ o', o' < o →
        (entryAt w t (probe w t (H (entryAt w t i).key) o')).state ≠ EntryState.Free

end BasicTable

/-- A table of capacity 4 with a tombstone, as `BasicTable(4)` followed by `set(15)`,
`set(23)` and `unset(15)` with identity hash leaves it: the key 23 in slot 0 lies behind the
tombstone of slot 3. -/
def tombstoneTable : BasicTable Nat Nat :=
  { capacity := 4
    entries :=
      [{ hash := 23, state := EntryState.Occupied, key := 23, value := 0 },
       HashEntry.empty 64,
       HashEntry.empty 64,
       { hash := 15, state := EntryState.Deleted, key := 15, value := 0 }]
    size := 1 }

namespace BasicTable

variable {K V : Type} [LinearOrder K] [Inhabited K] [Inhabited V]

/-- The loop of `resize` (which is also the loop of the copy constructor) with its calls of
`load` recorded, for the entries `rest` of the old array that start at `offset`: each record
holds the offset of the occupied entry read in the old array, and the result of `load` on the
fresh table (`none` for `-1`) with the state of the slot it designates at that moment.  The
second component is the outcome of the loop, as `resizeLoop` gives it. -/
def resizeScan (w : Nat) (size : Nat) :
    List (HashEntry K V) → Nat → BasicTable K V →
      List (Nat × Option (Nat × EntryState)) × Option (BasicTable K V)
  | [], _, table => ([], if table.size < size then none else some table)
  | entry :: rest, offset, table =>
    if table.size < size then
      if entry.state = EntryState.Occupied then
        match load w table entry.hash entry.key with
        | none => ([(offset, none)], none)
        | some index =>
          let next := resizeScan w size rest (offset + 1)
            { table with
              entries := table.entries.set index entry
              size := (table.size + 1) % 2 ^ 32 }
          ((offset, some (index, (entryAt w table index).state)) :: next.1, next.2)
      else resizeScan w size rest (offset + 1) table
    else ([], some table)

/-- Offsets of the occupied entries of `rest`, the entries of an array that start at
`offset`, in ascending order. -/
def occupiedOffsets : List (HashEntry K V) → Nat → List Nat
  | [], _ => []
  | entry :: rest, offset =>
    if entry.state = EntryState.Occupied then offset :: occupiedOffsets rest (offset + 1)
    else occupiedOffsets rest (offset + 1)

end BasicTable

end SPL

/-! # Theorems -/

namespace SPL

/-! ## Probing: what `load` returns -/

theorem Compare_eq_zero_iff {K : Type} [LinearOrder K] (a b : K) : Compare a b = 0 ↔ a = b := by
  unfold Compare
  rcases lt_trichotomy a b with h | h | h
  · simp [h, h.ne]
  · simp [h]
  · simp [h, h.ne', not_lt_of_gt h]

namespace BasicTable

variable {K V : Type} [LinearOrder K] [Inhabited K] [Inhabited V]

theorem probe_lt (w : Nat) (t : BasicTable K V) (h o : Nat) (hc : 0 < t.capacity) :
    probe w t h o < t.capacity := Nat.mod_lt _ hc

theorem loadLoop_result (w : Nat) (t : BasicTable K V) (h : Nat) (k : K)
    (hc : 0 < t.capacity) :
    ∀ (fuel o : Nat) (pref r : Option Nat), loadLoop w t h k fuel o pref = r →
      r = pref ∨ ∃ i, r = some i ∧ i < t.capacity ∧
        (Live w t k i ∨ (entryAt w t i).state ≠ EntryState.Occupied) := by
  intro fuel
  induction fuel with
  | zero => intro o pref r hr; left; simpa [loadLoop] using hr.symm
  | succ n ih =>
    intro o pref r hr
    simp only [loadLoop] at hr
    by_cases hocc : (entryAt w t (probe w t h o)).state = EntryState.Occupied
    · rw [if_pos hocc] at hr
      by_cases hk : Compare (entryAt w t (probe w t h o)).key k = 0
      · rw [if_pos hk] at hr
        right
        exact ⟨_, hr.symm, probe_lt w t h o hc,
          Or.inl ⟨probe_lt w t h o hc, hocc, (Compare_eq_zero_iff _ _).1 hk⟩⟩
      · rw [if_neg hk] at hr
        exact ih _ _ _ hr
    · rw [if_neg hocc] at hr
      have hpref : ∀ r', r' = (if pref = none then some (probe w t h o) else pref) →
          r' = pref ∨ ∃ i, r' = some i ∧ i < t.capacity ∧
            (Live w t k i ∨ (entryAt w t i).state ≠ EntryState.Occupied) := by
        intro r' hr'
        cases pref with
        | none =>
          right
          exact ⟨_, by simpa using hr', probe_lt w t h o hc, Or.inr hocc⟩
        | some p => left; simpa using hr'
      by_cases hfree : (entryAt w t (probe w t h o)).state = EntryState.Free
      · rw [if_pos hfree] at hr
        exact hpref r hr.symm
      · rw [if_neg hfree] at hr
        rcases ih _ _ _ hr with h1 | h1
        · exact hpref r h1
        · exact Or.inr h1

theorem loadLoop_found (w : Nat) (t : BasicTable K V) (h : Nat) (k : K) :
    ∀ (fuel o : Nat) (pref : Option Nat) (os : Nat), o ≤ os → os < o + fuel →
      Live w t k (probe w t h os) →
      (∀ o', o ≤ o' → o' < os →
        (entryAt w t (probe w t h o')).state ≠ EntryState.Free) →
      ∃ i, loadLoop w t h k fuel o pref = some i ∧ Live w t k i := by
  intro fuel
  induction fuel with
  | zero => intro o pref os h1 h2; omega
  | succ n ih =>
    intro o pref os h1 h2 hlive hchain
    have hc : 0 < t.capacity := Nat.lt_of_le_of_lt (Nat.zero_le _) hlive.1
    simp only [loadLoop]
    by_cases hocc : (entryAt w t (probe w t h o)).state = EntryState.Occupied
    · rw [if_pos hocc]
      by_cases hk : Compare (entryAt w t (probe w t h o)).key k = 0
      · rw [if_pos hk]
        exact ⟨_, rfl, probe_lt w t h o hc, hocc, (Compare_eq_zero_iff _ _).1 hk⟩
      · rw [if_neg hk]
        have hne : o ≠ os := by
          rintro rfl
          exact hk ((Compare_eq_zero_iff _ _).2 hlive.2.2)
        exact ih (o + 1) pref os (by omega) (by omega) hlive
          (fun o' ho' ho'' => hchain o' (by omega) ho'')
    · rw [if_neg hocc]
      have hne : o ≠ os := by
        rintro rfl
        exact hocc hlive.2.1
      have hfree : (entryAt w t (probe w t h o)).state ≠ EntryState.Free :=
        hchain o (Nat.le_refl _) (by omega)
      rw [if_neg hfree]
      exact ih (o + 1) _ os (by omega) (by omega) hlive
        (fun o' ho' ho'' => hchain o' (by omega) ho'')

theorem loadLoop_absent_some (w : Nat) (t : BasicTable K V) (h : Nat) (k : K)
    (hc : 0 < t.capacity) (habs : ∀ i, ¬ Live w t k i) :
    ∀ (fuel o p : Nat), loadLoop w t h k fuel o (some p) = some p := by
  intro fuel
  induction fuel with
  | zero => intro o p; rfl
  | succ n ih =>
    intro o p
    simp only [loadLoop]
    by_cases hocc : (entryAt w t (probe w t h o)).state = EntryState.Occupied
    · rw [if_pos hocc]
      by_cases hk : Compare (entryAt w t (probe w t h o)).key k = 0
      · exact absurd ⟨probe_lt w t h o hc, hocc, (Compare_eq_zero_iff _ _).1 hk⟩ (habs _)
      · rw [if_neg hk]; exact ih _ _
    · rw [if_neg hocc]
      by_cases hfree : (entryAt w t (probe w t h o)).state = EntryState.Free
      · rw [if_pos hfree]; simp
      · rw [if_neg hfree]; simpa using ih (o + 1) p

theorem loadLoop_absent_none (w : Nat) (t : BasicTable K V) (h : Nat) (k : K)
    (hc : 0 < t.capacity) (habs : ∀ i, ¬ Live w t k i) :
    ∀ (fuel o j : Nat), loadLoop w t h k fuel o none = some j →
      ∃ os, o ≤ os ∧ os < o + fuel ∧ j = probe w t h os ∧
        (entryAt w t j).state ≠ EntryState.Occupied ∧
        ∀ o', o ≤ o' → o' < os →
          (entryAt w t (probe w t h o')).state = EntryState.Occupied := by
  intro fuel
  induction fuel with
  | zero => intro o j hj; simp [loadLoop] at hj
  | succ n ih =>
    intro o j hj
    simp only [loadLoop] at hj
    by_cases hocc : (entryAt w t (probe w t h o)).state = EntryState.Occupied
    · rw [if_pos hocc] at hj
      by_cases hk : Compare (entryAt w t (probe w t h o)).key k = 0
      · exact absurd ⟨probe_lt w t h o hc, hocc, (Compare_eq_zero_iff _ _).1 hk⟩ (habs _)
      · rw [if_neg hk] at hj
        obtain ⟨os, h1, h2, h3, h4, h5⟩ := ih _ _ hj
        refine ⟨os, by omega, by omega, h3, h4, ?_⟩
        intro o' ho' ho''
        by_cases e : o' = o
        · rw [e]; exact hocc
        · exact h5 o' (by omega) ho''
    · rw [if_neg hocc] at hj
      have hj' : j = probe w t h o := by
        by_cases hfree : (entryAt w t (probe w t h o)).state = EntryState.Free
        · rw [if_pos hfree] at hj; simpa using hj.symm
        · rw [if_neg hfree] at hj
          simp only [if_true] at hj
          rw [loadLoop_absent_some w t h k hc habs] at hj
          simpa using hj.symm
      refine ⟨o, Nat.le_refl _, by omega, hj', by rw [hj']; exact hocc, ?_⟩
      intro o' ho' ho''; omega

theorem loadLoop_absent_exists (w : Nat) (t : BasicTable K V) (h : Nat) (k : K)
    (hc : 0 < t.capacity) (habs : ∀ i, ¬ Live w t k i) :
    ∀ (fuel o os : Nat), o ≤ os → os < o + fuel →
      (entryAt w t (probe w t h os)).state ≠ EntryState.Occupied →
      ∃ j, loadLoop w t h k fuel o none = some j := by
  intro fuel
  induction fuel with
  | zero => intro o os h1 h2; omega
  | succ n ih =>
    intro o os h1 h2 hv
    simp only [loadLoop]
    by_cases hocc : (entryAt w t (probe w t h o)).state = EntryState.Occupied
    · rw [if_pos hocc]
      by_cases hk : Compare (entryAt w t (probe w t h o)).key k = 0
      · exact absurd ⟨probe_lt w t h o hc, hocc, (Compare_eq_zero_iff _ _).1 hk⟩ (habs _)
      · rw [if_neg hk]
        have hne : o ≠ os := by rintro rfl; exact hv hocc
        exact ih _ os (by omega) (by omega) hv
    · rw [if_neg hocc]
      by_cases hfree : (entryAt w t (probe w t h o)).state = EntryState.Free
      · rw [if_pos hfree]; exact ⟨probe w t h o, by simp⟩
      · rw [if_neg hfree]
        simp only [if_true]
        exact ⟨_, loadLoop_absent_some w t h k hc habs _ _ _⟩

/-- When every slot probed is occupied by another key, `load` finds no index. -/
theorem loadLoop_full (w : Nat) (t : BasicTable K V) (h : Nat) (k : K) :
    ∀ (fuel o : Nat),
      (∀ o', o ≤ o' → o' < o + fuel →
        (entryAt w t (probe w t h o')).state = EntryState.Occupied ∧
        (entryAt w t (probe w t h o')).key ≠ k) →
      loadLoop w t h k fuel o none = none := by
  intro fuel
  induction fuel with
  | zero => intro o _; rfl
  | succ n ih =>
    intro o hall
    simp only [loadLoop]
    obtain ⟨h1, h2⟩ := hall o (Nat.le_refl _) (by omega)
    rw [if_pos h1, if_neg (fun e => h2 ((Compare_eq_zero_iff _ _).1 e))]
    exact ih _ (fun o' ho' ho'' => hall o' (by omega) (by omega))

theorem probe_eq_mod (w : Nat) (t : BasicTable K V) (h o : Nat) (hd : t.capacity ∣ 2 ^ w) :
    probe w t h o = (h + o) % t.capacity := by
  unfold probe
  exact Nat.mod_mod_of_dvd _ hd

theorem probe_surj (w : Nat) (t : BasicTable K V) (h : Nat) (hc : 0 < t.capacity)
    (hd : t.capacity ∣ 2 ^ w) (j : Nat) (hj : j < t.capacity) :
    ∃ o, o < t.capacity ∧ probe w t h o = j := by
  have ha : h % t.capacity < t.capacity := Nat.mod_lt _ hc
  by_cases hle : h % t.capacity ≤ j
  · refine ⟨j - h % t.capacity, by omega, ?_⟩
    rw [probe_eq_mod w t h _ hd, Nat.add_mod, Nat.mod_eq_of_lt (a := j - h % t.capacity) (by omega)]
    have : h % t.capacity + (j - h % t.capacity) = j := by omega
    rw [this, Nat.mod_eq_of_lt hj]
  · refine ⟨j + t.capacity - h % t.capacity, by omega, ?_⟩
    rw [probe_eq_mod w t h _ hd, Nat.add_mod,
      Nat.mod_eq_of_lt (a := j + t.capacity - h % t.capacity) (by omega)]
    have : h % t.capacity + (j + t.capacity - h % t.capacity) = j + t.capacity := by omega
    rw [this, Nat.add_mod_right, Nat.mod_eq_of_lt hj]

theorem entryAt_withEntry_self (w : Nat) (t : BasicTable K V) (j : Nat) (e : HashEntry K V)
    (s : Nat) (hj : j < t.entries.length) : entryAt w (withEntry t j e s) j = e := by
  simp [entryAt, withEntry, hj]

theorem entryAt_withEntry_ne (w : Nat) (t : BasicTable K V) (j : Nat) (e : HashEntry K V)
    (s : Nat) (i : Nat) (hij : i ≠ j) : entryAt w (withEntry t j e s) i = entryAt w t i := by
  simp [entryAt, withEntry, List.getElem?_set, Ne.symm hij]

theorem Live_withEntry (w : Nat) (t : BasicTable K V) (j : Nat) (e : HashEntry K V)
    (s : Nat) (hj : j < t.entries.length) (hl : t.entries.length = t.capacity) (k : K) (i : Nat) :
    Live w (withEntry t j e s) k i ↔
      (i = j ∧ e.state = EntryState.Occupied ∧ e.key = k) ∨ (i ≠ j ∧ Live w t k i) := by
  by_cases hij : i = j
  · subst hij
    unfold Live
    rw [entryAt_withEntry_self w t i e s hj]
    have : (withEntry t i e s).capacity = t.capacity := rfl
    rw [this]
    constructor
    · rintro ⟨_, h2, h3⟩; exact Or.inl ⟨rfl, h2, h3⟩
    · rintro (⟨_, h2, h3⟩ | ⟨h1, _⟩)
      · exact ⟨by omega, h2, h3⟩
      · exact absurd rfl h1
  · unfold Live
    rw [entryAt_withEntry_ne w t j e s i hij]
    have : (withEntry t j e s).capacity = t.capacity := rfl
    rw [this]
    constructor
    · intro h; exact Or.inr ⟨hij, h⟩
    · rintro (⟨h1, _⟩ | ⟨_, h⟩)
      · exact absurd h1 hij
      · exact h

theorem Inv.withEntry {w : Nat} {H : K → Nat} {t : BasicTable K V} (hinv : Inv w H t)
    (j : Nat) (hj : j < t.capacity) (e : HashEntry K V) (s : Nat)
    (hnf : e.state ≠ EntryState.Free)
    (hs : s = occupiedCount (t.entries.set j e))
    (hocc : e.state = EntryState.Occupied →
      e.hash = H e.key ∧ (∀ i, i ≠ j → ¬ Live w t e.key i) ∧
      ∃ o, o < t.capacity ∧ probe w t e.hash o = j ∧
        ∀ o', o' < o → probe w t e.hash o' ≠ j →
          (entryAt w t (probe w t e.hash o')).state ≠ EntryState.Free) :
    Inv w H (withEntry t j e s) := by
  have hjl : j < t.entries.length := by rw [hinv.len]; exact hj
  have hstate : ∀ i, (entryAt w t i).state ≠ EntryState.Free →
      (entryAt w (BasicTable.withEntry t j e s) i).state ≠ EntryState.Free := by
    intro i hi
    by_cases hij : i = j
    · rw [hij, entryAt_withEntry_self w t j e s hjl]; exact hnf
    · rw [entryAt_withEntry_ne w t j e s i hij]; exact hi
  refine ⟨?_, hinv.dvd, hinv.bound, hs, ?_, ?_, ?_⟩
  · simp [BasicTable.withEntry, hinv.len]
  · intro i hi hst
    by_cases hij : i = j
    · rw [hij, entryAt_withEntry_self w t j e s hjl] at hst ⊢
      exact (hocc hst).1
    · rw [entryAt_withEntry_ne w t j e s i hij] at hst ⊢
      exact hinv.hash_eq i hi hst
  · intro k a b ha hb
    rw [Live_withEntry w t j e s hjl hinv.len] at ha hb
    rcases ha with ⟨ha1, ha2, ha3⟩ | ⟨ha1, ha2⟩ <;>
      rcases hb with ⟨hb1, hb2, hb3⟩ | ⟨hb1, hb2⟩
    · rw [ha1, hb1]
    · exact absurd (ha3 ▸ hb2) ((hocc ha2).2.1 b hb1)
    · exact absurd (hb3 ▸ ha2) ((hocc hb2).2.1 a ha1)
    · exact hinv.uniq k a b ha2 hb2
  · intro i hi hst
    by_cases hij : i = j
    · rw [hij, entryAt_withEntry_self w t j e s hjl] at hst ⊢
      obtain ⟨_, _, o, ho, hp, hch⟩ := hocc hst
      refine ⟨o, ho, hp, ?_⟩
      intro o' ho'
      by_cases hpj : probe w t e.hash o' = j
      · have : probe w (BasicTable.withEntry t j e s) e.hash o' = j := hpj
        rw [this, entryAt_withEntry_self w t j e s hjl]; exact hnf
      · exact hstate _ (hch o' ho' hpj)
    · rw [entryAt_withEntry_ne w t j e s i hij] at hst ⊢
      obtain ⟨o, ho, hp, hch⟩ := hinv.chain i hi hst
      exact ⟨o, ho, hp, fun o' ho' => hstate _ (hch o' ho')⟩

theorem entryAt_eq_getElem (w : Nat) (t : BasicTable K V) (i : Nat) (hi : i < t.entries.length) :
    entryAt w t i = t.entries[i] := by
  simp [entryAt, hi]

theorem occupiedCount_le (l : List (HashEntry K V)) : occupiedCount l ≤ l.length :=
  List.countP_le_length _

theorem occupiedCount_set (l : List (HashEntry K V)) (j : Nat) (e : HashEntry K V)
    (hj : j < l.length) :
    occupiedCount (l.set j e) =
      occupiedCount l - (if l[j].state = EntryState.Occupied then 1 else 0) +
        (if e.state = EntryState.Occupied then 1 else 0) := by
  unfold occupiedCount
  rw [List.countP_set _ _ _ _ hj]
  simp

theorem occupiedCount_pos_of_getElem (l : List (HashEntry K V)) (j : Nat) (hj : j < l.length)
    (h : l[j].state = EntryState.Occupied) : 0 < occupiedCount l := by
  unfold occupiedCount
  rw [List.countP_pos_iff]
  exact ⟨l[j], List.getElem_mem _, by simpa using h⟩

theorem exists_vacant_of_lt (l : List (HashEntry K V)) (h : occupiedCount l < l.length) :
    ∃ j, ∃ hj : j < l.length, l[j].state ≠ EntryState.Occupied := by
  by_contra hcon
  push_neg at hcon
  have : occupiedCount l = l.length := by
    unfold occupiedCount
    rw [List.countP_eq_length]
    intro a ha
    obtain ⟨j, hj, rfl⟩ := List.getElem_of_mem ha
    simpa using hcon j hj
  omega

theorem load_of_live {w : Nat} {H : K → Nat} {t : BasicTable K V} (hinv : Inv w H t)
    (k : K) (i : Nat) (hl : Live w t k i) : load w t (H k) k = some i := by
  obtain ⟨o, ho, hp, hch⟩ := hinv.chain i hl.1 hl.2.1
  have hh : (entryAt w t i).hash = H k := by
    rw [hinv.hash_eq i hl.1 hl.2.1, hl.2.2]
  rw [hh] at hp hch
  obtain ⟨i', h1, h2⟩ := loadLoop_found w t (H k) k t.capacity 0 none o (Nat.zero_le _)
    (by omega) (by rw [hp]; exact hl) (fun o' _ ho' => hch o' ho')
  unfold load
  rw [h1, hinv.uniq k i' i h2 hl]

theorem load_of_absent {w : Nat} {H : K → Nat} {t : BasicTable K V} (hinv : Inv w H t)
    (k : K) (habs : ∀ i, ¬ Live w t k i) (h : Nat) (j : Nat) (hj : load w t h k = some j) :
    j < t.capacity ∧ (entryAt w t j).state ≠ EntryState.Occupied ∧
      ∃ os, os < t.capacity ∧ probe w t h os = j ∧
        ∀ o', o' < os → (entryAt w t (probe w t h o')).state = EntryState.Occupied := by
  have hc : 0 < t.capacity := by
    rcases Nat.eq_zero_or_pos t.capacity with h0 | h0
    · unfold load at hj; rw [h0] at hj; simp [loadLoop] at hj
    · exact h0
  obtain ⟨os, _, h2, h3, h4, h5⟩ := loadLoop_absent_none w t h k hc habs t.capacity 0 j hj
  refine ⟨?_, h4, os, by omega, h3.symm, fun o' ho' => h5 o' (Nat.zero_le _) ho'⟩
  rw [h3]; exact probe_lt w t h os hc

theorem load_exists_of_absent {w : Nat} {H : K → Nat} {t : BasicTable K V} (hinv : Inv w H t)
    (k : K) (habs : ∀ i, ¬ Live w t k i) (h : Nat) (hsz : t.size < t.capacity) :
    ∃ j, load w t h k = some j := by
  have hc : 0 < t.capacity := by omega
  have hd : t.capacity ∣ 2 ^ w := by
    rcases hinv.dvd with h0 | h0
    · omega
    · exact h0
  obtain ⟨j, hj, hv⟩ := exists_vacant_of_lt t.entries
    (by rw [← hinv.size_eq, hinv.len]; exact hsz)
  obtain ⟨os, hos, hp⟩ := probe_surj w t h hc hd j (by rw [← hinv.len]; exact hj)
  exact loadLoop_absent_exists w t h k hc habs t.capacity 0 os (Nat.zero_le _) (by omega)
    (by rw [hp, entryAt_eq_getElem w t j hj]; exact hv)

theorem get_eq_some_iff {w : Nat} {H : K → Nat} {t : BasicTable K V} (hinv : Inv w H t)
    (k : K) (i : Nat) : get w H t k = some i ↔ Live w t k i := by
  constructor
  · intro hg
    unfold get at hg
    cases hload : load w t (H k) k with
    | none => rw [hload] at hg; simp at hg
    | some j =>
      rw [hload] at hg
      simp only at hg
      by_cases hocc : (entryAt w t j).state = EntryState.Occupied
      · rw [if_pos hocc] at hg
        have hij : j = i := by simpa using hg
        subst hij
        have hc : 0 < t.capacity := by
          rcases Nat.eq_zero_or_pos t.capacity with h0 | h0
          · unfold load at hload; rw [h0] at hload; simp [loadLoop] at hload
          · exact h0
        rcases loadLoop_result w t (H k) k hc t.capacity 0 none (some j) hload with h1 | h1
        · simp at h1
        · obtain ⟨i', h2, _, h4⟩ := h1
          have : j = i' := by simpa using h2
          subst this
          rcases h4 with h4 | h4
          · exact h4
          · exact absurd hocc h4
      · rw [if_neg hocc] at hg; simp at hg
  · intro hl
    unfold get
    rw [load_of_live hinv k i hl]
    simp [hl.2.1]

theorem get_eq_none_iff {w : Nat} {H : K → Nat} {t : BasicTable K V} (hinv : Inv w H t)
    (k : K) : get w H t k = none ↔ ∀ i, ¬ Live w t k i := by
  constructor
  · intro hg i hl
    rw [(get_eq_some_iff hinv k i).2 hl] at hg
    simp at hg
  · intro habs
    cases hg : get w H t k with
    | none => rfl
    | some i => exact absurd ((get_eq_some_iff hinv k i).1 hg) (habs i)

theorem set_of_live {w : Nat} {H : K → Nat} {t : BasicTable K V} (hinv : Inv w H t)
    (k : K) (i : Nat) (hl : Live w t k i) : set w H t k = (t, some i) := by
  unfold set
  simp only
  rw [load_of_live hinv k i hl]
  simp [hl.2.1]

theorem set_of_absent_load {w : Nat} {H : K → Nat} {t : BasicTable K V} (hinv : Inv w H t)
    (k : K) (habs : ∀ i, ¬ Live w t k i) (j : Nat) (hj : load w t (H k) k = some j) :
    j < t.capacity ∧ (entryAt w t j).state ≠ EntryState.Occupied ∧
      set w H t k = (withEntry t j (claimed w H t j k) (t.size + 1), some j) ∧
      Inv w H (withEntry t j (claimed w H t j k) (t.size + 1)) := by
  obtain ⟨hjc, hv, os, hos, hp, hch⟩ := load_of_absent hinv k habs (H k) j hj
  have hjl : j < t.entries.length := by rw [hinv.len]; exact hjc
  have hcount : occupiedCount (t.entries.set j (claimed w H t j k)) = t.size + 1 := by
    rw [occupiedCount_set _ _ _ hjl, ← hinv.size_eq]
    rw [entryAt_eq_getElem w t j hjl] at hv
    simp [hv, claimed]
  have hlt : t.size + 1 < 2 ^ 32 := by
    have h1 := occupiedCount_le (t.entries.set j (claimed w H t j k))
    rw [hcount, List.length_set, hinv.len] at h1
    have := hinv.bound
    omega
  refine ⟨hjc, hv, ?_, ?_⟩
  · unfold set
    simp only
    rw [hj]
    simp only [ne_eq, hv, not_false_eq_true, if_true]
    rw [Nat.mod_eq_of_lt hlt]
    rfl
  · refine hinv.withEntry j hjc _ _ (by simp [claimed]) hcount.symm ?_
    intro _
    refine ⟨rfl, fun i _ => habs i, os, hos, hp, ?_⟩
    intro o' ho' _
    have h1 : (entryAt w t (probe w t (H k) o')).state = EntryState.Occupied := hch o' ho'
    show (entryAt w t (probe w t (H k) o')).state ≠ EntryState.Free
    rw [h1]
    simp

/-- The three outcomes of `set(key)`: the key is found; or it is created in a slot that was
not occupied; or the table is full of other keys and the result is null. -/
theorem set_cases {w : Nat} {H : K → Nat} {t : BasicTable K V} (hinv : Inv w H t) (k : K) :
    (∃ i, Live w t k i ∧ set w H t k = (t, some i)) ∨
    ((∀ i, ¬ Live w t k i) ∧ ∃ j, j < t.capacity ∧
      (entryAt w t j).state ≠ EntryState.Occupied ∧
      set w H t k = (withEntry t j (claimed w H t j k) (t.size + 1), some j) ∧
      Inv w H (withEntry t j (claimed w H t j k) (t.size + 1))) ∨
    ((∀ i, ¬ Live w t k i) ∧ t.size = t.capacity ∧ set w H t k = (t, none)) := by
  by_cases hex : ∃ i, Live w t k i
  · obtain ⟨i, hi⟩ := hex
    exact Or.inl ⟨i, hi, set_of_live hinv k i hi⟩
  · have habs : ∀ i, ¬ Live w t k i := fun i hi => hex ⟨i, hi⟩
    cases hload : load w t (H k) k with
    | some j =>
      exact Or.inr (Or.inl ⟨habs, j, set_of_absent_load hinv k habs j hload⟩)
    | none =>
      refine Or.inr (Or.inr ⟨habs, ?_, ?_⟩)
      · by_contra hne
        have hle : t.size ≤ t.capacity := by
          rw [hinv.size_eq, ← hinv.len]; exact occupiedCount_le _
        obtain ⟨j, hj⟩ := load_exists_of_absent hinv k habs (H k) (by omega)
        rw [hload] at hj
        simp at hj
      · unfold set
        simp only
        rw [hload]

theorem unset_of_absent {w : Nat} {H : K → Nat} {t : BasicTable K V} (hinv : Inv w H t)
    (k : K) (habs : ∀ i, ¬ Live w t k i) : unset w H t k = (t, none) := by
  unfold unset
  rw [(get_eq_none_iff hinv k).2 habs]

theorem unset_of_live {w : Nat} {H : K → Nat} {t : BasicTable K V} (hinv : Inv w H t)
    (k : K) (i : Nat) (hl : Live w t k i) :
    unset w H t k = (withEntry t i (tombstone w t i) (t.size - 1), some i) ∧
      Inv w H (withEntry t i (tombstone w t i) (t.size - 1)) ∧ 0 < t.size := by
  have hil : i < t.entries.length := by rw [hinv.len]; exact hl.1
  have hocc : t.entries[i].state = EntryState.Occupied := by
    rw [← entryAt_eq_getElem w t i hil]; exact hl.2.1
  have hpos : 0 < t.size := by
    rw [hinv.size_eq]; exact occupiedCount_pos_of_getElem _ i hil hocc
  have hcount : occupiedCount (t.entries.set i (tombstone w t i)) = t.size - 1 := by
    rw [occupiedCount_set _ _ _ hil, ← hinv.size_eq]
    simp [hocc, tombstone]
  have hlt : t.size < 2 ^ 32 := by
    have h1 := occupiedCount_le t.entries
    rw [← hinv.size_eq, hinv.len] at h1
    have := hinv.bound
    omega
  refine ⟨?_, ?_, hpos⟩
  · unfold unset
    rw [(get_eq_some_iff hinv k i).2 hl]
    simp only
    have : (t.size + 2 ^ 32 - 1) % 2 ^ 32 = t.size - 1 := by omega
    rw [this]
    rfl
  · refine hinv.withEntry i hl.1 _ _ (by simp [tombstone]) hcount.symm ?_
    intro h
    simp [tombstone] at h

theorem Inv.of_all_free {w : Nat} {H : K → Nat} {t : BasicTable K V}
    (hlen : t.entries.length = t.capacity) (hd : t.capacity = 0 ∨ t.capacity ∣ 2 ^ w)
    (hb : t.capacity < 2 ^ 32) (hs : t.size = 0)
    (hfree : ∀ i, (entryAt w t i).state = EntryState.Free) : Inv w H t := by
  refine ⟨hlen, hd, hb, ?_, ?_, ?_, ?_⟩
  · rw [hs]
    symm
    unfold occupiedCount
    rw [List.countP_eq_zero]
    intro a ha
    obtain ⟨j, hj, rfl⟩ := List.getElem_of_mem ha
    have := hfree j
    rw [entryAt_eq_getElem w t j hj] at this
    simp [this]
  · intro i _ h; rw [hfree i] at h; simp at h
  · intro k i j h; have := h.2.1; rw [hfree i] at this; simp at this
  · intro i _ h; rw [hfree i] at h; simp at h

theorem entryAt_clear_state (w : Nat) (t : BasicTable K V) (i : Nat) :
    (entryAt w (clear t) i).state = EntryState.Free := by
  unfold entryAt clear
  simp only [List.getD_eq_getElem?_getD, List.getElem?_map]
  cases t.entries[i]? <;> simp [HashEntry.empty]

theorem Inv.clear {w : Nat} {H : K → Nat} {t : BasicTable K V} (hinv : Inv w H t) :
    Inv w H (clear t) :=
  Inv.of_all_free (by simp [BasicTable.clear, hinv.len]) hinv.dvd hinv.bound rfl
    (entryAt_clear_state w t)

theorem not_live_clear (w : Nat) (t : BasicTable K V) (k : K) (i : Nat) :
    ¬ Live w (clear t) k i := by
  intro h
  have := h.2.1
  rw [entryAt_clear_state] at this
  simp at this

theorem entryAt_init_state (w c : Nat) (i : Nat) :
    (entryAt w (init w c : BasicTable K V) i).state = EntryState.Free := by
  unfold entryAt init
  simp only [List.getD_eq_getElem?_getD, List.getElem?_replicate]
  split <;> simp [HashEntry.empty]

theorem Inv.init {w : Nat} {H : K → Nat} (c : Nat) (hd : Math.Max c 4 ∣ 2 ^ w)
    (hb : Math.Max c 4 < 2 ^ 32) : Inv w H (init w c : BasicTable K V) :=
  Inv.of_all_free (by simp [BasicTable.init]) (Or.inr hd) hb rfl (entryAt_init_state w c)

theorem not_live_init (w c : Nat) (k : K) (i : Nat) :
    ¬ Live w (init w c : BasicTable K V) k i := by
  intro h
  have := h.2.1
  rw [entryAt_init_state] at this
  simp at this

theorem Inv.empty {w : Nat} {H : K → Nat} : Inv w H (empty : BasicTable K V) :=
  Inv.of_all_free rfl (Or.inl rfl) (by show 0 < 2 ^ 32; norm_num) rfl
    (by intro i; simp [entryAt, BasicTable.empty, HashEntry.empty])

theorem not_live_empty (w : Nat) (k : K) (i : Nat) :
    ¬ Live w (empty : BasicTable K V) k i := by
  intro h
  have := h.1
  simp [BasicTable.empty] at this

/-! ## Rehashing -/

theorem Holds_withEntry (w : Nat) (t : BasicTable K V) (j : Nat) (e : HashEntry K V)
    (s : Nat) (hj : j < t.entries.length) (hl : t.entries.length = t.capacity)
    (hv : (entryAt w t j).state ≠ EntryState.Occupied) (k : K) (v : V) :
    Holds w (withEntry t j e s) k v ↔
      (e.state = EntryState.Occupied ∧ e.key = k ∧ e.value = v) ∨ Holds w t k v := by
  unfold Holds
  constructor
  · rintro ⟨i, hi, hval⟩
    rw [Live_withEntry w t j e s hj hl] at hi
    rcases hi with ⟨h1, h2, h3⟩ | ⟨h1, h2⟩
    · rw [h1, entryAt_withEntry_self w t j e s hj] at hval
      exact Or.inl ⟨h2, h3, hval⟩
    · rw [entryAt_withEntry_ne w t j e s i h1] at hval
      exact Or.inr ⟨i, h2, hval⟩
  · rintro (⟨h1, h2, h3⟩ | ⟨i, hi, hval⟩)
    · refine ⟨j, (Live_withEntry w t j e s hj hl k j).2 (Or.inl ⟨rfl, h1, h2⟩), ?_⟩
      rw [entryAt_withEntry_self w t j e s hj]; exact h3
    · have hij : i ≠ j := by
        rintro rfl
        exact hv hi.2.1
      refine ⟨i, (Live_withEntry w t j e s hj hl k i).2 (Or.inr ⟨hij, hi⟩), ?_⟩
      rw [entryAt_withEntry_ne w t j e s i hij]; exact hval

theorem occupiedCount_cons (e : HashEntry K V) (l : List (HashEntry K V)) :
    occupiedCount (e :: l) =
      occupiedCount l + (if e.state = EntryState.Occupied then 1 else 0) := by
  unfold occupiedCount
  rw [List.countP_cons]
  simp

theorem resizeLoop_spec {w : Nat} {H : K → Nat} (size : Nat) :
    ∀ (rest : List (HashEntry K V)) (table : BasicTable K V),
      Inv w H table → table.size + occupiedCount rest = size → size ≤ table.capacity →
      (∀ e ∈ rest, e.state = EntryState.Occupied → e.hash = H e.key) →
      rest.Pairwise (fun a b =>
        a.state = EntryState.Occupied → b.state = EntryState.Occupied → a.key ≠ b.key) →
      (∀ e ∈ rest, e.state = EntryState.Occupied → ∀ i, ¬ Live w table e.key i) →
      ∃ t', resizeLoop w size rest table = some t' ∧ Inv w H t' ∧
        t'.capacity = table.capacity ∧ t'.size = size ∧
        ∀ k v, Holds w t' k v ↔
          (Holds w table k v ∨
            ∃ e ∈ rest, e.state = EntryState.Occupied ∧ e.key = k ∧ e.value = v) := by
  intro rest
  induction rest with
  | nil =>
    intro table hinv hsz _ _ _ _
    have : table.size = size := by simpa [occupiedCount] using hsz
    refine ⟨table, by simp [resizeLoop, this], hinv, rfl, this, ?_⟩
    intro k v; simp
  | cons e rest ih =>
    intro table hinv hsz hcap hhash hpw habs
    rw [occupiedCount_cons] at hsz
    by_cases hlt : table.size < size
    · by_cases hocc : e.state = EntryState.Occupied
      · rw [if_pos hocc] at hsz
        have habs_e := habs e (List.mem_cons_self _ _) hocc
        have hh := hhash e (List.mem_cons_self _ _) hocc
        obtain ⟨j, hj⟩ := load_exists_of_absent hinv e.key habs_e e.hash (by omega)
        obtain ⟨hjc, hv, os, hos, hp, hch⟩ := load_of_absent hinv e.key habs_e e.hash j hj
        have hjl : j < table.entries.length := by rw [hinv.len]; exact hjc
        have hcount : occupiedCount (table.entries.set j e) = table.size + 1 := by
          rw [occupiedCount_set _ _ _ hjl, ← hinv.size_eq]
          rw [entryAt_eq_getElem w table j hjl] at hv
          simp [hv, hocc]
        have hb := hinv.bound
        have hinv1 : Inv w H (withEntry table j e (table.size + 1)) := by
          refine hinv.withEntry j hjc e _ (by rw [hocc]; simp) hcount.symm ?_
          intro _
          refine ⟨hh, fun i _ => habs_e i, os, hos, hp, ?_⟩
          intro o' ho' _
          rw [hch o' ho']; simp
        rw [List.pairwise_cons] at hpw
        obtain ⟨t', h1, h2, h3, h4, h5⟩ := ih (withEntry table j e (table.size + 1)) hinv1
          (by show table.size + 1 + occupiedCount rest = size; omega) hcap
          (fun e' he' => hhash e' (List.mem_cons_of_mem _ he')) hpw.2
          (by
            intro e' he' hocc' i hi
            rw [Live_withEntry w table j e _ hjl hinv.len] at hi
            rcases hi with ⟨_, _, hk⟩ | ⟨_, hi⟩
            · exact hpw.1 e' he' hocc hocc' hk
            · exact habs e' (List.mem_cons_of_mem _ he') hocc' i hi)
        refine ⟨t', ?_, h2, h3, h4, ?_⟩
        · simp only [resizeLoop]
          rw [if_pos hlt, if_pos hocc, hj]
          simp only
          have : (table.size + 1) % 2 ^ 32 = table.size + 1 := Nat.mod_eq_of_lt (by omega)
          rw [this]
          exact h1
        · intro k v
          rw [h5 k v, Holds_withEntry w table j e _ hjl hinv.len hv]
          constructor
          · rintro ((⟨a, b, c⟩ | h) | ⟨e', he', hx⟩)
            · exact Or.inr ⟨e, List.mem_cons_self _ _, a, b, c⟩
            · exact Or.inl h
            · exact Or.inr ⟨e', List.mem_cons_of_mem _ he', hx⟩
          · rintro (h | ⟨e', he', hx⟩)
            · exact Or.inl (Or.inr h)
            · rcases List.mem_cons.1 he' with rfl | he''
              · exact Or.inl (Or.inl hx)
              · exact Or.inr ⟨e', he'', hx⟩
      · rw [if_neg hocc] at hsz
        rw [List.pairwise_cons] at hpw
        obtain ⟨t', h1, h2, h3, h4, h5⟩ := ih table hinv (by omega) hcap
          (fun e' he' => hhash e' (List.mem_cons_of_mem _ he')) hpw.2
          (fun e' he' => habs e' (List.mem_cons_of_mem _ he'))
        refine ⟨t', ?_, h2, h3, h4, ?_⟩
        · simp only [resizeLoop]
          rw [if_pos hlt, if_neg hocc]
          exact h1
        · intro k v
          rw [h5 k v]
          constructor
          · rintro (h | ⟨e', he', hx⟩)
            · exact Or.inl h
            · exact Or.inr ⟨e', List.mem_cons_of_mem _ he', hx⟩
          · rintro (h | ⟨e', he', hx⟩)
            · exact Or.inl h
            · rcases List.mem_cons.1 he' with rfl | he''
              · exact absurd hx.1 hocc
              · exact Or.inr ⟨e', he'', hx⟩
    · have hzero : occupiedCount (e :: rest) = 0 := by
        rw [occupiedCount_cons]; omega
      have hnone : ∀ e' ∈ e :: rest, e'.state ≠ EntryState.Occupied := by
        unfold occupiedCount at hzero
        rw [List.countP_eq_zero] at hzero
        intro e' he'
        simpa using hzero e' he'
      refine ⟨table, ?_, hinv, rfl, by omega, ?_⟩
      · simp only [resizeLoop]
        rw [if_neg hlt]
      · intro k v
        constructor
        · intro h; exact Or.inl h
        · rintro (h | ⟨e', he', hx⟩)
          · exact h
          · exact absurd hx.1 (hnone e' he')

theorem Holds_iff_mem {w : Nat} {H : K → Nat} {t : BasicTable K V} (hinv : Inv w H t)
    (k : K) (v : V) :
    Holds w t k v ↔
      ∃ e ∈ t.entries, e.state = EntryState.Occupied ∧ e.key = k ∧ e.value = v := by
  constructor
  · rintro ⟨i, ⟨h1, h2, h3⟩, h4⟩
    have hil : i < t.entries.length := by rw [hinv.len]; exact h1
    rw [entryAt_eq_getElem w t i hil] at h2 h3 h4
    exact ⟨t.entries[i], List.getElem_mem _, h2, h3, h4⟩
  · rintro ⟨e, he, h2, h3, h4⟩
    obtain ⟨i, hi, rfl⟩ := List.getElem_of_mem he
    refine ⟨i, ⟨by rw [← hinv.len]; exact hi, ?_, ?_⟩, ?_⟩ <;>
      rw [entryAt_eq_getElem w t i hi] <;> assumption

theorem resize_spec {w : Nat} {H : K → Nat} {t : BasicTable K V} (hinv : Inv w H t)
    (c : Nat) (hd : Math.Max c 4 ∣ 2 ^ w) (hb : Math.Max c 4 < 2 ^ 32)
    (hs : t.size ≤ Math.Max c 4) :
    ∃ t', resize w t c = some t' ∧ Inv w H t' ∧ t'.capacity = Math.Max c 4 ∧
      t'.size = t.size ∧ ∀ k v, Holds w t' k v ↔ Holds w t k v := by
  have hget : ∀ i (hi : i < t.entries.length), t.entries[i] = entryAt w t i :=
    fun i hi => (entryAt_eq_getElem w t i hi).symm
  obtain ⟨t', h1, h2, h3, h4, h5⟩ := resizeLoop_spec (w := w) (H := H) t.size t.entries
    (init w c) (Inv.init c hd hb)
    (by show 0 + occupiedCount t.entries = t.size; rw [hinv.size_eq]; omega)
    hs
    (by
      intro e he hocc
      obtain ⟨i, hi, rfl⟩ := List.getElem_of_mem he
      rw [hget i hi] at hocc ⊢
      exact hinv.hash_eq i (by rw [← hinv.len]; exact hi) hocc)
    (by
      rw [List.pairwise_iff_getElem]
      intro i j hi hj hij ha hb hk
      rw [hget i hi] at ha hk
      rw [hget j hj] at hb hk
      have := hinv.uniq (entryAt w t j).key i j
        ⟨by rw [← hinv.len]; exact hi, ha, hk⟩ ⟨by rw [← hinv.len]; exact hj, hb, rfl⟩
      omega)
    (fun e _ _ i => not_live_init w c e.key i)
  refine ⟨t', h1, h2, h3, h4, ?_⟩
  intro k v
  rw [h5 k v, Holds_iff_mem hinv]
  constructor
  · rintro (⟨i, hi, _⟩ | h)
    · exact absurd hi (not_live_init w c k i)
    · exact h
  · intro h; exact Or.inr h

theorem copyLoop_eq_resizeLoop (w : Nat) (size : Nat) :
    ∀ (rest : List (HashEntry K V)) (self : BasicTable K V),
      copyLoop w size rest self = resizeLoop w size rest self := by
  intro rest
  induction rest with
  | nil => intro self; rfl
  | cons e rest ih =>
    intro self
    unfold copyLoop resizeLoop
    by_cases hlt : self.size < size
    · rw [if_pos hlt, if_pos hlt]
      by_cases hocc : e.state = EntryState.Occupied
      · rw [if_pos hocc, if_pos hocc]
        cases load w self e.hash e.key with
        | none => rfl
        | some index => exact ih _
      · rw [if_neg hocc, if_neg hocc]
        exact ih self
    · rw [if_neg hlt, if_neg hlt]

/-- The copy constructor rehashes the occupied entries into a fresh table of the same
capacity, as `resize` does. -/
theorem copy_eq_resize (w : Nat) (t : BasicTable K V) : copy w t = resize w t t.capacity :=
  copyLoop_eq_resizeLoop w t.size t.entries (init w t.capacity)

theorem Max_four_dvd {w c : Nat} (hw : 2 ≤ w) (hd : c = 0 ∨ c ∣ 2 ^ w) :
    Math.Max c 4 ∣ 2 ^ w := by
  have h4 : 4 ∣ 2 ^ w := by
    have : (2 : Nat) ^ 2 ∣ 2 ^ w := Nat.pow_dvd_pow 2 hw
    exact this
  unfold Math.Max
  split_ifs with h
  · rcases hd with h0 | h0
    · omega
    · exact h0
  · exact h4

/-- Everything the copy constructor does on a table that satisfies the invariant. -/
theorem copy_spec {w : Nat} {H : K → Nat} {t : BasicTable K V} (hw : 2 ≤ w)
    (hinv : Inv w H t) :
    ∃ t', copy w t = some t' ∧ Inv w H t' ∧ t'.capacity = Math.Max t.capacity 4 ∧
      t'.size = t.size ∧ ∀ k v, Holds w t' k v ↔ Holds w t k v := by
  rw [copy_eq_resize]
  have hsz : t.size ≤ t.capacity := by
    rw [hinv.size_eq, ← hinv.len]
    exact occupiedCount_le _
  have hb := hinv.bound
  apply resize_spec hinv t.capacity (Max_four_dvd hw hinv.dvd)
  · unfold Math.Max
    split_ifs <;> omega
  · unfold Math.Max
    split_ifs <;> omega

end BasicTable

/-! ## Facts on the single-precision load factor -/

theorem le_roundNearestEven (n d : Nat) : n / d ≤ roundNearestEven n d := by
  unfold roundNearestEven
  simp only
  split_ifs <;> omega

theorem two_pow_ulpShift_le (fuel : Nat) : ∀ i, i ≠ 0 → 2 ^ ulpShift fuel i ≤ i := by
  induction fuel with
  | zero => intro i hi; simp [ulpShift]; omega
  | succ n ih =>
    intro i hi
    unfold ulpShift
    by_cases h : i < 2 ^ 24
    · rw [if_pos h]; simp; omega
    · rw [if_neg h]
      have h2 : i / 2 ≠ 0 := by
        have : 2 ^ 24 ≤ i := Nat.le_of_not_lt h
        norm_num at this
        omega
      have := ih (i / 2) h2
      rw [Nat.pow_succ]
      omega

theorem f32Round_pos (n : Nat) (hn : 0 < n) : 0 < f32Round n 1 := by
  unfold f32Round
  simp only [Nat.div_one, Nat.one_mul]
  have hs : n * 2 ^ 149 ≠ 0 := by positivity
  have h1 := two_pow_ulpShift_le 254 (n * 2 ^ 149) hs
  have h2 := le_roundNearestEven (n * 2 ^ 149) (2 ^ ulpShift 254 (n * 2 ^ 149))
  have h3 : 0 < n * 2 ^ 149 / 2 ^ ulpShift 254 (n * 2 ^ 149) :=
    Nat.div_pos h1 (by positivity)
  have h4 : 0 < 2 ^ ulpShift 254 (n * 2 ^ 149) := by positivity
  exact Nat.mul_pos (by omega) h4

set_option maxRecDepth 100000 in
theorem ulpShift_one : ulpShift 254 (2 ^ 149) = 126 := by decide

theorem f32Round_self (x : Nat) (hx : 0 < x) : f32Round x x = 2 ^ 149 := by
  unfold f32Round
  simp only
  rw [Nat.mul_div_cancel_left _ hx, ulpShift_one]
  unfold roundNearestEven
  have e : x * 2 ^ 149 = 2 ^ 23 * (x * 2 ^ 126) := by ring
  have hd : 0 < x * 2 ^ 126 := by positivity
  have hq : x * 2 ^ 149 / (x * 2 ^ 126) = 2 ^ 23 := by
    rw [e]; exact Nat.mul_div_cancel _ hd
  have hr : x * 2 ^ 149 % (x * 2 ^ 126) = 0 := by
    rw [e]; exact Nat.mul_mod_left _ _
  simp only [hq, hr]
  rw [if_pos (by omega)]
  norm_num

set_option maxRecDepth 100000 in
theorem f32_one_ge_threshold :
    F32.ge (Math.Min F32.nan (F32.lit 1 1)) (F32.lit 7 10) = true ∧
    F32.ge (Math.Min (F32.fin (2 ^ 149)) (F32.lit 1 1)) (F32.lit 7 10) = true ∧
    F32.ofNat 0 = F32.fin 0 := by
  decide

namespace HashMap

variable {K V : Type} [LinearOrder K] [Inhabited K] [Inhabited V]

/-- A full table (and the default-constructed one) is at load factor `1.0f`. -/
theorem ge_threshold_of_full (m : HashMap K V) (h : m.getSize = m.getCapacity) :
    F32.ge m.getLoadFactor (F32.lit 7 10) = true := by
  unfold getLoadFactor
  rw [h]
  rcases Nat.eq_zero_or_pos m.getCapacity with h0 | h0
  · rw [h0, f32_one_ge_threshold.2.2]
    exact f32_one_ge_threshold.1
  · have hp := f32Round_pos _ h0
    have : F32.div (F32.ofNat m.getCapacity) (F32.ofNat m.getCapacity) = F32.fin (2 ^ 149) := by
      unfold F32.ofNat F32.div
      simp only
      rw [if_neg (by omega), f32Round_self _ hp]
    rw [this]
    exact f32_one_ge_threshold.2.1

end HashMap

/-! ## The facade invariant; `enlarge` and `shrink` -/

theorem IsCap.lt {c : Nat} (h : IsCap c) : c < 2 ^ 32 := by
  rcases h with rfl | ⟨j, _, hj, rfl⟩
  · norm_num
  · exact Nat.pow_lt_pow_right (by norm_num) (by omega)

theorem IsCap.dvd {c w : Nat} (h : IsCap c) (hw : 32 ≤ w) : c = 0 ∨ c ∣ 2 ^ w := by
  rcases h with rfl | ⟨j, _, hj, rfl⟩
  · exact Or.inl rfl
  · exact Or.inr (Nat.pow_dvd_pow 2 (by omega))

theorem IsCap.four_le {c : Nat} (h : IsCap c) (h0 : c ≠ 0) : 4 ≤ c := by
  rcases h with rfl | ⟨j, hj, _, rfl⟩
  · exact absurd rfl h0
  · calc 4 = 2 ^ 2 := by norm_num
      _ ≤ 2 ^ j := Nat.pow_le_pow_right (by norm_num) hj

theorem IsCap.double {c : Nat} (h : IsCap c) (hc : c < 2 ^ 31) :
    IsCap (Math.Max (c * 2 % 2 ^ 32) 4) ∧ c < Math.Max (c * 2 % 2 ^ 32) 4 ∧
      (c ≠ 0 → Math.Max (c * 2 % 2 ^ 32) 4 = 2 * c) := by
  have e : c * 2 % 2 ^ 32 = 2 * c := by omega
  rw [e]
  rcases h with rfl | ⟨j, hj, hj', rfl⟩
  · refine ⟨Or.inr ⟨2, by omega, by omega, by decide⟩, by decide, fun h => absurd rfl h⟩
  · have h4 : 4 ≤ 2 ^ j := IsCap.four_le (Or.inr ⟨j, hj, hj', rfl⟩) (by positivity)
    have hm : Math.Max (2 * 2 ^ j) 4 = 2 ^ (j + 1) := by
      unfold Math.Max
      rw [if_pos (by omega), Nat.pow_succ, Nat.mul_comm]
    rw [hm]
    have hj30 : j ≤ 30 := by
      by_contra hcon
      have : j = 31 := by omega
      rw [this] at hc
      omega
    refine ⟨Or.inr ⟨j + 1, by omega, by omega, rfl⟩, ?_, fun _ => ?_⟩
    · rw [Nat.pow_succ]; omega
    · rw [Nat.pow_succ]; omega

theorem IsCap.half {c : Nat} (h : IsCap c) (hlt : Math.Max (c / 2) 4 < c) :
    IsCap (Math.Max (c / 2) 4) ∧ 8 ≤ c ∧ Math.Max (c / 2) 4 = c / 2 := by
  rcases h with rfl | ⟨j, hj, hj', rfl⟩
  · simp [Math.Max] at hlt
  · have h3 : 3 ≤ j := by
      by_contra hcon
      have : j = 2 := by omega
      subst this
      simp [Math.Max] at hlt
    obtain ⟨i, rfl⟩ : ∃ i, j = i + 1 := ⟨j - 1, by omega⟩
    have e : 2 ^ (i + 1) / 2 = 2 ^ i := by
      rw [Nat.pow_succ]; omega
    have h4 : 4 ≤ 2 ^ i := by
      calc 4 = 2 ^ 2 := by norm_num
        _ ≤ 2 ^ i := Nat.pow_le_pow_right (by norm_num) (by omega)
    have hm : Math.Max (2 ^ (i + 1) / 2) 4 = 2 ^ i := by
      rw [e]; unfold Math.Max
      by_cases h : 2 ^ i > 4
      · rw [if_pos h]
      · rw [if_neg h]; omega
    rw [hm]
    refine ⟨Or.inr ⟨i, by omega, by omega, rfl⟩, ?_, e.symm⟩
    rw [Nat.pow_succ]; omega

theorem Math.Max_idem (c : Nat) : Math.Max (Math.Max c 4) 4 = Math.Max c 4 := by
  unfold Math.Max
  split_ifs <;> omega

namespace HashMap

variable {K V : Type} [LinearOrder K] [Inhabited K] [Inhabited V]

theorem Inv.size_le {w : Nat} {H : K → Nat} {m : HashMap K V} (hm : Inv w H m) :
    m.table.size ≤ m.table.capacity := by
  rw [hm.table.size_eq, ← hm.table.len]
  exact BasicTable.occupiedCount_le _

theorem enlarge_spec {w : Nat} {H : K → Nat} {m : HashMap K V} (hw : 32 ≤ w)
    (hm : Inv w H m) :
    ∃ m1, enlarge w m = some m1 ∧ Inv w H m1 ∧ m1.table.size = m.table.size ∧
      (∀ k v, BasicTable.Holds w m1.table k v ↔ BasicTable.Holds w m.table k v) ∧
      (m.table.capacity < 2 ^ 31 → m1.table.size < m1.table.capacity) ∧
      m1.table.capacity =
        (if F32.ge m.getLoadFactor (F32.lit 7 10) = true ∧
            m.table.capacity < Math.Max (m.table.capacity * 2 % 2 ^ 32) 4
         then Math.Max (m.table.capacity * 2 % 2 ^ 32) 4 else m.table.capacity) := by
  have hsl := hm.size_le
  unfold enlarge
  simp only [getCapacity, getSize]
  by_cases htrig : F32.ge m.getLoadFactor (F32.lit 7 10) = true
  · rw [if_pos htrig]
    unfold BasicTable.enlarge
    simp only
    by_cases hgt : Math.Max (m.table.capacity * 2 % 2 ^ 32) 4 > m.table.capacity
    · rw [if_pos hgt]
      have hc31 : m.table.capacity < 2 ^ 31 := by
        by_contra hcon
        have h32 := hm.cap.lt
        rcases hm.cap with h0 | ⟨j, _, hj, hj2⟩
        · omega
        · have : j = 31 := by
            by_contra hne
            have : 2 ^ j ≤ 2 ^ 30 := Nat.pow_le_pow_right (by norm_num) (by omega)
            omega
          subst this
          rw [hj2] at hgt
          simp [Math.Max] at hgt
      obtain ⟨hcap', hlt', _⟩ := IsCap.double hm.cap hc31
      have hd' : Math.Max (Math.Max (m.table.capacity * 2 % 2 ^ 32) 4) 4 ∣ 2 ^ w := by
        rw [Math.Max_idem]
        rcases hcap'.dvd hw with h0 | h0
        · omega
        · exact h0
      obtain ⟨t', h1, h2, h3, h4, h5⟩ := BasicTable.resize_spec hm.table
        (Math.Max (m.table.capacity * 2 % 2 ^ 32) 4) hd'
        (by rw [Math.Max_idem]; exact hcap'.lt)
        (by rw [Math.Max_idem]; omega)
      rw [Math.Max_idem] at h3
      refine ⟨⟨t'⟩, by rw [h1]; rfl, ⟨h2, by rw [h3]; exact hcap'⟩, h4, h5, ?_, ?_⟩
      · intro _
        show t'.size < t'.capacity
        rw [h3, h4]; omega
      · rw [if_pos ⟨htrig, hgt⟩]; exact h3
    · rw [if_neg hgt]
      refine ⟨m, rfl, hm, rfl, fun _ _ => Iff.rfl, ?_, ?_⟩
      · intro hc31
        exact absurd (IsCap.double hm.cap hc31).2.1 hgt
      · rw [if_neg (fun h => hgt h.2)]
  · rw [if_neg htrig]
    refine ⟨m, rfl, hm, rfl, fun _ _ => Iff.rfl, ?_, ?_⟩
    · intro _
      have : m.table.size ≠ m.table.capacity := fun h => htrig (ge_threshold_of_full m h)
      omega
    · rw [if_neg (fun h => htrig h.1)]

theorem shrink_spec {w : Nat} {H : K → Nat} {m : HashMap K V} (hw : 32 ≤ w)
    (hm : Inv w H m) :
    ∃ m1, shrink w m = some m1 ∧ Inv w H m1 ∧ m1.table.size = m.table.size ∧
      (∀ k v, BasicTable.Holds w m1.table k v ↔ BasicTable.Holds w m.table k v) ∧
      m1.table.capacity =
        (if F32.le m.getLoadFactor (F32.lit 3 10) = true ∧
            (Math.Max (m.table.capacity / 2) 4 > m.table.size ∧
              Math.Max (m.table.capacity / 2) 4 < m.table.capacity)
         then Math.Max (m.table.capacity / 2) 4 else m.table.capacity) := by
  unfold shrink
  simp only [getCapacity, getSize]
  by_cases htrig : F32.le m.getLoadFactor (F32.lit 3 10) = true
  · rw [if_pos htrig]
    unfold BasicTable.shrink
    simp only
    by_cases hgt : Math.Max (m.table.capacity / 2) 4 > m.table.size ∧
        Math.Max (m.table.capacity / 2) 4 < m.table.capacity
    · rw [if_pos hgt]
      obtain ⟨hcap', _, _⟩ := IsCap.half hm.cap hgt.2
      have hd' : Math.Max (Math.Max (m.table.capacity / 2) 4) 4 ∣ 2 ^ w := by
        rw [Math.Max_idem]
        rcases hcap'.dvd hw with h0 | h0
        · have := hgt.1; omega
        · exact h0
      obtain ⟨t', h1, h2, h3, h4, h5⟩ := BasicTable.resize_spec hm.table
        (Math.Max (m.table.capacity / 2) 4) hd'
        (by rw [Math.Max_idem]; exact hcap'.lt)
        (by rw [Math.Max_idem]; exact Nat.le_of_lt hgt.1)
      rw [Math.Max_idem] at h3
      refine ⟨⟨t'⟩, by rw [h1]; rfl, ⟨h2, by rw [h3]; exact hcap'⟩, h4, h5, ?_⟩
      rw [if_pos ⟨htrig, hgt⟩]; exact h3
    · rw [if_neg hgt]
      refine ⟨m, rfl, hm, rfl, fun _ _ => Iff.rfl, ?_⟩
      rw [if_neg (fun h => hgt h.2)]
  · rw [if_neg htrig]
    refine ⟨m, rfl, hm, rfl, fun _ _ => Iff.rfl, ?_⟩
    rw [if_neg (fun h => htrig h.1)]

end HashMap

namespace BasicTable

variable {K V : Type} [LinearOrder K] [Inhabited K] [Inhabited V]

/-! ## What the table operations do to the mapping -/

theorem Holds_unique {w : Nat} {H : K → Nat} {t : BasicTable K V} (hinv : Inv w H t)
    {k : K} {v v' : V} (h : Holds w t k v) (h' : Holds w t k v') : v = v' := by
  obtain ⟨i, hi, hv⟩ := h
  obtain ⟨i', hi', hv'⟩ := h'
  rw [hinv.uniq k i i' hi hi'] at hv
  rw [← hv, ← hv']

theorem Holds_of_Live {w : Nat} {t : BasicTable K V} {k : K} {i : Nat} (h : Live w t k i) :
    Holds w t k (entryAt w t i).value := ⟨i, h, rfl⟩

theorem assign_spec {w : Nat} {H : K → Nat} {t : BasicTable K V} (hinv : Inv w H t)
    (k : K) (j : Nat) (hl : Live w t k j) (v : V) :
    Inv w H (withEntry t j (revalued w t j v) t.size) ∧
    (∀ k' i, Live w (withEntry t j (revalued w t j v) t.size) k' i ↔ Live w t k' i) ∧
    Holds w (withEntry t j (revalued w t j v) t.size) k v ∧
    (∀ k' v', k' ≠ k →
      (Holds w (withEntry t j (revalued w t j v) t.size) k' v' ↔ Holds w t k' v')) := by
  have hjl : j < t.entries.length := by rw [hinv.len]; exact hl.1
  have hocc : t.entries[j].state = EntryState.Occupied := by
    rw [← entryAt_eq_getElem w t j hjl]; exact hl.2.1
  have hpos : 0 < occupiedCount t.entries := occupiedCount_pos_of_getElem _ j hjl hocc
  have hlive : ∀ k' i,
      Live w (withEntry t j (revalued w t j v) t.size) k' i ↔ Live w t k' i := by
    intro k' i
    rw [Live_withEntry w t j _ _ hjl hinv.len]
    constructor
    · rintro (⟨h1, _, h3⟩ | ⟨_, h⟩)
      · rw [h1]; exact ⟨hl.1, hl.2.1, h3⟩
      · exact h
    · intro h
      by_cases hij : i = j
      · subst hij
        exact Or.inl ⟨rfl, hl.2.1, h.2.2⟩
      · exact Or.inr ⟨hij, h⟩
  refine ⟨?_, hlive, ?_, ?_⟩
  · refine hinv.withEntry j hl.1 _ _ ?_ ?_ ?_
    · show (entryAt w t j).state ≠ EntryState.Free
      rw [hl.2.1]; simp
    · rw [occupiedCount_set _ _ _ hjl, ← hinv.size_eq]
      have : (revalued w t j v).state = EntryState.Occupied := hl.2.1
      rw [hinv.size_eq]
      simp only [hocc, this, if_true]
      omega
    · intro _
      refine ⟨hinv.hash_eq j hl.1 hl.2.1, ?_, ?_⟩
      · intro i hij hi
        have e : (revalued w t j v).key = k := hl.2.2
        rw [e] at hi
        exact hij (hinv.uniq k i j hi hl)
      · obtain ⟨o, ho, hp, hch⟩ := hinv.chain j hl.1 hl.2.1
        exact ⟨o, ho, hp, fun o' ho' _ => hch o' ho'⟩
  · refine ⟨j, (hlive k j).2 hl, ?_⟩
    rw [entryAt_withEntry_self w t j _ _ hjl]
    rfl
  · intro k' v' hk
    constructor
    · rintro ⟨i, hi, hv⟩
      have hi' := (hlive k' i).1 hi
      have hij : i ≠ j := by
        rintro rfl
        exact hk (hi'.2.2.symm.trans hl.2.2)
      rw [entryAt_withEntry_ne w t j _ _ i hij] at hv
      exact ⟨i, hi', hv⟩
    · rintro ⟨i, hi, hv⟩
      have hij : i ≠ j := by
        rintro rfl
        exact hk (hi.2.2.symm.trans hl.2.2)
      refine ⟨i, (hlive k' i).2 hi, ?_⟩
      rw [entryAt_withEntry_ne w t j _ _ i hij]
      exact hv

theorem unset_Holds {w : Nat} {H : K → Nat} {t : BasicTable K V} (hinv : Inv w H t)
    (k : K) (i : Nat) (hl : Live w t k i) (s : Nat) (k' : K) (v' : V) :
    Holds w (withEntry t i (tombstone w t i) s) k' v' ↔ k' ≠ k ∧ Holds w t k' v' := by
  have hil : i < t.entries.length := by rw [hinv.len]; exact hl.1
  constructor
  · rintro ⟨i', hi', hv⟩
    rw [Live_withEntry w t i _ _ hil hinv.len] at hi'
    rcases hi' with ⟨_, h2, _⟩ | ⟨h1, h2⟩
    · simp [tombstone] at h2
    · rw [entryAt_withEntry_ne w t i _ _ i' h1] at hv
      refine ⟨?_, i', h2, hv⟩
      rintro rfl
      exact h1 (hinv.uniq k' i' i h2 hl)
  · rintro ⟨hk, i', hi', hv⟩
    have hne : i' ≠ i := by
      rintro rfl
      exact hk (hi'.2.2.symm.trans hl.2.2)
    refine ⟨i', (Live_withEntry w t i _ _ hil hinv.len k' i').2 (Or.inr ⟨hne, hi'⟩), ?_⟩
    rw [entryAt_withEntry_ne w t i _ _ i' hne]
    exact hv

theorem not_Holds_clear (w : Nat) (t : BasicTable K V) (k : K) (v : V) :
    ¬ Holds w (clear t) k v := fun ⟨i, hi, _⟩ => not_live_clear w t k i hi

end BasicTable

namespace HashMap

variable {K V : Type} [LinearOrder K] [Inhabited K] [Inhabited V]

theorem get_ok_iff {w : Nat} {H : K → Nat} {m : HashMap K V} (hm : Inv w H m) (k : K) (v : V) :
    get w H m k = Except.ok v ↔ BasicTable.Holds w m.table k v := by
  unfold get
  constructor
  · intro h
    cases hg : BasicTable.get w H m.table k with
    | none => rw [hg] at h; simp at h
    | some i =>
      rw [hg] at h
      simp only [Except.ok.injEq] at h
      exact ⟨i, (BasicTable.get_eq_some_iff hm.table k i).1 hg, h⟩
  · rintro ⟨i, hi, hv⟩
    rw [(BasicTable.get_eq_some_iff hm.table k i).2 hi]
    simp [hv]

theorem get_error_iff {w : Nat} {H : K → Nat} {m : HashMap K V} (hm : Inv w H m) (k : K) :
    get w H m k = Except.error { key := k } ↔ ∀ v, ¬ BasicTable.Holds w m.table k v := by
  unfold get
  constructor
  · intro h v ⟨i, hi, _⟩
    rw [(BasicTable.get_eq_some_iff hm.table k i).2 hi] at h
    simp at h
  · intro h
    cases hg : BasicTable.get w H m.table k with
    | none => rfl
    | some i =>
      exact absurd (BasicTable.Holds_of_Live ((BasicTable.get_eq_some_iff hm.table k i).1 hg))
        (h _)

theorem has_iff {w : Nat} {H : K → Nat} {m : HashMap K V} (hm : Inv w H m) (k : K) :
    has w H m k = true ↔ ∃ v, BasicTable.Holds w m.table k v := by
  unfold has
  rw [Option.isSome_iff_exists]
  constructor
  · rintro ⟨i, hi⟩
    exact ⟨_, BasicTable.Holds_of_Live ((BasicTable.get_eq_some_iff hm.table k i).1 hi)⟩
  · rintro ⟨v, i, hi, _⟩
    exact ⟨i, (BasicTable.get_eq_some_iff hm.table k i).2 hi⟩

theorem has_false_iff {w : Nat} {H : K → Nat} {m : HashMap K V} (hm : Inv w H m) (k : K) :
    has w H m k = false ↔ ∀ v, ¬ BasicTable.Holds w m.table k v := by
  rw [← Bool.not_eq_true, has_iff hm]
  simp

theorem has_eq_true_iff_get {w : Nat} {H : K → Nat} {m : HashMap K V} (hm : Inv w H m) (k : K) :
    has w H m k = true ↔ ∃ v, get w H m k = Except.ok v := by
  rw [has_iff hm]
  constructor
  · rintro ⟨v, hv⟩; exact ⟨v, (get_ok_iff hm k v).2 hv⟩
  · rintro ⟨v, hv⟩; exact ⟨v, (get_ok_iff hm k v).1 hv⟩

theorem not_live_of_not_holds {w : Nat} {m : HashMap K V} {k : K}
    (h : ∀ v, ¬ BasicTable.Holds w m.table k v) : ∀ i, ¬ BasicTable.Live w m.table k i :=
  fun _ hi => h _ (BasicTable.Holds_of_Live hi)

/-! ## What `set`, `operator[]` and `remove` do on a map that satisfies the invariant -/

theorem set_eq {w : Nat} {H : K → Nat} {m m1 : HashMap K V} {k : K} (v : V)
    {t : BasicTable K V} {oi : Option Nat} (h1 : enlarge w m = some m1)
    (h2 : BasicTable.set w H m1.table k = (t, oi)) :
    set w H m k v = oi.map (fun index =>
      ((BasicTable.entryAt w t index).value, assignAt w { table := t } index v)) := by
  unfold set
  rw [h1]
  simp only
  rw [h2]
  cases oi <;> rfl

theorem subscript_eq {w : Nat} {H : K → Nat} {m m1 : HashMap K V} {k : K}
    {t : BasicTable K V} {oi : Option Nat} (h1 : enlarge w m = some m1)
    (h2 : BasicTable.set w H m1.table k = (t, oi)) :
    subscript w H m k = oi.map (fun index => (index, { table := t })) := by
  unfold subscript
  rw [h1]
  simp only
  rw [h2]
  cases oi <;> rfl

theorem cap_eq_of_full {w : Nat} {H : K → Nat} {m : HashMap K V} (hm : Inv w H m)
    (h : ¬ m.table.capacity < 2 ^ 31) : m.table.capacity = 2 ^ 31 := by
  rcases hm.cap with h0 | ⟨j, _, hj, hj2⟩
  · omega
  · have : j = 31 := by
      by_contra hne
      have : 2 ^ j ≤ 2 ^ 30 := Nat.pow_le_pow_right (by norm_num) (by omega)
      omega
    rw [hj2, this]

/-- Everything `set(key, value)` does on a map that satisfies the invariant. -/
theorem set_spec {w : Nat} {H : K → Nat} {m : HashMap K V} (hw : 32 ≤ w) (hm : Inv w H m)
    (k : K) (v : V) :
    (∃ r m', set w H m k v = some (r, m') ∧ Inv w H m' ∧
      BasicTable.Holds w m'.table k v ∧
      (∀ k' v', k' ≠ k →
        (BasicTable.Holds w m'.table k' v' ↔ BasicTable.Holds w m.table k' v')) ∧
      (∀ v0, BasicTable.Holds w m.table k v0 → r = v0 ∧ m'.table.size = m.table.size) ∧
      ((∀ v0, ¬ BasicTable.Holds w m.table k v0) → m'.table.size = m.table.size + 1) ∧
      m'.table.capacity = enlargedCapacity m) ∨
    (set w H m k v = none ∧ (∀ v0, ¬ BasicTable.Holds w m.table k v0) ∧
      m.table.size = m.table.capacity ∧ m.table.capacity = 2 ^ 31) := by
  obtain ⟨m1, he, hm1, hsz, hholds, hroom, hcap⟩ := enlarge_spec hw hm
  rcases BasicTable.set_cases hm1.table k with
    ⟨i, hi, hset⟩ | ⟨habs, j, hjc, hv, hset, hinv2⟩ | ⟨habs, hfull, hset⟩
  · obtain ⟨a1, a2, a3, a4⟩ := BasicTable.assign_spec hm1.table k i hi v
    refine Or.inl ⟨_, _, by rw [set_eq v he hset]; rfl, ⟨a1, hm1.cap⟩, a3, ?_, ?_, ?_, hcap⟩
    · intro k' v' hk
      exact (a4 k' v' hk).trans (hholds k' v')
    · intro v0 hv0
      refine ⟨?_, hsz⟩
      exact BasicTable.Holds_unique hm1.table (BasicTable.Holds_of_Live hi) ((hholds k v0).2 hv0)
    · intro hno
      exact absurd ((hholds k _).1 (BasicTable.Holds_of_Live hi)) (hno _)
  · have hjl : j < m1.table.entries.length := by rw [hm1.table.len]; exact hjc
    have hlive2 : BasicTable.Live w
        (BasicTable.withEntry m1.table j (BasicTable.claimed w H m1.table j k)
          (m1.table.size + 1)) k j :=
      (BasicTable.Live_withEntry w m1.table j _ _ hjl hm1.table.len k j).2
        (Or.inl ⟨rfl, rfl, rfl⟩)
    obtain ⟨a1, a2, a3, a4⟩ := BasicTable.assign_spec hinv2 k j hlive2 v
    have hno : ∀ v0, ¬ BasicTable.Holds w m.table k v0 := by
      intro v0 hv0
      obtain ⟨i, hi, _⟩ := (hholds k v0).2 hv0
      exact habs i hi
    refine Or.inl ⟨_, _, by rw [set_eq v he hset]; rfl, ⟨a1, hm1.cap⟩, a3, ?_, ?_, ?_, hcap⟩
    · intro k' v' hk
      refine (a4 k' v' hk).trans (Iff.trans ?_ (hholds k' v'))
      rw [BasicTable.Holds_withEntry w m1.table j _ _ hjl hm1.table.len hv]
      constructor
      · rintro (⟨_, h2, _⟩ | h)
        · exact absurd h2.symm hk
        · exact h
      · intro h; exact Or.inr h
    · intro v0 hv0
      exact absurd hv0 (hno v0)
    · intro _
      show m1.table.size + 1 = m.table.size + 1
      rw [hsz]
  · have hc31 : ¬ m.table.capacity < 2 ^ 31 := by
      intro h
      have := hroom h
      omega
    have hc := cap_eq_of_full hm hc31
    have hno : ∀ v0, ¬ BasicTable.Holds w m.table k v0 := by
      intro v0 hv0
      obtain ⟨i, hi, _⟩ := (hholds k v0).2 hv0
      exact habs i hi
    have hcap1 : m1.table.capacity = m.table.capacity := by
      rw [hcap, hc]
      simp [Math.Max]
    refine Or.inr ⟨by rw [set_eq v he hset]; rfl, hno, ?_, hc⟩
    rw [← hsz, hfull, hcap1]

/-- Everything the mutable `operator[](key)` does on a map that satisfies the invariant. -/
theorem subscript_spec {w : Nat} {H : K → Nat} {m : HashMap K V} (hw : 32 ≤ w)
    (hm : Inv w H m) (k : K) :
    (∃ i m', subscript w H m k = some (i, m') ∧ Inv w H m' ∧
      BasicTable.Live w m'.table k i ∧
      (∀ k' v', k' ≠ k →
        (BasicTable.Holds w m'.table k' v' ↔ BasicTable.Holds w m.table k' v')) ∧
      (∀ v0, BasicTable.Holds w m.table k v0 →
        BasicTable.Holds w m'.table k v0 ∧ m'.table.size = m.table.size) ∧
      ((∀ v0, ¬ BasicTable.Holds w m.table k v0) → m'.table.size = m.table.size + 1) ∧
      m'.table.capacity = enlargedCapacity m) ∨
    (subscript w H m k = none ∧ (∀ v0, ¬ BasicTable.Holds w m.table k v0) ∧
      m.table.size = m.table.capacity ∧ m.table.capacity = 2 ^ 31) := by
  obtain ⟨m1, he, hm1, hsz, hholds, hroom, hcap⟩ := enlarge_spec hw hm
  rcases BasicTable.set_cases hm1.table k with
    ⟨i, hi, hset⟩ | ⟨habs, j, hjc, hv, hset, hinv2⟩ | ⟨habs, hfull, hset⟩
  · refine Or.inl ⟨i, m1, by rw [subscript_eq he hset]; rfl, hm1, hi, ?_, ?_, ?_, hcap⟩
    · intro k' v' _; exact hholds k' v'
    · intro v0 hv0; exact ⟨(hholds k v0).2 hv0, hsz⟩
    · intro hno
      exact absurd ((hholds k _).1 (BasicTable.Holds_of_Live hi)) (hno _)
  · have hjl : j < m1.table.entries.length := by rw [hm1.table.len]; exact hjc
    have hlive2 : BasicTable.Live w
        (BasicTable.withEntry m1.table j (BasicTable.claimed w H m1.table j k)
          (m1.table.size + 1)) k j :=
      (BasicTable.Live_withEntry w m1.table j _ _ hjl hm1.table.len k j).2
        (Or.inl ⟨rfl, rfl, rfl⟩)
    have hno : ∀ v0, ¬ BasicTable.Holds w m.table k v0 := by
      intro v0 hv0
      obtain ⟨i, hi, _⟩ := (hholds k v0).2 hv0
      exact habs i hi
    refine Or.inl ⟨j, ⟨BasicTable.withEntry m1.table j (BasicTable.claimed w H m1.table j k)
      (m1.table.size + 1)⟩, by rw [subscript_eq he hset]; rfl, ⟨hinv2, hm1.cap⟩, hlive2,
      ?_, ?_, ?_, hcap⟩
    · intro k' v' hk
      refine Iff.trans ?_ (hholds k' v')
      show BasicTable.Holds w (BasicTable.withEntry m1.table j
        (BasicTable.claimed w H m1.table j k) (m1.table.size + 1)) k' v' ↔ _
      rw [BasicTable.Holds_withEntry w m1.table j _ _ hjl hm1.table.len hv]
      constructor
      · rintro (⟨_, h2, _⟩ | h)
        · exact absurd h2.symm hk
        · exact h
      · intro h; exact Or.inr h
    · intro v0 hv0
      exact absurd hv0 (hno v0)
    · intro _
      show m1.table.size + 1 = m.table.size + 1
      rw [hsz]
  · have hc31 : ¬ m.table.capacity < 2 ^ 31 := by
      intro h
      have := hroom h
      omega
    have hc := cap_eq_of_full hm hc31
    have hno : ∀ v0, ¬ BasicTable.Holds w m.table k v0 := by
      intro v0 hv0
      obtain ⟨i, hi, _⟩ := (hholds k v0).2 hv0
      exact habs i hi
    have hcap1 : m1.table.capacity = m.table.capacity := by
      rw [hcap, hc]
      simp [Math.Max]
    refine Or.inr ⟨by rw [subscript_eq he hset]; rfl, hno, ?_, hc⟩
    rw [← hsz, hfull, hcap1]

end HashMap

/-! ## The result of `NP2` is zero or a power of two -/

theorem Smeared.refl (v : Nat) : Smeared 1 v v := by
  intro i
  constructor
  · intro h; exact ⟨0, by omega, h⟩
  · rintro ⟨d, hd, h⟩
    have : d = 0 := by omega
    subst this
    exact h

theorem Smeared.step {n x v : Nat} (h : Smeared n x v) :
    Smeared (n + n) (x ||| (x >>> n)) v := by
  intro i
  rw [Nat.testBit_or, Nat.testBit_shiftRight, Bool.or_eq_true, h i, h (n + i)]
  constructor
  · rintro (⟨d, hd, hb⟩ | ⟨d, hd, hb⟩)
    · exact ⟨d, by omega, hb⟩
    · refine ⟨n + d, by omega, ?_⟩
      rw [show i + (n + d) = n + i + d by omega]; exact hb
  · rintro ⟨d, hd, hb⟩
    by_cases hdn : d < n
    · exact Or.inl ⟨d, hdn, hb⟩
    · refine Or.inr ⟨d - n, by omega, ?_⟩
      rw [show n + i + (d - n) = i + d by omega]; exact hb

theorem NP2.loop_smeared (w v : Nat) :
    ∀ fuel s x, w ≤ fuel + s → Smeared (2 ^ s) x v →
      ∃ N, w ≤ N ∧ Smeared N (NP2.loop w fuel (2 ^ s) x) v := by
  intro fuel
  induction fuel with
  | zero =>
    intro s x hs h
    refine ⟨2 ^ s, ?_, by simpa [NP2.loop] using h⟩
    have := Nat.lt_two_pow s
    omega
  | succ n ih =>
    intro s x hs h
    unfold NP2.loop
    by_cases hlt : 2 ^ s < w
    · rw [if_pos hlt]
      have e : 2 ^ s * 2 = 2 ^ (s + 1) := by rw [Nat.pow_succ]
      rw [e]
      have h' : Smeared (2 ^ (s + 1)) (x ||| (x >>> (2 ^ s))) v := by
        have := h.step
        rwa [show 2 ^ s + 2 ^ s = 2 ^ (s + 1) by rw [Nat.pow_succ]; omega] at this
      exact ih (s + 1) _ (by omega) h'
    · rw [if_neg hlt]
      exact ⟨2 ^ s, by omega, h⟩

theorem testBit_top (v : Nat) (hv : 0 < v) : v.testBit (Nat.size v - 1) = true := by
  have hpos : 0 < Nat.size v := Nat.size_pos.2 hv
  have h1 : 2 ^ (Nat.size v - 1) ≤ v := Nat.lt_size.1 (by omega)
  have h2 : v < 2 ^ Nat.size v := Nat.lt_size_self v
  have h3 : 2 ^ Nat.size v = 2 * 2 ^ (Nat.size v - 1) := by
    rw [← Nat.pow_succ']
    congr 1
    omega
  rw [Nat.testBit_to_div_mod]
  have : v / 2 ^ (Nat.size v - 1) = 1 := by
    apply Nat.div_eq_of_lt_le
    · omega
    · omega
  rw [this]
  rfl

theorem smeared_eq {N x v : Nat} (hv : v < 2 ^ 32) (hN : 32 ≤ N) (h : Smeared N x v) :
    x = 2 ^ Nat.size v - 1 := by
  apply Nat.eq_of_testBit_eq
  intro i
  rw [Nat.testBit_two_pow_sub_one]
  have hsz : Nat.size v ≤ 32 := Nat.size_le.2 hv
  by_cases hi : i < Nat.size v
  · have hv0 : 0 < v := Nat.size_pos.1 (by omega)
    have : x.testBit i = true := by
      refine (h i).2 ⟨Nat.size v - 1 - i, by omega, ?_⟩
      rw [show i + (Nat.size v - 1 - i) = Nat.size v - 1 by omega]
      exact testBit_top v hv0
    simp [this, hi]
  · have : x.testBit i = false := by
      by_contra hcon
      rw [Bool.not_eq_false] at hcon
      obtain ⟨d, _, hb⟩ := (h i).1 hcon
      have h1 := Nat.testBit_implies_ge hb
      have h2 : v < 2 ^ Nat.size v := Nat.lt_size_self v
      have h3 : 2 ^ Nat.size v ≤ 2 ^ (i + d) := Nat.pow_le_pow_right (by norm_num) (by omega)
      omega
    simp [this, hi]

/-- The result of `NP2(value)` is `2 ^ n` truncated to 32 bits, `n` the bit length of
`value - 1`. -/
theorem NP2_eq (w c : Nat) (hw : 32 ≤ w) :
    NP2 w c = 2 ^ Nat.size ((c + 2 ^ 32 - 1) % 2 ^ 32) % 2 ^ 32 := by
  unfold NP2
  simp only
  have hv : (c + 2 ^ 32 - 1) % 2 ^ 32 < 2 ^ 32 := Nat.mod_lt _ (by norm_num)
  obtain ⟨N, hN, hs⟩ := NP2.loop_smeared w ((c + 2 ^ 32 - 1) % 2 ^ 32) w 0
    ((c + 2 ^ 32 - 1) % 2 ^ 32) (by omega) (Smeared.refl _)
  have hx := smeared_eq hv (by omega) hs
  have e : NP2.loop w w 1 ((c + 2 ^ 32 - 1) % 2 ^ 32) =
      NP2.loop w w (2 ^ 0) ((c + 2 ^ 32 - 1) % 2 ^ 32) := rfl
  rw [e, hx]
  have : 0 < 2 ^ Nat.size ((c + 2 ^ 32 - 1) % 2 ^ 32) := by positivity
  congr 1
  omega

theorem IsCap_NP2 (w c : Nat) (hw : 32 ≤ w) : IsCap (Math.Max (NP2 w c) 4) := by
  rw [NP2_eq w c hw]
  have hv : (c + 2 ^ 32 - 1) % 2 ^ 32 < 2 ^ 32 := Nat.mod_lt _ (by norm_num)
  have hsz : Nat.size ((c + 2 ^ 32 - 1) % 2 ^ 32) ≤ 32 := Nat.size_le.2 hv
  generalize Nat.size ((c + 2 ^ 32 - 1) % 2 ^ 32) = n at hsz
  by_cases h32 : n = 32
  · subst h32
    exact Or.inr ⟨2, by omega, by omega, by decide⟩
  · have hlt : 2 ^ n < 2 ^ 32 := Nat.pow_lt_pow_right (by norm_num) (by omega)
    rw [Nat.mod_eq_of_lt hlt]
    unfold Math.Max
    by_cases h4 : 2 ^ n > 4
    · rw [if_pos h4]
      refine Or.inr ⟨n, ?_, by omega, rfl⟩
      by_contra hcon
      have : 2 ^ n ≤ 2 ^ 2 := Nat.pow_le_pow_right (by norm_num) (by omega)
      omega
    · rw [if_neg h4]
      exact Or.inr ⟨2, by omega, by omega, by norm_num⟩

namespace HashMap

variable {K V : Type} [LinearOrder K] [Inhabited K] [Inhabited V]

theorem remove_absent {w : Nat} {H : K → Nat} {m : HashMap K V} (hm : Inv w H m) (k : K)
    (h : ∀ v0, ¬ BasicTable.Holds w m.table k v0) (out : V) :
    remove w H m k = some (Except.error { key := k }, m) ∧
      removeOut w H m k out = some (false, out, m) := by
  have hu := BasicTable.unset_of_absent hm.table k (not_live_of_not_holds h)
  unfold remove removeOut
  rw [hu]
  exact ⟨rfl, rfl⟩

/-- Everything `remove(key)` does when the key is present. -/
theorem remove_present {w : Nat} {H : K → Nat} {m : HashMap K V} (hw : 32 ≤ w)
    (hm : Inv w H m) (k : K) (v0 : V) (h : BasicTable.Holds w m.table k v0) (out : V) :
    ∃ m', remove w H m k = some (Except.ok v0, m') ∧
      removeOut w H m k out = some (true, v0, m') ∧ Inv w H m' ∧
      m'.table.size + 1 = m.table.size ∧
      (∀ k' v', BasicTable.Holds w m'.table k' v' ↔
        (k' ≠ k ∧ BasicTable.Holds w m.table k' v')) ∧
      m'.table.capacity = shrunkCapacity { table := (BasicTable.unset w H m.table k).1 } := by
  obtain ⟨i, hi, hval⟩ := h
  obtain ⟨hu, hinvU, hpos⟩ := BasicTable.unset_of_live hm.table k i hi
  have hil : i < m.table.entries.length := by rw [hm.table.len]; exact hi.1
  have hmU : Inv w H (HashMap.mk (BasicTable.withEntry m.table i
      (BasicTable.tombstone w m.table i) (m.table.size - 1))) := ⟨hinvU, hm.cap⟩
  obtain ⟨m', h1, h2, h3, h4, h5⟩ := shrink_spec hw hmU
  have hvalU : (BasicTable.entryAt w (BasicTable.withEntry m.table i
      (BasicTable.tombstone w m.table i) (m.table.size - 1)) i).value = v0 := by
    rw [BasicTable.entryAt_withEntry_self w m.table i _ _ hil]
    exact hval
  refine ⟨m', ?_, ?_, h2, ?_, ?_, ?_⟩
  · unfold remove
    rw [hu]
    simp only
    rw [h1]
    simp only
    rw [hvalU]
  · unfold removeOut
    rw [hu]
    simp only
    rw [h1]
    simp only
    rw [hvalU]
  · rw [h3]
    show m.table.size - 1 + 1 = m.table.size
    omega
  · intro k' v'
    rw [h4 k' v']
    exact BasicTable.unset_Holds hm.table k i hi _ k' v'
  · rw [hu]
    exact h5

theorem Inv.clear_facade {w : Nat} {H : K → Nat} {m : HashMap K V} (hm : Inv w H m) :
    Inv w H m.clear := ⟨hm.table.clear, hm.cap⟩

theorem Inv.init_facade (w : Nat) (H : K → Nat) (hw : 32 ≤ w) (capacity : Nat) :
    Inv w H (init w capacity : HashMap K V) := by
  have hc := IsCap_NP2 w capacity hw
  refine ⟨BasicTable.Inv.init _ ?_ hc.lt, hc⟩
  rcases hc.dvd hw with h0 | h0
  · have : 4 ≤ Math.Max (NP2 w capacity) 4 := by
      unfold Math.Max; split_ifs <;> omega
    omega
  · exact h0

theorem Inv.empty_facade (w : Nat) (H : K → Nat) : Inv w H (empty : HashMap K V) :=
  ⟨BasicTable.Inv.empty, Or.inl rfl⟩

theorem Inv.assignAt {w : Nat} {H : K → Nat} {m : HashMap K V} (hm : Inv w H m) (k : K)
    (i : Nat) (hi : BasicTable.get w H m.table k = some i) (v : V) :
    Inv w H (assignAt w m i v) :=
  ⟨(BasicTable.assign_spec hm.table k i ((BasicTable.get_eq_some_iff hm.table k i).1 hi) v).1,
    hm.cap⟩

theorem Inv.copy_table {w : Nat} {H : K → Nat} {m : HashMap K V} (hw : 32 ≤ w)
    (hm : Inv w H m) {t : BasicTable K V} (hc : BasicTable.copy w m.table = some t) :
    Inv w H (HashMap.mk t) := by
  obtain ⟨t', h1, h2, h3, _⟩ := BasicTable.copy_spec (by omega) hm.table
  rw [h1] at hc
  simp only [Option.some.injEq] at hc
  subst hc
  refine ⟨h2, ?_⟩
  show IsCap t'.capacity
  rw [h3]
  rcases hm.cap with h0 | ⟨j, hj, hj', hj''⟩
  · rw [h0]
    exact Or.inr ⟨2, by norm_num, by norm_num, by norm_num [Math.Max]⟩
  · have h4 : 4 ≤ m.table.capacity := hm.cap.four_le (by rw [hj'']; positivity)
    have : Math.Max m.table.capacity 4 = m.table.capacity := by
      unfold Math.Max
      split_ifs <;> omega
    rw [this]
    exact hm.cap

end HashMap

namespace Reachable

variable {K V : Type} [LinearOrder K] [Inhabited K] [Inhabited V]

/-- Every reachable map satisfies the facade invariant. -/
theorem inv {w : Nat} {H : K → Nat} (hw : 32 ≤ w) {m : HashMap K V}
    (h : Reachable w H m) : HashMap.Inv w H m := by
  induction h with
  | init capacity => exact HashMap.Inv.init_facade w H hw capacity
  | empty => exact HashMap.Inv.empty_facade w H
  | @set m m' k v r _ hs ih =>
    rcases HashMap.set_spec hw ih k v with ⟨r', m'', h1, h2, _⟩ | ⟨h1, _⟩
    · rw [h1] at hs
      have : m'' = m' := by
        have := Option.some.inj hs
        exact (Prod.mk.inj this).2
      rw [← this]; exact h2
    · rw [h1] at hs; simp at hs
  | @subscript m m' k i _ hs ih =>
    rcases HashMap.subscript_spec hw ih k with ⟨i', m'', h1, h2, _⟩ | ⟨h1, _⟩
    · rw [h1] at hs
      have : m'' = m' := by
        have := Option.some.inj hs
        exact (Prod.mk.inj this).2
      rw [← this]; exact h2
    · rw [h1] at hs; simp at hs
  | @assign m k i v _ hg ih => exact ih.assignAt k i hg v
  | @remove m m' k r _ hs ih =>
    by_cases hex : ∃ v0, BasicTable.Holds w m.table k v0
    · obtain ⟨v0, hv0⟩ := hex
      obtain ⟨m'', h1, _, h3, _⟩ := HashMap.remove_present hw ih k v0 hv0 v0
      rw [h1] at hs
      have : m'' = m' := (Prod.mk.inj (Option.some.inj hs)).2
      rw [← this]; exact h3
    · have hno : ∀ v0, ¬ BasicTable.Holds w m.table k v0 := fun v0 hv0 => hex ⟨v0, hv0⟩
      have h1 := (HashMap.remove_absent ih k hno default).1
      rw [h1] at hs
      have : m = m' := (Prod.mk.inj (Option.some.inj hs)).2
      rw [← this]; exact ih
  | @removeOut m m' k out v b _ hs ih =>
    by_cases hex : ∃ v0, BasicTable.Holds w m.table k v0
    · obtain ⟨v0, hv0⟩ := hex
      obtain ⟨m'', _, h2, h3, _⟩ := HashMap.remove_present hw ih k v0 hv0 out
      rw [h2] at hs
      have : m'' = m' := (Prod.mk.inj (Prod.mk.inj (Option.some.inj hs)).2).2
      rw [← this]; exact h3
    · have hno : ∀ v0, ¬ BasicTable.Holds w m.table k v0 := fun v0 hv0 => hex ⟨v0, hv0⟩
      have h1 := (HashMap.remove_absent ih k hno out).2
      rw [h1] at hs
      have : m = m' := (Prod.mk.inj (Prod.mk.inj (Option.some.inj hs)).2).2
      rw [← this]; exact ih
  | clear _ ih => exact ih.clear_facade
  | copy _ hcopy ih =>
    unfold HashMap.copy at hcopy
    simp only [Option.map_eq_some'] at hcopy
    obtain ⟨t, ht, rfl⟩ := hcopy
    exact HashMap.Inv.copy_table hw ih ht

end Reachable

/-! ## Exact single-precision results -/

theorem ulpShift_le (fuel : Nat) : ∀ i b, i < 2 ^ (24 + b) → ulpShift fuel i ≤ b := by
  induction fuel with
  | zero => intro i b _; simp [ulpShift]
  | succ n ih =>
    intro i b hi
    unfold ulpShift
    by_cases h : i < 2 ^ 24
    · rw [if_pos h]; omega
    · rw [if_neg h]
      have hb : 0 < b := by
        by_contra hcon
        have : b = 0 := by omega
        subst this
        exact h hi
      obtain ⟨b', rfl⟩ : ∃ b', b = b' + 1 := ⟨b - 1, by omega⟩
      have h2 : i / 2 < 2 ^ (24 + b') := by
        have : 2 ^ (24 + (b' + 1)) = 2 * 2 ^ (24 + b') := by
          rw [← Nat.add_assoc, Nat.pow_succ]; omega
        omega
      have := ih (i / 2) b' h2
      omega

theorem roundNearestEven_of_dvd (q d : Nat) (hd : 0 < d) : roundNearestEven (q * d) d = q := by
  unfold roundNearestEven
  simp only [Nat.mul_div_cancel _ hd, Nat.mul_mod_left]
  rw [if_pos (by omega)]

/-- A quotient that is a 24-bit significand times a power of two is not rounded. -/
theorem f32Round_exact (n d a b : Nat) (ha : a < 2 ^ 24) (hd : 0 < d)
    (h : n * 2 ^ 149 = a * 2 ^ b * d) : f32Round n d = a * 2 ^ b := by
  unfold f32Round
  simp only
  rw [h, Nat.mul_div_cancel _ hd]
  have hk : ulpShift 254 (a * 2 ^ b) ≤ b := by
    apply ulpShift_le
    rw [Nat.pow_add]
    exact Nat.mul_lt_mul_of_lt_of_le ha (Nat.le_refl _) (by positivity)
  generalize ulpShift 254 (a * 2 ^ b) = k at hk
  obtain ⟨c, rfl⟩ : ∃ c, b = k + c := ⟨b - k, by omega⟩
  have e : a * 2 ^ (k + c) * d = (a * 2 ^ c) * (d * 2 ^ k) := by
    rw [Nat.pow_add]; ring
  rw [e, roundNearestEven_of_dvd _ _ (by positivity)]
  rw [Nat.pow_add]; ring

/-- Rounding does not go below a power of two that the exact quotient reaches. -/
theorem f32Round_ge_two_pow (n d e : Nat) (hd : 0 < d) (h : 2 ^ e ≤ n * 2 ^ 149 / d) :
    2 ^ e ≤ f32Round n d := by
  unfold f32Round
  simp only
  have hi : n * 2 ^ 149 / d ≠ 0 := by
    have : 0 < 2 ^ e := by positivity
    omega
  have hk := two_pow_ulpShift_le 254 (n * 2 ^ 149 / d) hi
  generalize ulpShift 254 (n * 2 ^ 149 / d) = k at hk
  have hfl := le_roundNearestEven (n * 2 ^ 149) (d * 2 ^ k)
  rw [← Nat.div_div_eq_div_mul] at hfl
  have hpk : 0 < 2 ^ k := by positivity
  by_cases hke : k ≤ e
  · obtain ⟨c, rfl⟩ : ∃ c, e = k + c := ⟨e - k, by omega⟩
    have h1 : 2 ^ c ≤ n * 2 ^ 149 / d / 2 ^ k := by
      rw [Nat.le_div_iff_mul_le hpk, ← Nat.pow_add, Nat.add_comm]
      exact h
    calc 2 ^ (k + c) = 2 ^ c * 2 ^ k := by rw [Nat.pow_add]; ring
      _ ≤ roundNearestEven (n * 2 ^ 149) (d * 2 ^ k) * 2 ^ k :=
        Nat.mul_le_mul_right _ (le_trans h1 hfl)
  · have h1 : 1 ≤ n * 2 ^ 149 / d / 2 ^ k := by
      rw [Nat.le_div_iff_mul_le hpk]; omega
    have h2 : 2 ^ e ≤ 2 ^ k := Nat.pow_le_pow_right (by norm_num) (by omega)
    calc 2 ^ e ≤ 1 * 2 ^ k := by omega
      _ ≤ roundNearestEven (n * 2 ^ 149) (d * 2 ^ k) * 2 ^ k :=
        Nat.mul_le_mul_right _ (le_trans h1 hfl)

set_option maxRecDepth 100000 in
theorem f32_literals :
    F32.lit 1 1 = F32.fin (2 ^ 149) ∧ F32.lit 7 10 = F32.fin (11744051 * 2 ^ 125) ∧
      F32.lit 3 10 = F32.fin (10066330 * 2 ^ 124) := by
  decide

theorem F32.ofNat_two_pow (j : Nat) : F32.ofNat (2 ^ j) = F32.fin (2 ^ (j + 149)) := by
  unfold F32.ofNat
  rw [f32Round_exact (2 ^ j) 1 1 (j + 149) (by norm_num) (by norm_num)
    (by rw [Nat.pow_add]; ring)]
  simp

namespace HashMap

variable {K V : Type} [LinearOrder K] [Inhabited K] [Inhabited V]

/-- At a power-of-two capacity and a size below `2 ^ 24` the load factor is computed
without rounding. -/
theorem getLoadFactor_exact (m : HashMap K V) (j : Nat) (hc : m.table.capacity = 2 ^ j)
    (hj : j ≤ 149) (hs : m.table.size ≤ m.table.capacity) (hs24 : m.table.size < 2 ^ 24) :
    m.getLoadFactor = F32.fin (m.table.size * 2 ^ (149 - j)) := by
  unfold getLoadFactor getSize getCapacity
  rw [hc, F32.ofNat_two_pow]
  have h1 : F32.ofNat m.table.size = F32.fin (m.table.size * 2 ^ 149) := by
    unfold F32.ofNat
    rw [f32Round_exact m.table.size 1 m.table.size 149 hs24 (by norm_num) (by ring)]
  have hpp : (2 : Nat) ^ (149 - j) * 2 ^ (j + 149) = 2 ^ 149 * 2 ^ 149 := by
    rw [← Nat.pow_add, ← Nat.pow_add]
    congr 1
    omega
  have h2 : F32.div (F32.fin (m.table.size * 2 ^ 149)) (F32.fin (2 ^ (j + 149))) =
      F32.fin (m.table.size * 2 ^ (149 - j)) := by
    unfold F32.div
    simp only
    have hne : (2 : Nat) ^ (j + 149) ≠ 0 := by positivity
    rw [if_neg hne]
    rw [f32Round_exact (m.table.size * 2 ^ 149) (2 ^ (j + 149)) m.table.size (149 - j) hs24
      (by positivity) (by rw [Nat.mul_assoc, Nat.mul_assoc, hpp])]
  rw [h1, h2, f32_literals.1]
  unfold Math.Min F32.lt
  simp only
  by_cases hlt : m.table.size * 2 ^ (149 - j) < 2 ^ 149
  · rw [if_pos (decide_eq_true hlt)]
  · rw [if_neg (fun h => hlt (of_decide_eq_true h))]
    have hle : m.table.size * 2 ^ (149 - j) ≤ 2 ^ j * 2 ^ (149 - j) :=
      Nat.mul_le_mul_right _ (by rw [← hc]; exact hs)
    have hsum : j + (149 - j) = 149 := by omega
    have : (2 : Nat) ^ j * 2 ^ (149 - j) = 2 ^ 149 := by
      rw [← Nat.pow_add, hsum]
    have e : 2 ^ 149 = m.table.size * 2 ^ (149 - j) := by omega
    rw [e]

/-- Up to capacity `2 ^ 23` the single-precision test `getLoadFactor() >= 0.7f` is the
exact test `7 * capacity <= 10 * size`, and `getLoadFactor() <= 0.3f` is
`10 * size <= 3 * capacity`. -/
theorem threshold_iff (m : HashMap K V) (j : Nat) (hc : m.table.capacity = 2 ^ j)
    (hj : j ≤ 23) (hs : m.table.size ≤ m.table.capacity) :
    (F32.ge m.getLoadFactor (F32.lit 7 10) = true ↔
      7 * m.table.capacity ≤ 10 * m.table.size) ∧
    (F32.le m.getLoadFactor (F32.lit 3 10) = true ↔
      10 * m.table.size ≤ 3 * m.table.capacity) := by
  have hc23 : m.table.capacity ≤ 2 ^ 23 := by
    rw [hc]; exact Nat.pow_le_pow_right (by norm_num) hj
  rw [getLoadFactor_exact m j hc (by omega) hs (by omega), f32_literals.2.1, f32_literals.2.2]
  unfold F32.ge F32.le
  simp only [decide_eq_true_eq]
  have hq : (2 : Nat) ^ (149 - j) = 2 ^ (23 - j) * 2 ^ 126 := by
    rw [← Nat.pow_add]; congr 1; omega
  have hcq : m.table.capacity * 2 ^ (23 - j) = 2 ^ 23 := by
    rw [hc, ← Nat.pow_add]; congr 1; omega
  have hqpos : 0 < (2 : Nat) ^ (23 - j) := by positivity
  generalize (2 : Nat) ^ (23 - j) = q at hq hcq hqpos
  rw [hq]
  have e1 : m.table.size * (q * 2 ^ 126) = (2 * (m.table.size * q)) * 2 ^ 125 := by ring
  have e2 : m.table.size * (q * 2 ^ 126) = (4 * (m.table.size * q)) * 2 ^ 124 := by ring
  have h7 : 7 * m.table.capacity ≤ 10 * m.table.size ↔
      7 * (m.table.capacity * q) ≤ 10 * (m.table.size * q) := by
    constructor
    · intro h
      have := Nat.mul_le_mul_right q h
      calc 7 * (m.table.capacity * q) = 7 * m.table.capacity * q := by ring
        _ ≤ 10 * m.table.size * q := this
        _ = 10 * (m.table.size * q) := by ring
    · intro h
      have h' : 7 * m.table.capacity * q ≤ 10 * m.table.size * q := by
        calc 7 * m.table.capacity * q = 7 * (m.table.capacity * q) := by ring
          _ ≤ 10 * (m.table.size * q) := h
          _ = 10 * m.table.size * q := by ring
      exact Nat.le_of_mul_le_mul_right h' hqpos
  have h3 : 10 * m.table.size ≤ 3 * m.table.capacity ↔
      10 * (m.table.size * q) ≤ 3 * (m.table.capacity * q) := by
    constructor
    · intro h
      have := Nat.mul_le_mul_right q h
      calc 10 * (m.table.size * q) = 10 * m.table.size * q := by ring
        _ ≤ 3 * m.table.capacity * q := this
        _ = 3 * (m.table.capacity * q) := by ring
    · intro h
      have h' : 10 * m.table.size * q ≤ 3 * m.table.capacity * q := by
        calc 10 * m.table.size * q = 10 * (m.table.size * q) := by ring
          _ ≤ 3 * (m.table.capacity * q) := h
          _ = 3 * m.table.capacity * q := by ring
      exact Nat.le_of_mul_le_mul_right h' hqpos
  rw [h7, h3, hcq]
  generalize m.table.size * q = x at e1 e2
  have key : ∀ a b c : Nat, 0 < c → (a * c ≤ b * c ↔ a ≤ b) := fun a b c hc =>
    ⟨fun h => Nat.le_of_mul_le_mul_right h hc, fun h => Nat.mul_le_mul_right c h⟩
  constructor
  · rw [e1, key _ _ _ (by positivity)]
    omega
  · rw [e2, key _ _ _ (by positivity)]
    omega

/-- A table at least half full is above the shrink threshold `0.3f`. -/
theorem not_le_threshold_of_half (m : HashMap K V) (j : Nat) (hc : m.table.capacity = 2 ^ j)
    (hj : 1 ≤ j) (hs : 2 ^ (j - 1) ≤ m.table.size) :
    F32.le m.getLoadFactor (F32.lit 3 10) = false := by
  unfold getLoadFactor getSize getCapacity
  rw [hc, F32.ofNat_two_pow]
  have hX : 2 ^ (j - 1 + 149) ≤ f32Round m.table.size 1 := by
    apply f32Round_ge_two_pow _ _ _ (by norm_num)
    rw [Nat.div_one, Nat.pow_add]
    exact Nat.mul_le_mul_right _ hs
  unfold F32.ofNat
  generalize f32Round m.table.size 1 = X at hX
  unfold F32.div
  simp only
  have hne : (2 : Nat) ^ (j + 149) ≠ 0 := by positivity
  rw [if_neg hne]
  have hQ : 2 ^ 148 ≤ f32Round X (2 ^ (j + 149)) := by
    apply f32Round_ge_two_pow _ _ _ (by positivity)
    rw [Nat.le_div_iff_mul_le (by positivity)]
    have : (2 : Nat) ^ 148 * 2 ^ (j + 149) = 2 ^ (j - 1 + 149) * 2 ^ 149 := by
      rw [← Nat.pow_add, ← Nat.pow_add]; congr 1; omega
    rw [this]
    exact Nat.mul_le_mul_right _ hX
  generalize f32Round X (2 ^ (j + 149)) = Q at hQ
  rw [f32_literals.1, f32_literals.2.2]
  unfold Math.Min F32.lt
  simp only
  by_cases hlt : Q < 2 ^ 149
  · rw [if_pos (decide_eq_true hlt)]
    unfold F32.le
    simp only [decide_eq_false_iff_not]
    omega
  · rw [if_neg (fun h => hlt (of_decide_eq_true h))]
    unfold F32.le
    simp only [decide_eq_false_iff_not]
    omega

theorem get_error_key {w : Nat} {H : K → Nat} {m : HashMap K V} {k : K} {e : KeyNotFound K}
    (h : get w H m k = Except.error e) : e = { key := k } := by
  unfold get at h
  cases hg : BasicTable.get w H m.table k with
  | none => rw [hg] at h; simp only [Except.error.injEq] at h; exact h.symm
  | some i => rw [hg] at h; simp at h

theorem get_congr {w : Nat} {H : K → Nat} {m m' : HashMap K V} (hm : Inv w H m)
    (hm' : Inv w H m') (k : K)
    (h : ∀ v, BasicTable.Holds w m'.table k v ↔ BasicTable.Holds w m.table k v) :
    get w H m' k = get w H m k := by
  cases hg : get w H m k with
  | ok v => exact (get_ok_iff hm' k v).2 ((h v).2 ((get_ok_iff hm k v).1 hg))
  | error e =>
    have he := get_error_key hg
    subst he
    rw [get_error_iff hm']
    intro v hv
    exact (get_error_iff hm k).1 hg v ((h v).1 hv)

theorem has_congr {w : Nat} {H : K → Nat} {m m' : HashMap K V} (hm : Inv w H m)
    (hm' : Inv w H m') (k : K)
    (h : ∀ v, BasicTable.Holds w m'.table k v ↔ BasicTable.Holds w m.table k v) :
    has w H m' k = has w H m k := by
  rw [Bool.eq_iff_iff, has_iff hm', has_iff hm]
  constructor
  · rintro ⟨v, hv⟩; exact ⟨v, (h v).1 hv⟩
  · rintro ⟨v, hv⟩; exact ⟨v, (h v).2 hv⟩

/-! ## Replaying a call sequence against the reference map -/

theorem has_init_false (w : Nat) (H : K → Nat) (hw : 32 ≤ w) (c : Nat) (k : K) :
    has w H (init w c : HashMap K V) k = false := by
  rw [has_false_iff (Inv.init_facade w H hw c)]
  rintro v ⟨i, hi, _⟩
  exact BasicTable.not_live_init w _ k i hi

theorem has_empty_false (w : Nat) (H : K → Nat) (k : K) :
    has w H (empty : HashMap K V) k = false := by
  rw [has_false_iff (Inv.empty_facade w H)]
  rintro v ⟨i, hi, _⟩
  exact BasicTable.not_live_empty w k i hi

end HashMap

/-! ## The claims on the map facade -/

namespace HashMap

variable {K V : Type} [LinearOrder K] [Inhabited K] [Inhabited V]

theorem init_capacity_two_pow (w : Nat) (hw : 32 ≤ w) (j : Nat) (hj : 2 ≤ j) (hj' : j ≤ 31) :
    (init w (2 ^ j) : HashMap K V).table.capacity = 2 ^ j := by
  show Math.Max (NP2 w (2 ^ j)) 4 = 2 ^ j
  rw [NP2_eq w _ hw]
  have h4 : 4 ≤ 2 ^ j := by
    calc 4 = 2 ^ 2 := by norm_num
      _ ≤ 2 ^ j := Nat.pow_le_pow_right (by norm_num) hj
  have h31 : 2 ^ j ≤ 2 ^ 31 := Nat.pow_le_pow_right (by norm_num) hj'
  have e : (2 ^ j + 2 ^ 32 - 1) % 2 ^ 32 = 2 ^ j - 1 := by omega
  rw [e]
  have hsize : Nat.size (2 ^ j - 1) = j := by
    apply le_antisymm
    · rw [Nat.size_le]; omega
    · have : j - 1 < Nat.size (2 ^ j - 1) := by
        rw [Nat.lt_size]
        have : 2 ^ j = 2 * 2 ^ (j - 1) := by
          obtain ⟨i, hi⟩ : ∃ i, j = i + 1 := ⟨j - 1, by omega⟩
          rw [hi, Nat.add_sub_cancel, Nat.pow_succ]; omega
        have : 0 < 2 ^ (j - 1) := by positivity
        omega
      omega
  rw [hsize, Nat.mod_eq_of_lt (by omega)]
  unfold Math.Max
  split_ifs <;> omega

end HashMap

theorem Reachable.of_run {K V : Type} [LinearOrder K] [Inhabited K] [Inhabited V]
    {w : Nat} {H : K → Nat} :
    ∀ (ops : List (MapOp K V)) (m m' : HashMap K V), Reachable w H m →
      HashMap.run w H m ops = some m' → Reachable w H m' := by
  intro ops
  induction ops with
  | nil =>
    intro m m' hr h
    simp only [HashMap.run, Option.some.injEq] at h
    rw [← h]; exact hr
  | cons op ops ih =>
    intro m m' hr h
    simp only [HashMap.run] at h
    cases hop : HashMap.applyOp w H m op with
    | none => rw [hop] at h; simp at h
    | some m1 =>
      rw [hop] at h
      refine ih m1 m' ?_ h
      cases op with
      | set k v =>
        simp only [HashMap.applyOp, Option.map_eq_some'] at hop
        obtain ⟨⟨r, m2⟩, h1, h2⟩ := hop
        simp only at h2
        subst h2
        exact Reachable.set hr h1
      | remove k =>
        simp only [HashMap.applyOp, Option.map_eq_some'] at hop
        obtain ⟨⟨r, m2⟩, h1, h2⟩ := hop
        simp only at h2
        subst h2
        exact Reachable.remove hr h1

set_option maxRecDepth 100000 in
theorem sampleMap_run :
    HashMap.run 64 id (HashMap.init 64 4 : HashMap Nat Nat)
      [MapOp.set 15 15, MapOp.set 23 23, MapOp.set 31 31, MapOp.remove 23] = some sampleMap := by
  decide

theorem sampleMap_reachable : Reachable 64 id sampleMap :=
  Reachable.of_run _ _ _ (Reachable.init 4) sampleMap_run

set_option maxRecDepth 100000 in
/-- Claim C4, evaluated where the code departs from it. On `HashMap(4)` with identity hash:
after `set(1, 25)` and `clear()` key 1 is absent, yet `set(1, 90)` returns the stale 25, not
the default value 0; and after `set(1, 25)` and `remove(1)` the absent key 5, which lands on
the tombstone of key 1, gets 25 from `set(5, 90)`. -/
theorem set_absent_returns_stale_value :
    (default : Nat) = 0 ∧
    (HashMap.set 64 id (HashMap.init 64 4 : HashMap Nat Nat) 1 25).map
      (fun p => HashMap.has 64 id p.2.clear 1) = some false ∧
    ((HashMap.set 64 id (HashMap.init 64 4 : HashMap Nat Nat) 1 25).bind
      (fun p => HashMap.set 64 id p.2.clear 1 90)).map Prod.fst = some 25 ∧
    (((HashMap.set 64 id (HashMap.init 64 4 : HashMap Nat Nat) 1 25).bind
      (fun p => HashMap.remove 64 id p.2 1)).map
        (fun p => HashMap.has 64 id p.2 5)) = some false ∧
    ((((HashMap.set 64 id (HashMap.init 64 4 : HashMap Nat Nat) 1 25).bind
      (fun p => HashMap.remove 64 id p.2 1)).bind
        (fun p => HashMap.set 64 id p.2 5 90)).map Prod.fst) = some 25 := by
  decide

/-- Claim C5. For every reachable map `m` and key `k`: `get(k)` by return fails with
`KeyNotFound` carrying `k` exactly when `has(k)` is false, and otherwise returns the value
held by the occupied entry of `k`; `get(k, out)` is total, returns exactly `has(k)`, sets
`out` to that same value when it returns true and leaves it untouched otherwise. -/
theorem get_contract {K V : Type} [LinearOrder K] [Inhabited K] [Inhabited V]
    (w : Nat) (H : K → Nat) (hw : 32 ≤ w) (m : HashMap K V) (hr : Reachable w H m)
    (k : K) (out : V) :
    (HashMap.get w H m k = Except.error { key := k } ↔ HashMap.has w H m k = false) ∧
    (∀ e, HashMap.get w H m k = Except.error e → e.key = k) ∧
    (HashMap.has w H m k = true → ∃ v, HashMap.get w H m k = Except.ok v) ∧
    (∀ v, HashMap.get w H m k = Except.ok v ↔ BasicTable.Holds w m.table k v) ∧
    (HashMap.getOut w H m k out).1 = HashMap.has w H m k ∧
    (HashMap.has w H m k = true →
      HashMap.get w H m k = Except.ok (HashMap.getOut w H m k out).2) ∧
    (HashMap.has w H m k = false → (HashMap.getOut w H m k out).2 = out) := by
  have hm := hr.inv hw
  refine ⟨?_, ?_, ?_, fun v => HashMap.get_ok_iff hm k v, ?_, ?_, ?_⟩
  · rw [HashMap.get_error_iff hm, HashMap.has_false_iff hm]
  · intro e he
    rw [HashMap.get_error_key he]
  · exact (HashMap.has_eq_true_iff_get hm k).1
  · unfold HashMap.getOut HashMap.has
    cases BasicTable.get w H m.table k <;> rfl
  · unfold HashMap.getOut HashMap.has HashMap.get
    cases BasicTable.get w H m.table k with
    | none => intro h; simp at h
    | some i => intro _; rfl
  · unfold HashMap.getOut HashMap.has
    cases BasicTable.get w H m.table k with
    | none => intro _; rfl
    | some i => intro h; simp at h

/-- Witness of claim C5 on the sample map, at the removed key 23. -/
theorem get_contract_witness :
    (32 ≤ 64 ∧ Reachable 64 id sampleMap) ∧
    ((HashMap.get 64 id sampleMap 23 = Except.error { key := 23 } ↔
        HashMap.has 64 id sampleMap 23 = false) ∧
      (∀ e, HashMap.get 64 id sampleMap 23 = Except.error e → e.key = 23) ∧
      (HashMap.has 64 id sampleMap 23 = true →
        ∃ v, HashMap.get 64 id sampleMap 23 = Except.ok v) ∧
      (∀ v, HashMap.get 64 id sampleMap 23 = Except.ok v ↔
        BasicTable.Holds 64 sampleMap.table 23 v) ∧
      (HashMap.getOut 64 id sampleMap 23 8).1 = HashMap.has 64 id sampleMap 23 ∧
      (HashMap.has 64 id sampleMap 23 = true →
        HashMap.get 64 id sampleMap 23 = Except.ok (HashMap.getOut 64 id sampleMap 23 8).2) ∧
      (HashMap.has 64 id sampleMap 23 = false →
        (HashMap.getOut 64 id sampleMap 23 8).2 = 8)) :=
  ⟨⟨by decide, sampleMap_reachable⟩,
    get_contract 64 id (by decide) sampleMap sampleMap_reachable 23 8⟩

/-- Claim C6. For every reachable map `m` and key `k` present with value `v`: `remove(k)`
returns `v`; afterwards `has(k)` is false, `getSize()` is one less, and `get(k')` is the
same as before for every other key `k'`, whether or not the removal shrinks the table. -/
theorem remove_present_contract {K V : Type} [LinearOrder K] [Inhabited K] [Inhabited V]
    (w : Nat) (H : K → Nat) (hw : 32 ≤ w) (m : HashMap K V) (hr : Reachable w H m)
    (k : K) (v : V) (hk : HashMap.get w H m k = Except.ok v) :
    ∃ m', HashMap.remove w H m k = some (Except.ok v, m') ∧
      HashMap.has w H m' k = false ∧ m'.getSize + 1 = m.getSize ∧
      ∀ k', k' ≠ k → HashMap.get w H m' k' = HashMap.get w H m k' := by
  have hm := hr.inv hw
  have hv := (HashMap.get_ok_iff hm k v).1 hk
  obtain ⟨m', h1, _, h3, h4, h5, _⟩ := HashMap.remove_present hw hm k v hv v
  refine ⟨m', h1, ?_, h4, ?_⟩
  · rw [HashMap.has_false_iff h3]
    intro v' hv'
    exact ((h5 k v').1 hv').1 rfl
  · intro k' hk'
    apply HashMap.get_congr hm h3
    intro v'
    rw [h5 k' v']
    exact ⟨fun h => h.2, fun h => ⟨hk', h⟩⟩

set_option maxRecDepth 100000 in
/-- Witness of claim C6: key 15 is present with value 15 in the sample map. -/
theorem remove_present_contract_witness :
    (32 ≤ 64 ∧ Reachable 64 id sampleMap ∧ HashMap.get 64 id sampleMap 15 = Except.ok 15) ∧
    ∃ m', HashMap.remove 64 id sampleMap 15 = some (Except.ok 15, m') ∧
      HashMap.has 64 id m' 15 = false ∧ m'.getSize + 1 = sampleMap.getSize ∧
      ∀ k', k' ≠ 15 → HashMap.get 64 id m' k' = HashMap.get 64 id sampleMap k' :=
  ⟨⟨by decide, sampleMap_reachable, by rfl⟩,
    remove_present_contract 64 id (by decide) sampleMap sampleMap_reachable 15 15 (by rfl)⟩

/-- Claim C7. For every map `m` (reachable or not) and key `k` with `has(k)` false:
`remove(k)` by return fails with `KeyNotFound` carrying `k`, `remove(k, out)` returns false
and leaves `out` untouched, and both leave the very same map: same size, same capacity (no
shrink is attempted), same state, key and value in every slot. -/
theorem remove_absent_unchanged {K V : Type} [LinearOrder K] [Inhabited K] [Inhabited V]
    (w : Nat) (H : K → Nat) (m : HashMap K V) (k : K) (out : V)
    (hk : HashMap.has w H m k = false) :
    HashMap.remove w H m k = some (Except.error { key := k }, m) ∧
      HashMap.removeOut w H m k out = some (false, out, m) := by
  have hg : BasicTable.get w H m.table k = none := by
    unfold HashMap.has at hk
    cases h : BasicTable.get w H m.table k with
    | none => rfl
    | some i => rw [h] at hk; simp at hk
  have hu : BasicTable.unset w H m.table k = (m.table, none) := by
    unfold BasicTable.unset
    rw [hg]
  unfold HashMap.remove HashMap.removeOut
  rw [hu]
  exact ⟨rfl, rfl⟩

set_option maxRecDepth 100000 in
/-- Witness of claim C7: key 23 was removed from the sample map. -/
theorem remove_absent_unchanged_witness :
    HashMap.has 64 id sampleMap 23 = false ∧
    (HashMap.remove 64 id sampleMap 23 = some (Except.error { key := 23 }, sampleMap) ∧
      HashMap.removeOut 64 id sampleMap 23 8 = some (false, 8, sampleMap)) :=
  ⟨by decide, remove_absent_unchanged 64 id sampleMap 23 8 (by decide)⟩

namespace HashMap

variable {K V : Type} [LinearOrder K] [Inhabited K] [Inhabited V]

theorem IsCap_le_of_lt {c : Nat} (h : IsCap c) (hc : c < 2 ^ 31) : c ≤ 2 ^ 30 := by
  rcases h with rfl | ⟨j, _, hj, rfl⟩
  · omega
  · have : j ≤ 30 := by
      by_contra hcon
      have : j = 31 := by omega
      rw [this] at hc
      omega
    exact Nat.pow_le_pow_right (by norm_num) this

theorem enlargedCapacity_bounds {w : Nat} {H : K → Nat} {m : HashMap K V} (hm : Inv w H m) :
    m.table.capacity ≤ enlargedCapacity m ∧
      (m.table.capacity < 2 ^ 31 → enlargedCapacity m = 2 ^ 31 →
        m.table.capacity = 2 ^ 30) := by
  unfold enlargedCapacity
  constructor
  · split_ifs with h
    · exact Nat.le_of_lt h.2
    · exact Nat.le_refl _
  · intro hc he
    obtain ⟨_, _, h3⟩ := IsCap.double hm.cap hc
    have hle := IsCap_le_of_lt hm.cap hc
    split_ifs at he with h
    · by_cases h0 : m.table.capacity = 0
      · rw [h0] at he; norm_num [Math.Max] at he
      · rw [h3 h0] at he; omega
    · omega

/-- For a capacity from `4` to `2 ^ 30` the capacity after `enlarge()` is doubled exactly
when the single-precision load factor is `>= 0.7f`. -/
theorem enlargedCapacity_eq {w : Nat} {H : K → Nat} {m : HashMap K V} (hm : Inv w H m)
    (h4 : 4 ≤ m.table.capacity) (h31 : m.table.capacity < 2 ^ 31) :
    enlargedCapacity m =
      if F32.ge m.getLoadFactor (F32.lit 7 10) = true then 2 * m.table.capacity
      else m.table.capacity := by
  obtain ⟨_, h2, h3⟩ := IsCap.double hm.cap h31
  unfold enlargedCapacity
  by_cases hge : F32.ge m.getLoadFactor (F32.lit 7 10) = true
  · have hL : F32.ge m.getLoadFactor (F32.lit 7 10) = true ∧
        m.table.capacity < Math.Max (m.table.capacity * 2 % 2 ^ 32) 4 := ⟨hge, h2⟩
    rw [if_pos hL, if_pos hge, h3 (by omega)]
  · have hL : ¬ (F32.ge m.getLoadFactor (F32.lit 7 10) = true ∧
        m.table.capacity < Math.Max (m.table.capacity * 2 % 2 ^ 32) 4) := fun h => hge h.1
    rw [if_neg hL, if_neg hge]

/-- The capacity after `shrink()` is halved exactly when the single-precision load factor
is `<= 0.3f` and the capacity is at least `8`. -/
theorem shrunkCapacity_eq {w : Nat} {H : K → Nat} {m : HashMap K V} (hm : Inv w H m) :
    shrunkCapacity m =
      if F32.le m.getLoadFactor (F32.lit 3 10) = true ∧ 8 ≤ m.table.capacity
      then m.table.capacity / 2 else m.table.capacity := by
  unfold shrunkCapacity
  by_cases hle : F32.le m.getLoadFactor (F32.lit 3 10) = true
  · by_cases h8 : 8 ≤ m.table.capacity
    · have hR : F32.le m.getLoadFactor (F32.lit 3 10) = true ∧ 8 ≤ m.table.capacity :=
        ⟨hle, h8⟩
      rcases hm.cap with h0 | ⟨j, hj, hj', hc⟩
      · omega
      · have hj3 : 3 ≤ j := by
          by_contra hcon
          have : j = 2 := by omega
          rw [hc, this] at h8
          omega
        have hhalf : m.table.capacity / 2 = 2 ^ (j - 1) := by
          obtain ⟨i, hi⟩ : ∃ i, j = i + 1 := ⟨j - 1, by omega⟩
          rw [hc, hi, Nat.add_sub_cancel, Nat.pow_succ]; omega
        have h4 : 4 ≤ 2 ^ (j - 1) := by
          calc 4 = 2 ^ 2 := by norm_num
            _ ≤ 2 ^ (j - 1) := Nat.pow_le_pow_right (by norm_num) (by omega)
        have hmax : Math.Max (m.table.capacity / 2) 4 = m.table.capacity / 2 := by
          unfold Math.Max; split_ifs <;> omega
        have hsz : m.table.size < 2 ^ (j - 1) := by
          by_contra hcon
          have := not_le_threshold_of_half m j hc (by omega) (by omega)
          rw [this] at hle
          exact absurd hle (by simp)
        have hL : F32.le m.getLoadFactor (F32.lit 3 10) = true ∧
            (Math.Max (m.table.capacity / 2) 4 > m.table.size ∧
              Math.Max (m.table.capacity / 2) 4 < m.table.capacity) := by
          rw [hmax]
          exact ⟨hle, by omega, by omega⟩
        rw [if_pos hL, if_pos hR, hmax]
    · have hR : ¬ (F32.le m.getLoadFactor (F32.lit 3 10) = true ∧ 8 ≤ m.table.capacity) :=
        fun h => h8 h.2
      have hL : ¬ (F32.le m.getLoadFactor (F32.lit 3 10) = true ∧
            (Math.Max (m.table.capacity / 2) 4 > m.table.size ∧
              Math.Max (m.table.capacity / 2) 4 < m.table.capacity)) := by
        rintro ⟨_, _, h⟩
        have := (IsCap.half hm.cap h).2.1
        omega
      rw [if_neg hL, if_neg hR]
  · have hR : ¬ (F32.le m.getLoadFactor (F32.lit 3 10) = true ∧ 8 ≤ m.table.capacity) :=
      fun h => hle h.1
    have hL : ¬ (F32.le m.getLoadFactor (F32.lit 3 10) = true ∧
          (Math.Max (m.table.capacity / 2) 4 > m.table.size ∧
            Math.Max (m.table.capacity / 2) 4 < m.table.capacity)) :=
      fun h => hle h.1
    rw [if_neg hL, if_neg hR]

end HashMap

set_option maxRecDepth 100000 in
/-- Claim C10, as stated, fails: in the sample map (capacity 4, size 2) key 15 is present;
after `remove(15)` the load factor is `1 / 4 <= 0.3`, in exact arithmetic and in single
precision, yet the capacity is still 4, not 2: `shrink` clamps the request to the minimum
capacity 4. -/
theorem remove_at_minimum_capacity :
    Reachable 64 id sampleMap ∧ HashMap.has 64 id sampleMap 15 = true ∧
    sampleMap.getCapacity = 4 ∧
    10 * (sampleMap.getSize - 1) ≤ 3 * sampleMap.getCapacity ∧
    F32.le (HashMap.mk (BasicTable.unset 64 id sampleMap.table 15).1).getLoadFactor
      (F32.lit 3 10) = true ∧
    (HashMap.remove 64 id sampleMap 15).map (fun p => p.2.getCapacity) = some 4 :=
  ⟨sampleMap_reachable, by decide, by decide, by decide, by decide, by decide⟩

/-- Claim C10, amended. For every reachable map with capacity `c` and every key `k` present
with value `v`, `remove(k)` returns `v` and ends with capacity `c / 2` if `c >= 8` and the
single-precision test `getLoadFactor() <= 0.3f` succeeds on the map as `table.unset` left it
(size one less, capacity `c`), and with capacity `c` otherwise; for `c <= 2 ^ 23` that test
is exactly `10 * (s - 1) <= 3 * c`. -/
theorem shrink_policy {K V : Type} [LinearOrder K] [Inhabited K] [Inhabited V]
    (w : Nat) (H : K → Nat) (hw : 32 ≤ w) (m : HashMap K V) (hr : Reachable w H m)
    (k : K) (v : V) (hk : HashMap.get w H m k = Except.ok v) :
    (HashMap.mk (BasicTable.unset w H m.table k).1).getSize + 1 = m.getSize ∧
    (HashMap.mk (BasicTable.unset w H m.table k).1).getCapacity = m.getCapacity ∧
    (∃ m', HashMap.remove w H m k = some (Except.ok v, m') ∧
      m'.getCapacity =
        if F32.le (HashMap.mk (BasicTable.unset w H m.table k).1).getLoadFactor
            (F32.lit 3 10) = true ∧ 8 ≤ m.getCapacity
        then m.getCapacity / 2 else m.getCapacity) ∧
    (m.getCapacity ≤ 2 ^ 23 →
      (F32.le (HashMap.mk (BasicTable.unset w H m.table k).1).getLoadFactor
          (F32.lit 3 10) = true ↔
        10 * (m.getSize - 1) ≤ 3 * m.getCapacity)) := by
  have hm := hr.inv hw
  obtain ⟨i, hi, hval⟩ := (HashMap.get_ok_iff hm k v).1 hk
  obtain ⟨hu, hinvU, hpos⟩ := BasicTable.unset_of_live hm.table k i hi
  have hmU : HashMap.Inv w H (HashMap.mk (BasicTable.unset w H m.table k).1) := by
    rw [hu]; exact ⟨hinvU, hm.cap⟩
  have hsz : (BasicTable.unset w H m.table k).1.size = m.table.size - 1 := by rw [hu]; rfl
  have hcap : (BasicTable.unset w H m.table k).1.capacity = m.table.capacity := by
    rw [hu]; rfl
  obtain ⟨m', r1, _, _, _, _, r6⟩ := HashMap.remove_present hw hm k v ⟨i, hi, hval⟩ v
  refine ⟨?_, hcap, ⟨m', r1, ?_⟩, ?_⟩
  · show (BasicTable.unset w H m.table k).1.size + 1 = m.table.size
    rw [hsz]; omega
  · show m'.table.capacity = _
    rw [r6, HashMap.shrunkCapacity_eq hmU]
    show (if _ ∧ 8 ≤ (BasicTable.unset w H m.table k).1.capacity
      then (BasicTable.unset w H m.table k).1.capacity / 2
      else (BasicTable.unset w H m.table k).1.capacity) = _
    rw [hcap]
    rfl
  · intro h23
    rcases hm.cap with h0 | ⟨j, _, _, hc⟩
    · have := hi.1
      omega
    · have hj : j ≤ 23 := by
        by_contra hcon
        have : 2 ^ 24 ≤ 2 ^ j := Nat.pow_le_pow_right (by norm_num) (by omega)
        unfold HashMap.getCapacity at h23
        omega
      have := (HashMap.threshold_iff (HashMap.mk (BasicTable.unset w H m.table k).1) j
        (by rw [← hc]; exact hcap) hj hmU.size_le).2
      rw [this]
      show 10 * (BasicTable.unset w H m.table k).1.size ≤
        3 * (BasicTable.unset w H m.table k).1.capacity ↔
          10 * (m.table.size - 1) ≤ 3 * m.table.capacity
      rw [hsz, hcap]

set_option maxRecDepth 100000 in
/-- Witness of claim C10: key 31 is present with value 31 in the sample map. -/
theorem shrink_policy_witness :
    (32 ≤ 64 ∧ Reachable 64 id sampleMap ∧ HashMap.get 64 id sampleMap 31 = Except.ok 31) ∧
    ((HashMap.mk (BasicTable.unset 64 id sampleMap.table 31).1).getSize + 1 =
        sampleMap.getSize ∧
    (HashMap.mk (BasicTable.unset 64 id sampleMap.table 31).1).getCapacity =
        sampleMap.getCapacity ∧
    (∃ m', HashMap.remove 64 id sampleMap 31 = some (Except.ok 31, m') ∧
      m'.getCapacity =
        if F32.le (HashMap.mk (BasicTable.unset 64 id sampleMap.table 31).1).getLoadFactor
            (F32.lit 3 10) = true ∧ 8 ≤ sampleMap.getCapacity
        then sampleMap.getCapacity / 2 else sampleMap.getCapacity) ∧
    (sampleMap.getCapacity ≤ 2 ^ 23 →
      (F32.le (HashMap.mk (BasicTable.unset 64 id sampleMap.table 31).1).getLoadFactor
          (F32.lit 3 10) = true ↔
        10 * (sampleMap.getSize - 1) ≤ 3 * sampleMap.getCapacity))) :=
  ⟨⟨by decide, sampleMap_reachable, by rfl⟩,
    shrink_policy 64 id (by decide) sampleMap sampleMap_reachable 31 31 (by rfl)⟩

end SPL

namespace SPL

/-! ## The default hash function -/

theorem FNV1.new_hash (w : Nat) (hw : 32 ≤ w) : (FNV1.new w).hash = 0x811C9DC5 := by
  unfold FNV1.new
  apply Nat.mod_eq_of_lt
  calc 0x811C9DC5 < 2 ^ 32 := by norm_num
    _ ≤ 2 ^ w := Nat.pow_le_pow_right (by norm_num) hw

theorem Function.loop_terminated (w : Nat) (elements rest : List Int)
    (hnz : ∀ e ∈ elements, e ≠ 0) (fnv1 : FNV1) :
    Function.loop w (elements ++ 0 :: rest) fnv1 =
      some (FNV1.mk (elements.foldl
        (fun h e => (h * 0x01000193 % 2 ^ w) ^^^ toId w e) fnv1.hash)) := by
  induction elements generalizing fnv1 with
  | nil => simp [Function.loop]
  | cons e es ih =>
    have he : e ≠ 0 := hnz e (List.mem_cons_self _ _)
    have hes : ∀ x ∈ es, x ≠ 0 := fun x hx => hnz x (List.mem_cons_of_mem _ hx)
    simp only [List.cons_append, Function.loop, if_pos he, List.foldl_cons]
    exact ih hes (fnv1.next w e)

/-- The conversion of an element to `Id` done by the embedding gives the residue of the
element modulo `2 ^ w`. -/
theorem toId_eq_emod (w : Nat) (e : Int) : toId w e = (e % ((2 ^ w : Nat) : Int)).toNat := by
  have hpos : 0 < 2 ^ w := Nat.two_pow_pos w
  cases e with
  | ofNat n =>
    show n % 2 ^ w = ((n : Int) % ((2 ^ w : Nat) : Int)).toNat
    rw [← Int.natCast_mod, Int.toNat_natCast]
  | negSucc n =>
    show 2 ^ w - 1 - n % 2 ^ w = (Int.negSucc n % ((2 ^ w : Nat) : Int)).toNat
    have hlt : n % 2 ^ w < 2 ^ w := Nat.mod_lt _ hpos
    rw [Int.emod_negSucc, Int.natAbs_ofNat, Int.subNatNat_of_le (by omega),
      Int.toNat_natCast]
    omega

/-- The hash accumulated by the embedded `next` over a sequence, from the seed, is the
reference value of the sequence. -/
theorem fnv1Reference_eq_fold (w : Nat) (elements : List Int) :
    elements.foldl (fun h e => (h * 0x01000193 % 2 ^ w) ^^^ toId w e) 0x811C9DC5 =
      fnv1Reference w elements := by
  unfold fnv1Reference
  congr 1
  funext h e
  rw [toId_eq_emod]

/-- C17: on a pointer to the elements `e1 … en` (none of them zero) followed by a zero
terminator, the default hash `Function` returns `h_n`, where `h_0 = 0x811C9DC5` and
`h_i = ((h_(i-1) * 0x01000193) mod 2 ^ w) XOR e_i`, the element `e_i` being taken modulo
`2 ^ w` (its value as an `Id`); on a pointer to an empty sequence and on the null pointer it
returns the seed `0x811C9DC5`. -/
theorem Function_is_fnv1 (w : Nat) (hw : 32 ≤ w) (elements rest : List Int)
    (hnz : ∀ e ∈ elements, e ≠ 0) :
    Function w (some (elements ++ 0 :: rest)) = some (fnv1Reference w elements) ∧
      Function w (some (0 :: rest)) = some 0x811C9DC5 ∧
      Function w none = some 0x811C9DC5 := by
  have hseed := FNV1.new_hash w hw
  refine ⟨?_, ?_, ?_⟩
  · unfold Function
    simp only [Function.loop_terminated w elements rest hnz, Option.map_some', FNV1.getHash,
      hseed]
    rw [fnv1Reference_eq_fold]
  · simp [Function, Function.loop, FNV1.getHash, hseed]
  · simp [Function, FNV1.getHash, hseed]

set_option maxRecDepth 100000 in
/-- Witness of C17 on the characters of `"abc"`, whose hash at 64 bits is
`0xfb2e14ee439c2f4b`, and on the negative element `-1`, which enters the hash as
`2 ^ 64 - 1`. -/
theorem Function_is_fnv1_witness :
    (32 ≤ 64 ∧ ∀ e ∈ [(97 : Int), 98, 99], e ≠ 0) ∧
    (fnv1Reference 64 [97, 98, 99] = 0xfb2e14ee439c2f4b ∧
      fnv1Reference 64 [-1] = 0xff7ee296faf3a2e0 ∧
      fnv1Reference 32 [-1] = 0xfaf3a2e0 ∧
      Function 64 (some [-1, 0]) = some 0xff7ee296faf3a2e0 ∧
      Function 64 (some [97, 98, 99, 0]) ≠ Function 64 (some [120, 121, 122, 0])) ∧
    (Function 64 (some ([97, 98, 99] ++ 0 :: [100])) = some (fnv1Reference 64 [97, 98, 99]) ∧
      Function 64 (some (0 :: [100])) = some 0x811C9DC5 ∧
      Function 64 none = some 0x811C9DC5) :=
  ⟨⟨by decide, by decide⟩, by decide,
    Function_is_fnv1 64 (by decide) [97, 98, 99] [100] (by decide)⟩

end SPL

namespace SPL

/-! ## `NP2` on the values from `1` to `2 ^ 31` -/

theorem NP2_eq_size (w v : Nat) (hw : 32 ≤ w) (h1 : 1 ≤ v) (hv : v ≤ 2 ^ 31) :
    NP2 w v = 2 ^ Nat.size (v - 1) ∧ Nat.size (v - 1) ≤ 31 := by
  have e : (v + 2 ^ 32 - 1) % 2 ^ 32 = v - 1 := by omega
  have hs : Nat.size (v - 1) ≤ 31 := by rw [Nat.size_le]; omega
  have hp : 2 ^ Nat.size (v - 1) ≤ 2 ^ 31 := Nat.pow_le_pow_right (by norm_num) hs
  rw [NP2_eq w v hw, e, Nat.mod_eq_of_lt (by omega)]
  exact ⟨rfl, hs⟩

theorem NP2_le_two_pow (w v i : Nat) (hw : 32 ≤ w) (h1 : 1 ≤ v) (hv : v ≤ 2 ^ 31)
    (hi : v ≤ 2 ^ i) : NP2 w v ≤ 2 ^ i := by
  rw [(NP2_eq_size w v hw h1 hv).1]
  apply Nat.pow_le_pow_right (by norm_num)
  rw [Nat.size_le]
  have : 0 < 2 ^ i := by positivity
  omega

theorem le_NP2 (w v : Nat) (hw : 32 ≤ w) (h1 : 1 ≤ v) (hv : v ≤ 2 ^ 31) : v ≤ NP2 w v := by
  rw [(NP2_eq_size w v hw h1 hv).1]
  have := Nat.lt_size_self (v - 1)
  omega

theorem NP2_lt_double (w v : Nat) (hw : 32 ≤ w) (h1 : 1 ≤ v) (hv : v ≤ 2 ^ 31) :
    NP2 w v < 2 * v := by
  rw [(NP2_eq_size w v hw h1 hv).1]
  by_cases hv1 : v = 1
  · subst hv1; simp
  · have hpos : 0 < Nat.size (v - 1) := by
      rw [Nat.size_pos]; omega
    obtain ⟨s, hs⟩ : ∃ s, Nat.size (v - 1) = s + 1 := ⟨Nat.size (v - 1) - 1, by omega⟩
    have hlt : s < Nat.size (v - 1) := by omega
    rw [Nat.lt_size] at hlt
    rw [hs, Nat.pow_succ]
    omega

/-- C20: for every value `v` with `1 <= v <= 2 ^ 31`, `NP2(v)` is a power of two with
`v <= NP2(v) < 2 * v`, it is the smallest power of two not below `v`, it leaves every power
of two unchanged, and applying it twice is applying it once. -/
theorem NP2_smallest_power_of_two (w v : Nat) (hw : 32 ≤ w) (h1 : 1 ≤ v) (hv : v ≤ 2 ^ 31) :
    (∃ j, j ≤ 31 ∧ NP2 w v = 2 ^ j) ∧ v ≤ NP2 w v ∧ NP2 w v < 2 * v ∧
      (∀ i, v ≤ 2 ^ i → NP2 w v ≤ 2 ^ i) ∧ (∀ i, v = 2 ^ i → NP2 w v = v) ∧
      NP2 w (NP2 w v) = NP2 w v := by
  have hsz := NP2_eq_size w v hw h1 hv
  have hle := le_NP2 w v hw h1 hv
  have hmin : ∀ i, v ≤ 2 ^ i → NP2 w v ≤ 2 ^ i := fun i hi => NP2_le_two_pow w v i hw h1 hv hi
  refine ⟨⟨_, hsz.2, hsz.1⟩, hle, NP2_lt_double w v hw h1 hv, hmin, ?_, ?_⟩
  · intro i hi
    have := hmin i (Nat.le_of_eq hi)
    omega
  · have hp : NP2 w v ≤ 2 ^ 31 := by
      rw [hsz.1]; exact Nat.pow_le_pow_right (by norm_num) hsz.2
    have h1' : 1 ≤ NP2 w v := Nat.le_trans h1 hle
    apply le_antisymm
    · have := NP2_le_two_pow w (NP2 w v) (Nat.size (v - 1)) hw h1' hp (Nat.le_of_eq hsz.1)
      rw [← hsz.1] at this
      exact this
    · exact le_NP2 w (NP2 w v) hw h1' hp

set_option maxRecDepth 100000 in
theorem NP2_smallest_power_of_two_witness :
    (∃ j, j ≤ 31 ∧ NP2 64 5 = 2 ^ j) ∧ 5 ≤ NP2 64 5 ∧ NP2 64 5 < 2 * 5 ∧
      (∀ i, 5 ≤ 2 ^ i → NP2 64 5 ≤ 2 ^ i) ∧ (∀ i, 5 = 2 ^ i → NP2 64 5 = 5) ∧
      NP2 64 (NP2 64 5) = NP2 64 5 :=
  NP2_smallest_power_of_two 64 5 (by decide) (by decide) (by decide)

end SPL

namespace SPL

/-! ## The set facade: `add` and `remove` through the lemmas on the map facade -/

namespace HashSet

variable {T : Type} [LinearOrder T] [Inhabited T]

theorem add_eq (w : Nat) (H : T → Nat) (s : HashSet T) (k : T) :
    add w H s k = (HashMap.enlarge w (HashMap.mk s.table)).map
      (fun m1 => HashSet.mk (BasicTable.set w H m1.table k).1) := by
  unfold add HashMap.enlarge
  have e1 : HashMap.getLoadFactor (HashMap.mk s.table) = s.getLoadFactor := rfl
  have e2 : HashMap.getCapacity (HashMap.mk s.table) = s.getCapacity := rfl
  rw [e1, e2]
  by_cases h : F32.ge s.getLoadFactor (F32.lit 7 10) = true
  · simp only [if_pos h]
    cases BasicTable.enlarge w s.table (s.getCapacity * 2 % 2 ^ 32) <;> rfl
  · simp only [if_neg h]
    rfl

theorem remove_eq (w : Nat) (H : T → Nat) (s : HashSet T) (k : T) :
    remove w H s k =
      match BasicTable.unset w H s.table k with
      | (t, some _) =>
        (HashMap.shrink w (HashMap.mk t)).map (fun m1 => (true, HashSet.mk m1.table))
      | (_, none) => some (false, s) := by
  unfold remove HashMap.shrink
  rcases hu : BasicTable.unset w H s.table k with ⟨t, _ | i⟩
  · rfl
  · have e1 : HashMap.getLoadFactor (HashMap.mk t) = (HashSet.mk t).getLoadFactor := rfl
    have e2 : HashMap.getCapacity (HashMap.mk t) = (HashSet.mk t).getCapacity := rfl
    simp only [e1, e2]
    by_cases h : F32.le (HashSet.mk t).getLoadFactor (F32.lit 3 10) = true
    · simp only [if_pos h]
      cases BasicTable.shrink w t (getCapacity (HashSet.mk t) / 2) <;> rfl
    · simp only [if_neg h]
      rfl

/-- Everything `add(value)` does on a set whose table satisfies the invariant. -/
theorem add_spec {w : Nat} {H : T → Nat} {s : HashSet T} (hw : 32 ≤ w)
    (hs : HashMap.Inv w H (HashMap.mk s.table)) (k : T) :
    ∃ s', add w H s k = some s' ∧ HashMap.Inv w H (HashMap.mk s'.table) ∧
      s'.table.capacity = HashMap.enlargedCapacity (HashMap.mk s.table) ∧
      s.table.size ≤ s'.table.size ∧ s'.table.size ≤ s.table.size + 1 := by
  obtain ⟨m1, he, hm1, hsz, _, _, hcap⟩ := HashMap.enlarge_spec hw hs
  rw [add_eq, he]
  refine ⟨_, rfl, ?_⟩
  show HashMap.Inv w H (HashMap.mk (BasicTable.set w H m1.table k).1) ∧
    (BasicTable.set w H m1.table k).1.capacity = _ ∧
    s.table.size ≤ (BasicTable.set w H m1.table k).1.size ∧
    (BasicTable.set w H m1.table k).1.size ≤ s.table.size + 1
  have hsz' : m1.table.size = s.table.size := hsz
  rcases BasicTable.set_cases hm1.table k with
    ⟨i, _, hset⟩ | ⟨_, j, _, _, hset, hinv2⟩ | ⟨_, _, hset⟩
  · rw [hset]
    exact ⟨hm1, hcap, Nat.le_of_eq hsz'.symm, Nat.le_trans (Nat.le_of_eq hsz') (Nat.le_succ _)⟩
  · rw [hset]
    refine ⟨⟨hinv2, hm1.cap⟩, hcap, ?_, ?_⟩
    · show s.table.size ≤ m1.table.size + 1
      omega
    · show m1.table.size + 1 ≤ s.table.size + 1
      omega
  · rw [hset]
    exact ⟨hm1, hcap, Nat.le_of_eq hsz'.symm, Nat.le_trans (Nat.le_of_eq hsz') (Nat.le_succ _)⟩

/-- Everything `remove(value)` does on a set whose table satisfies the invariant. -/
theorem remove_spec {w : Nat} {H : T → Nat} {s : HashSet T} (hw : 32 ≤ w)
    (hs : HashMap.Inv w H (HashMap.mk s.table)) (k : T) :
    ∃ b s', remove w H s k = some (b, s') ∧ HashMap.Inv w H (HashMap.mk s'.table) ∧
      (s'.table.capacity = s.table.capacity ∨
        s'.table.capacity = Math.Max (s.table.capacity / 2) 4) := by
  rw [remove_eq]
  by_cases hl : ∃ i, BasicTable.Live w s.table k i
  · obtain ⟨i, hi⟩ := hl
    obtain ⟨hu, hinvU, _⟩ := BasicTable.unset_of_live hs.table k i hi
    rw [hu]
    have hU : HashMap.Inv w H (HashMap.mk (BasicTable.withEntry s.table i
        (BasicTable.tombstone w s.table i) (s.table.size - 1))) := ⟨hinvU, hs.cap⟩
    obtain ⟨m1, hsh, hm1, _, _, hcap⟩ := HashMap.shrink_spec hw hU
    simp only [hsh, Option.map_some']
    refine ⟨true, _, rfl, hm1, ?_⟩
    show m1.table.capacity = s.table.capacity ∨ _
    rw [hcap]
    split_ifs
    · exact Or.inr rfl
    · exact Or.inl rfl
  · have habs : ∀ i, ¬ BasicTable.Live w s.table k i := fun i hi => hl ⟨i, hi⟩
    rw [BasicTable.unset_of_absent hs.table k habs]
    exact ⟨false, s, rfl, hs, Or.inl rfl⟩

end HashSet

end SPL

namespace SPL

/-! ## The capacity of a container created by an explicit constructor -/

theorem Math.four_le_Max (c : Nat) : 4 ≤ Math.Max c 4 := by
  unfold Math.Max
  split_ifs <;> omega

theorem BasicTable.unset_capacity {K V : Type} [LinearOrder K] [Inhabited K] [Inhabited V]
    (w : Nat) (H : K → Nat) (t : BasicTable K V) (k : K) :
    (BasicTable.unset w H t k).1.capacity = t.capacity := by
  unfold BasicTable.unset
  cases BasicTable.get w H t k <;> rfl

namespace HashMap

variable {K V : Type} [LinearOrder K] [Inhabited K] [Inhabited V]

theorem four_le_shrunkCapacity (m : HashMap K V) (h4 : 4 ≤ m.table.capacity) :
    4 ≤ shrunkCapacity m := by
  unfold shrunkCapacity
  split_ifs
  · exact Math.four_le_Max _
  · exact h4

theorem four_le_of_set {w : Nat} {H : K → Nat} {m m' : HashMap K V} (hw : 32 ≤ w)
    (hm : Inv w H m) (h4 : 4 ≤ m.table.capacity) {k : K} {v r : V}
    (h : set w H m k v = some (r, m')) : 4 ≤ m'.table.capacity := by
  rcases set_spec hw hm k v with ⟨r1, m1, h1, _, _, _, _, _, hcap⟩ | ⟨h1, _⟩
  · rw [h1] at h
    simp only [Option.some.injEq, Prod.mk.injEq] at h
    rw [← h.2, hcap]
    exact Nat.le_trans h4 (enlargedCapacity_bounds hm).1
  · rw [h1] at h; simp at h

theorem four_le_of_subscript {w : Nat} {H : K → Nat} {m m' : HashMap K V} (hw : 32 ≤ w)
    (hm : Inv w H m) (h4 : 4 ≤ m.table.capacity) {k : K} {i : Nat}
    (h : subscript w H m k = some (i, m')) : 4 ≤ m'.table.capacity := by
  rcases subscript_spec hw hm k with ⟨i1, m1, h1, _, _, _, _, _, hcap⟩ | ⟨h1, _⟩
  · rw [h1] at h
    simp only [Option.some.injEq, Prod.mk.injEq] at h
    rw [← h.2, hcap]
    exact Nat.le_trans h4 (enlargedCapacity_bounds hm).1
  · rw [h1] at h; simp at h

theorem four_le_of_remove {w : Nat} {H : K → Nat} {m : HashMap K V} (hw : 32 ≤ w)
    (hm : Inv w H m) (h4 : 4 ≤ m.table.capacity) (k : K) (out : V) :
    (∀ r m', remove w H m k = some (r, m') → 4 ≤ m'.table.capacity) ∧
      (∀ b v m', removeOut w H m k out = some (b, v, m') → 4 ≤ m'.table.capacity) := by
  by_cases hp : ∃ v0, BasicTable.Holds w m.table k v0
  · obtain ⟨v0, hv0⟩ := hp
    obtain ⟨m1, h1, h2, _, _, _, hcap⟩ := remove_present hw hm k v0 hv0 out
    have h41 : 4 ≤ m1.table.capacity := by
      rw [hcap]
      apply four_le_shrunkCapacity
      show 4 ≤ (BasicTable.unset w H m.table k).1.capacity
      rw [BasicTable.unset_capacity]
      exact h4
    constructor
    · intro r m' h
      rw [h1] at h
      simp only [Option.some.injEq, Prod.mk.injEq] at h
      rw [← h.2]; exact h41
    · intro b v m' h
      rw [h2] at h
      simp only [Option.some.injEq, Prod.mk.injEq] at h
      rw [← h.2.2]; exact h41
  · have habs : ∀ v0, ¬ BasicTable.Holds w m.table k v0 := fun v0 h => hp ⟨v0, h⟩
    obtain ⟨h1, h2⟩ := remove_absent hm k habs out
    constructor
    · intro r m' h
      rw [h1] at h
      simp only [Option.some.injEq, Prod.mk.injEq] at h
      rw [← h.2]; exact h4
    · intro b v m' h
      rw [h2] at h
      simp only [Option.some.injEq, Prod.mk.injEq] at h
      rw [← h.2.2]; exact h4

theorem four_le_of_run {w : Nat} {H : K → Nat} (hw : 32 ≤ w) :
    ∀ (ops : List (MapOp K V)) (m m' : HashMap K V), Reachable w H m →
      4 ≤ m.table.capacity → run w H m ops = some m' → 4 ≤ m'.table.capacity := by
  intro ops
  induction ops with
  | nil =>
    intro m m' _ h4 h
    simp only [run, Option.some.injEq] at h
    rw [← h]; exact h4
  | cons op ops ih =>
    intro m m' hr h4 h
    simp only [run] at h
    cases hop : applyOp w H m op with
    | none => rw [hop] at h; simp at h
    | some m1 =>
      rw [hop] at h
      have hr1 : Reachable w H m1 := Reachable.of_run [op] m m1 hr (by simp [run, hop])
      refine ih m1 m' hr1 ?_ h
      cases op with
      | set k v =>
        simp only [applyOp, Option.map_eq_some', Prod.exists, exists_eq_right] at hop
        obtain ⟨r, hset⟩ := hop
        exact four_le_of_set hw (Reachable.inv hw hr) h4 hset
      | remove k =>
        simp only [applyOp, Option.map_eq_some', Prod.exists, exists_eq_right] at hop
        obtain ⟨r, hrem⟩ := hop
        exact (four_le_of_remove hw (Reachable.inv hw hr) h4 k default).1 r m1 hrem

end HashMap

end SPL

namespace SPL

theorem ReachableSet.inv_set {T : Type} [LinearOrder T] [Inhabited T] {w : Nat} {H : T → Nat}
    (hw : 32 ≤ w) {s : HashSet T} (h : ReachableSet w H s) :
    HashMap.Inv w H (HashMap.mk s.table) := by
  induction h with
  | init capacity => exact HashMap.Inv.init_facade w H hw capacity
  | empty => exact HashMap.Inv.empty_facade w H
  | add _ hadd ih =>
    obtain ⟨s1, h1, h2, _⟩ := HashSet.add_spec hw ih _
    rw [h1] at hadd
    simp only [Option.some.injEq] at hadd
    rw [← hadd]; exact h2
  | remove _ hrem ih =>
    obtain ⟨b, s1, h1, h2, _⟩ := HashSet.remove_spec hw ih _
    rw [h1] at hrem
    simp only [Option.some.injEq, Prod.mk.injEq] at hrem
    rw [← hrem.2]; exact h2
  | clear _ ih => exact HashMap.Inv.clear_facade ih
  | copy _ hcopy ih =>
    unfold HashSet.copy at hcopy
    simp only [Option.map_eq_some'] at hcopy
    obtain ⟨t, ht, rfl⟩ := hcopy
    exact HashMap.Inv.copy_table hw ih ht

theorem HashSet.of_adds {T : Type} [LinearOrder T] [Inhabited T] {w : Nat} {H : T → Nat}
    (hw : 32 ≤ w) :
    ∀ (values : List T) (s0 s : HashSet T), ReachableSet w H s0 → 4 ≤ s0.table.capacity →
      values.foldl (fun s value => s.bind (fun s => HashSet.add w H s value)) (some s0) =
        some s →
      ReachableSet w H s ∧ 4 ≤ s.table.capacity := by
  intro values
  induction values with
  | nil =>
    intro s0 s hr h4 h
    simp only [List.foldl_nil, Option.some.injEq] at h
    rw [← h]; exact ⟨hr, h4⟩
  | cons v vs ih =>
    intro s0 s hr h4 h
    obtain ⟨s1, h1, _, hcap, _⟩ := HashSet.add_spec hw (ReachableSet.inv_set hw hr) v
    simp only [List.foldl_cons, Option.some_bind, h1] at h
    refine ih s1 s (ReachableSet.add hr h1) ?_ h
    rw [hcap]
    exact Nat.le_trans h4 (HashMap.enlargedCapacity_bounds (ReachableSet.inv_set hw hr)).1

theorem Constructed.to_reachable {K V : Type} [LinearOrder K] [Inhabited K] [Inhabited V]
    {w : Nat} {H : K → Nat} (hw : 32 ≤ w) {m : HashMap K V} (h : Constructed w H m) :
    Reachable w H m ∧ 4 ≤ m.table.capacity := by
  induction h with
  | init capacity => exact ⟨Reachable.init capacity, Math.four_le_Max _⟩
  | literal hlit =>
    exact ⟨Reachable.of_run _ _ _ (Reachable.init _) hlit,
      HashMap.four_le_of_run hw _ _ _ (Reachable.init _) (Math.four_le_Max _) hlit⟩
  | set _ hset ih =>
    exact ⟨Reachable.set ih.1 hset, HashMap.four_le_of_set hw (Reachable.inv hw ih.1) ih.2 hset⟩
  | subscript _ hsub ih =>
    exact ⟨Reachable.subscript ih.1 hsub,
      HashMap.four_le_of_subscript hw (Reachable.inv hw ih.1) ih.2 hsub⟩
  | assign v _ hget ih => exact ⟨Reachable.assign v ih.1 hget, ih.2⟩
  | remove _ hrem ih =>
    exact ⟨Reachable.remove ih.1 hrem,
      (HashMap.four_le_of_remove hw (Reachable.inv hw ih.1) ih.2 _ default).1 _ _ hrem⟩
  | removeOut _ hrem ih =>
    exact ⟨Reachable.removeOut ih.1 hrem,
      (HashMap.four_le_of_remove hw (Reachable.inv hw ih.1) ih.2 _ _).2 _ _ _ hrem⟩
  | clear _ ih => exact ⟨Reachable.clear ih.1, ih.2⟩

theorem ConstructedSet.to_reachable_set {T : Type} [LinearOrder T] [Inhabited T]
    {w : Nat} {H : T → Nat} (hw : 32 ≤ w) {s : HashSet T} (h : ConstructedSet w H s) :
    ReachableSet w H s ∧ 4 ≤ s.table.capacity := by
  induction h with
  | init capacity => exact ⟨ReachableSet.init capacity, Math.four_le_Max _⟩
  | literal hlit =>
    exact HashSet.of_adds hw _ _ _ (ReachableSet.init _) (Math.four_le_Max _) hlit
  | add _ hadd ih =>
    refine ⟨ReachableSet.add ih.1 hadd, ?_⟩
    obtain ⟨s1, h1, _, hcap, _⟩ := HashSet.add_spec hw (ReachableSet.inv_set hw ih.1) _
    rw [h1] at hadd
    simp only [Option.some.injEq] at hadd
    rw [← hadd, hcap]
    exact Nat.le_trans ih.2 (HashMap.enlargedCapacity_bounds (ReachableSet.inv_set hw ih.1)).1
  | remove _ hrem ih =>
    refine ⟨ReachableSet.remove ih.1 hrem, ?_⟩
    obtain ⟨b, s1, h1, _, hcap⟩ := HashSet.remove_spec hw (ReachableSet.inv_set hw ih.1) _
    rw [h1] at hrem
    simp only [Option.some.injEq, Prod.mk.injEq] at hrem
    rw [← hrem.2]
    rcases hcap with hc | hc
    · rw [hc]; exact ih.2
    · rw [hc]; exact Math.four_le_Max _
  | clear _ ih => exact ⟨ReachableSet.clear ih.1, ih.2⟩

theorem IsCap.two_pow_of_four_le {c : Nat} (h : IsCap c) (h4 : 4 ≤ c) :
    ∃ j, 2 ≤ j ∧ j ≤ 31 ∧ c = 2 ^ j := by
  rcases h with h0 | h
  · omega
  · exact h

/-- C19: a `HashMap` or `HashSet` created by an explicit constructor (capacity hint or
literal batch) has, after any finite sequence of `set`/`add`, `operator[]`, `remove` and
`clear` calls, a capacity that is a power of two and is at least `4`. -/
theorem capacity_power_of_two {K V : Type} [LinearOrder K] [Inhabited K] [Inhabited V]
    (w : Nat) (hw : 32 ≤ w) (H : K → Nat) (m : HashMap K V) (s : HashSet K)
    (hm : Constructed w H m) (hs : ConstructedSet w H s) :
    ((∃ j, m.getCapacity = 2 ^ j) ∧ 4 ≤ m.getCapacity) ∧
      ((∃ j, s.getCapacity = 2 ^ j) ∧ 4 ≤ s.getCapacity) := by
  constructor
  · obtain ⟨hr, h4⟩ := Constructed.to_reachable hw hm
    obtain ⟨j, _, _, hj⟩ := IsCap.two_pow_of_four_le (Reachable.inv hw hr).cap h4
    exact ⟨⟨j, hj⟩, h4⟩
  · obtain ⟨hr, h4⟩ := ConstructedSet.to_reachable_set hw hs
    obtain ⟨j, _, _, hj⟩ := IsCap.two_pow_of_four_le (ReachableSet.inv_set hw hr).cap h4
    exact ⟨⟨j, hj⟩, h4⟩

end SPL

namespace SPL

/-! ## Iteration over a table -/

namespace EntryIterator

variable {K V : Type} [LinearOrder K] [Inhabited K] [Inhabited V]

/-- What the loop of `findNext` returns from the slot `index` on, `n` slots before the end of
the array: the first occupied slot at or after `index`, if there is one. -/
theorem findNextLoop_spec (w : Nat) (t : BasicTable K V) (hb : t.capacity < 2 ^ 32) :
    ∀ (n : Nat) (self : EntryIterator K V), self.table = t → self.index + n = t.capacity →
      findNextLoop w n self =
        match (List.range' self.index n).filter
          (fun i => decide ((BasicTable.entryAt w t i).state = EntryState.Occupied)) with
        | [] => (none, { self with index := t.capacity })
        | i :: _ => (some i, { self with index := i + 1, count := (self.count + 1) % 2 ^ 32 }) := by
  intro n
  induction n with
  | zero =>
    intro self ht hi
    obtain ⟨table, count, index⟩ := self
    simp only [Nat.add_zero] at hi
    simp only [findNextLoop, List.range'_zero, List.filter_nil]
    rw [← hi]
  | succ n ih =>
    intro self ht hi
    obtain ⟨table, count, index⟩ := self
    simp only at ht hi
    subst ht
    have hlt : index < table.capacity := by omega
    have hmod : (index + 1) % 2 ^ 32 = index + 1 := Nat.mod_eq_of_lt (by omega)
    simp only [findNextLoop, if_pos hlt, hmod, List.range'_succ]
    by_cases hocc : (BasicTable.entryAt w table index).state = EntryState.Occupied
    · rw [if_pos hocc, List.filter_cons_of_pos (by simpa using hocc)]
    · rw [if_neg hocc, List.filter_cons_of_neg (by simpa using hocc)]
      rw [ih { table := table, count := count, index := index + 1 } rfl (by simp only; omega)]

end EntryIterator

end SPL

namespace SPL

theorem filter_range'_cons (p : Nat → Bool) :
    ∀ (n a i : Nat) (tl : List Nat), (List.range' a n).filter p = i :: tl →
      a ≤ i ∧ i < a + n ∧ p i = true ∧
        (List.range' (i + 1) (a + n - (i + 1))).filter p = tl := by
  intro n
  induction n with
  | zero => intro a i tl h; simp at h
  | succ n ih =>
    intro a i tl h
    rw [List.range'_succ] at h
    by_cases hp : p a = true
    · rw [List.filter_cons_of_pos hp] at h
      simp only [List.cons.injEq] at h
      obtain ⟨h1, h2⟩ := h
      subst h1
      refine ⟨Nat.le_refl _, by omega, hp, ?_⟩
      have e : a + (n + 1) - (a + 1) = n := by omega
      rw [e]; exact h2
    · rw [List.filter_cons_of_neg hp] at h
      obtain ⟨h1, h2, h3, h4⟩ := ih (a + 1) i tl h
      refine ⟨by omega, by omega, h3, ?_⟩
      have e : a + (n + 1) - (i + 1) = a + 1 + n - (i + 1) := by omega
      rw [e]; exact h4

namespace EntryIterator

variable {K V : Type} [LinearOrder K] [Inhabited K] [Inhabited V]

/-- The client loop, from an iterator that has `slots.length` occupied slots ahead: it
returns these slots in order, and no call of `next()` fails. -/
theorem drain_spec (w : Nat) (t : BasicTable K V) (hb : t.capacity < 2 ^ 32)
    (hs : t.size < 2 ^ 32) :
    ∀ (slots : List Nat) (self : EntryIterator K V) (fuel : Nat), self.table = t →
      self.index ≤ t.capacity →
      (List.range' self.index (t.capacity - self.index)).filter
        (fun i => decide ((BasicTable.entryAt w t i).state = EntryState.Occupied)) = slots →
      self.count + slots.length = t.size → slots.length < fuel →
      drain w fuel self = some (Except.ok slots) := by
  intro slots
  induction slots with
  | nil =>
    intro self fuel ht hi hf hc hfuel
    obtain ⟨f, rfl⟩ : ∃ f, fuel = f + 1 := ⟨fuel - 1, by simp at hfuel; omega⟩
    have hn : self.hasNext = false := by
      simp only [hasNext, ht, decide_eq_false_iff_not]
      simp at hc; omega
    simp only [drain, hn]
    rfl
  | cons i tl ih =>
    intro self fuel ht hi hf hc hfuel
    obtain ⟨f, rfl⟩ : ∃ f, fuel = f + 1 := ⟨fuel - 1, by simp at hfuel; omega⟩
    simp only [List.length_cons] at hc hfuel
    have hn : self.hasNext = true := by
      simp only [hasNext, ht, decide_eq_true_eq]
      omega
    have hfind := findNextLoop_spec w t hb (t.capacity - self.index) self ht (by omega)
    rw [hf] at hfind
    simp only at hfind
    obtain ⟨h1, h2, h3, h4⟩ := filter_range'_cons _ _ _ _ _ hf
    have hcount : (self.count + 1) % 2 ^ 32 = self.count + 1 := Nat.mod_eq_of_lt (by omega)
    have hnext : next w self =
        (Except.ok i, { self with index := i + 1, count := self.count + 1 }) := by
      unfold next findNext
      rw [ht, hfind, hcount]
      simp only [ht]
    simp only [drain, hn, if_true, hnext]
    rw [ih { self with index := i + 1, count := self.count + 1 } f ht (by simp only; omega)
      (by
        simp only
        have e : self.index + (t.capacity - self.index) - (i + 1) = t.capacity - (i + 1) := by
          omega
        rw [← e]; exact h4)
      (by simp only; omega) (by omega)]
    rfl

end EntryIterator

end SPL

namespace SPL

theorem countP_eq_length_filter_range {α : Type} (p : α → Bool) (d : α) :
    ∀ l : List α,
      ((List.range l.length).filter (fun i => p (l.getD i d))).length = l.countP p := by
  intro l
  induction l with
  | nil => simp
  | cons e l ih =>
    rw [List.length_cons, List.range_succ_eq_map, List.countP_cons, ← ih]
    have hmap : (List.map Nat.succ (List.range l.length)).filter
        (fun i => p ((e :: l).getD i d)) =
        List.map Nat.succ ((List.range l.length).filter (fun i => p (l.getD i d))) := by
      rw [List.filter_map]
      rfl
    by_cases hp : p e = true
    · rw [List.filter_cons_of_pos (by simpa using hp), List.length_cons, hmap,
        List.length_map, if_pos hp]
    · rw [List.filter_cons_of_neg (by simpa using hp), hmap, List.length_map, if_neg hp,
        Nat.add_zero]

namespace BasicTable

variable {K V : Type} [LinearOrder K] [Inhabited K] [Inhabited V]

theorem occupiedSlots_length (w : Nat) (t : BasicTable K V)
    (hlen : t.entries.length = t.capacity) :
    (occupiedSlots w t).length = occupiedCount t.entries := by
  unfold occupiedSlots occupiedCount entryAt
  rw [← hlen]
  exact countP_eq_length_filter_range
    (fun e : HashEntry K V => decide (e.state = EntryState.Occupied)) (HashEntry.empty w)
    t.entries

theorem mem_occupiedSlots (w : Nat) (t : BasicTable K V) (i : Nat) :
    i ∈ occupiedSlots w t ↔ i < t.capacity ∧ (entryAt w t i).state = EntryState.Occupied := by
  unfold occupiedSlots
  simp [List.mem_filter, List.mem_range]

theorem occupiedSlots_increasing (w : Nat) (t : BasicTable K V) :
    (occupiedSlots w t).Pairwise (fun i j => i < j) :=
  List.Pairwise.filter _ (List.pairwise_lt_range _)

theorem mem_keys_occupiedSlots (w : Nat) (t : BasicTable K V) (k : K) :
    k ∈ (occupiedSlots w t).map (fun i => (entryAt w t i).key) ↔ ∃ i, Live w t k i := by
  simp only [List.mem_map, mem_occupiedSlots, Live]
  constructor
  · rintro ⟨i, ⟨h1, h2⟩, h3⟩; exact ⟨i, h1, h2, h3⟩
  · rintro ⟨i, h1, h2, h3⟩; exact ⟨i, ⟨h1, h2⟩, h3⟩

end BasicTable

namespace EntryIterator

variable {K V : Type} [LinearOrder K] [Inhabited K] [Inhabited V]

/-- Along an iteration the iterator has returned `count` entries and `size - count`
occupied slots are ahead of `index`. -/
theorem Reached.inv_iterator {w : Nat} {H : K → Nat} {t : BasicTable K V} (ht : BasicTable.Inv w H t)
    {self : EntryIterator K V} (h : Reached w t self) :
    self.table = t ∧ self.index ≤ t.capacity ∧
      self.count + ((List.range' self.index (t.capacity - self.index)).filter
        (fun i => decide ((BasicTable.entryAt w t i).state = EntryState.Occupied))).length =
        t.size := by
  have hsize : t.size < 2 ^ 32 := by
    rw [ht.size_eq]
    have := BasicTable.occupiedCount_le t.entries
    have := ht.len
    have := ht.bound
    omega
  induction h with
  | fresh =>
    refine ⟨rfl, Nat.zero_le _, ?_⟩
    show 0 + ((List.range' 0 (t.capacity - 0)).filter _).length = t.size
    rw [Nat.zero_add, Nat.sub_zero, ← List.range_eq_range', ht.size_eq,
      ← BasicTable.occupiedSlots_length w t ht.len]
    rfl
  | @next self0 self1 index _ hnext ih =>
    obtain ⟨h1, h2, h3⟩ := ih
    have hfind := findNextLoop_spec w t ht.bound (t.capacity - self0.index) self0 h1
      (by omega)
    unfold EntryIterator.next findNext at hnext
    rw [h1, hfind] at hnext
    cases hL : (List.range' self0.index (t.capacity - self0.index)).filter
        (fun i => decide ((BasicTable.entryAt w t i).state = EntryState.Occupied)) with
    | nil =>
      rw [hL] at hnext
      simp at hnext
    | cons i tl =>
      rw [hL] at hnext h3
      simp only [Prod.mk.injEq, Except.ok.injEq, List.length_cons] at hnext h3
      obtain ⟨a1, a2, a3, a4⟩ := filter_range'_cons _ _ _ _ _ hL
      have hcount : (self0.count + 1) % 2 ^ 32 = self0.count + 1 :=
        Nat.mod_eq_of_lt (by omega)
      rw [← hnext.2]
      refine ⟨h1, by simp only; omega, ?_⟩
      simp only [hcount]
      have e : self0.index + (t.capacity - self0.index) - (i + 1) = t.capacity - (i + 1) := by
        omega
      rw [← e, a4]
      omega

end EntryIterator

end SPL

namespace SPL

/-! ## Sample containers built by the literal constructors -/

set_option maxRecDepth 100000 in
theorem sampleLiteral_ofPairs :
    HashMap.ofPairs 64 id [(15, 15), (23, 23), (31, 31)] = some sampleLiteral := by
  decide

set_option maxRecDepth 100000 in
theorem sampleSet_ofValues : HashSet.ofValues 64 id [15, 23, 31] = some sampleSet := by
  decide

theorem sampleLiteral_constructed : Constructed 64 id sampleLiteral :=
  Constructed.literal sampleLiteral_ofPairs

theorem sampleSet_constructed : ConstructedSet 64 id sampleSet :=
  ConstructedSet.literal sampleSet_ofValues

theorem sampleSet_reachable : ReachableSet 64 id sampleSet :=
  (ConstructedSet.to_reachable_set (by decide) sampleSet_constructed).1

end SPL

namespace SPL

namespace EntryIterator

variable {K V : Type} [LinearOrder K] [Inhabited K] [Inhabited V]

/-- Everything the client loop does on a fresh iterator over a table that satisfies the
invariant. -/
theorem drain_new {w : Nat} {H : K → Nat} {t : BasicTable K V} (ht : BasicTable.Inv w H t) :
    (∀ fuel, BasicTable.occupiedCount t.entries < fuel →
      drain w fuel (EntryIterator.new t) = some (Except.ok (BasicTable.occupiedSlots w t))) ∧
    (BasicTable.occupiedSlots w t).length = BasicTable.occupiedCount t.entries ∧
    BasicTable.occupiedCount t.entries = t.size ∧
    (∀ i ∈ BasicTable.occupiedSlots w t,
      i < t.capacity ∧ (BasicTable.entryAt w t i).state = EntryState.Occupied) ∧
    (BasicTable.occupiedSlots w t).Pairwise (fun i j => i < j) ∧
    (BasicTable.occupiedSlots w t).Nodup ∧
    (∀ k, (BasicTable.get w H t k).isSome = true ↔
      k ∈ (BasicTable.occupiedSlots w t).map (fun i => (BasicTable.entryAt w t i).key)) := by
  have hlen := BasicTable.occupiedSlots_length w t ht.len
  have hsize : t.size < 2 ^ 32 := by
    rw [ht.size_eq]
    have := BasicTable.occupiedCount_le t.entries
    have := ht.len
    have := ht.bound
    omega
  have hinc := BasicTable.occupiedSlots_increasing w t
  refine ⟨?_, hlen, ht.size_eq.symm, fun i hi => (BasicTable.mem_occupiedSlots w t i).1 hi,
    hinc, hinc.imp (fun h => Nat.ne_of_lt h), ?_⟩
  · intro fuel hfuel
    apply drain_spec w t ht.bound hsize _ _ fuel rfl (Nat.zero_le _)
    · show List.filter _ (List.range' 0 (t.capacity - 0)) = _
      rw [Nat.sub_zero, ← List.range_eq_range']
      rfl
    · show 0 + _ = _
      rw [Nat.zero_add, hlen, ht.size_eq]
    · rw [hlen]; exact hfuel
  · intro k
    rw [BasicTable.mem_keys_occupiedSlots, Option.isSome_iff_exists]
    constructor
    · rintro ⟨i, hi⟩; exact ⟨i, (BasicTable.get_eq_some_iff ht k i).1 hi⟩
    · rintro ⟨i, hi⟩; exact ⟨i, (BasicTable.get_eq_some_iff ht k i).2 hi⟩

/-- On an iterator over a table that satisfies the invariant, `next()` throws exactly when
`hasNext()` is false. -/
theorem next_error_iff {w : Nat} {H : K → Nat} {t : BasicTable K V}
    (ht : BasicTable.Inv w H t) {self : EntryIterator K V} (h : Reached w t self) :
    (next w self).1 = Except.error {} ↔ self.hasNext = false := by
  obtain ⟨h1, h2, h3⟩ := Reached.inv_iterator ht h
  have hfind := findNextLoop_spec w t ht.bound (t.capacity - self.index) self h1 (by omega)
  unfold next findNext hasNext
  rw [h1, hfind]
  cases hL : (List.range' self.index (t.capacity - self.index)).filter
      (fun i => decide ((BasicTable.entryAt w t i).state = EntryState.Occupied)) with
  | nil =>
    rw [hL] at h3
    simp only [List.length_nil, Nat.add_zero] at h3
    simp only [decide_eq_false_iff_not, true_iff]
    omega
  | cons i tl =>
    rw [hL] at h3
    simp only [List.length_cons] at h3
    simp only [decide_eq_false_iff_not, reduceCtorEq, false_iff, not_not]
    omega

end EntryIterator

end SPL

namespace SPL

/-! ## The claim on `clear` -/

theorem BasicTable.clear_clear {K V : Type} (t : BasicTable K V) :
    BasicTable.clear (BasicTable.clear t) = BasicTable.clear t := by
  simp [BasicTable.clear, Function.comp_def]

/-- C13: for every reachable map or set, after `clear()` the size is `0`, `isEmpty()` is
true, the capacity is the capacity before the call and `has(k)` is false for every key `k`;
calling `clear()` twice leaves the same state as calling it once. -/
theorem clear_contract {K V : Type} [LinearOrder K] [Inhabited K] [Inhabited V]
    (w : Nat) (hw : 32 ≤ w) (H : K → Nat) (m : HashMap K V) (s : HashSet K)
    (hm : Reachable w H m) (hs : ReachableSet w H s) :
    (m.clear.getSize = 0 ∧ m.clear.isEmpty = true ∧ m.clear.getCapacity = m.getCapacity ∧
      (∀ k, HashMap.has w H m.clear k = false) ∧ m.clear.clear = m.clear) ∧
    (s.clear.getSize = 0 ∧ s.clear.isEmpty = true ∧ s.clear.getCapacity = s.getCapacity ∧
      (∀ k, HashSet.has w H s.clear k = false) ∧ s.clear.clear = s.clear) := by
  have h1 := HashMap.Inv.clear_facade (Reachable.inv hw hm)
  have h2 := HashMap.Inv.clear_facade (ReachableSet.inv_set hw hs)
  refine ⟨⟨rfl, rfl, rfl, ?_, ?_⟩, ⟨rfl, rfl, rfl, ?_, ?_⟩⟩
  · intro k
    rw [HashMap.has_false_iff h1]
    exact fun v => BasicTable.not_Holds_clear w m.table k v
  · show HashMap.mk (BasicTable.clear (BasicTable.clear m.table)) = _
    rw [BasicTable.clear_clear]
    rfl
  · intro k
    show HashMap.has w H (HashMap.mk s.table).clear k = false
    rw [HashMap.has_false_iff h2]
    exact fun v => BasicTable.not_Holds_clear w s.table k v
  · show HashSet.mk (BasicTable.clear (BasicTable.clear s.table)) = _
    rw [BasicTable.clear_clear]
    rfl

/-- Witness of claim C13 on the sample map and the sample set. -/
theorem clear_contract_witness :
    (32 ≤ 64 ∧ Reachable 64 id sampleMap ∧ ReachableSet 64 id sampleSet) ∧
    (sampleMap.clear.getSize = 0 ∧ sampleMap.clear.isEmpty = true ∧
      sampleMap.clear.getCapacity = sampleMap.getCapacity ∧
      (∀ k, HashMap.has 64 id sampleMap.clear k = false) ∧
      sampleMap.clear.clear = sampleMap.clear) ∧
    (sampleSet.clear.getSize = 0 ∧ sampleSet.clear.isEmpty = true ∧
      sampleSet.clear.getCapacity = sampleSet.getCapacity ∧
      (∀ k, HashSet.has 64 id sampleSet.clear k = false) ∧
      sampleSet.clear.clear = sampleSet.clear) :=
  ⟨⟨by decide, sampleMap_reachable, sampleSet_reachable⟩,
    clear_contract 64 (by decide) id sampleMap sampleSet sampleMap_reachable
      sampleSet_reachable⟩

end SPL

namespace SPL

/-! ## Construction from a capacity hint or from a literal -/

theorem NP2_zero (w : Nat) (hw : 32 ≤ w) : NP2 w 0 = 0 := by
  rw [NP2_eq w 0 hw]
  have hs : Nat.size ((0 + 2 ^ 32 - 1) % 2 ^ 32) = 32 := by
    apply le_antisymm
    · rw [Nat.size_le]; norm_num
    · have : 31 < Nat.size ((0 + 2 ^ 32 - 1) % 2 ^ 32) := by
        rw [Nat.lt_size]; norm_num
      omega
  rw [hs]
  norm_num

/-- The capacity `Max(NP2(c), 4)` is the smallest power of two that is at least `c` and at
least `4`. -/
theorem Max_NP2_smallest (w c : Nat) (hw : 32 ≤ w) (hc : c ≤ 2 ^ 31) :
    (∃ j, Math.Max (NP2 w c) 4 = 2 ^ j) ∧ c ≤ Math.Max (NP2 w c) 4 ∧
      4 ≤ Math.Max (NP2 w c) 4 ∧
      ∀ i, c ≤ 2 ^ i → 4 ≤ 2 ^ i → Math.Max (NP2 w c) 4 ≤ 2 ^ i := by
  have h4 := Math.four_le_Max (NP2 w c)
  obtain ⟨j, _, _, hj⟩ := IsCap.two_pow_of_four_le (IsCap_NP2 w c hw) h4
  refine ⟨⟨j, hj⟩, ?_, h4, ?_⟩
  · by_cases h0 : c = 0
    · omega
    · have := le_NP2 w c hw (by omega) hc
      unfold Math.Max
      split_ifs <;> omega
  · intro i hi hi4
    by_cases h0 : c = 0
    · rw [h0, NP2_zero w hw]
      unfold Math.Max
      split_ifs <;> omega
    · have := NP2_le_two_pow w c i hw (by omega) hc hi
      unfold Math.Max
      split_ifs <;> omega

namespace HashMap

variable {K V : Type} [LinearOrder K] [Inhabited K] [Inhabited V]

/-- At capacity `4` with at most two entries `enlarge()` keeps the capacity. -/
theorem enlargedCapacity_at_four {w : Nat} {H : K → Nat} {m : HashMap K V}
    (hm : Inv w H m) (hc : m.table.capacity = 4) (hs : m.table.size ≤ 2) :
    enlargedCapacity m = 4 := by
  rw [enlargedCapacity_eq hm (by omega) (by rw [hc]; norm_num)]
  have hth := (threshold_iff m 2 (by rw [hc]; norm_num) (by norm_num) (by omega)).1
  have hneg : ¬ F32.ge m.getLoadFactor (F32.lit 7 10) = true := by
    rw [hth]; omega
  rw [if_neg hneg, hc]

theorem set_at_four {w : Nat} {H : K → Nat} {m : HashMap K V} (hw : 32 ≤ w)
    (hm : Inv w H m) (hc : m.table.capacity = 4) (hs : m.table.size ≤ 2) (k : K) (v : V) :
    ∃ r m', set w H m k v = some (r, m') ∧ Inv w H m' ∧ m'.table.capacity = 4 ∧
      m'.table.size ≤ m.table.size + 1 := by
  rcases set_spec hw hm k v with ⟨r, m', h1, h2, _, _, h5, h6, hcap⟩ | ⟨_, _, _, h31⟩
  · refine ⟨r, m', h1, h2, by rw [hcap]; exact enlargedCapacity_at_four hm hc hs, ?_⟩
    by_cases hp : ∃ v0, BasicTable.Holds w m.table k v0
    · obtain ⟨v0, hv0⟩ := hp
      rw [(h5 v0 hv0).2]; omega
    · rw [h6 (fun v0 h => hp ⟨v0, h⟩)]
  · rw [hc] at h31; norm_num at h31

/-- The literal constructor on three pairs returns a map of capacity `4`. -/
theorem ofPairs_three {w : Nat} (H : K → Nat) (hw : 32 ≤ w) (pairs : List (K × V))
    (hl : pairs.length = 3) :
    ∃ m, ofPairs w H pairs = some m ∧ m.getCapacity = 4 := by
  obtain ⟨p1, p2, p3, rfl⟩ : ∃ p1 p2 p3, pairs = [p1, p2, p3] := by
    match pairs, hl with
    | [p1, p2, p3], _ => exact ⟨p1, p2, p3, rfl⟩
  have h0 : Inv w H (init w 3 : HashMap K V) := Inv.init_facade w H hw 3
  have hc0 : (init w 3 : HashMap K V).table.capacity = 4 := by
    show Math.Max (NP2 w 3) 4 = 4
    have := NP2_le_two_pow w 3 2 hw (by norm_num) (by norm_num) (by norm_num)
    unfold Math.Max
    split_ifs <;> omega
  have hs0 : (init w 3 : HashMap K V).table.size = 0 := rfl
  obtain ⟨r1, m1, e1, i1, c1, s1⟩ := set_at_four hw h0 hc0 (by omega) p1.1 p1.2
  obtain ⟨r2, m2, e2, i2, c2, s2⟩ := set_at_four hw i1 c1 (by omega) p2.1 p2.2
  obtain ⟨r3, m3, e3, i3, c3, s3⟩ := set_at_four hw i2 c2 (by omega) p3.1 p3.2
  refine ⟨m3, ?_, c3⟩
  simp [ofPairs, run, applyOp, e1, e2, e3]

end HashMap

/-- The literal constructor on three values returns a set of capacity `4`. -/
theorem HashSet.ofValues_three {T : Type} [LinearOrder T] [Inhabited T] {w : Nat}
    (H : T → Nat) (hw : 32 ≤ w) (values : List T) (hl : values.length = 3) :
    ∃ s, HashSet.ofValues w H values = some s ∧ s.getCapacity = 4 := by
  obtain ⟨p1, p2, p3, rfl⟩ : ∃ p1 p2 p3, values = [p1, p2, p3] := by
    match values, hl with
    | [p1, p2, p3], _ => exact ⟨p1, p2, p3, rfl⟩
  have h0 : HashMap.Inv w H (HashMap.mk (HashSet.init w 3 : HashSet T).table) :=
    HashMap.Inv.init_facade w H hw 3
  have hc0 : (HashSet.init w 3 : HashSet T).table.capacity = 4 := by
    show Math.Max (NP2 w 3) 4 = 4
    have := NP2_le_two_pow w 3 2 hw (by norm_num) (by norm_num) (by norm_num)
    unfold Math.Max
    split_ifs <;> omega
  have hs0 : (HashSet.init w 3 : HashSet T).table.size = 0 := rfl
  obtain ⟨s1, e1, i1, c1, _, z1⟩ := HashSet.add_spec hw h0 p1
  rw [HashMap.enlargedCapacity_at_four h0 hc0 (by show (HashSet.init w 3 : HashSet T).table.size ≤ 2; omega)] at c1
  obtain ⟨s2, e2, i2, c2, _, z2⟩ := HashSet.add_spec hw i1 p2
  rw [HashMap.enlargedCapacity_at_four i1 c1 (by show s1.table.size ≤ 2; omega)] at c2
  obtain ⟨s3, e3, i3, c3, _, z3⟩ := HashSet.add_spec hw i2 p3
  rw [HashMap.enlargedCapacity_at_four i2 c2 (by show s2.table.size ≤ 2; omega)] at c3
  refine ⟨s3, ?_, c3⟩
  simp [HashSet.ofValues, e1, e2, e3]

end SPL

namespace SPL

/-- C18: for every requested capacity `c` with `0 <= c <= 2 ^ 31`, `HashMap(c)` and
`HashSet(c)` construct an empty container (size `0`, `isEmpty()` true, `has(k)` false for
every key) whose capacity is `Max(NP2(c), 4)`, the smallest power of two that is at least
`c` and at least `4`; `HashMap(8)` has capacity `8`, and a map or set built from a
three-element literal has capacity `4`. -/
theorem construct_capacity {K V : Type} [LinearOrder K] [Inhabited K] [Inhabited V]
    (w : Nat) (hw : 32 ≤ w) (H : K → Nat) (c : Nat) (hc : c ≤ 2 ^ 31) :
    ((HashMap.init w c : HashMap K V).getSize = 0 ∧
      (HashMap.init w c : HashMap K V).isEmpty = true ∧
      (∀ k, HashMap.has w H (HashMap.init w c : HashMap K V) k = false) ∧
      (HashMap.init w c : HashMap K V).getCapacity = Math.Max (NP2 w c) 4) ∧
    ((HashSet.init w c : HashSet K).getSize = 0 ∧
      (HashSet.init w c : HashSet K).isEmpty = true ∧
      (∀ k, HashSet.has w H (HashSet.init w c : HashSet K) k = false) ∧
      (HashSet.init w c : HashSet K).getCapacity = Math.Max (NP2 w c) 4) ∧
    ((∃ j, Math.Max (NP2 w c) 4 = 2 ^ j) ∧ c ≤ Math.Max (NP2 w c) 4 ∧
      4 ≤ Math.Max (NP2 w c) 4 ∧
      ∀ i, c ≤ 2 ^ i → 4 ≤ 2 ^ i → Math.Max (NP2 w c) 4 ≤ 2 ^ i) ∧
    (HashMap.init w 8 : HashMap K V).getCapacity = 8 ∧
    (∀ pairs : List (K × V), pairs.length = 3 →
      ∃ m, HashMap.ofPairs w H pairs = some m ∧ m.getCapacity = 4) ∧
    (∀ values : List K, values.length = 3 →
      ∃ s, HashSet.ofValues w H values = some s ∧ s.getCapacity = 4) := by
  refine ⟨⟨rfl, rfl, fun k => HashMap.has_init_false w H hw c k, rfl⟩,
    ⟨rfl, rfl, fun k => ?_, rfl⟩, Max_NP2_smallest w c hw hc,
    HashMap.init_capacity_two_pow w hw 3 (by norm_num) (by norm_num),
    fun pairs hl => HashMap.ofPairs_three H hw pairs hl,
    fun values hl => HashSet.ofValues_three H hw values hl⟩
  exact HashMap.has_init_false w H hw c k

set_option maxRecDepth 100000 in
/-- Witness of claim C18 at the capacity hint `5`, which gives capacity `8`. -/
theorem construct_capacity_witness :
    (32 ≤ 64 ∧ 5 ≤ 2 ^ 31) ∧
    (HashMap.init 64 5 : HashMap Nat Nat).getCapacity = 8 ∧
    (HashSet.init 64 5 : HashSet Nat).getCapacity = 8 ∧
    (∀ i, 5 ≤ 2 ^ i → 4 ≤ 2 ^ i → 8 ≤ 2 ^ i) ∧
    (∀ pairs : List (Nat × Nat), pairs.length = 3 →
      ∃ m, HashMap.ofPairs 64 id pairs = some m ∧ m.getCapacity = 4) :=
  ⟨⟨by decide, by decide⟩,
    (construct_capacity (K := Nat) (V := Nat) 64 (by decide) id 5 (by decide)).1.2.2.2,
    (construct_capacity (K := Nat) (V := Nat) 64 (by decide) id 5 (by decide)).2.1.2.2.2,
    (construct_capacity (K := Nat) (V := Nat) 64 (by decide) id 5 (by decide)).2.2.1.2.2.2,
    (construct_capacity (K := Nat) (V := Nat) 64 (by decide) id 5 (by decide)).2.2.2.2.1⟩

end SPL

namespace SPL

/-- Witness of claim C19 on the map and the set built by the literal constructors. -/
theorem capacity_power_of_two_witness :
    (32 ≤ 64 ∧ Constructed 64 id sampleLiteral ∧ ConstructedSet 64 id sampleSet) ∧
    ((∃ j, sampleLiteral.getCapacity = 2 ^ j) ∧ 4 ≤ sampleLiteral.getCapacity) ∧
      ((∃ j, sampleSet.getCapacity = 2 ^ j) ∧ 4 ≤ sampleSet.getCapacity) :=
  ⟨⟨by decide, sampleLiteral_constructed, sampleSet_constructed⟩,
    capacity_power_of_two 64 (by decide) id sampleLiteral sampleSet sampleLiteral_constructed
      sampleSet_constructed⟩

end SPL

namespace SPL

/-! ## One call at a capacity up to `2 ^ 23`: exact size, capacity and keys -/

namespace HashMap

variable {K V : Type} [LinearOrder K] [Inhabited K] [Inhabited V]

theorem Tracks.of_init (w : Nat) (H : K → Nat) (hw : 32 ≤ w) (c : Nat) :
    Tracks w H (init w c : HashMap K V) ∅ (Math.Max (NP2 w c) 4) 0 :=
  ⟨Inv.init_facade w H hw c, rfl, rfl, fun k => by
    rw [has_init_false w H hw c k]; simp⟩

/-- Method `set` of an absent key at a capacity `2 ^ j`, `2 <= j <= 23`: the size grows by one
and the capacity doubles exactly when `7 * capacity <= 10 * size` before the call. -/
theorem Tracks.set {w : Nat} {H : K → Nat} {m : HashMap K V} {keys : Finset K} {c n : Nat}
    (hw : 32 ≤ w) (h : Tracks w H m keys c n) (j : Nat) (hc : c = 2 ^ j) (hj2 : 2 ≤ j)
    (hj : j ≤ 23) (k : K) (v : V) (hk : k ∉ keys) :
    ∃ r m', HashMap.set w H m k v = some (r, m') ∧
      Tracks w H m' (insert k keys) (if 7 * c ≤ 10 * n then 2 * c else c) (n + 1) := by
  obtain ⟨hm, hcap, hsize, hhas⟩ := h
  have hc4 : 4 ≤ c := by
    rw [hc]
    calc 4 = 2 ^ 2 := by norm_num
      _ ≤ 2 ^ j := Nat.pow_le_pow_right (by norm_num) hj2
  have hc23 : c ≤ 2 ^ 23 := by rw [hc]; exact Nat.pow_le_pow_right (by norm_num) hj
  have habs : ∀ v0, ¬ BasicTable.Holds w m.table k v0 := by
    intro v0 hv0
    exact hk ((hhas k).1 ((has_iff hm k).2 ⟨v0, hv0⟩))
  rcases set_spec hw hm k v with ⟨r, m', h1, h2, h3, h4, _, h6, hcap'⟩ | ⟨_, _, _, h31⟩
  · refine ⟨r, m', h1, h2, ?_, ?_, ?_⟩
    · rw [hcap', enlargedCapacity_eq hm (by omega) (by rw [hcap]; omega)]
      have hth := (threshold_iff m j (by rw [hcap]; exact hc) hj hm.size_le).1
      by_cases hge : F32.ge m.getLoadFactor (F32.lit 7 10) = true
      · rw [if_pos hge, if_pos (by rw [← hcap, ← hsize]; exact hth.1 hge), hcap]
      · rw [if_neg hge, if_neg (by rw [← hcap, ← hsize]; exact fun h => hge (hth.2 h)), hcap]
    · rw [h6 habs, hsize]
    · intro k'
      rw [has_iff h2, Finset.mem_insert]
      by_cases hkk : k' = k
      · subst hkk
        exact ⟨fun _ => Or.inl rfl, fun _ => ⟨v, h3⟩⟩
      · constructor
        · rintro ⟨v', hv'⟩
          exact Or.inr ((hhas k').1 ((has_iff hm k').2 ⟨v', (h4 k' v' hkk).1 hv'⟩))
        · rintro (h | h)
          · exact absurd h hkk
          · obtain ⟨v', hv'⟩ := (has_iff hm k').1 ((hhas k').2 h)
            exact ⟨v', (h4 k' v' hkk).2 hv'⟩
  · rw [hcap] at h31; omega

/-- Method `remove` of a present key at a capacity `2 ^ j`, `2 <= j <= 23`: the size drops
by one and the capacity halves exactly when `10 * size <= 3 * capacity` after the removal
and the capacity is at least `8`. -/
theorem Tracks.remove {w : Nat} {H : K → Nat} {m : HashMap K V} {keys : Finset K} {c n : Nat}
    (hw : 32 ≤ w) (h : Tracks w H m keys c n) (j : Nat) (hc : c = 2 ^ j) (hj2 : 2 ≤ j)
    (hj : j ≤ 23) (k : K) (hk : k ∈ keys) :
    ∃ v m', HashMap.remove w H m k = some (Except.ok v, m') ∧
      (HashMap.mk (BasicTable.unset w H m.table k).1).getCapacity = c ∧
      (HashMap.mk (BasicTable.unset w H m.table k).1).getSize = n - 1 ∧
      Tracks w H m' (keys.erase k) (if 10 * (n - 1) ≤ 3 * c ∧ 8 ≤ c then c / 2 else c)
        (n - 1) := by
  obtain ⟨hm, hcap, hsize, hhas⟩ := h
  obtain ⟨v0, hv0⟩ := (has_iff hm k).1 ((hhas k).2 hk)
  obtain ⟨m', h1, _, h2, h3, h4, hcap'⟩ := remove_present hw hm k v0 hv0 default
  obtain ⟨i, hi, _⟩ := hv0
  obtain ⟨hu, hinvU, hpos⟩ := BasicTable.unset_of_live hm.table k i hi
  rw [hu] at hcap'
  have hU : Inv w H (HashMap.mk (BasicTable.withEntry m.table i
      (BasicTable.tombstone w m.table i) (m.table.size - 1))) := ⟨hinvU, hm.cap⟩
  have hUc : (HashMap.mk (BasicTable.withEntry m.table i
      (BasicTable.tombstone w m.table i) (m.table.size - 1))).table.capacity = c := hcap
  have hUs : (HashMap.mk (BasicTable.withEntry m.table i
      (BasicTable.tombstone w m.table i) (m.table.size - 1))).table.size = n - 1 := by
    show m.table.size - 1 = n - 1
    rw [hsize]
  refine ⟨v0, m', h1, by rw [hu]; exact hUc, by rw [hu]; exact hUs, h2, ?_, ?_, ?_⟩
  · rw [hcap', shrunkCapacity_eq hU]
    have hth := (threshold_iff _ j (by rw [hUc]; exact hc) hj hU.size_le).2
    rw [hUc, hUs] at hth
    by_cases hle : F32.le (getLoadFactor (HashMap.mk (BasicTable.withEntry m.table i
        (BasicTable.tombstone w m.table i) (m.table.size - 1)))) (F32.lit 3 10) = true
    · by_cases h8 : 8 ≤ c
      · rw [if_pos ⟨hle, by rw [hUc]; exact h8⟩, if_pos ⟨hth.1 hle, h8⟩, hUc]
      · rw [if_neg (fun h => h8 (by rw [← hUc]; exact h.2)), if_neg (fun h => h8 h.2), hUc]
    · rw [if_neg (fun h => hle h.1), if_neg (fun h => hle (hth.2 h.1)), hUc]
  · omega
  · intro k'
    rw [has_iff h2, Finset.mem_erase]
    constructor
    · rintro ⟨v', hv'⟩
      obtain ⟨hne, hold⟩ := (h4 k' v').1 hv'
      exact ⟨hne, (hhas k').1 ((has_iff hm k').2 ⟨v', hold⟩)⟩
    · rintro ⟨hne, hmem⟩
      obtain ⟨v', hv'⟩ := (has_iff hm k').1 ((hhas k').2 hmem)
      exact ⟨v', (h4 k' v').2 ⟨hne, hv'⟩⟩

end HashMap

end SPL

namespace SPL

/-! ## The scenario of the test-suite: three insertions, an enlargement, a shrink -/

set_option maxRecDepth 100000 in
theorem f32_fractions :
    F32.lit 3 4 = F32.fin (3 * 2 ^ 147) ∧ F32.lit 1 2 = F32.fin (4 * 2 ^ 146) ∧
      F32.lit 1 4 = F32.fin (2 * 2 ^ 146) := by
  decide

/-- C12: starting from an empty map of capacity `4`, inserting three distinct keys gives size
`3`, capacity `4` and load factor `0.75`; inserting a fourth key enlarges the table: capacity
`8`, size `4`, load factor `0.5`; removing the second key leaves size `3` at capacity `8`,
and removing the fourth gives size `2`, whose load factor `0.25` at capacity `8` makes the
table shrink back to capacity `4`. -/
theorem scenario_enlarge_then_shrink {K V : Type} [LinearOrder K] [Inhabited K] [Inhabited V]
    (w : Nat) (hw : 32 ≤ w) (H : K → Nat) (ka kd kg kj : K) (v1 v2 v3 v4 : V)
    (hd : [ka, kd, kg, kj].Nodup) :
    ∃ m3 m4 m5 m6 : HashMap K V,
      HashMap.run w H (HashMap.init w 4)
        [MapOp.set ka v1, MapOp.set kd v2, MapOp.set kg v3] = some m3 ∧
      m3.getSize = 3 ∧ m3.getCapacity = 4 ∧ m3.getLoadFactor = F32.lit 3 4 ∧
      HashMap.run w H m3 [MapOp.set kj v4] = some m4 ∧
      m4.getSize = 4 ∧ m4.getCapacity = 8 ∧ m4.getLoadFactor = F32.lit 1 2 ∧
      HashMap.run w H m4 [MapOp.remove kd] = some m5 ∧
      m5.getSize = 3 ∧ m5.getCapacity = 8 ∧
      (HashMap.mk (BasicTable.unset w H m5.table kj).1).getSize = 2 ∧
      (HashMap.mk (BasicTable.unset w H m5.table kj).1).getCapacity = 8 ∧
      (HashMap.mk (BasicTable.unset w H m5.table kj).1).getLoadFactor = F32.lit 1 4 ∧
      HashMap.run w H m5 [MapOp.remove kj] = some m6 ∧
      m6.getSize = 2 ∧ m6.getCapacity = 4 := by
  simp only [List.nodup_cons, List.mem_cons, List.mem_singleton, not_or, List.not_mem_nil,
    not_false_eq_true, List.nodup_nil, and_true] at hd
  obtain ⟨⟨n1, n2, n3⟩, ⟨n4, n5⟩, n6⟩ := hd
  have hc0 : Math.Max (NP2 w 4) 4 = 4 := by
    have := HashMap.init_capacity_two_pow (K := K) (V := V) w hw 2 (by norm_num) (by norm_num)
    norm_num at this
    exact this
  have t0 : HashMap.Tracks w H (HashMap.init w 4 : HashMap K V) ∅ 4 0 := by
    have := HashMap.Tracks.of_init (K := K) (V := V) w H hw 4
    rw [hc0] at this
    exact this
  obtain ⟨r1, m1, e1, t1⟩ := t0.set hw 2 (by norm_num) (by norm_num) (by norm_num) ka v1
    (by simp)
  have c1 : (if 7 * 4 ≤ 10 * 0 then 2 * 4 else 4) = 4 := by norm_num
  rw [c1] at t1
  obtain ⟨r2, m2, e2, t2⟩ := t1.set hw 2 (by norm_num) (by norm_num) (by norm_num) kd v2
    (by simp [Ne.symm n1])
  have c2 : (if 7 * 4 ≤ 10 * (0 + 1) then 2 * 4 else 4) = 4 := by norm_num
  rw [c2] at t2
  obtain ⟨r3, m3, e3, t3⟩ := t2.set hw 2 (by norm_num) (by norm_num) (by norm_num) kg v3
    (by simp [Ne.symm n2, Ne.symm n4])
  have c3 : (if 7 * 4 ≤ 10 * (0 + 1 + 1) then 2 * 4 else 4) = 4 := by norm_num
  rw [c3] at t3
  obtain ⟨r4, m4, e4, t4⟩ := t3.set hw 2 (by norm_num) (by norm_num) (by norm_num) kj v4
    (by simp [Ne.symm n3, Ne.symm n5, Ne.symm n6])
  have c4 : (if 7 * 4 ≤ 10 * (0 + 1 + 1 + 1) then 2 * 4 else 4) = 8 := by norm_num
  rw [c4] at t4
  obtain ⟨r5, m5, e5, _, _, t5⟩ := t4.remove hw 3 (by norm_num) (by norm_num) (by norm_num) kd
    (by simp)
  have c5 : (if 10 * (0 + 1 + 1 + 1 + 1 - 1) ≤ 3 * 8 ∧ 8 ≤ 8 then 8 / 2 else 8) = 8 := by
    norm_num
  rw [c5] at t5
  obtain ⟨r6, m6, e6, u1, u2, t6⟩ := t5.remove hw 3 (by norm_num) (by norm_num) (by norm_num)
    kj (by simp [n5, Ne.symm n5])
  have c6 : (if 10 * (0 + 1 + 1 + 1 + 1 - 1 - 1) ≤ 3 * 8 ∧ 8 ≤ 8 then 8 / 2 else 8) = 4 := by
    norm_num
  rw [c6] at t6
  have hlf3 : m3.getLoadFactor = F32.lit 3 4 := by
    rw [HashMap.getLoadFactor_exact m3 2 (by rw [t3.2.1]; norm_num) (by norm_num)
      t3.1.size_le (by rw [t3.2.2.1]; norm_num), t3.2.2.1, f32_fractions.1]
  have hlf4 : m4.getLoadFactor = F32.lit 1 2 := by
    rw [HashMap.getLoadFactor_exact m4 3 (by rw [t4.2.1]; norm_num) (by norm_num)
      t4.1.size_le (by rw [t4.2.2.1]; norm_num), t4.2.2.1, f32_fractions.2.1]
  have hlfU : (HashMap.mk (BasicTable.unset w H m5.table kj).1).getLoadFactor =
      F32.lit 1 4 := by
    have hUc : (HashMap.mk (BasicTable.unset w H m5.table kj).1).table.capacity = 8 := u1
    have hUs : (HashMap.mk (BasicTable.unset w H m5.table kj).1).table.size = 2 := u2
    rw [HashMap.getLoadFactor_exact _ 3 (by rw [hUc]; norm_num) (by norm_num)
      (by rw [hUc, hUs]; norm_num) (by rw [hUs]; norm_num), hUs, f32_fractions.2.2]
  refine ⟨m3, m4, m5, m6, ?_, t3.2.2.1, t3.2.1, hlf3, ?_, t4.2.2.1, t4.2.1, hlf4, ?_,
    t5.2.2.1, t5.2.1, u2, u1, hlfU, ?_, t6.2.2.1, t6.2.1⟩
  · simp [HashMap.run, HashMap.applyOp, e1, e2, e3]
  · simp [HashMap.run, HashMap.applyOp, e4]
  · simp [HashMap.run, HashMap.applyOp, e5]
  · simp [HashMap.run, HashMap.applyOp, e6]

end SPL

namespace SPL

/-- Witness of claim C12: the scenario on the keys `"abc"`, `"def"`, `"ghi"`, `"jkl"` (the
pointers `1`, `2`, `3`, `4` into `literals`) under the default hash function, with the values
`1.5`, `2.5`, `3.5`, `4.5`. -/
theorem scenario_enlarge_then_shrink_witness :
    (32 ≤ 64 ∧ [1, 2, 3, 4].Nodup) ∧
    ∃ m3 m4 m5 m6 : HashMap Nat F32,
      HashMap.run 64 (literalHash 64) (HashMap.init 64 4)
        [MapOp.set 1 (F32.lit 3 2), MapOp.set 2 (F32.lit 5 2), MapOp.set 3 (F32.lit 7 2)] =
        some m3 ∧
      m3.getSize = 3 ∧ m3.getCapacity = 4 ∧ m3.getLoadFactor = F32.lit 3 4 ∧
      HashMap.run 64 (literalHash 64) m3 [MapOp.set 4 (F32.lit 9 2)] = some m4 ∧
      m4.getSize = 4 ∧ m4.getCapacity = 8 ∧ m4.getLoadFactor = F32.lit 1 2 ∧
      HashMap.run 64 (literalHash 64) m4 [MapOp.remove 2] = some m5 ∧
      m5.getSize = 3 ∧ m5.getCapacity = 8 ∧
      (HashMap.mk (BasicTable.unset 64 (literalHash 64) m5.table 4).1).getSize = 2 ∧
      (HashMap.mk (BasicTable.unset 64 (literalHash 64) m5.table 4).1).getCapacity = 8 ∧
      (HashMap.mk (BasicTable.unset 64 (literalHash 64) m5.table 4).1).getLoadFactor =
        F32.lit 1 4 ∧
      HashMap.run 64 (literalHash 64) m5 [MapOp.remove 4] = some m6 ∧
      m6.getSize = 2 ∧ m6.getCapacity = 4 :=
  ⟨⟨by decide, by decide⟩,
    scenario_enlarge_then_shrink 64 (by decide) (literalHash 64) 1 2 3 4
      (F32.lit 3 2) (F32.lit 5 2) (F32.lit 7 2) (F32.lit 9 2) (by decide)⟩

end SPL

namespace SPL

/-! ## Insertion of a key whose first probe is a free slot -/

namespace HashMap

variable {K V : Type} [LinearOrder K] [Inhabited K] [Inhabited V]

theorem enlarge_of_low (w : Nat) (m : HashMap K V) (j : Nat) (hc : m.table.capacity = 2 ^ j)
    (hj : j ≤ 23) (hs : m.table.size ≤ m.table.capacity)
    (hlow : 10 * m.table.size < 7 * m.table.capacity) : enlarge w m = some m := by
  unfold enlarge
  have hth := (threshold_iff m j hc hj hs).1
  have hneg : ¬ F32.ge m.getLoadFactor (F32.lit 7 10) = true := by
    rw [hth]; omega
  rw [if_neg hneg]

/-- Method `set(key, value)` when the load factor is below the threshold and the first slot
probed is `Free`: the key and the value are stored in that slot. -/
theorem set_first_probe_free (w : Nat) (H : K → Nat) (m : HashMap K V) (k : K) (v : V)
    (j : Nat) (hc : m.table.capacity = 2 ^ j) (hj : j ≤ 23)
    (hlen : m.table.entries.length = m.table.capacity)
    (hs : m.table.size ≤ m.table.capacity)
    (hlow : 10 * m.table.size < 7 * m.table.capacity)
    (hfree : (BasicTable.entryAt w m.table (H k % 2 ^ w % m.table.capacity)).state =
      EntryState.Free) :
    (set w H m k v).map Prod.snd = some (HashMap.mk
      { capacity := m.table.capacity
        entries := m.table.entries.set (H k % 2 ^ w % m.table.capacity)
          { hash := H k, state := EntryState.Occupied, key := k, value := v }
        size := (m.table.size + 1) % 2 ^ 32 }) := by
  have hpos : 0 < m.table.capacity := by rw [hc]; positivity
  obtain ⟨n, hn⟩ : ∃ n, m.table.capacity = n + 1 := ⟨m.table.capacity - 1, by omega⟩
  have hidx : H k % 2 ^ w % m.table.capacity < m.table.entries.length := by
    rw [hlen]; exact Nat.mod_lt _ hpos
  have hload : BasicTable.load w m.table (H k) k = some (H k % 2 ^ w % m.table.capacity) := by
    unfold BasicTable.load
    rw [hn, BasicTable.loadLoop]
    simp only [BasicTable.probe, Nat.add_zero, ← hn, hfree]
    simp
  have hset : BasicTable.set w H m.table k =
      ({ m.table with
          entries := m.table.entries.set (H k % 2 ^ w % m.table.capacity)
            { BasicTable.entryAt w m.table (H k % 2 ^ w % m.table.capacity) with
              key := k, hash := H k, state := EntryState.Occupied }
          size := (m.table.size + 1) % 2 ^ 32 }, some (H k % 2 ^ w % m.table.capacity)) := by
    unfold BasicTable.set
    simp only [hload, hfree]
    simp
  rw [set_eq v (enlarge_of_low w m j hc hj hs hlow) hset]
  simp only [Option.map_some', assignAt, BasicTable.entryAt, List.getD_eq_getElem?_getD,
    List.getElem?_set_self hidx, Option.getD_some, List.set_set]

end HashMap

end SPL

namespace SPL

theorem HashMap.run_cons_set {K V : Type} [LinearOrder K] [Inhabited K] [Inhabited V]
    {w : Nat} {H : K → Nat} {m m' : HashMap K V} {k : K} {v : V} {ops : List (MapOp K V)}
    (h : (HashMap.set w H m k v).map Prod.snd = some m') :
    HashMap.run w H m (MapOp.set k v :: ops) = HashMap.run w H m' ops := by
  simp only [HashMap.run, HashMap.applyOp, h]

/-- The literal constructor on three pairs whose keys are first probed at the slots `3`, `2`
and `1`: the pairs are stored in these slots, slot `0` stays free. -/
theorem HashMap.ofPairs_slots {K V : Type} [LinearOrder K] [Inhabited K] [Inhabited V]
    (w : Nat) (hw : 32 ≤ w) (H : K → Nat) (a b c : K) (va vb vc : V)
    (ha : H a % 2 ^ w % 4 = 3) (hb : H b % 2 ^ w % 4 = 2) (hc : H c % 2 ^ w % 4 = 1) :
    HashMap.ofPairs w H [(a, va), (b, vb), (c, vc)] = some (HashMap.mk
      { capacity := 4
        entries :=
          [HashEntry.empty w,
           { hash := H c, state := EntryState.Occupied, key := c, value := vc },
           { hash := H b, state := EntryState.Occupied, key := b, value := vb },
           { hash := H a, state := EntryState.Occupied, key := a, value := va }]
        size := 3 }) := by
  have hc0 : Math.Max (NP2 w 3) 4 = 4 := by
    have := NP2_le_two_pow w 3 2 hw (by norm_num) (by norm_num) (by norm_num)
    unfold Math.Max
    split_ifs <;> omega
  have h0 : (HashMap.init w 3 : HashMap K V) = HashMap.mk
      { capacity := 4
        entries := [HashEntry.empty w, HashEntry.empty w, HashEntry.empty w, HashEntry.empty w]
        size := 0 } := by
    unfold HashMap.init BasicTable.init
    rw [hc0]
    rfl
  have s1 := HashMap.set_first_probe_free w H (HashMap.mk
      { capacity := 4
        entries := [HashEntry.empty w, HashEntry.empty w, HashEntry.empty w, HashEntry.empty w]
        size := 0 }) a va 2 rfl (by norm_num) rfl (by simp) (by simp)
    (by simp only [ha]; rfl)
  have s2 := HashMap.set_first_probe_free w H (HashMap.mk
      { capacity := 4
        entries := [HashEntry.empty w, HashEntry.empty w, HashEntry.empty w,
          { hash := H a, state := EntryState.Occupied, key := a, value := va }]
        size := 1 }) b vb 2 rfl (by norm_num) rfl (by simp) (by simp)
    (by simp only [hb]; rfl)
  have s3 := HashMap.set_first_probe_free w H (HashMap.mk
      { capacity := 4
        entries := [HashEntry.empty w, HashEntry.empty w,
          { hash := H b, state := EntryState.Occupied, key := b, value := vb },
          { hash := H a, state := EntryState.Occupied, key := a, value := va }]
        size := 2 }) c vc 2 rfl (by norm_num) rfl (by simp) (by simp)
    (by simp only [hc]; rfl)
  simp only [ha, hb, hc, List.set_cons_succ, List.set_cons_zero, Nat.zero_add,
    Nat.reduceAdd, Nat.reduceMod, Nat.reducePow] at s1 s2 s3
  have hrun : HashMap.ofPairs w H [(a, va), (b, vb), (c, vc)] =
      HashMap.run w H (HashMap.init w 3)
        [MapOp.set a va, MapOp.set b vb, MapOp.set c vc] := rfl
  rw [hrun, h0, HashMap.run_cons_set s1, HashMap.run_cons_set s2, HashMap.run_cons_set s3]
  rfl

end SPL

namespace SPL

theorem fnv1_literals :
    (Function 32 (some [97, 98, 99, 0]) = some 0x439c2f4b ∧
      Function 32 (some [100, 101, 102, 0]) = some 0x16952cea ∧
      Function 32 (some [103, 104, 105, 0]) = some 0x198ce2e9) ∧
    (Function 64 (some [97, 98, 99, 0]) = some 0xfb2e14ee439c2f4b ∧
      Function 64 (some [100, 101, 102, 0]) = some 0xfb2b14e516952cea ∧
      Function 64 (some [103, 104, 105, 0]) = some 0xfb2814db198ce2e9) := by
  decide

/-- C16: with the default FNV-1 hash on C-string keys, for `Id` of 32 or 64 bits, the map
built by the literal constructor from `"abc": 1.5`, `"def": 2.5`, `"ghi": 3.5` (in that
order) has capacity `4` and stores the pairs in the slots `3`, `2` and `1`; its iterator
returns the slots `1`, `2`, `3`, that is `("ghi", 3.5)`, `("def", 2.5)`, `("abc", 1.5)` in that
order.  The keys are the pointers `pAbc`, `pDef`, `pGhi`; `H` is the default hash function, which
reads the characters each pointer points to. -/
theorem literal_iteration_order {K : Type} [LinearOrder K] [Inhabited K]
    (w : Nat) (hw : w = 32 ∨ w = 64) (H : K → Nat) (pAbc pDef pGhi : K)
    (habc : Function w (some [97, 98, 99, 0]) = some (H pAbc))
    (hdef : Function w (some [100, 101, 102, 0]) = some (H pDef))
    (hghi : Function w (some [103, 104, 105, 0]) = some (H pGhi)) :
    ∃ m : HashMap K F32,
      HashMap.ofPairs w H [(pAbc, F32.lit 3 2), (pDef, F32.lit 5 2), (pGhi, F32.lit 7 2)] =
        some m ∧
      m.getCapacity = 4 ∧
      BasicTable.entryAt w m.table 3 =
        { hash := H pAbc, state := EntryState.Occupied, key := pAbc, value := F32.lit 3 2 } ∧
      BasicTable.entryAt w m.table 2 =
        { hash := H pDef, state := EntryState.Occupied, key := pDef, value := F32.lit 5 2 } ∧
      BasicTable.entryAt w m.table 1 =
        { hash := H pGhi, state := EntryState.Occupied, key := pGhi, value := F32.lit 7 2 } ∧
      (BasicTable.entryAt w m.table 0).state = EntryState.Free ∧
      (∀ fuel, 3 < fuel →
        EntryIterator.drain w fuel m.getIterator = some (Except.ok [1, 2, 3])) ∧
      [1, 2, 3].map (fun i =>
          ((BasicTable.entryAt w m.table i).key, (BasicTable.entryAt w m.table i).value)) =
        [(pGhi, F32.lit 7 2), (pDef, F32.lit 5 2), (pAbc, F32.lit 3 2)] := by
  have hw32 : 32 ≤ w := by rcases hw with h | h <;> omega
  have hmods : H pAbc % 2 ^ w % 4 = 3 ∧ H pDef % 2 ^ w % 4 = 2 ∧ H pGhi % 2 ^ w % 4 = 1 := by
    rcases hw with h | h
    · subst h
      rw [fnv1_literals.1.1] at habc
      rw [fnv1_literals.1.2.1] at hdef
      rw [fnv1_literals.1.2.2] at hghi
      simp only [Option.some.injEq] at habc hdef hghi
      rw [← habc, ← hdef, ← hghi]
      norm_num
    · subst h
      rw [fnv1_literals.2.1] at habc
      rw [fnv1_literals.2.2.1] at hdef
      rw [fnv1_literals.2.2.2] at hghi
      simp only [Option.some.injEq] at habc hdef hghi
      rw [← habc, ← hdef, ← hghi]
      norm_num
  have hof := HashMap.ofPairs_slots w hw32 H pAbc pDef pGhi (F32.lit 3 2) (F32.lit 5 2)
    (F32.lit 7 2) hmods.1 hmods.2.1 hmods.2.2
  have hreach : Reachable w H (HashMap.mk
      { capacity := 4
        entries :=
          [HashEntry.empty w,
           { hash := H pGhi, state := EntryState.Occupied, key := pGhi, value := F32.lit 7 2 },
           { hash := H pDef, state := EntryState.Occupied, key := pDef, value := F32.lit 5 2 },
           { hash := H pAbc, state := EntryState.Occupied, key := pAbc, value := F32.lit 3 2 }]
        size := 3 }) := Reachable.of_run _ _ _ (Reachable.init 3) hof
  refine ⟨_, hof, rfl, rfl, rfl, rfl, rfl, ?_, rfl⟩
  intro fuel hfuel
  exact (EntryIterator.drain_new (Reachable.inv hw32 hreach).table).1 fuel hfuel

end SPL

namespace SPL

/-- Witness of claim C16 for `Id` of 64 bits, on the pointers `1`, `2`, `3` into `literals`. -/
theorem literal_iteration_order_witness :
    ((64 = 32 ∨ 64 = 64) ∧
      Function 64 (some [97, 98, 99, 0]) = some (literalHash 64 1) ∧
      Function 64 (some [100, 101, 102, 0]) = some (literalHash 64 2) ∧
      Function 64 (some [103, 104, 105, 0]) = some (literalHash 64 3)) ∧
    ∃ m : HashMap Nat F32,
      HashMap.ofPairs 64 (literalHash 64)
        [(1, F32.lit 3 2), (2, F32.lit 5 2), (3, F32.lit 7 2)] = some m ∧
      m.getCapacity = 4 ∧
      BasicTable.entryAt 64 m.table 3 =
        { hash := literalHash 64 1, state := EntryState.Occupied, key := 1,
          value := F32.lit 3 2 } ∧
      BasicTable.entryAt 64 m.table 2 =
        { hash := literalHash 64 2, state := EntryState.Occupied, key := 2,
          value := F32.lit 5 2 } ∧
      BasicTable.entryAt 64 m.table 1 =
        { hash := literalHash 64 3, state := EntryState.Occupied, key := 3,
          value := F32.lit 7 2 } ∧
      (BasicTable.entryAt 64 m.table 0).state = EntryState.Free ∧
      (∀ fuel, 3 < fuel →
        EntryIterator.drain 64 fuel m.getIterator = some (Except.ok [1, 2, 3])) ∧
      [1, 2, 3].map (fun i =>
          ((BasicTable.entryAt 64 m.table i).key, (BasicTable.entryAt 64 m.table i).value)) =
        [(3, F32.lit 7 2), (2, F32.lit 5 2), (1, F32.lit 3 2)] :=
  ⟨⟨by decide, by decide, by decide, by decide⟩,
    literal_iteration_order 64 (by decide) (literalHash 64) 1 2 3 (by decide) (by decide)
      (by decide)⟩

end SPL

namespace SPL

/-! ## The single-precision test `getLoadFactor() >= 0.7f` at every capacity -/

namespace HashMap

variable {K V : Type} [LinearOrder K] [Inhabited K] [Inhabited V]

end HashMap

end SPL

namespace SPL

namespace HashMap

variable {K V : Type} [LinearOrder K] [Inhabited K] [Inhabited V]

end HashMap

end SPL

namespace SPL

/-! ## Upper bounds on rounding; the load factor right after an insertion -/

end SPL

namespace SPL

end SPL

namespace SPL

namespace HashMap

variable {K V : Type} [LinearOrder K] [Inhabited K] [Inhabited V]

/-- A load factor that fails the test `>= 0.7f` is a finite value below `0.7f`. -/
theorem getLoadFactor_lt_of_not_ge (m : HashMap K V)
    (h : ¬ F32.ge m.getLoadFactor (F32.lit 7 10) = true) :
    ∃ x, m.getLoadFactor = F32.fin x ∧ x < 11744051 * 2 ^ 125 := by
  rw [f32_literals.2.1] at h
  have hfin : ∃ x, m.getLoadFactor = F32.fin x := by
    unfold getLoadFactor Math.Min
    rw [f32_literals.1]
    split_ifs with hlt
    · cases hd : F32.div (F32.ofNat m.getSize) (F32.ofNat m.getCapacity) with
      | nan => rw [hd] at hlt; simp [F32.lt] at hlt
      | inf => rw [hd] at hlt; simp [F32.lt] at hlt
      | fin q => exact ⟨q, rfl⟩
    · exact ⟨_, rfl⟩
  obtain ⟨x, hx⟩ := hfin
  refine ⟨x, hx, ?_⟩
  rw [hx] at h
  unfold F32.ge F32.le at h
  simp only [decide_eq_true_eq] at h
  omega

end HashMap

end SPL

namespace SPL

namespace HashMap

variable {K V : Type} [LinearOrder K] [Inhabited K] [Inhabited V]

end HashMap

end SPL

namespace SPL

end SPL

namespace SPL

/-! ## Copy and move -/

set_option maxRecDepth 100000 in
/-- C21, counterexample: the copy of a default-constructed map (capacity `0`, load factor
`1.0`) has capacity `4` and load factor `0.0`: the copy constructor of the table delegates to
`BasicTable(other.capacity)`, which raises the capacity to at least `4`. -/
theorem copy_of_default_has_capacity_four :
    Reachable 64 id (HashMap.empty : HashMap Nat Nat) ∧
    (HashMap.empty : HashMap Nat Nat).getCapacity = 0 ∧
    (HashMap.empty : HashMap Nat Nat).getLoadFactor = F32.lit 1 1 ∧
    (HashMap.copy 64 (HashMap.empty : HashMap Nat Nat)).map HashMap.getCapacity = some 4 ∧
    (HashMap.copy 64 (HashMap.empty : HashMap Nat Nat)).map HashMap.getLoadFactor =
      some (F32.fin 0) ∧
    (HashMap.assignCopy 64 (HashMap.init 64 8) (HashMap.empty : HashMap Nat Nat)).map
      HashMap.getCapacity = some 4 ∧
    F32.lit 1 1 ≠ F32.fin 0 :=
  ⟨Reachable.empty, by decide, by decide, by decide, by decide, by decide, by decide⟩

/-- C21, amended: for every reachable map `m` (also one whose table holds tombstones), copy
construction and copy assignment return the same map `c`; `c` has the size of `m` and the
capacity `Max(m.getCapacity(), 4)`, so for every `m` but the map of capacity `0` the capacity
and the load factor are those of `m`; for every key `k`, `c.has(k) = m.has(k)` and
`c.get(k) = m.get(k)`. -/
theorem copy_preserves {K V : Type} [LinearOrder K] [Inhabited K] [Inhabited V]
    (w : Nat) (hw : 32 ≤ w) (H : K → Nat) (m : HashMap K V) (hr : Reachable w H m)
    (target : HashMap K V) :
    ∃ c, HashMap.copy w m = some c ∧ HashMap.assignCopy w target m = some c ∧
      c.getSize = m.getSize ∧ c.getCapacity = Math.Max m.getCapacity 4 ∧
      (4 ≤ m.getCapacity →
        c.getCapacity = m.getCapacity ∧ c.getLoadFactor = m.getLoadFactor) ∧
      ∀ k, HashMap.has w H c k = HashMap.has w H m k ∧
        HashMap.get w H c k = HashMap.get w H m k := by
  have hm := Reachable.inv hw hr
  obtain ⟨t', h1, h2, h3, h4, h5⟩ := BasicTable.copy_spec (H := H) (by omega) hm.table
  have hc : HashMap.copy w m = some (HashMap.mk t') := by
    unfold HashMap.copy
    rw [h1]; rfl
  have hm' : HashMap.Inv w H (HashMap.mk t') := HashMap.Inv.copy_table hw hm h1
  refine ⟨HashMap.mk t', hc, ?_, h4, h3, ?_, ?_⟩
  · unfold HashMap.assignCopy
    rw [hc]
    rfl
  · intro h4le
    have hcap : t'.capacity = m.table.capacity := by
      rw [h3]
      unfold Math.Max
      have : 4 ≤ m.table.capacity := h4le
      split_ifs <;> omega
    refine ⟨hcap, ?_⟩
    unfold HashMap.getLoadFactor HashMap.getSize HashMap.getCapacity
    show Math.Min (F32.div (F32.ofNat t'.size) (F32.ofNat t'.capacity)) _ = _
    rw [h4, hcap]
  · intro k
    exact ⟨HashMap.has_congr hm hm' k (h5 k), HashMap.get_congr hm hm' k (h5 k)⟩

/-- Witness of claim C21: the copy of the sample map, whose slot 0 is a tombstone. -/
theorem copy_preserves_witness :
    (32 ≤ 64 ∧ Reachable 64 id sampleMap) ∧
    ∃ c, HashMap.copy 64 sampleMap = some c ∧
      HashMap.assignCopy 64 sampleLiteral sampleMap = some c ∧
      c.getSize = sampleMap.getSize ∧ c.getCapacity = Math.Max sampleMap.getCapacity 4 ∧
      (4 ≤ sampleMap.getCapacity →
        c.getCapacity = sampleMap.getCapacity ∧
          c.getLoadFactor = sampleMap.getLoadFactor) ∧
      ∀ k, HashMap.has 64 id c k = HashMap.has 64 id sampleMap k ∧
        HashMap.get 64 id c k = HashMap.get 64 id sampleMap k :=
  ⟨⟨by decide, sampleMap_reachable⟩,
    copy_preserves 64 (by decide) id sampleMap sampleMap_reachable sampleLiteral⟩

end SPL

namespace SPL

theorem HashMap.move_eq_map {K V : Type} [LinearOrder K] [Inhabited K] [Inhabited V]
    (m target : HashMap K V) :
    HashMap.move m = (m, HashMap.empty) ∧ HashMap.assignMove target m = (m, HashMap.empty) :=
  ⟨rfl, rfl⟩

theorem HashSet.move_eq_set {T : Type} [LinearOrder T] [Inhabited T] (s target : HashSet T) :
    HashSet.move s = (s, HashSet.empty) ∧ HashSet.assignMove target s = (s, HashSet.empty) :=
  ⟨rfl, rfl⟩

/-- C22: moving a map or a set `m` into another container, by move construction or by move
assignment over any `target`, gives that container exactly the state of `m` (so its size, its
capacity and its mapping) and leaves `m` in the default state: size `0`, capacity `0`,
`isEmpty()` true, `has(k)` false for every key `k`. -/
theorem move_transfers {K V : Type} [LinearOrder K] [Inhabited K] [Inhabited V]
    (w : Nat) (H : K → Nat) (m target : HashMap K V) (s target' : HashSet K) :
    ((HashMap.move m).1 = m ∧ (HashMap.assignMove target m).1 = m ∧
      (HashMap.move m).1.getSize = m.getSize ∧
      (HashMap.move m).1.getCapacity = m.getCapacity ∧
      (∀ k, HashMap.get w H (HashMap.move m).1 k = HashMap.get w H m k) ∧
      (HashMap.assignMove target m).2 = (HashMap.move m).2 ∧
      (HashMap.move m).2.getSize = 0 ∧ (HashMap.move m).2.getCapacity = 0 ∧
      (HashMap.move m).2.isEmpty = true ∧
      ∀ k, HashMap.has w H (HashMap.move m).2 k = false) ∧
    ((HashSet.move s).1 = s ∧ (HashSet.assignMove target' s).1 = s ∧
      (HashSet.move s).1.getSize = s.getSize ∧
      (HashSet.move s).1.getCapacity = s.getCapacity ∧
      (∀ k, HashSet.has w H (HashSet.move s).1 k = HashSet.has w H s k) ∧
      (HashSet.assignMove target' s).2 = (HashSet.move s).2 ∧
      (HashSet.move s).2.getSize = 0 ∧ (HashSet.move s).2.getCapacity = 0 ∧
      (HashSet.move s).2.isEmpty = true ∧
      ∀ k, HashSet.has w H (HashSet.move s).2 k = false) := by
  refine ⟨⟨rfl, rfl, rfl, rfl, fun _ => rfl, rfl, rfl, rfl, rfl, ?_⟩,
    ⟨rfl, rfl, rfl, rfl, fun _ => rfl, rfl, rfl, rfl, rfl, ?_⟩⟩
  · intro k
    rw [(HashMap.move_eq_map m target).1]
    exact HashMap.has_empty_false w H k
  · intro k
    rw [(HashSet.move_eq_set s target').1]
    exact HashMap.has_empty_false (V := Unit) w H k

end SPL

namespace SPL

/-! ## The mutable `operator[]` on a reused slot -/

set_option maxRecDepth 100000 in
/-- C23, evaluated where the code departs from it.  On `HashMap<int, float>(4)` with identity
hash: after `set(1, 2.5f)` and `clear()` key 1 is absent, yet `map[1]` yields the stale `2.5`
left in the reused slot, not the default value `0.0` that `set(1, float())` leaves; and after
`set(1, 2.5f)` and `remove(1)` the absent key 5, which lands on the tombstone of key 1, gets
`2.5` from `map[5]`.  In both cases the key is created and the size grows by one. -/
theorem subscript_absent_yields_stale_value :
    (default : F32) = F32.fin 0 ∧ F32.lit 5 2 ≠ F32.fin 0 ∧
    (HashMap.set 64 id (HashMap.init 64 4 : HashMap Nat F32) 1 (F32.lit 5 2)).map
      (fun p => (HashMap.has 64 id p.2.clear 1, p.2.clear.getSize)) = some (false, 0) ∧
    ((HashMap.set 64 id (HashMap.init 64 4 : HashMap Nat F32) 1 (F32.lit 5 2)).bind
      (fun p => HashMap.subscript 64 id p.2.clear 1)).map
        (fun r => ((BasicTable.entryAt 64 r.2.table r.1).value, HashMap.has 64 id r.2 1,
          r.2.getSize)) = some (F32.lit 5 2, true, 1) ∧
    (((HashMap.set 64 id (HashMap.init 64 4 : HashMap Nat F32) 1 (F32.lit 5 2)).bind
      (fun p => HashMap.set 64 id p.2.clear 1 default)).bind
        (fun r => (HashMap.get 64 id r.2 1).toOption)) = some (F32.fin 0) ∧
    (((HashMap.set 64 id (HashMap.init 64 4 : HashMap Nat F32) 1 (F32.lit 5 2)).bind
      (fun p => HashMap.remove 64 id p.2 1)).map
        (fun p => (HashMap.has 64 id p.2 5, p.2.getSize))) = some (false, 0) ∧
    ((((HashMap.set 64 id (HashMap.init 64 4 : HashMap Nat F32) 1 (F32.lit 5 2)).bind
      (fun p => HashMap.remove 64 id p.2 1)).bind
        (fun p => HashMap.subscript 64 id p.2 5)).map
          (fun r => ((BasicTable.entryAt 64 r.2.table r.1).value, HashMap.has 64 id r.2 5,
            r.2.getSize))) = some (F32.lit 5 2, true, 1) := by
  decide

end SPL

namespace SPL

/-! ## A sequence of `add` and `remove` calls against the reference set -/

namespace HashSet

variable {T : Type} [LinearOrder T] [Inhabited T]

theorem add_of_subscript {w : Nat} {H : T → Nat} {s : HashSet T} {k : T} {i : Nat}
    {m' : HashMap T Unit} (h : HashMap.subscript w H (HashMap.mk s.table) k = some (i, m')) :
    add w H s k = some (HashSet.mk m'.table) := by
  rw [add_eq]
  unfold HashMap.subscript at h
  cases he : HashMap.enlarge w (HashMap.mk s.table) with
  | none => rw [he] at h; simp at h
  | some m1 =>
    rw [he] at h
    simp only at h
    rcases hset : BasicTable.set w H m1.table k with ⟨t, _ | j⟩
    · rw [hset] at h; simp at h
    · rw [hset] at h
      simp only [Option.some.injEq, Prod.mk.injEq] at h
      rw [← h.2]
      simp only [Option.map_some', hset]

theorem remove_eq_removeOut (w : Nat) (H : T → Nat) (s : HashSet T) (k : T) :
    remove w H s k = (HashMap.removeOut w H (HashMap.mk s.table) k ()).map
      (fun r => (r.1, HashSet.mk r.2.2.table)) := by
  rw [remove_eq]
  unfold HashMap.removeOut
  rcases BasicTable.unset w H s.table k with ⟨t, _ | i⟩
  · rfl
  · simp only
    cases HashMap.shrink w (HashMap.mk t) <;> rfl

/-- One call on a set below capacity `2 ^ 31` follows the reference set: the value returned,
the size and the membership. -/
theorem applyOp_refines_set {w : Nat} {H : T → Nat} (hw : 32 ≤ w) {s : HashSet T}
    (hs : HashMap.Inv w H (HashMap.mk s.table)) (live : Finset T)
    (hsz : s.getSize = live.card) (hhas : ∀ v, has w H s v = true ↔ v ∈ live)
    (hb : s.getCapacity < 2 ^ 31) (op : SetOp T) :
    ∃ s', applyOp w H s op = some ((refStep live op).1, s') ∧
      HashMap.Inv w H (HashMap.mk s'.table) ∧ s'.getSize = (refStep live op).2.card ∧
      ∀ v, has w H s' v = true ↔ v ∈ (refStep live op).2 := by
  have hhas' : ∀ v, HashMap.has w H (HashMap.mk s.table) v = true ↔ v ∈ live := hhas
  cases op with
  | add k =>
    rcases HashMap.subscript_spec hw hs k with
      ⟨i, m', h1, h2, h3, h4, h5, h6, _⟩ | ⟨_, _, _, hc⟩
    · refine ⟨HashSet.mk m'.table, by simp [applyOp, add_of_subscript h1, refStep], h2, ?_, ?_⟩
      · show m'.table.size = (insert k live).card
        by_cases hk : k ∈ live
        · obtain ⟨v0, hv0⟩ := (HashMap.has_iff hs k).1 ((hhas' k).2 hk)
          rw [(h5 v0 hv0).2, Finset.insert_eq_of_mem hk]
          exact hsz
        · have hno : ∀ v0, ¬ BasicTable.Holds w s.table k v0 := by
            intro v0 hv0
            exact hk ((hhas' k).1 ((HashMap.has_iff hs k).2 ⟨v0, hv0⟩))
          rw [h6 hno, Finset.card_insert_of_not_mem hk]
          show s.getSize + 1 = live.card + 1
          rw [hsz]
      · intro k'
        show HashMap.has w H m' k' = true ↔ k' ∈ insert k live
        rw [Finset.mem_insert]
        by_cases hk : k' = k
        · subst hk
          simp only [true_or, iff_true]
          exact (HashMap.has_iff h2 k').2 ⟨_, BasicTable.Holds_of_Live h3⟩
        · rw [HashMap.has_congr hs h2 k' (fun v' => h4 k' v' hk), hhas' k']
          simp [hk]
    · have hb' : s.table.capacity < 2 ^ 31 := hb
      have hc' : s.table.capacity = 2 ^ 31 := hc
      omega
  | remove k =>
    by_cases hk : k ∈ live
    · obtain ⟨v0, hv0⟩ := (HashMap.has_iff hs k).1 ((hhas' k).2 hk)
      obtain ⟨m', _, h1, h3, h4, h5, _⟩ := HashMap.remove_present hw hs k v0 hv0 ()
      refine ⟨HashSet.mk m'.table,
        by simp [applyOp, remove_eq_removeOut, h1, refStep, hk], h3, ?_, ?_⟩
      · show m'.table.size = (live.erase k).card
        rw [Finset.card_erase_of_mem hk]
        have hsz' : s.table.size = live.card := hsz
        have h4' : m'.table.size + 1 = s.table.size := h4
        omega
      · intro k'
        show HashMap.has w H m' k' = true ↔ k' ∈ live.erase k
        rw [Finset.mem_erase, HashMap.has_iff h3, ← hhas' k', HashMap.has_iff hs]
        constructor
        · rintro ⟨v', hv'⟩
          exact ⟨((h5 k' v').1 hv').1, v', ((h5 k' v').1 hv').2⟩
        · rintro ⟨hne, v', hv'⟩
          exact ⟨v', (h5 k' v').2 ⟨hne, hv'⟩⟩
    · have hno : ∀ v0, ¬ BasicTable.Holds w s.table k v0 := by
        intro v0 hv0
        exact hk ((hhas' k).1 ((HashMap.has_iff hs k).2 ⟨v0, hv0⟩))
      refine ⟨s, by simp [applyOp, remove_eq_removeOut,
        (HashMap.remove_absent hs k hno ()).2, refStep, hk], hs, ?_, ?_⟩
      · show s.getSize = (live.erase k).card
        rw [Finset.erase_eq_of_not_mem hk]; exact hsz
      · intro k'
        show has w H s k' = true ↔ k' ∈ live.erase k
        rw [Finset.erase_eq_of_not_mem hk]; exact hhas k'

theorem run_refines_set {w : Nat} {H : T → Nat} (hw : 32 ≤ w) :
    ∀ (ops : List (SetOp T)) (s : HashSet T) (live : Finset T),
      HashMap.Inv w H (HashMap.mk s.table) → s.getSize = live.card →
      (∀ v, has w H s v = true ↔ v ∈ live) → staysBelow w H (2 ^ 31) s ops = true →
      ∃ s', run w H s ops = some ((refRun live ops).1, s') ∧
        HashMap.Inv w H (HashMap.mk s'.table) ∧ s'.getCapacity < 2 ^ 31 ∧
        s'.getSize = (refRun live ops).2.card ∧
        ∀ v, has w H s' v = true ↔ v ∈ (refRun live ops).2 := by
  intro ops
  induction ops with
  | nil =>
    intro s live hs hsz hhas hb
    simp only [staysBelow, decide_eq_true_eq] at hb
    exact ⟨s, rfl, hs, hb, hsz, hhas⟩
  | cons op ops ih =>
    intro s live hs hsz hhas hb
    simp only [staysBelow, Bool.and_eq_true, decide_eq_true_eq] at hb
    obtain ⟨s1, h1, h2, h3, h4⟩ := applyOp_refines_set hw hs live hsz hhas hb.1 op
    rw [h1] at hb
    obtain ⟨s2, h5, h6, h7, h8, h9⟩ := ih s1 (refStep live op).2 h2 h3 h4 hb.2
    refine ⟨s2, ?_, h6, h7, h8, h9⟩
    simp only [run, h1, h5, refRun, Option.map_some']

end HashSet

end SPL

namespace SPL

/-- C24: starting from an empty set (built by the capacity constructor or the default
constructor), after any sequence of `add` and `remove` calls during which the capacity stays
below `2 ^ 31`, every call returns; each `remove(v)` returns true exactly when `v` was
present immediately before the call; in the end `has(v)` is true exactly for the values
added and not removed since and `getSize()` is their number; and adding a value that is
present changes neither the size nor the membership. -/
theorem set_refines_reference {T : Type} [LinearOrder T] [Inhabited T]
    (w : Nat) (hw : 32 ≤ w) (H : T → Nat) (s0 : HashSet T)
    (h0 : (∃ capacity, s0 = HashSet.init w capacity) ∨ s0 = HashSet.empty)
    (ops : List (SetOp T))
    (hb : HashSet.staysBelow w H (2 ^ 31) s0 ops = true) :
    ∃ s, HashSet.run w H s0 ops = some ((HashSet.refRun ∅ ops).1, s) ∧
      s.getSize = (HashSet.refRun ∅ ops).2.card ∧
      (∀ v, HashSet.has w H s v = true ↔ v ∈ (HashSet.refRun ∅ ops).2) ∧
      ∀ v, HashSet.has w H s v = true →
        ∃ s', HashSet.add w H s v = some s' ∧ s'.getSize = s.getSize ∧
          ∀ v', HashSet.has w H s' v' = HashSet.has w H s v' := by
  have hinv : HashMap.Inv w H (HashMap.mk s0.table) := by
    rcases h0 with ⟨c, rfl⟩ | rfl
    · exact HashMap.Inv.init_facade w H hw c
    · exact HashMap.Inv.empty_facade w H
  have hsz : s0.getSize = (∅ : Finset T).card := by
    rcases h0 with ⟨c, rfl⟩ | rfl <;> rfl
  have hhas : ∀ v, HashSet.has w H s0 v = true ↔ v ∈ (∅ : Finset T) := by
    intro v
    rcases h0 with ⟨c, rfl⟩ | rfl
    · simp only [Finset.not_mem_empty, iff_false, Bool.not_eq_true]
      exact HashMap.has_init_false w H hw c v
    · simp only [Finset.not_mem_empty, iff_false, Bool.not_eq_true]
      exact HashMap.has_empty_false w H v
  obtain ⟨s, h1, h2, h3, h4, h5⟩ := HashSet.run_refines_set hw ops s0 ∅ hinv hsz hhas hb
  refine ⟨s, h1, h4, h5, ?_⟩
  intro v hv
  have hmem := (h5 v).1 hv
  obtain ⟨s', a1, _, a3, a4⟩ := HashSet.applyOp_refines_set hw h2 _ h4 h5 h3 (SetOp.add v)
  simp only [HashSet.applyOp, HashSet.refStep, Option.map_eq_some', Prod.mk.injEq, true_and,
    exists_eq_right, Finset.insert_eq_of_mem hmem] at a1 a3 a4
  refine ⟨s', a1, by rw [a3, h4], ?_⟩
  intro v'
  rw [Bool.eq_iff_iff, a4 v', h5 v']

set_option maxRecDepth 100000 in
/-- Witness of claim C24: a capacity-4 set with identity hash and six calls. -/
theorem set_refines_reference_witness :
    (32 ≤ 64 ∧
      HashSet.staysBelow 64 id (2 ^ 31) (HashSet.init 64 4 : HashSet Nat)
        [SetOp.add 15, SetOp.add 23, SetOp.add 15, SetOp.remove 23, SetOp.remove 99,
          SetOp.add 31] = true) ∧
    ∃ s, HashSet.run 64 id (HashSet.init 64 4 : HashSet Nat)
        [SetOp.add 15, SetOp.add 23, SetOp.add 15, SetOp.remove 23, SetOp.remove 99,
          SetOp.add 31] =
        some ([none, none, none, some true, some false, none], s) ∧
      s.getSize = 2 ∧ HashSet.has 64 id s 15 = true ∧ HashSet.has 64 id s 23 = false :=
  ⟨⟨by decide, by decide⟩, by
    obtain ⟨s, h1, h2, h3, _⟩ := set_refines_reference 64 (by decide) id
      (HashSet.init 64 4 : HashSet Nat) (Or.inl ⟨4, rfl⟩)
      [SetOp.add 15, SetOp.add 23, SetOp.add 15, SetOp.remove 23, SetOp.remove 99,
        SetOp.add 31] (by decide)
    refine ⟨s, h1, ?_, ?_, ?_⟩
    · rw [h2]; decide
    · rw [h3]; decide
    · rw [Bool.eq_false_iff, Ne, h3]; decide⟩

end SPL

namespace SPL

theorem firstAt_some {p : Nat → Bool} : ∀ (n o j : Nat), firstAt p n o = some j →
    o ≤ j ∧ j < o + n ∧ p j = true ∧ ∀ i, o ≤ i → i < j → p i = false := by
  intro n
  induction n with
  | zero => intro o j h; simp [firstAt] at h
  | succ n ih =>
    intro o j h
    simp only [firstAt] at h
    by_cases hp : p o = true
    · rw [if_pos hp] at h
      obtain rfl : o = j := by simpa using h
      exact ⟨Nat.le_refl _, by omega, hp, fun i h1 h2 => by omega⟩
    · rw [if_neg hp] at h
      obtain ⟨h1, h2, h3, h4⟩ := ih _ _ h
      refine ⟨by omega, by omega, h3, fun i hi1 hi2 => ?_⟩
      by_cases hio : i = o
      · subst hio; simpa using hp
      · exact h4 i (by omega) hi2

theorem firstAt_none {p : Nat → Bool} : ∀ (n o : Nat), firstAt p n o = none →
    ∀ i, o ≤ i → i < o + n → p i = false := by
  intro n
  induction n with
  | zero => intro o _ i h1 h2; omega
  | succ n ih =>
    intro o h i hi1 hi2
    simp only [firstAt] at h
    by_cases hp : p o = true
    · rw [if_pos hp] at h; simp at h
    · rw [if_neg hp] at h
      by_cases hio : i = o
      · subst hio; simpa using hp
      · exact ih _ h i (by omega) (by omega)

namespace BasicTable

variable {K V : Type} [LinearOrder K] [Inhabited K] [Inhabited V]

/-- A matching entry reached without crossing a `Free` slot or an earlier match is the
result of `load`. -/
theorem loadLoop_match (w : Nat) (t : BasicTable K V) (h : Nat) (k : K) :
    ∀ (fuel o : Nat) (pref : Option Nat) (j : Nat), o ≤ j → j < o + fuel →
      (entryAt w t (probe w t h j)).state = EntryState.Occupied →
      (entryAt w t (probe w t h j)).key = k →
      (∀ i, o ≤ i → i < j → (entryAt w t (probe w t h i)).state ≠ EntryState.Free ∧
        ¬ ((entryAt w t (probe w t h i)).state = EntryState.Occupied ∧
          (entryAt w t (probe w t h i)).key = k)) →
      loadLoop w t h k fuel o pref = some (probe w t h j) := by
  intro fuel
  induction fuel with
  | zero => intro o pref j h1 h2; omega
  | succ n ih =>
    intro o pref j h1 h2 hocc hkey hbefore
    simp only [loadLoop]
    by_cases hoj : o = j
    · subst hoj
      rw [if_pos hocc, if_pos ((Compare_eq_zero_iff _ _).2 hkey)]
    · obtain ⟨hf, hm⟩ := hbefore o (Nat.le_refl _) (by omega)
      have hrec := fun pref' => ih (o + 1) pref' j (by omega) (by omega) hocc hkey
        (fun i hi1 hi2 => hbefore i (by omega) hi2)
      by_cases ho : (entryAt w t (probe w t h o)).state = EntryState.Occupied
      · rw [if_pos ho, if_neg (fun e => hm ⟨ho, (Compare_eq_zero_iff _ _).1 e⟩)]
        exact hrec _
      · rw [if_neg ho, if_neg hf]
        exact hrec _

/-- A preferred index already recorded is the result of `load` when no match is met before
the first `Free` slot. -/
theorem loadLoop_keep (w : Nat) (t : BasicTable K V) (h : Nat) (k : K) :
    ∀ (fuel o p : Nat),
      (∀ i, o ≤ i → i < o + fuel →
        (∀ x, o ≤ x → x ≤ i → (entryAt w t (probe w t h x)).state ≠ EntryState.Free) →
        ¬ ((entryAt w t (probe w t h i)).state = EntryState.Occupied ∧
          (entryAt w t (probe w t h i)).key = k)) →
      loadLoop w t h k fuel o (some p) = some p := by
  intro fuel
  induction fuel with
  | zero => intro o p _; rfl
  | succ n ih =>
    intro o p hno
    simp only [loadLoop]
    by_cases ho : (entryAt w t (probe w t h o)).state = EntryState.Occupied
    · have hm := hno o (Nat.le_refl _) (by omega) (fun x h1 h2 => by
        obtain rfl : x = o := by omega
        rw [ho]; simp)
      rw [if_pos ho, if_neg (fun e => hm ⟨ho, (Compare_eq_zero_iff _ _).1 e⟩)]
      refine ih _ _ (fun i hi1 hi2 hx => hno i (by omega) (by omega) (fun x h1 h2 => ?_))
      by_cases hxo : x = o
      · subst hxo; rw [ho]; simp
      · exact hx x (by omega) h2
    · rw [if_neg ho]
      simp only [reduceCtorEq, if_false]
      by_cases hf : (entryAt w t (probe w t h o)).state = EntryState.Free
      · rw [if_pos hf]
      · rw [if_neg hf]
        refine ih _ _ (fun i hi1 hi2 hx => hno i (by omega) (by omega) (fun x h1 h2 => ?_))
        by_cases hxo : x = o
        · subst hxo; exact hf
        · exact hx x (by omega) h2

/-- The first slot that is not occupied, reached through occupied slots of other keys, is
the result of `load` when no match follows it before a `Free` slot. -/
theorem loadLoop_vacant (w : Nat) (t : BasicTable K V) (h : Nat) (k : K) :
    ∀ (fuel o j : Nat), o ≤ j → j < o + fuel →
      (entryAt w t (probe w t h j)).state ≠ EntryState.Occupied →
      (∀ i, o ≤ i → i < j → (entryAt w t (probe w t h i)).state = EntryState.Occupied ∧
        (entryAt w t (probe w t h i)).key ≠ k) →
      (∀ i, j < i → i < o + fuel →
        (∀ x, j ≤ x → x ≤ i → (entryAt w t (probe w t h x)).state ≠ EntryState.Free) →
        ¬ ((entryAt w t (probe w t h i)).state = EntryState.Occupied ∧
          (entryAt w t (probe w t h i)).key = k)) →
      loadLoop w t h k fuel o none = some (probe w t h j) := by
  intro fuel
  induction fuel with
  | zero => intro o j h1 h2; omega
  | succ n ih =>
    intro o j h1 h2 hvac hbefore hafter
    simp only [loadLoop]
    by_cases hoj : o = j
    · subst hoj
      rw [if_neg hvac]
      simp only [if_true]
      by_cases hf : (entryAt w t (probe w t h o)).state = EntryState.Free
      · rw [if_pos hf]
      · rw [if_neg hf]
        refine loadLoop_keep w t h k _ _ _ (fun i hi1 hi2 hx =>
          hafter i (by omega) (by omega) (fun x h1 h2 => ?_))
        by_cases hxo : x = o
        · subst hxo; exact hf
        · exact hx x (by omega) h2
    · obtain ⟨ho, hk⟩ := hbefore o (Nat.le_refl _) (by omega)
      rw [if_pos ho, if_neg (fun e => hk ((Compare_eq_zero_iff _ _).1 e))]
      exact ih _ _ (by omega) (by omega) hvac (fun i hi1 hi2 => hbefore i (by omega) hi2)
        (fun i hi1 hi2 hx => hafter i hi1 (by omega) hx)

/-- When `load` finds no index, every slot probed is occupied by another key. -/
theorem loadLoop_eq_none (w : Nat) (t : BasicTable K V) (h : Nat) (k : K) :
    ∀ (fuel o : Nat) (pref : Option Nat), loadLoop w t h k fuel o pref = none →
      pref = none ∧ ∀ i, o ≤ i → i < o + fuel →
        (entryAt w t (probe w t h i)).state = EntryState.Occupied ∧
        (entryAt w t (probe w t h i)).key ≠ k := by
  intro fuel
  induction fuel with
  | zero =>
    intro o pref hr
    exact ⟨by simpa [loadLoop] using hr, fun i h1 h2 => by omega⟩
  | succ n ih =>
    intro o pref hr
    simp only [loadLoop] at hr
    by_cases ho : (entryAt w t (probe w t h o)).state = EntryState.Occupied
    · rw [if_pos ho] at hr
      by_cases hk : Compare (entryAt w t (probe w t h o)).key k = 0
      · rw [if_pos hk] at hr; simp at hr
      · rw [if_neg hk] at hr
        obtain ⟨h1, h2⟩ := ih _ _ hr
        refine ⟨h1, fun i hi1 hi2 => ?_⟩
        by_cases hio : i = o
        · subst hio
          exact ⟨ho, fun e => hk ((Compare_eq_zero_iff _ _).2 e)⟩
        · exact h2 i (by omega) (by omega)
    · rw [if_neg ho] at hr
      exfalso
      by_cases hf : (entryAt w t (probe w t h o)).state = EntryState.Free
      · rw [if_pos hf] at hr
        cases pref <;> simp at hr
      · rw [if_neg hf] at hr
        have := (ih _ _ hr).1
        cases pref <;> simp at this

/-- Every slot is met by the probe sequence `(h + j) mod c`, `j < c`. -/
theorem specProbe_surj (t : BasicTable K V) (h : Nat) (hc : 0 < t.capacity) (i : Nat)
    (hi : i < t.capacity) : ∃ j, j < t.capacity ∧ specProbe t h j = i := by
  have ha : h % t.capacity < t.capacity := Nat.mod_lt _ hc
  unfold specProbe
  by_cases hle : h % t.capacity ≤ i
  · refine ⟨i - h % t.capacity, by omega, ?_⟩
    rw [Nat.add_mod, Nat.mod_eq_of_lt (a := i - h % t.capacity) (by omega)]
    have : h % t.capacity + (i - h % t.capacity) = i := by omega
    rw [this, Nat.mod_eq_of_lt hi]
  · refine ⟨i + t.capacity - h % t.capacity, by omega, ?_⟩
    rw [Nat.add_mod, Nat.mod_eq_of_lt (a := i + t.capacity - h % t.capacity) (by omega)]
    have : h % t.capacity + (i + t.capacity - h % t.capacity) = i + t.capacity := by omega
    rw [this, Nat.add_mod_right, Nat.mod_eq_of_lt hi]

/-- The probes of `load` are those of the specification when the capacity divides `2 ^ w`
or the sum `hash + offset` does not wrap. -/
theorem probe_eq_specProbe (w : Nat) (t : BasicTable K V) (h : Nat)
    (hd : t.capacity ∣ 2 ^ w ∨ h + t.capacity ≤ 2 ^ w) (j : Nat) (hj : j < t.capacity) :
    probe w t h j = specProbe t h j := by
  rcases hd with hd | hd
  · exact probe_eq_mod w t h j hd
  · unfold probe specProbe
    rw [Nat.mod_eq_of_lt (by omega : h + j < 2 ^ w)]

/-- The position of the first `Free` slot of the specification: no slot before it is `Free`,
and it is `Free` unless it is the capacity. -/
theorem specFirstFree_spec (w : Nat) (t : BasicTable K V) (h : Nat) :
    specFirstFree w t h ≤ t.capacity ∧
    (∀ i, i < specFirstFree w t h →
      (entryAt w t (specProbe t h i)).state ≠ EntryState.Free) ∧
    (specFirstFree w t h < t.capacity →
      (entryAt w t (specProbe t h (specFirstFree w t h))).state = EntryState.Free) := by
  unfold specFirstFree
  cases hfa : firstAt (fun j => decide ((entryAt w t (specProbe t h j)).state =
      EntryState.Free)) t.capacity 0 with
  | none =>
    have hn := firstAt_none _ _ hfa
    simp only [Option.getD_none]
    refine ⟨Nat.le_refl _, fun i hi => ?_, fun hlt => absurd hlt (Nat.lt_irrefl _)⟩
    exact of_decide_eq_false (hn i (Nat.zero_le _) (by omega))
  | some j =>
    obtain ⟨_, h2, h3, h4⟩ := firstAt_some _ _ _ hfa
    simp only [Option.getD_some]
    refine ⟨by omega, fun i hi => ?_, fun _ => of_decide_eq_true h3⟩
    exact of_decide_eq_false (h4 i (Nat.zero_le _) hi)

/-- The method `load` computes the probe specification `loadSpec` when its probes are those of
the specification. -/
theorem load_eq_loadSpec_of_probe (w : Nat) (t : BasicTable K V) (h : Nat) (k : K)
    (hq : ∀ j, j < t.capacity → probe w t h j = specProbe t h j) :
    load w t h k = loadSpec w t h k := by
  obtain ⟨hFle, hFnf, hFfree⟩ := specFirstFree_spec w t h
  unfold load loadSpec
  cases hM : firstAt (fun j => decide ((entryAt w t (specProbe t h j)).state =
      EntryState.Occupied ∧ (entryAt w t (specProbe t h j)).key = k))
      (specFirstFree w t h) 0 with
  | some j =>
    obtain ⟨_, h2, h3, h4⟩ := firstAt_some _ _ _ hM
    have h3' := of_decide_eq_true h3
    have hjc : j < t.capacity := by omega
    simp only
    rw [← hq j hjc]
    refine loadLoop_match w t h k _ _ _ j (Nat.zero_le _) (by omega)
      (by rw [hq j hjc]; exact h3'.1) (by rw [hq j hjc]; exact h3'.2) (fun i _ hi => ?_)
    rw [hq i (by omega)]
    exact ⟨hFnf i (by omega), of_decide_eq_false (h4 i (Nat.zero_le _) hi)⟩
  | none =>
    have hno : ∀ i, i < specFirstFree w t h →
        ¬ ((entryAt w t (specProbe t h i)).state = EntryState.Occupied ∧
          (entryAt w t (specProbe t h i)).key = k) := fun i hi =>
      of_decide_eq_false (firstAt_none _ _ hM i (Nat.zero_le _) (by omega))
    simp only
    cases hV : firstAt (fun j => decide ((entryAt w t (specProbe t h j)).state ≠
        EntryState.Occupied)) (min (specFirstFree w t h + 1) t.capacity) 0 with
    | some j =>
      obtain ⟨_, h2, h3, h4⟩ := firstAt_some _ _ _ hV
      have h3' := of_decide_eq_true h3
      have hjc : j < t.capacity := by omega
      have hjF : j ≤ specFirstFree w t h := by omega
      have hocc : ∀ i, i < j →
          (entryAt w t (specProbe t h i)).state = EntryState.Occupied := fun i hi =>
        not_not.1 (of_decide_eq_false (h4 i (Nat.zero_le _) hi))
      simp only [Option.map_some']
      rw [← hq j hjc]
      refine loadLoop_vacant w t h k _ _ j (Nat.zero_le _) (by omega)
        (by rw [hq j hjc]; exact h3') (fun i _ hi => ?_) (fun i hi1 hi2 hx => ?_)
      · rw [hq i (by omega)]
        exact ⟨hocc i hi, fun e => hno i (by omega) ⟨hocc i hi, e⟩⟩
      · have hiF : i < specFirstFree w t h := by
          by_contra hge
          have hFc : specFirstFree w t h < t.capacity := by omega
          have := hx (specFirstFree w t h) hjF (by omega)
          rw [hq _ hFc] at this
          exact this (hFfree hFc)
        rw [hq i (by omega)]
        exact hno i hiF
    | none =>
      have hocc : ∀ i, i < min (specFirstFree w t h + 1) t.capacity →
          (entryAt w t (specProbe t h i)).state = EntryState.Occupied := fun i hi =>
        not_not.1 (of_decide_eq_false (firstAt_none _ _ hV i (Nat.zero_le _) (by omega)))
      have hFc : specFirstFree w t h = t.capacity := by
        by_contra hne
        have hlt : specFirstFree w t h < t.capacity := by omega
        have h1 := hocc (specFirstFree w t h) (by omega)
        rw [hFfree hlt] at h1
        simp at h1
      simp only [Option.map_none']
      refine loadLoop_full w t h k _ _ (fun i _ hi => ?_)
      have hic : i < t.capacity := by omega
      rw [hq i hic]
      exact ⟨hocc i (by omega), fun e => hno i (by omega) ⟨hocc i (by omega), e⟩⟩

/-- The method `load` finds no index exactly when every slot is occupied by another key,
provided its probes are those of the specification. -/
theorem load_eq_none_iff_of_probe (w : Nat) (t : BasicTable K V) (h : Nat) (k : K)
    (hq : ∀ j, j < t.capacity → probe w t h j = specProbe t h j) :
    load w t h k = none ↔ ∀ i, i < t.capacity →
      (entryAt w t i).state = EntryState.Occupied ∧ (entryAt w t i).key ≠ k := by
  constructor
  · intro hl i hi
    obtain ⟨j, hj, hp⟩ := specProbe_surj t h (by omega) i hi
    have := (loadLoop_eq_none w t h k _ _ _ hl).2 j (Nat.zero_le _) (by omega)
    rw [hq j hj, hp] at this
    exact this
  · intro hall
    rcases Nat.eq_zero_or_pos t.capacity with h0 | h0
    · unfold load; rw [h0]; rfl
    · exact loadLoop_full w t h k _ _ (fun i _ _ => hall _ (probe_lt w t h i h0))

end BasicTable

set_option maxRecDepth 100000 in
/-- C25 (the claim as stated fails): the table of capacity 5 that `BasicTable(5)` and `set`
of the keys 5, 1, 2, 3 build has its slot 4 `Free`; for the hash and key `2 ^ 64 - 1` the
probe sequence of the specification is 0, 1, 2, 3, 4 with `F = 4`, so the specification
gives slot 4, but `load` probes 0, 0, 1, 2, 3 (the sum `hash + offset` wraps in `Id`) and
returns no index although not every slot is occupied. -/
theorem load_misses_free_slot_when_sum_wraps :
    (BasicTable.set 64 id (BasicTable.set 64 id (BasicTable.set 64 id
      (BasicTable.set 64 id (BasicTable.init 64 5) 5).1 1).1 2).1 3).1 = fiveTable ∧
    fiveTable.capacity = 5 ∧
    (BasicTable.entryAt 64 fiveTable 4).state = EntryState.Free ∧
    (List.range 5).map (BasicTable.specProbe fiveTable (2 ^ 64 - 1)) = [0, 1, 2, 3, 4] ∧
    (List.range 5).map (BasicTable.probe 64 fiveTable (2 ^ 64 - 1)) = [0, 0, 1, 2, 3] ∧
    BasicTable.specFirstFree 64 fiveTable (2 ^ 64 - 1) = 4 ∧
    BasicTable.loadSpec 64 fiveTable (2 ^ 64 - 1) (2 ^ 64 - 1) = some 4 ∧
    BasicTable.load 64 fiveTable (2 ^ 64 - 1) (2 ^ 64 - 1) = none ∧
    ¬ (∀ i, i < fiveTable.capacity →
      (BasicTable.entryAt 64 fiveTable i).state = EntryState.Occupied ∧
      (BasicTable.entryAt 64 fiveTable i).key ≠ 2 ^ 64 - 1) := by
  decide

/-- C25 (amended): for every table whose capacity `c` divides `2 ^ w` (every power of two up
to the width of `Id`), or whose probes do not wrap (`h + c <= 2 ^ w`), `load(h, k)` returns
what the probe specification says — the first `p_j`, `j < F`, occupied with a key equal to
`k`, else the first `p_j`, `j <= F`, that is not occupied — and it returns no index exactly
when every slot is occupied by a key different from `k` (in particular when `c = 0`). -/
theorem load_probe_specification {K V : Type} [LinearOrder K] [Inhabited K] [Inhabited V]
    (w : Nat) (t : BasicTable K V) (h : Nat) (k : K)
    (hd : t.capacity ∣ 2 ^ w ∨ h + t.capacity ≤ 2 ^ w) :
    BasicTable.load w t h k = BasicTable.loadSpec w t h k ∧
    (BasicTable.load w t h k = none ↔ ∀ i, i < t.capacity →
      (BasicTable.entryAt w t i).state = EntryState.Occupied ∧
      (BasicTable.entryAt w t i).key ≠ k) :=
  ⟨BasicTable.load_eq_loadSpec_of_probe w t h k (BasicTable.probe_eq_specProbe w t h hd),
    BasicTable.load_eq_none_iff_of_probe w t h k (BasicTable.probe_eq_specProbe w t h hd)⟩

set_option maxRecDepth 100000 in
/-- Witness of C25: in the sample table (slot 0 a tombstone, slot 2 `Free`) the key 39,
whose probes are 3, 0, 1, 2, gets the tombstone slot 0, and the key 31 its own slot 1. -/
theorem load_probe_specification_witness :
    (sampleMap.table.capacity ∣ 2 ^ 64 ∨ 39 + sampleMap.table.capacity ≤ 2 ^ 64) ∧
    BasicTable.loadSpec 64 sampleMap.table 39 39 = some 0 ∧
    BasicTable.loadSpec 64 sampleMap.table 31 31 = some 1 ∧
    (BasicTable.load 64 sampleMap.table 39 39 = BasicTable.loadSpec 64 sampleMap.table 39 39 ∧
      (BasicTable.load 64 sampleMap.table 39 39 = none ↔ ∀ i, i < sampleMap.table.capacity →
        (BasicTable.entryAt 64 sampleMap.table i).state = EntryState.Occupied ∧
        (BasicTable.entryAt 64 sampleMap.table i).key ≠ 39)) :=
  ⟨Or.inr (by decide), by decide, by decide,
    load_probe_specification 64 sampleMap.table 39 39 (Or.inr (by decide))⟩

end SPL

namespace SPL

namespace BasicTable

variable {K V : Type} [LinearOrder K] [Inhabited K] [Inhabited V]

/-- A well-formed table is full exactly when every slot is occupied. -/
theorem size_eq_capacity_iff {w : Nat} {H : K → Nat} {t : BasicTable K V} (hinv : Inv w H t) :
    t.size = t.capacity ↔
      ∀ i, i < t.capacity → (entryAt w t i).state = EntryState.Occupied := by
  rw [hinv.size_eq, ← hinv.len]
  unfold occupiedCount
  rw [List.countP_eq_length]
  constructor
  · intro h i hi
    rw [entryAt_eq_getElem w t i hi]
    simpa using h _ (List.getElem_mem hi)
  · intro h a ha
    obtain ⟨j, hj, rfl⟩ := List.getElem_of_mem ha
    have := h j hj
    rw [entryAt_eq_getElem w t j hj] at this
    simpa using this

end BasicTable

set_option maxRecDepth 100000 in
/-- C26 (the claim as stated fails): in the table of capacity 5 built by `BasicTable(5)` and
`set` of the keys 5, 1, 2, 3, the key `2 ^ 64 - 1` is absent and slot 4 is `Free`, yet
`set(2 ^ 64 - 1)` returns null and leaves the table unchanged: its probes 0, 0, 1, 2, 3 never
reach slot 4. -/
theorem set_returns_null_with_free_slot :
    (BasicTable.set 64 id (BasicTable.set 64 id (BasicTable.set 64 id
      (BasicTable.set 64 id (BasicTable.init 64 5) 5).1 1).1 2).1 3).1 = fiveTable ∧
    (∀ i, i < fiveTable.capacity →
      ¬ ((BasicTable.entryAt 64 fiveTable i).state = EntryState.Occupied ∧
        (BasicTable.entryAt 64 fiveTable i).key = 2 ^ 64 - 1)) ∧
    (4 < fiveTable.capacity ∧
      (BasicTable.entryAt 64 fiveTable 4).state ≠ EntryState.Occupied) ∧
    BasicTable.set 64 id fiveTable (2 ^ 64 - 1) = (fiveTable, none) := by
  decide

/-- C26 (amended): for every well-formed table (its capacity zero or a divisor of `2 ^ w`,
as every table of a map or set is), `set(k)` returns the slot of `k` and leaves the table
unchanged when `k` is present; when `k` is absent and some slot is not occupied it returns a
slot that was not occupied, which receives key `k`, hash `H(k)` and state `Occupied` (its
value stays), no other slot changes, the size grows by one and the capacity stays; and it
returns null exactly when `k` is absent and every slot is occupied (so also at capacity 0),
the table then being unchanged. -/
theorem table_set_contract {K V : Type} [LinearOrder K] [Inhabited K] [Inhabited V]
    (w : Nat) (H : K → Nat) (t : BasicTable K V) (hinv : BasicTable.Inv w H t) (k : K) :
    (∀ i, BasicTable.Live w t k i → BasicTable.set w H t k = (t, some i)) ∧
    ((∀ i, ¬ BasicTable.Live w t k i) →
      (∃ i, i < t.capacity ∧ (BasicTable.entryAt w t i).state ≠ EntryState.Occupied) →
      ∃ j t', BasicTable.set w H t k = (t', some j) ∧ j < t.capacity ∧
        (BasicTable.entryAt w t j).state ≠ EntryState.Occupied ∧
        (BasicTable.entryAt w t' j).key = k ∧
        (BasicTable.entryAt w t' j).hash = H k ∧
        (BasicTable.entryAt w t' j).state = EntryState.Occupied ∧
        (BasicTable.entryAt w t' j).value = (BasicTable.entryAt w t j).value ∧
        (∀ i, i ≠ j → BasicTable.entryAt w t' i = BasicTable.entryAt w t i) ∧
        t'.size = t.size + 1 ∧ t'.capacity = t.capacity) ∧
    ((BasicTable.set w H t k).2 = none ↔
      (∀ i, ¬ BasicTable.Live w t k i) ∧
        ∀ i, i < t.capacity → (BasicTable.entryAt w t i).state = EntryState.Occupied) ∧
    ((BasicTable.set w H t k).2 = none → (BasicTable.set w H t k).1 = t) := by
  have hfull := BasicTable.size_eq_capacity_iff hinv
  rcases BasicTable.set_cases hinv k with ⟨i, hl, hs⟩ | ⟨habs, j, hj, hv, hs, _⟩ | ⟨habs, hsz, hs⟩
  · refine ⟨fun i' hl' => ?_, fun habs _ => absurd hl (habs i), ?_, ?_⟩
    · rw [hinv.uniq k i' i hl' hl]; exact hs
    · rw [hs]
      simp only [reduceCtorEq, false_iff, not_and]
      exact fun habs => absurd hl (habs i)
    · rw [hs]; simp
  · have hjl : j < t.entries.length := by rw [hinv.len]; exact hj
    refine ⟨fun i hl => absurd hl (habs i), fun _ _ => ?_, ?_, ?_⟩
    · refine ⟨j, _, hs, hj, hv, ?_, ?_, ?_, ?_, ?_, rfl, rfl⟩
      · rw [BasicTable.entryAt_withEntry_self w t j _ _ hjl]; rfl
      · rw [BasicTable.entryAt_withEntry_self w t j _ _ hjl]; rfl
      · rw [BasicTable.entryAt_withEntry_self w t j _ _ hjl]; rfl
      · rw [BasicTable.entryAt_withEntry_self w t j _ _ hjl]; rfl
      · exact fun i hij => BasicTable.entryAt_withEntry_ne w t j _ _ i hij
    · rw [hs]
      simp only [reduceCtorEq, false_iff, not_and]
      exact fun _ hall => hv (hall j hj)
    · rw [hs]; simp
  · refine ⟨fun i hl => absurd hl (habs i), fun _ hex => ?_, ?_, ?_⟩
    · obtain ⟨i, hi, hne⟩ := hex
      exact absurd (hfull.1 hsz i hi) hne
    · rw [hs]
      simp only [true_iff]
      exact ⟨habs, hfull.1 hsz⟩
    · rw [hs]; exact fun _ => rfl

set_option maxRecDepth 100000 in
/-- Witness of C26 on the sample table (keys 15 and 31, a tombstone in slot 0): the key 31 is
found in slot 1, the absent key 39 is created in the tombstone slot 0. -/
theorem table_set_contract_witness :
    BasicTable.Inv 64 id sampleMap.table ∧
    BasicTable.set 64 id sampleMap.table 31 = (sampleMap.table, some 1) ∧
    (BasicTable.set 64 id sampleMap.table 39).2 = some 0 ∧
    ((∀ i, BasicTable.Live 64 sampleMap.table 39 i →
        BasicTable.set 64 id sampleMap.table 39 = (sampleMap.table, some i)) ∧
      ((∀ i, ¬ BasicTable.Live 64 sampleMap.table 39 i) →
        (∃ i, i < sampleMap.table.capacity ∧
          (BasicTable.entryAt 64 sampleMap.table i).state ≠ EntryState.Occupied) →
        ∃ j t', BasicTable.set 64 id sampleMap.table 39 = (t', some j) ∧
          j < sampleMap.table.capacity ∧
          (BasicTable.entryAt 64 sampleMap.table j).state ≠ EntryState.Occupied ∧
          (BasicTable.entryAt 64 t' j).key = 39 ∧
          (BasicTable.entryAt 64 t' j).hash = id 39 ∧
          (BasicTable.entryAt 64 t' j).state = EntryState.Occupied ∧
          (BasicTable.entryAt 64 t' j).value = (BasicTable.entryAt 64 sampleMap.table j).value ∧
          (∀ i, i ≠ j → BasicTable.entryAt 64 t' i = BasicTable.entryAt 64 sampleMap.table i) ∧
          t'.size = sampleMap.table.size + 1 ∧ t'.capacity = sampleMap.table.capacity) ∧
      ((BasicTable.set 64 id sampleMap.table 39).2 = none ↔
        (∀ i, ¬ BasicTable.Live 64 sampleMap.table 39 i) ∧
          ∀ i, i < sampleMap.table.capacity →
            (BasicTable.entryAt 64 sampleMap.table i).state = EntryState.Occupied) ∧
      ((BasicTable.set 64 id sampleMap.table 39).2 = none →
        (BasicTable.set 64 id sampleMap.table 39).1 = sampleMap.table)) :=
  ⟨(Reachable.inv (by decide) sampleMap_reachable).table, by decide, by decide,
    table_set_contract 64 id sampleMap.table
      (Reachable.inv (by decide) sampleMap_reachable).table 39⟩

end SPL

namespace SPL

namespace BasicTable

variable {K V : Type} [LinearOrder K] [Inhabited K] [Inhabited V]

/-- The entry returned by `get(key)` is an occupied slot of the table that holds `key`. -/
theorem Live_of_get (w : Nat) (H : K → Nat) (t : BasicTable K V) (k : K) (i : Nat)
    (hg : get w H t k = some i) : Live w t k i := by
  unfold get at hg
  cases hl : load w t (H k) k with
  | none => rw [hl] at hg; simp at hg
  | some j =>
    rw [hl] at hg
    simp only at hg
    by_cases ho : (entryAt w t j).state = EntryState.Occupied
    · rw [if_pos ho] at hg
      obtain rfl : j = i := by simpa using hg
      have hc : 0 < t.capacity := by
        rcases Nat.eq_zero_or_pos t.capacity with h0 | h0
        · unfold load at hl; rw [h0] at hl; simp [loadLoop] at hl
        · exact h0
      rcases loadLoop_result w t (H k) k hc _ _ _ _ hl with h1 | ⟨i', h1, _, h3⟩
      · simp at h1
      · obtain rfl : j = i' := by simpa using h1
        rcases h3 with h3 | h3
        · exact h3
        · exact absurd ho h3
    · rw [if_neg ho] at hg; simp at hg

end BasicTable

/-- C27: frame of `unset`.  For every table whose array has `capacity` entries and whose
`size` counts the occupied entries, and every key `k`: when `get(k)` finds the entry `i`
(an occupied slot holding `k`), `unset(k)` returns that entry, whose state becomes `Deleted`
while its key, value and hash are unchanged, every other slot and the capacity are unchanged,
and the size decreases by one; when `get(k)` finds no entry, `unset(k)` returns null and the
table is unchanged.  In a well-formed table `get(k)` finds the entry `i` exactly when slot
`i` is occupied by `k`. -/
theorem unset_frame {K V : Type} [LinearOrder K] [Inhabited K] [Inhabited V]
    (w : Nat) (H : K → Nat) (t : BasicTable K V) (k : K)
    (hlen : t.entries.length = t.capacity)
    (hsize : t.size = BasicTable.occupiedCount t.entries) (hb : t.capacity < 2 ^ 32) :
    (∀ i, BasicTable.get w H t k = some i →
      (i < t.capacity ∧ (BasicTable.entryAt w t i).state = EntryState.Occupied ∧
        (BasicTable.entryAt w t i).key = k) ∧
      ∃ t', BasicTable.unset w H t k = (t', some i) ∧
        (BasicTable.entryAt w t' i).state = EntryState.Deleted ∧
        (BasicTable.entryAt w t' i).key = (BasicTable.entryAt w t i).key ∧
        (BasicTable.entryAt w t' i).value = (BasicTable.entryAt w t i).value ∧
        (BasicTable.entryAt w t' i).hash = (BasicTable.entryAt w t i).hash ∧
        (∀ j, j ≠ i → BasicTable.entryAt w t' j = BasicTable.entryAt w t j) ∧
        t'.entries.length = t.entries.length ∧
        t'.capacity = t.capacity ∧ t'.size + 1 = t.size) ∧
    (BasicTable.get w H t k = none → BasicTable.unset w H t k = (t, none)) ∧
    (BasicTable.Inv w H t → ∀ i, BasicTable.get w H t k = some i ↔ BasicTable.Live w t k i) := by
  refine ⟨fun i hg => ?_, fun hg => ?_, fun hinv i => BasicTable.get_eq_some_iff hinv k i⟩
  · have hl := BasicTable.Live_of_get w H t k i hg
    have hil : i < t.entries.length := by rw [hlen]; exact hl.1
    have hocc : t.entries[i].state = EntryState.Occupied := by
      rw [← BasicTable.entryAt_eq_getElem w t i hil]; exact hl.2.1
    have hpos : 0 < t.size := by
      rw [hsize]; exact BasicTable.occupiedCount_pos_of_getElem _ i hil hocc
    have hle : t.size ≤ t.capacity := by
      rw [hsize, ← hlen]; exact BasicTable.occupiedCount_le _
    refine ⟨hl, BasicTable.withEntry t i (BasicTable.tombstone w t i)
      ((t.size + 2 ^ 32 - 1) % 2 ^ 32), ?_, ?_, ?_, ?_, ?_, ?_, ?_, rfl, ?_⟩
    · unfold BasicTable.unset
      rw [hg]
      rfl
    · rw [BasicTable.entryAt_withEntry_self w t i _ _ hil]; rfl
    · rw [BasicTable.entryAt_withEntry_self w t i _ _ hil]; rfl
    · rw [BasicTable.entryAt_withEntry_self w t i _ _ hil]; rfl
    · rw [BasicTable.entryAt_withEntry_self w t i _ _ hil]; rfl
    · exact fun j hji => BasicTable.entryAt_withEntry_ne w t i _ _ j hji
    · simp [BasicTable.withEntry]
    · show (t.size + 2 ^ 32 - 1) % 2 ^ 32 + 1 = t.size
      omega
  · unfold BasicTable.unset
    rw [hg]

set_option maxRecDepth 100000 in
/-- Witness of C27 on the sample table: `unset(31)` tags slot 1 `Deleted`, keeps its key,
value and hash, and leaves one entry; `unset(23)`, a key removed before, changes nothing. -/
theorem unset_frame_witness :
    (sampleMap.table.entries.length = sampleMap.table.capacity ∧
      sampleMap.table.size = BasicTable.occupiedCount sampleMap.table.entries ∧
      sampleMap.table.capacity < 2 ^ 32) ∧
    BasicTable.get 64 id sampleMap.table 31 = some 1 ∧
    BasicTable.get 64 id sampleMap.table 23 = none ∧
    (BasicTable.unset 64 id sampleMap.table 31).1.size = 1 ∧
    ((∀ i, BasicTable.get 64 id sampleMap.table 31 = some i →
        (i < sampleMap.table.capacity ∧
          (BasicTable.entryAt 64 sampleMap.table i).state = EntryState.Occupied ∧
          (BasicTable.entryAt 64 sampleMap.table i).key = 31) ∧
        ∃ t', BasicTable.unset 64 id sampleMap.table 31 = (t', some i) ∧
          (BasicTable.entryAt 64 t' i).state = EntryState.Deleted ∧
          (BasicTable.entryAt 64 t' i).key = (BasicTable.entryAt 64 sampleMap.table i).key ∧
          (BasicTable.entryAt 64 t' i).value = (BasicTable.entryAt 64 sampleMap.table i).value ∧
          (BasicTable.entryAt 64 t' i).hash = (BasicTable.entryAt 64 sampleMap.table i).hash ∧
          (∀ j, j ≠ i → BasicTable.entryAt 64 t' j = BasicTable.entryAt 64 sampleMap.table j) ∧
          t'.entries.length = sampleMap.table.entries.length ∧
          t'.capacity = sampleMap.table.capacity ∧ t'.size + 1 = sampleMap.table.size) ∧
      (BasicTable.get 64 id sampleMap.table 31 = none →
        BasicTable.unset 64 id sampleMap.table 31 = (sampleMap.table, none)) ∧
      (BasicTable.Inv 64 id sampleMap.table →
        ∀ i, BasicTable.get 64 id sampleMap.table 31 = some i ↔
          BasicTable.Live 64 sampleMap.table 31 i)) :=
  ⟨⟨by decide, by decide, by decide⟩, by decide, by decide, by decide,
    unset_frame 64 id sampleMap.table 31 (by decide) (by decide) (by decide)⟩

end SPL

namespace SPL

set_option maxRecDepth 100000 in
/-- C28: the tombstone reuse scenario, for `Id` of 32 or 64 bits.  The map of `int` keys built
from the pairs of keys 15, 23, 31 with the default hash `static_cast<Id>(key)` has capacity 4
and size 3 with the keys in slots 3, 0 and 1 and slot 2 `Free`; `remove(23)` leaves slot 0
`Deleted`, `has(15)` and `has(31)` true and `has(23)` false; creating the key 39 (by
`map[39] = 3.9f`, or by `set(39, 3.9f)`, which gives the same map) stores it in slot 0, slot 2
stays `Free`, the size is 3, the capacity 4, the keys 15, 31 and 39 are retrieved with their
own values and 23 stays absent. -/
theorem tombstone_reuse_scenario (w : Nat) (hw : w = 32 ∨ w = 64) :
    ∃ (full removed created reused : HashMap Int F32) (index : Nat) (previous : F32),
      HashMap.ofPairs w (Function.scalar w) collisionPairs = some full ∧
      full.getCapacity = 4 ∧ full.getSize = 3 ∧
      ((BasicTable.entryAt w full.table 3).state = EntryState.Occupied ∧
        (BasicTable.entryAt w full.table 3).key = 15) ∧
      ((BasicTable.entryAt w full.table 0).state = EntryState.Occupied ∧
        (BasicTable.entryAt w full.table 0).key = 23) ∧
      ((BasicTable.entryAt w full.table 1).state = EntryState.Occupied ∧
        (BasicTable.entryAt w full.table 1).key = 31) ∧
      (BasicTable.entryAt w full.table 2).state = EntryState.Free ∧
      HashMap.remove w (Function.scalar w) full 23 =
        some (Except.ok (F32.lit 23 10), removed) ∧
      (BasicTable.entryAt w removed.table 0).state = EntryState.Deleted ∧
      HashMap.has w (Function.scalar w) removed 15 = true ∧
      HashMap.has w (Function.scalar w) removed 31 = true ∧
      HashMap.has w (Function.scalar w) removed 23 = false ∧
      HashMap.subscript w (Function.scalar w) removed 39 = some (index, created) ∧
      index = 0 ∧
      reused = HashMap.assignAt w created index (F32.lit 39 10) ∧
      HashMap.set w (Function.scalar w) removed 39 (F32.lit 39 10) = some (previous, reused) ∧
      ((BasicTable.entryAt w reused.table 0).state = EntryState.Occupied ∧
        (BasicTable.entryAt w reused.table 0).key = 39) ∧
      (BasicTable.entryAt w reused.table 2).state = EntryState.Free ∧
      reused.getSize = 3 ∧ reused.getCapacity = 4 ∧
      HashMap.get w (Function.scalar w) reused 15 = Except.ok (F32.lit 3 2) ∧
      HashMap.get w (Function.scalar w) reused 31 = Except.ok (F32.lit 31 10) ∧
      HashMap.get w (Function.scalar w) reused 39 = Except.ok (F32.lit 39 10) ∧
      HashMap.has w (Function.scalar w) reused 23 = false ∧
      HashMap.get w (Function.scalar w) reused 23 = Except.error { key := 23 } := by
  refine ⟨
    { table :=
      { capacity := 4
        entries :=
          [{ hash := 23, state := EntryState.Occupied, key := 23, value := F32.lit 23 10 },
           { hash := 31, state := EntryState.Occupied, key := 31, value := F32.lit 31 10 },
           HashEntry.empty w,
           { hash := 15, state := EntryState.Occupied, key := 15, value := F32.lit 3 2 }]
        size := 3 } },
    { table :=
      { capacity := 4
        entries :=
          [{ hash := 23, state := EntryState.Deleted, key := 23, value := F32.lit 23 10 },
           { hash := 31, state := EntryState.Occupied, key := 31, value := F32.lit 31 10 },
           HashEntry.empty w,
           { hash := 15, state := EntryState.Occupied, key := 15, value := F32.lit 3 2 }]
        size := 2 } },
    { table :=
      { capacity := 4
        entries :=
          [{ hash := 39, state := EntryState.Occupied, key := 39, value := F32.lit 23 10 },
           { hash := 31, state := EntryState.Occupied, key := 31, value := F32.lit 31 10 },
           HashEntry.empty w,
           { hash := 15, state := EntryState.Occupied, key := 15, value := F32.lit 3 2 }]
        size := 3 } },
    { table :=
      { capacity := 4
        entries :=
          [{ hash := 39, state := EntryState.Occupied, key := 39, value := F32.lit 39 10 },
           { hash := 31, state := EntryState.Occupied, key := 31, value := F32.lit 31 10 },
           HashEntry.empty w,
           { hash := 15, state := EntryState.Occupied, key := 15, value := F32.lit 3 2 }]
        size := 3 } },
    0, F32.lit 23 10, ?_⟩
  rcases hw with rfl | rfl <;> (repeat' apply And.intro) <;> first | decide | rfl

/-- Witness of C28 at the width 64. -/
theorem tombstone_reuse_scenario_witness :
    (64 = 32 ∨ 64 = 64) ∧
    ∃ (full removed created reused : HashMap Int F32) (index : Nat) (previous : F32),
      HashMap.ofPairs 64 (Function.scalar 64) collisionPairs = some full ∧
      full.getCapacity = 4 ∧ full.getSize = 3 ∧
      ((BasicTable.entryAt 64 full.table 3).state = EntryState.Occupied ∧
        (BasicTable.entryAt 64 full.table 3).key = 15) ∧
      ((BasicTable.entryAt 64 full.table 0).state = EntryState.Occupied ∧
        (BasicTable.entryAt 64 full.table 0).key = 23) ∧
      ((BasicTable.entryAt 64 full.table 1).state = EntryState.Occupied ∧
        (BasicTable.entryAt 64 full.table 1).key = 31) ∧
      (BasicTable.entryAt 64 full.table 2).state = EntryState.Free ∧
      HashMap.remove 64 (Function.scalar 64) full 23 =
        some (Except.ok (F32.lit 23 10), removed) ∧
      (BasicTable.entryAt 64 removed.table 0).state = EntryState.Deleted ∧
      HashMap.has 64 (Function.scalar 64) removed 15 = true ∧
      HashMap.has 64 (Function.scalar 64) removed 31 = true ∧
      HashMap.has 64 (Function.scalar 64) removed 23 = false ∧
      HashMap.subscript 64 (Function.scalar 64) removed 39 = some (index, created) ∧
      index = 0 ∧
      reused = HashMap.assignAt 64 created index (F32.lit 39 10) ∧
      HashMap.set 64 (Function.scalar 64) removed 39 (F32.lit 39 10) = some (previous, reused) ∧
      ((BasicTable.entryAt 64 reused.table 0).state = EntryState.Occupied ∧
        (BasicTable.entryAt 64 reused.table 0).key = 39) ∧
      (BasicTable.entryAt 64 reused.table 2).state = EntryState.Free ∧
      reused.getSize = 3 ∧ reused.getCapacity = 4 ∧
      HashMap.get 64 (Function.scalar 64) reused 15 = Except.ok (F32.lit 3 2) ∧
      HashMap.get 64 (Function.scalar 64) reused 31 = Except.ok (F32.lit 31 10) ∧
      HashMap.get 64 (Function.scalar 64) reused 39 = Except.ok (F32.lit 39 10) ∧
      HashMap.has 64 (Function.scalar 64) reused 23 = false ∧
      HashMap.get 64 (Function.scalar 64) reused 23 = Except.error { key := 23 } :=
  ⟨Or.inr rfl, tombstone_reuse_scenario 64 (Or.inr rfl)⟩

end SPL

namespace SPL

theorem Math.Max_lt_of_lt {r b : Nat} (hr : r < b) (h4 : 4 < b) : Math.Max r 4 < b := by
  unfold Math.Max
  split <;> omega

theorem Math.Max_eq_of_four_le {n : Nat} (h4 : 4 ≤ n) : Math.Max n 4 = n := by
  unfold Math.Max
  split <;> omega

set_option maxRecDepth 100000 in
/-- C29 (the claim as stated fails): the table of capacity 8 and size 5 built by
`BasicTable(8)` and `set` of the keys 0, 1, 2, 3 and `2 ^ 64 - 2` passes the guard of
`shrink(6)` (`6 < 8` and `6 > 5`), but the call does not produce a table of capacity 6: in
the fresh table of capacity 6 the key `2 ^ 64 - 2` probes the slots 2, 3, 0, 1, 2, 3, all
taken by the keys rehashed before it, `load` returns `-1` and the store at that index is
undefined.  The same happens to `enlarge(6)` on the full table of capacity 5 with these
keys. -/
theorem shrink_to_six_is_undefined :
    (BasicTable.set 64 id (BasicTable.set 64 id (BasicTable.set 64 id (BasicTable.set 64 id
      (BasicTable.set 64 id (BasicTable.init 64 8) 0).1 1).1 2).1 3).1 (2 ^ 64 - 2)).1 =
      eightTable ∧
    (Math.Max 6 4 = 6 ∧ Math.Max 6 4 < eightTable.capacity ∧ Math.Max 6 4 > eightTable.size) ∧
    (List.range 6).map (BasicTable.probe 64 (BasicTable.init 64 6 : BasicTable Nat Nat)
      (2 ^ 64 - 2)) = [2, 3, 0, 1, 2, 3] ∧
    BasicTable.shrink 64 eightTable 6 = none ∧
    (BasicTable.set 64 id (BasicTable.set 64 id (BasicTable.set 64 id (BasicTable.set 64 id
      (BasicTable.set 64 id (BasicTable.init 64 5) 0).1 1).1 2).1 3).1 (2 ^ 64 - 2)).1 =
      fiveFull ∧
    Math.Max 6 4 > fiveFull.capacity ∧
    BasicTable.enlarge 64 fiveFull 6 = none := by
  decide

/-- C29 (amended): with `n = max(r, 4)`, on every table `enlarge(r)` leaves the table unchanged
unless `n > c`, and `shrink(r)` leaves it unchanged unless `n < c` and `n > s`; on a
well-formed table, for a request `r` below `2 ^ 32` whose `n` divides `2 ^ w` (a power of
two), `enlarge(r)` with `n > c` and `shrink(r)` with `n < c` and `n > s` produce a well-formed
table of capacity exactly `n` with the same size and the same entries. -/
theorem resize_guards {K V : Type} [LinearOrder K] [Inhabited K] [Inhabited V]
    (w : Nat) (H : K → Nat) (t : BasicTable K V) (r : Nat) :
    (¬ Math.Max r 4 > t.capacity → BasicTable.enlarge w t r = some t) ∧
    (¬ (Math.Max r 4 > t.size ∧ Math.Max r 4 < t.capacity) →
      BasicTable.shrink w t r = some t) ∧
    (BasicTable.Inv w H t → r < 2 ^ 32 → Math.Max r 4 ∣ 2 ^ w →
      (Math.Max r 4 > t.capacity →
        ∃ t', BasicTable.enlarge w t r = some t' ∧ t'.capacity = Math.Max r 4 ∧
          t'.size = t.size ∧ BasicTable.Inv w H t' ∧
          ∀ k v, BasicTable.Holds w t' k v ↔ BasicTable.Holds w t k v) ∧
      (Math.Max r 4 > t.size ∧ Math.Max r 4 < t.capacity →
        ∃ t', BasicTable.shrink w t r = some t' ∧ t'.capacity = Math.Max r 4 ∧
          t'.size = t.size ∧ BasicTable.Inv w H t' ∧
          ∀ k v, BasicTable.Holds w t' k v ↔ BasicTable.Holds w t k v)) := by
  refine ⟨fun h => ?_, fun h => ?_, fun hinv hr hd => ?_⟩
  · unfold BasicTable.enlarge
    simp only
    rw [if_neg h]
  · unfold BasicTable.shrink
    simp only
    rw [if_neg h]
  · have hb : Math.Max (Math.Max r 4) 4 < 2 ^ 32 := by
      rw [Math.Max_idem]; exact Math.Max_lt_of_lt hr (by norm_num)
    have hd' : Math.Max (Math.Max r 4) 4 ∣ 2 ^ w := by rw [Math.Max_idem]; exact hd
    have hle : t.size ≤ t.capacity := by
      rw [hinv.size_eq, ← hinv.len]; exact BasicTable.occupiedCount_le _
    constructor
    · intro hgt
      obtain ⟨t', h1, h2, h3, h4, h5⟩ := BasicTable.resize_spec hinv (Math.Max r 4) hd' hb
        (by rw [Math.Max_idem]; omega)
      rw [Math.Max_idem] at h3
      refine ⟨t', ?_, h3, h4, h2, h5⟩
      unfold BasicTable.enlarge
      simp only
      rw [if_pos hgt]
      exact h1
    · intro hgt
      obtain ⟨t', h1, h2, h3, h4, h5⟩ := BasicTable.resize_spec hinv (Math.Max r 4) hd' hb
        (by rw [Math.Max_idem]; omega)
      rw [Math.Max_idem] at h3
      refine ⟨t', ?_, h3, h4, h2, h5⟩
      unfold BasicTable.shrink
      simp only
      rw [if_pos hgt]
      exact h1

set_option maxRecDepth 100000 in
/-- Witness of C29 on the sample table (capacity 4, size 2) and the request 8: `enlarge(8)`
produces a table of capacity 8, `shrink(8)` changes nothing. -/
theorem resize_guards_witness :
    (BasicTable.Inv 64 id sampleMap.table ∧ 8 < 2 ^ 32 ∧ Math.Max 8 4 ∣ 2 ^ 64 ∧
      Math.Max 8 4 > sampleMap.table.capacity ∧
      ¬ (Math.Max 8 4 > sampleMap.table.size ∧ Math.Max 8 4 < sampleMap.table.capacity)) ∧
    (BasicTable.enlarge 64 sampleMap.table 8).map (fun t => t.capacity) = some 8 ∧
    ((¬ Math.Max 8 4 > sampleMap.table.capacity →
        BasicTable.enlarge 64 sampleMap.table 8 = some sampleMap.table) ∧
      (¬ (Math.Max 8 4 > sampleMap.table.size ∧ Math.Max 8 4 < sampleMap.table.capacity) →
        BasicTable.shrink 64 sampleMap.table 8 = some sampleMap.table) ∧
      (BasicTable.Inv 64 id sampleMap.table → 8 < 2 ^ 32 → Math.Max 8 4 ∣ 2 ^ 64 →
        (Math.Max 8 4 > sampleMap.table.capacity →
          ∃ t', BasicTable.enlarge 64 sampleMap.table 8 = some t' ∧
            t'.capacity = Math.Max 8 4 ∧ t'.size = sampleMap.table.size ∧
            BasicTable.Inv 64 id t' ∧
            ∀ k v, BasicTable.Holds 64 t' k v ↔ BasicTable.Holds 64 sampleMap.table k v) ∧
        (Math.Max 8 4 > sampleMap.table.size ∧ Math.Max 8 4 < sampleMap.table.capacity →
          ∃ t', BasicTable.shrink 64 sampleMap.table 8 = some t' ∧
            t'.capacity = Math.Max 8 4 ∧ t'.size = sampleMap.table.size ∧
            BasicTable.Inv 64 id t' ∧
            ∀ k v, BasicTable.Holds 64 t' k v ↔ BasicTable.Holds 64 sampleMap.table k v))) :=
  ⟨⟨(Reachable.inv (by decide) sampleMap_reachable).table, by decide, by decide, by decide,
      by decide⟩,
    by decide, resize_guards 64 id sampleMap.table 8⟩

end SPL

namespace SPL

namespace BasicTable

variable {K V : Type} [LinearOrder K] [Inhabited K] [Inhabited V]

/-- The loop of `resize` stores occupied entries only: a fresh table without tombstone stays
without tombstone. -/
theorem resizeLoop_no_deleted (w : Nat) (size : Nat) :
    ∀ (rest : List (HashEntry K V)) (table t' : BasicTable K V),
      resizeLoop w size rest table = some t' →
      (∀ e ∈ table.entries, e.state ≠ EntryState.Deleted) →
      ∀ e ∈ t'.entries, e.state ≠ EntryState.Deleted := by
  intro rest
  induction rest with
  | nil =>
    intro table t' hr hall
    simp only [resizeLoop] at hr
    split at hr
    · simp at hr
    · obtain rfl : table = t' := by simpa using hr
      exact hall
  | cons entry rest ih =>
    intro table t' hr hall
    simp only [resizeLoop] at hr
    split at hr
    · split at hr
      · rename_i hocc
        cases hl : load w table entry.hash entry.key with
        | none => rw [hl] at hr; simp at hr
        | some index =>
          rw [hl] at hr
          refine ih _ _ hr (fun e he => ?_)
          rcases List.mem_or_eq_of_mem_set he with h | h
          · exact hall e h
          · rw [h, hocc]; simp
      · exact ih _ _ hr hall
    · obtain rfl : table = t' := by simpa using hr
      exact hall

end BasicTable

set_option maxRecDepth 100000 in
/-- C30 (the claim as stated fails): the table of capacity 8 with the keys 0, 1, 2, 3 and
`2 ^ 64 - 2` in the slots 0, 1, 2, 3 and 6 is well formed (its size 5 is the number of its
occupied slots, its keys are distinct, every key is found by `get`), and the new capacity 6
is at least 4 and greater than the size; but `resize(6)`, also through `shrink(6)`, is
undefined: no table of capacity 6 holding the five keys is produced. -/
theorem resize_to_six_loses_the_table :
    eightTable.entries.length = eightTable.capacity ∧
    eightTable.size = BasicTable.occupiedCount eightTable.entries ∧
    ((eightTable.entries.filter (fun e => decide (e.state = EntryState.Occupied))).map
      (fun e => e.key)).Nodup ∧
    [0, 1, 2, 3, 2 ^ 64 - 2].map (BasicTable.get 64 id eightTable) =
      [some 0, some 1, some 2, some 3, some 6] ∧
    (4 ≤ 6 ∧ eightTable.size < 6 ∧ 6 < eightTable.capacity) ∧
    BasicTable.resize 64 eightTable 6 = none ∧
    BasicTable.shrink 64 eightTable 6 = none := by
  decide

/-- C30 (amended): for every well-formed table and every new capacity `n >= 4` with
`n > size` that divides `2 ^ w` (a power of two) and is below `2 ^ 32`, `resize(n)` (also
through `enlarge(n)` when `n` exceeds the capacity and through `shrink(n)` when `n` is below
it) produces a table of capacity `n` and unchanged size in which `get(k)` finds an entry
exactly when it did before, that entry carrying the same key, value and stored hash, and in
which every slot is `Occupied` or `Free`. -/
theorem resize_preserves_contents {K V : Type} [LinearOrder K] [Inhabited K] [Inhabited V]
    (w : Nat) (H : K → Nat) (t : BasicTable K V) (hinv : BasicTable.Inv w H t) (n : Nat)
    (h4 : 4 ≤ n) (hs : t.size < n) (hb : n < 2 ^ 32) (hd : n ∣ 2 ^ w) :
    ∃ t', BasicTable.resize w t n = some t' ∧
      (t.capacity < n → BasicTable.enlarge w t n = some t') ∧
      (n < t.capacity → BasicTable.shrink w t n = some t') ∧
      t'.capacity = n ∧ t'.size = t.size ∧
      (∀ k, (BasicTable.get w H t' k).isSome = (BasicTable.get w H t k).isSome) ∧
      (∀ k i, BasicTable.get w H t k = some i →
        ∃ i', BasicTable.get w H t' k = some i' ∧
          (BasicTable.entryAt w t' i').key = (BasicTable.entryAt w t i).key ∧
          (BasicTable.entryAt w t' i').value = (BasicTable.entryAt w t i).value ∧
          (BasicTable.entryAt w t' i').hash = (BasicTable.entryAt w t i).hash) ∧
      (∀ i, i < n → (BasicTable.entryAt w t' i).state = EntryState.Occupied ∨
        (BasicTable.entryAt w t' i).state = EntryState.Free) := by
  have hmax : Math.Max n 4 = n := Math.Max_eq_of_four_le h4
  obtain ⟨t', h1, h2, h3, h5, h6⟩ := BasicTable.resize_spec hinv n (by rw [hmax]; exact hd)
    (by rw [hmax]; exact hb) (by rw [hmax]; omega)
  rw [hmax] at h3
  have hfwd : ∀ k i, BasicTable.get w H t k = some i →
      ∃ i', BasicTable.get w H t' k = some i' ∧
        (BasicTable.entryAt w t' i').key = (BasicTable.entryAt w t i).key ∧
        (BasicTable.entryAt w t' i').value = (BasicTable.entryAt w t i).value ∧
        (BasicTable.entryAt w t' i').hash = (BasicTable.entryAt w t i).hash := by
    intro k i hg
    have hl := (BasicTable.get_eq_some_iff hinv k i).1 hg
    obtain ⟨i', hl', hv⟩ := (h6 k (BasicTable.entryAt w t i).value).2 ⟨i, hl, rfl⟩
    refine ⟨i', (BasicTable.get_eq_some_iff h2 k i').2 hl', ?_, hv, ?_⟩
    · rw [hl'.2.2, hl.2.2]
    · rw [h2.hash_eq i' hl'.1 hl'.2.1, hinv.hash_eq i hl.1 hl.2.1, hl'.2.2, hl.2.2]
  refine ⟨t', h1, fun hlt => ?_, fun hlt => ?_, h3, h5, fun k => ?_, hfwd, fun i hi => ?_⟩
  · unfold BasicTable.enlarge
    simp only
    rw [hmax, if_pos hlt]
    exact h1
  · unfold BasicTable.shrink
    simp only
    rw [hmax, if_pos ⟨hs, hlt⟩]
    exact h1
  · cases hg : BasicTable.get w H t k with
    | some i =>
      obtain ⟨i', hg', _⟩ := hfwd k i hg
      rw [hg']; rfl
    | none =>
      cases hg' : BasicTable.get w H t' k with
      | none => rfl
      | some i' =>
        exfalso
        have hl' := (BasicTable.get_eq_some_iff h2 k i').1 hg'
        obtain ⟨i, hl, _⟩ := (h6 k (BasicTable.entryAt w t' i').value).1 ⟨i', hl', rfl⟩
        rw [(BasicTable.get_eq_some_iff hinv k i).2 hl] at hg
        simp at hg
  · have hnd := BasicTable.resizeLoop_no_deleted w t.size t.entries (BasicTable.init w n) t' h1
      (fun e he => by
        simp only [BasicTable.init] at he
        rw [List.eq_of_mem_replicate he]
        simp [HashEntry.empty])
    have hil : i < t'.entries.length := by rw [h2.len, h3]; exact hi
    have hne := hnd _ (List.getElem_mem hil)
    rw [BasicTable.entryAt_eq_getElem w t' i hil]
    cases hst : t'.entries[i].state with
    | Free => exact Or.inr rfl
    | Occupied => exact Or.inl rfl
    | Deleted => exact absurd hst hne

set_option maxRecDepth 100000 in
/-- Witness of C30 on the sample table (capacity 4, the keys 15 and 31, a tombstone in slot
0) and the new capacity 8: the result has capacity 8, size 2 and no tombstone. -/
theorem resize_preserves_contents_witness :
    (BasicTable.Inv 64 id sampleMap.table ∧ 4 ≤ 8 ∧ sampleMap.table.size < 8 ∧
      8 < 2 ^ 32 ∧ 8 ∣ 2 ^ 64) ∧
    (BasicTable.entryAt 64 sampleMap.table 0).state = EntryState.Deleted ∧
    ∃ t', BasicTable.resize 64 sampleMap.table 8 = some t' ∧
      (sampleMap.table.capacity < 8 → BasicTable.enlarge 64 sampleMap.table 8 = some t') ∧
      (8 < sampleMap.table.capacity → BasicTable.shrink 64 sampleMap.table 8 = some t') ∧
      t'.capacity = 8 ∧ t'.size = sampleMap.table.size ∧
      (∀ k, (BasicTable.get 64 id t' k).isSome =
        (BasicTable.get 64 id sampleMap.table k).isSome) ∧
      (∀ k i, BasicTable.get 64 id sampleMap.table k = some i →
        ∃ i', BasicTable.get 64 id t' k = some i' ∧
          (BasicTable.entryAt 64 t' i').key = (BasicTable.entryAt 64 sampleMap.table i).key ∧
          (BasicTable.entryAt 64 t' i').value =
            (BasicTable.entryAt 64 sampleMap.table i).value ∧
          (BasicTable.entryAt 64 t' i').hash =
            (BasicTable.entryAt 64 sampleMap.table i).hash) ∧
      (∀ i, i < 8 → (BasicTable.entryAt 64 t' i).state = EntryState.Occupied ∨
        (BasicTable.entryAt 64 t' i).state = EntryState.Free) :=
  ⟨⟨(Reachable.inv (by decide) sampleMap_reachable).table, by decide, by decide, by decide,
      by decide⟩,
    by decide,
    resize_preserves_contents 64 id sampleMap.table
      (Reachable.inv (by decide) sampleMap_reachable).table 8 (by decide) (by decide)
      (by decide) (by decide)⟩

end SPL

namespace SPL

namespace BasicTable

variable {K V : Type} [LinearOrder K] [Inhabited K] [Inhabited V]

/-- Two offsets below the capacity that probe the same slot are equal, when the capacity
divides `2 ^ w`. -/
theorem probe_inj (w : Nat) (t : BasicTable K V) (h : Nat) (hd : t.capacity ∣ 2 ^ w)
    (i j : Nat) (hi : i < t.capacity) (hj : j < t.capacity)
    (hp : probe w t h i = probe w t h j) : i = j := by
  rw [probe_eq_mod w t h i hd, probe_eq_mod w t h j hd] at hp
  have h1 : i ≡ j [MOD t.capacity] := Nat.ModEq.add_left_cancel' h hp
  have h2 : i % t.capacity = j % t.capacity := h1
  rwa [Nat.mod_eq_of_lt hi, Nat.mod_eq_of_lt hj] at h2

end BasicTable

/-- C40: for every hash `h` and every table whose capacity `c` is a power of two with
`4 <= c <= 2 ^ 31` (the width `w` of `Id` being at least 32), the index
`((h + j) mod 2 ^ w) mod c` probed at offset `j < c` is `((h mod c) + j) mod c`; two
different offsets below `c` probe different slots; every slot is probed at exactly one
offset below `c`; so the slots probed at the offsets `0, ..., c - 1` are a permutation of
the slots `0, ..., c - 1`, also when `h + j` wraps around `2 ^ w`. -/
theorem probe_permutation {K V : Type} [LinearOrder K] [Inhabited K] [Inhabited V]
    (w : Nat) (hw : 32 ≤ w) (t : BasicTable K V) (e : Nat) (he2 : 2 ≤ e) (he : e ≤ 31)
    (hc : t.capacity = 2 ^ e) (h : Nat) :
    (∀ j, j < t.capacity →
      (h + j) % 2 ^ w % t.capacity = (h % t.capacity + j) % t.capacity ∧
      BasicTable.probe w t h j = (h % t.capacity + j) % t.capacity) ∧
    (∀ i j, i < t.capacity → j < t.capacity →
      BasicTable.probe w t h i = BasicTable.probe w t h j → i = j) ∧
    (∀ s, s < t.capacity → ∃ j, j < t.capacity ∧ BasicTable.probe w t h j = s ∧
      ∀ j', j' < t.capacity → BasicTable.probe w t h j' = s → j' = j) ∧
    ((List.range t.capacity).map (BasicTable.probe w t h)).Perm (List.range t.capacity) := by
  have hd : t.capacity ∣ 2 ^ w := by
    rw [hc]; exact Nat.pow_dvd_pow 2 (by omega)
  have hpos : 0 < t.capacity := by rw [hc]; exact Nat.two_pow_pos e
  have hinj := BasicTable.probe_inj w t h hd
  have hmod : ∀ j, BasicTable.probe w t h j = (h % t.capacity + j) % t.capacity := by
    intro j
    rw [BasicTable.probe_eq_mod w t h j hd, Nat.add_mod h j, Nat.add_mod (h % t.capacity) j,
      Nat.mod_mod]
  refine ⟨fun j _ => ⟨hmod j, hmod j⟩, hinj, fun s hs => ?_, ?_⟩
  · obtain ⟨j, hj, hp⟩ := BasicTable.probe_surj w t h hpos hd s hs
    exact ⟨j, hj, hp, fun j' hj' hp' => hinj j' j hj' hj (by rw [hp', hp])⟩
  · rw [List.perm_ext_iff_of_nodup]
    · intro s
      simp only [List.mem_map, List.mem_range]
      constructor
      · rintro ⟨j, _, rfl⟩
        exact BasicTable.probe_lt w t h j hpos
      · intro hs
        obtain ⟨j, hj, hp⟩ := BasicTable.probe_surj w t h hpos hd s hs
        exact ⟨j, hj, hp⟩
    · refine List.Nodup.map_on ?_ (List.nodup_range _)
      intro i hi j hj hp
      exact hinj i j (List.mem_range.1 hi) (List.mem_range.1 hj) hp
    · exact List.nodup_range _

set_option maxRecDepth 100000 in
/-- Witness of C40 at capacity 4 and the hash `2 ^ 64 - 1`, whose sum with every offset but
the first wraps: the slots probed are 3, 0, 1, 2. -/
theorem probe_permutation_witness :
    (32 ≤ 64 ∧ 2 ≤ 2 ∧ 2 ≤ 31 ∧ sampleMap.table.capacity = 2 ^ 2) ∧
    (List.range sampleMap.table.capacity).map
      (BasicTable.probe 64 sampleMap.table (2 ^ 64 - 1)) = [3, 0, 1, 2] ∧
    ((∀ j, j < sampleMap.table.capacity →
        (2 ^ 64 - 1 + j) % 2 ^ 64 % sampleMap.table.capacity =
          ((2 ^ 64 - 1) % sampleMap.table.capacity + j) % sampleMap.table.capacity ∧
        BasicTable.probe 64 sampleMap.table (2 ^ 64 - 1) j =
          ((2 ^ 64 - 1) % sampleMap.table.capacity + j) % sampleMap.table.capacity) ∧
      (∀ i j, i < sampleMap.table.capacity → j < sampleMap.table.capacity →
        BasicTable.probe 64 sampleMap.table (2 ^ 64 - 1) i =
          BasicTable.probe 64 sampleMap.table (2 ^ 64 - 1) j → i = j) ∧
      (∀ s, s < sampleMap.table.capacity → ∃ j, j < sampleMap.table.capacity ∧
        BasicTable.probe 64 sampleMap.table (2 ^ 64 - 1) j = s ∧
        ∀ j', j' < sampleMap.table.capacity →
          BasicTable.probe 64 sampleMap.table (2 ^ 64 - 1) j' = s → j' = j) ∧
      ((List.range sampleMap.table.capacity).map
        (BasicTable.probe 64 sampleMap.table (2 ^ 64 - 1))).Perm
        (List.range sampleMap.table.capacity)) :=
  ⟨⟨by decide, by decide, by decide, by decide⟩, by decide,
    probe_permutation 64 (by decide) sampleMap.table 2 (by decide) (by decide) (by decide)
      (2 ^ 64 - 1)⟩

end SPL

namespace SPL

/-! ## The default hash of a string object and of a pointer to the same characters -/

/-- The loop of the string overload, started at the counter `index` with `length - index`
iterations left, hashes the characters from `key[index]` on. -/
theorem Function.stringLoop_eq (w : Nat) (key : List Int) :
    ∀ (fuel index : Nat) (fnv1 : FNV1), index + fuel = key.length →
      Function.stringLoop w key fuel index fnv1 =
        FNV1.mk ((key.drop index).foldl
          (fun h e => (h * 0x01000193 % 2 ^ w) ^^^ toId w e) fnv1.hash) := by
  intro fuel
  induction fuel with
  | zero =>
    intro index fnv1 h
    have hd : key.drop index = [] := List.drop_eq_nil_of_le (by omega)
    rw [hd]
    rfl
  | succ n ih =>
    intro index fnv1 h
    have hlt : index < key.length := by omega
    have hg : key.getD index 0 = key[index] := by
      simp [List.getD_eq_getElem?_getD, hlt]
    simp only [Function.stringLoop, if_pos hlt]
    rw [ih (index + 1) _ (by omega), List.drop_eq_getElem_cons hlt, List.foldl_cons, hg]
    rfl

/-- The default hash of a string object is the FNV-1 value of its characters. -/
theorem Function.string_eq (w : Nat) (hw : 32 ≤ w) (s : List Int) :
    Function.string w s = fnv1Reference w s := by
  unfold Function.string
  rw [Function.stringLoop_eq w s s.length 0 _ (by omega), List.drop_zero]
  show List.foldl _ (FNV1.new w).hash s = _
  rw [FNV1.new_hash w hw]
  exact fnv1Reference_eq_fold w s

/-- The default hash of a null-terminated pointer to characters without zero element is their
FNV-1 value. -/
theorem Function.pointer_eq (w : Nat) (hw : 32 ≤ w) (s rest : List Int)
    (hnz : ∀ e ∈ s, e ≠ 0) :
    Function w (some (s ++ 0 :: rest)) = some (fnv1Reference w s) := by
  unfold Function
  simp only [Function.loop_terminated w s rest hnz, Option.map_some', FNV1.getHash,
    FNV1.new_hash w hw]
  rw [fnv1Reference_eq_fold]

/-- C39: for every character sequence `s` that contains no zero element, the default hash of
a null-terminated pointer to the characters of `s` (whatever follows the terminator) is
defined and equals the default hash of the string object holding `s`; both are the FNV-1
value of `s`. -/
theorem string_hash_eq_pointer_hash (w : Nat) (hw : 32 ≤ w) (s rest : List Int)
    (hnz : ∀ e ∈ s, e ≠ 0) :
    Function w (some (s ++ 0 :: rest)) = some (Function.string w s) ∧
    Function.string w s = fnv1Reference w s := by
  have h1 := Function.string_eq w hw s
  exact ⟨by rw [h1, Function.pointer_eq w hw s rest hnz], h1⟩

set_option maxRecDepth 100000 in
/-- Witness of C39 on the characters of `"abc"`, whose hash at 64 bits is
`0xfb2e14ee439c2f4b`, and on a sequence with negative characters. -/
theorem string_hash_eq_pointer_hash_witness :
    (32 ≤ 64 ∧ ∀ e ∈ [(97 : Int), 98, 99], e ≠ 0) ∧
    (Function.string 64 [97, 98, 99] = 0xfb2e14ee439c2f4b ∧
      Function.string 64 [-128, 200] = 0xcbb9a74fac890085 ∧
      Function 64 (some [-128, 200, 0]) = some 0xcbb9a74fac890085 ∧
      Function.string 64 [97, 98, 99] ≠ Function.string 64 [99, 98, 97]) ∧
    (Function 64 (some ([97, 98, 99] ++ 0 :: [100])) = some (Function.string 64 [97, 98, 99]) ∧
      Function.string 64 [97, 98, 99] = fnv1Reference 64 [97, 98, 99]) :=
  ⟨⟨by decide, by decide⟩, by decide,
    string_hash_eq_pointer_hash 64 (by decide) [97, 98, 99] [100] (by decide)⟩

end SPL

namespace SPL

/-! ## The default-constructed and the moved-from container -/

namespace BasicTable

variable {K V : Type} [LinearOrder K] [Inhabited K] [Inhabited V]

theorem loadOffsets_lt (w : Nat) (t : BasicTable K V) (h : Nat) (k : K) :
    ∀ (fuel offset : Nat), ∀ o ∈ loadOffsets w t h k fuel offset, o < offset + fuel := by
  intro fuel
  induction fuel with
  | zero => intro offset o ho; simp [loadOffsets] at ho
  | succ n ih =>
    intro offset o ho
    simp only [loadOffsets] at ho
    split at ho
    · split at ho
      · simp at ho; omega
      · rcases List.mem_cons.1 ho with h1 | h1
        · omega
        · have := ih _ o h1; omega
    · split at ho
      · simp at ho; omega
      · rcases List.mem_cons.1 ho with h1 | h1
        · omega
        · have := ih _ o h1; omega

/-- Whenever `load` evaluates `(hash + offset) % capacity`, the offset is below the capacity:
the capacity is not zero. -/
theorem moduloEvaluations_lt (w : Nat) (t : BasicTable K V) (h : Nat) (k : K) :
    ∀ o ∈ moduloEvaluations w t h k, o < t.capacity := by
  intro o ho
  have := loadOffsets_lt w t h k t.capacity 0 o ho
  omega

end BasicTable

theorem HashMap.enlargedCapacity_empty {K V : Type} [LinearOrder K] [Inhabited K]
    [Inhabited V] : HashMap.enlargedCapacity (HashMap.empty : HashMap K V) = 4 := by
  have h1 : (HashMap.empty : HashMap K V).getLoadFactor = Math.Min F32.nan (F32.lit 1 1) := by
    simp only [HashMap.getLoadFactor, HashMap.getSize, HashMap.getCapacity, HashMap.empty,
      BasicTable.empty, f32_one_ge_threshold.2.2, F32.div, if_true]
  unfold HashMap.enlargedCapacity
  rw [h1, f32_one_ge_threshold.1]
  simp [HashMap.empty, BasicTable.empty, Math.Max]

theorem HashMap.not_holds_empty {K V : Type} [LinearOrder K] [Inhabited K] [Inhabited V]
    (w : Nat) (k : K) (v : V) :
    ¬ BasicTable.Holds w (HashMap.empty : HashMap K V).table k v := by
  rintro ⟨i, hi, _⟩
  exact BasicTable.not_live_empty w k i hi

/-- C38: a moved-from map or set is the default-constructed one; the default-constructed
container has capacity 0, size 0 and reports the load factor 1.0; on it `has(k)` is false,
`get(k)` and `remove(k)` by return raise `KeyNotFound` with the key `k` (on a set `remove(k)`
returns false), and `load` evaluates no `(hash + offset) % capacity` at all (it never does on
any table of capacity 0); the first `set(k, v)`, `operator[](k)` or `add(k)` on it returns,
leaves the capacity 4 and the size 1, and `has(k)` is then true (`get(k)` gives `v` after
`set`). -/
theorem default_state_container {K V : Type} [LinearOrder K] [Inhabited K] [Inhabited V]
    (w : Nat) (hw : 32 ≤ w) (H : K → Nat) (m : HashMap K V) (s : HashSet K) (k : K) (v : V) :
    ((HashMap.move m).2 = HashMap.empty ∧ (HashSet.move s).2 = HashSet.empty) ∧
    ((HashMap.empty : HashMap K V).getCapacity = 0 ∧
      (HashMap.empty : HashMap K V).getSize = 0 ∧
      (HashMap.empty : HashMap K V).getLoadFactor = F32.lit 1 1 ∧
      (HashSet.empty : HashSet K).getCapacity = 0 ∧
      (HashSet.empty : HashSet K).getSize = 0 ∧
      (HashSet.empty : HashSet K).getLoadFactor = F32.lit 1 1) ∧
    (HashMap.has w H (HashMap.empty : HashMap K V) k = false ∧
      HashMap.get w H (HashMap.empty : HashMap K V) k = Except.error { key := k } ∧
      HashMap.remove w H (HashMap.empty : HashMap K V) k =
        some (Except.error { key := k }, HashMap.empty) ∧
      HashSet.has w H (HashSet.empty : HashSet K) k = false ∧
      HashSet.remove w H (HashSet.empty : HashSet K) k = some (false, HashSet.empty)) ∧
    (BasicTable.moduloEvaluations w (HashMap.empty : HashMap K V).table (H k) k = [] ∧
      BasicTable.moduloEvaluations w (HashSet.empty : HashSet K).table (H k) k = [] ∧
      ∀ (t : BasicTable K V) (h : Nat),
        ∀ o ∈ BasicTable.moduloEvaluations w t h k, o < t.capacity) ∧
    (∃ r m', HashMap.set w H (HashMap.empty : HashMap K V) k v = some (r, m') ∧
      m'.getCapacity = 4 ∧ m'.getSize = 1 ∧ HashMap.has w H m' k = true ∧
      HashMap.get w H m' k = Except.ok v) ∧
    (∃ i m', HashMap.subscript w H (HashMap.empty : HashMap K V) k = some (i, m') ∧
      m'.getCapacity = 4 ∧ m'.getSize = 1 ∧ HashMap.has w H m' k = true) ∧
    (∃ s', HashSet.add w H (HashSet.empty : HashSet K) k = some s' ∧
      s'.getCapacity = 4 ∧ s'.getSize = 1 ∧ HashSet.has w H s' k = true) := by
  have hempty : HashMap.Inv w H (HashMap.empty : HashMap K V) := HashMap.Inv.empty_facade w H
  have hemptyS : HashMap.Inv w H (HashMap.empty : HashMap K Unit) :=
    HashMap.Inv.empty_facade w H
  have hlf : (HashMap.empty : HashMap K V).getLoadFactor = F32.lit 1 1 := by
    have h1 : (HashMap.empty : HashMap K V).getLoadFactor =
        Math.Min F32.nan (F32.lit 1 1) := by
      simp only [HashMap.getLoadFactor, HashMap.getSize, HashMap.getCapacity, HashMap.empty,
        BasicTable.empty, f32_one_ge_threshold.2.2, F32.div, if_true]
    rw [h1]; rfl
  have hlfS : (HashSet.empty : HashSet K).getLoadFactor = F32.lit 1 1 := by
    have h1 : (HashSet.empty : HashSet K).getLoadFactor =
        Math.Min F32.nan (F32.lit 1 1) := by
      simp only [HashSet.getLoadFactor, HashSet.getSize, HashSet.getCapacity, HashSet.empty,
        BasicTable.empty, f32_one_ge_threshold.2.2, F32.div, if_true]
    rw [h1]; rfl
  refine ⟨⟨rfl, rfl⟩, ⟨rfl, rfl, hlf, rfl, rfl, hlfS⟩, ⟨rfl, rfl, rfl, rfl, rfl⟩,
    ⟨rfl, rfl, fun t h => BasicTable.moduloEvaluations_lt w t h k⟩, ?_, ?_, ?_⟩
  · rcases HashMap.set_spec hw hempty k v with
      ⟨r, m', h1, h2, h3, _, _, h6, h7⟩ | ⟨_, _, _, h4⟩
    · refine ⟨r, m', h1, ?_, ?_, (HashMap.has_iff h2 k).2 ⟨v, h3⟩,
        (HashMap.get_ok_iff h2 k v).2 h3⟩
      · show m'.table.capacity = 4
        rw [h7, HashMap.enlargedCapacity_empty]
      · show m'.table.size = 1
        rw [h6 (fun v0 => HashMap.not_holds_empty w k v0)]; rfl
    · exact absurd h4 (by show (0 : Nat) ≠ 2 ^ 31; norm_num)
  · rcases HashMap.subscript_spec hw hempty k with
      ⟨i, m', h1, h2, h3, _, _, h6, h7⟩ | ⟨_, _, _, h4⟩
    · refine ⟨i, m', h1, ?_, ?_,
        (HashMap.has_iff h2 k).2 ⟨_, BasicTable.Holds_of_Live h3⟩⟩
      · show m'.table.capacity = 4
        rw [h7, HashMap.enlargedCapacity_empty]
      · show m'.table.size = 1
        rw [h6 (fun v0 => HashMap.not_holds_empty w k v0)]; rfl
    · exact absurd h4 (by show (0 : Nat) ≠ 2 ^ 31; norm_num)
  · rcases HashMap.subscript_spec hw hemptyS k with
      ⟨i, m', h1, h2, h3, _, _, h6, h7⟩ | ⟨_, _, _, h4⟩
    · refine ⟨HashSet.mk m'.table, HashSet.add_of_subscript h1, ?_, ?_,
        (HashMap.has_iff h2 k).2 ⟨_, BasicTable.Holds_of_Live h3⟩⟩
      · show m'.table.capacity = 4
        rw [h7, HashMap.enlargedCapacity_empty]
      · show m'.table.size = 1
        rw [h6 (fun v0 => HashMap.not_holds_empty w k v0)]; rfl
    · exact absurd h4 (by show (0 : Nat) ≠ 2 ^ 31; norm_num)

set_option maxRecDepth 100000 in
/-- Witness of C38 at the width 64 with identity hash, the sample map and the sample set as
the containers moved from, the key 7 and the value 9. -/
theorem default_state_container_witness :
    32 ≤ 64 ∧
    (HashMap.set 64 id (HashMap.empty : HashMap Nat Nat) 7 9).map
      (fun p => (p.2.getCapacity, p.2.getSize)) = some (4, 1) ∧
    (((HashMap.move sampleMap).2 = HashMap.empty ∧ (HashSet.move sampleSet).2 = HashSet.empty) ∧
    ((HashMap.empty : HashMap Nat Nat).getCapacity = 0 ∧
      (HashMap.empty : HashMap Nat Nat).getSize = 0 ∧
      (HashMap.empty : HashMap Nat Nat).getLoadFactor = F32.lit 1 1 ∧
      (HashSet.empty : HashSet Nat).getCapacity = 0 ∧
      (HashSet.empty : HashSet Nat).getSize = 0 ∧
      (HashSet.empty : HashSet Nat).getLoadFactor = F32.lit 1 1) ∧
    (HashMap.has 64 id (HashMap.empty : HashMap Nat Nat) 7 = false ∧
      HashMap.get 64 id (HashMap.empty : HashMap Nat Nat) 7 = Except.error { key := 7 } ∧
      HashMap.remove 64 id (HashMap.empty : HashMap Nat Nat) 7 =
        some (Except.error { key := 7 }, HashMap.empty) ∧
      HashSet.has 64 id (HashSet.empty : HashSet Nat) 7 = false ∧
      HashSet.remove 64 id (HashSet.empty : HashSet Nat) 7 = some (false, HashSet.empty)) ∧
    (BasicTable.moduloEvaluations 64 (HashMap.empty : HashMap Nat Nat).table (id 7) 7 = [] ∧
      BasicTable.moduloEvaluations 64 (HashSet.empty : HashSet Nat).table (id 7) 7 = [] ∧
      ∀ (t : BasicTable Nat Nat) (h : Nat),
        ∀ o ∈ BasicTable.moduloEvaluations 64 t h 7, o < t.capacity) ∧
    (∃ r m', HashMap.set 64 id (HashMap.empty : HashMap Nat Nat) 7 9 = some (r, m') ∧
      m'.getCapacity = 4 ∧ m'.getSize = 1 ∧ HashMap.has 64 id m' 7 = true ∧
      HashMap.get 64 id m' 7 = Except.ok 9) ∧
    (∃ i m', HashMap.subscript 64 id (HashMap.empty : HashMap Nat Nat) 7 = some (i, m') ∧
      m'.getCapacity = 4 ∧ m'.getSize = 1 ∧ HashMap.has 64 id m' 7 = true) ∧
    (∃ s', HashSet.add 64 id (HashSet.empty : HashSet Nat) 7 = some s' ∧
      s'.getCapacity = 4 ∧ s'.getSize = 1 ∧ HashSet.has 64 id s' 7 = true)) :=
  ⟨by decide, by decide,
    default_state_container 64 (by decide) id sampleMap sampleSet 7 9⟩

end SPL

namespace SPL

/-! ## No capacity exhaustion through the facades -/

end SPL

namespace SPL

/-! ## The states a slot goes through -/

namespace BasicTable

variable {K V : Type} [LinearOrder K] [Inhabited K] [Inhabited V]

/-- Reading slot `i` after slot `j` was overwritten. -/
theorem entryAt_withEntry (w : Nat) (t : BasicTable K V) (j : Nat) (e : HashEntry K V)
    (s : Nat) (i : Nat) :
    entryAt w (withEntry t j e s) i =
      if i = j ∧ j < t.entries.length then e else entryAt w t i := by
  by_cases hij : i = j
  · subst hij
    by_cases hl : i < t.entries.length
    · rw [if_pos ⟨rfl, hl⟩]; exact entryAt_withEntry_self w t i e s hl
    · rw [if_neg (fun h => hl h.2)]
      have hn : t.entries[i]? = none := List.getElem?_eq_none (by omega)
      simp [entryAt, withEntry, List.getElem?_set, hl, hn]
  · rw [if_neg (fun h => hij h.1)]
    exact entryAt_withEntry_ne w t j e s i hij

/-- What `set(key)` does to the state of a slot, on every table. -/
theorem set_state (w : Nat) (H : K → Nat) (t : BasicTable K V) (k : K) (i : Nat) :
    (entryAt w (set w H t k).1 i).state = (entryAt w t i).state ∨
    ((entryAt w t i).state ≠ EntryState.Occupied ∧
      (entryAt w (set w H t k).1 i).state = EntryState.Occupied) := by
  unfold set
  simp only
  cases load w t (H k) k with
  | none => exact Or.inl rfl
  | some j =>
    simp only
    by_cases hocc : (entryAt w t j).state = EntryState.Occupied
    · rw [if_neg (not_not.2 hocc)]
      exact Or.inl rfl
    · rw [if_pos hocc]
      show (entryAt w (withEntry t j _ _) i).state = _ ∨ _ ∧
        (entryAt w (withEntry t j _ _) i).state = _
      rw [entryAt_withEntry]
      by_cases h : i = j ∧ j < t.entries.length
      · rw [if_pos h]
        right
        exact ⟨by rw [h.1]; exact hocc, rfl⟩
      · rw [if_neg h]
        exact Or.inl rfl

/-- What `unset(key)` does to the state of a slot, on every table. -/
theorem unset_state (w : Nat) (H : K → Nat) (t : BasicTable K V) (k : K) (i : Nat) :
    (entryAt w (unset w H t k).1 i).state = (entryAt w t i).state ∨
    ((entryAt w t i).state = EntryState.Occupied ∧
      (entryAt w (unset w H t k).1 i).state = EntryState.Deleted) := by
  unfold unset
  cases hg : get w H t k with
  | none => exact Or.inl rfl
  | some j =>
    simp only
    have hl := Live_of_get w H t k j hg
    show (entryAt w (withEntry t j _ _) i).state = _ ∨ _ ∧
      (entryAt w (withEntry t j _ _) i).state = _
    rw [entryAt_withEntry]
    by_cases h : i = j ∧ j < t.entries.length
    · rw [if_pos h]
      right
      exact ⟨by rw [h.1]; exact hl.2.1, rfl⟩
    · rw [if_neg h]
      exact Or.inl rfl

end BasicTable

/-- C32: on every table, for every key and every slot: `set(k)` leaves the state of the slot
as it was or takes it from `Free` or `Deleted` to `Occupied`; `unset(k)` leaves it as it was
or takes it from `Occupied` to `Deleted`; `get(k)`, a `const` method that returns an entry
only, changes no slot; so a slot that is `Occupied` or `Deleted` before `set` or `unset` is
not `Free` after it. -/
theorem slot_state_machine {K V : Type} [LinearOrder K] [Inhabited K] [Inhabited V]
    (w : Nat) (H : K → Nat) (t : BasicTable K V) (k : K) (i : Nat) :
    ((BasicTable.entryAt w (BasicTable.set w H t k).1 i).state =
        (BasicTable.entryAt w t i).state ∨
      ((BasicTable.entryAt w t i).state = EntryState.Free ∧
        (BasicTable.entryAt w (BasicTable.set w H t k).1 i).state = EntryState.Occupied) ∨
      ((BasicTable.entryAt w t i).state = EntryState.Deleted ∧
        (BasicTable.entryAt w (BasicTable.set w H t k).1 i).state = EntryState.Occupied)) ∧
    ((BasicTable.entryAt w (BasicTable.unset w H t k).1 i).state =
        (BasicTable.entryAt w t i).state ∨
      ((BasicTable.entryAt w t i).state = EntryState.Occupied ∧
        (BasicTable.entryAt w (BasicTable.unset w H t k).1 i).state = EntryState.Deleted)) ∧
    ((BasicTable.entryAt w t i).state ≠ EntryState.Free →
      (BasicTable.entryAt w (BasicTable.set w H t k).1 i).state ≠ EntryState.Free ∧
      (BasicTable.entryAt w (BasicTable.unset w H t k).1 i).state ≠ EntryState.Free) := by
  have hs := BasicTable.set_state w H t k i
  have hu := BasicTable.unset_state w H t k i
  refine ⟨?_, hu, fun hnf => ⟨?_, ?_⟩⟩
  · rcases hs with h | ⟨h1, h2⟩
    · exact Or.inl h
    · cases hst : (BasicTable.entryAt w t i).state with
      | Free => exact Or.inr (Or.inl ⟨rfl, h2⟩)
      | Occupied => exact absurd hst h1
      | Deleted => exact Or.inr (Or.inr ⟨rfl, h2⟩)
  · rcases hs with h | ⟨_, h2⟩
    · rw [h]; exact hnf
    · rw [h2]; simp
  · rcases hu with h | ⟨_, h2⟩
    · rw [h]; exact hnf
    · rw [h2]; simp

set_option maxRecDepth 100000 in
/-- Witness of C32 on the sample table: `set(39)` takes slot 0 from `Deleted` to `Occupied`,
`unset(31)` takes slot 1 from `Occupied` to `Deleted`, and `set(7)` takes slot 2 from `Free`
to `Occupied`. -/
theorem slot_state_machine_witness :
    (BasicTable.entryAt 64 sampleMap.table 0).state = EntryState.Deleted ∧
    (BasicTable.entryAt 64 (BasicTable.set 64 id sampleMap.table 39).1 0).state =
      EntryState.Occupied ∧
    (BasicTable.entryAt 64 sampleMap.table 1).state = EntryState.Occupied ∧
    (BasicTable.entryAt 64 (BasicTable.unset 64 id sampleMap.table 31).1 1).state =
      EntryState.Deleted ∧
    (BasicTable.entryAt 64 sampleMap.table 2).state = EntryState.Free ∧
    (BasicTable.entryAt 64 (BasicTable.set 64 id sampleMap.table 6).1 2).state =
      EntryState.Occupied ∧
    ((BasicTable.entryAt 64 sampleMap.table 0).state ≠ EntryState.Free →
      (BasicTable.entryAt 64 (BasicTable.set 64 id sampleMap.table 39).1 0).state ≠
        EntryState.Free ∧
      (BasicTable.entryAt 64 (BasicTable.unset 64 id sampleMap.table 39).1 0).state ≠
        EntryState.Free) :=
  ⟨by decide, by decide, by decide, by decide, by decide, by decide,
    (slot_state_machine 64 id sampleMap.table 39 0).2.2⟩

end SPL

namespace SPL

/-! ## Well-formedness of the tables of any capacity -/

namespace BasicTable

variable {K V : Type} [LinearOrder K] [Inhabited K] [Inhabited V]

theorem Inv.wellFormed {w : Nat} {H : K → Nat} {t : BasicTable K V} (hinv : Inv w H t) :
    WellFormed w H t :=
  ⟨hinv.len, hinv.bound, hinv.size_eq, hinv.hash_eq, hinv.uniq, hinv.chain⟩

theorem WellFormed.with_entry {w : Nat} {H : K → Nat} {t : BasicTable K V}
    (hwf : WellFormed w H t)
    (j : Nat) (hj : j < t.capacity) (e : HashEntry K V) (s : Nat)
    (hnf : e.state ≠ EntryState.Free)
    (hs : s = occupiedCount (t.entries.set j e))
    (hocc : e.state = EntryState.Occupied →
      e.hash = H e.key ∧ (∀ i, i ≠ j → ¬ Live w t e.key i) ∧
      ∃ o, o < t.capacity ∧ probe w t e.hash o = j ∧
        ∀ o', o' < o → probe w t e.hash o' ≠ j →
          (entryAt w t (probe w t e.hash o')).state ≠ EntryState.Free) :
    WellFormed w H (withEntry t j e s) := by
  have hjl : j < t.entries.length := by rw [hwf.len]; exact hj
  have hstate : ∀ i, (entryAt w t i).state ≠ EntryState.Free →
      (entryAt w (BasicTable.withEntry t j e s) i).state ≠ EntryState.Free := by
    intro i hi
    by_cases hij : i = j
    · rw [hij, entryAt_withEntry_self w t j e s hjl]; exact hnf
    · rw [entryAt_withEntry_ne w t j e s i hij]; exact hi
  refine ⟨?_, hwf.bound, hs, ?_, ?_, ?_⟩
  · simp [BasicTable.withEntry, hwf.len]
  · intro i hi hst
    by_cases hij : i = j
    · rw [hij, entryAt_withEntry_self w t j e s hjl] at hst ⊢
      exact (hocc hst).1
    · rw [entryAt_withEntry_ne w t j e s i hij] at hst ⊢
      exact hwf.hash_eq i hi hst
  · intro k a b ha hb
    rw [Live_withEntry w t j e s hjl hwf.len] at ha hb
    rcases ha with ⟨ha1, ha2, ha3⟩ | ⟨ha1, ha2⟩ <;>
      rcases hb with ⟨hb1, hb2, hb3⟩ | ⟨hb1, hb2⟩
    · rw [ha1, hb1]
    · exact absurd (ha3 ▸ hb2) ((hocc ha2).2.1 b hb1)
    · exact absurd (hb3 ▸ ha2) ((hocc hb2).2.1 a ha1)
    · exact hwf.uniq k a b ha2 hb2
  · intro i hi hst
    by_cases hij : i = j
    · rw [hij, entryAt_withEntry_self w t j e s hjl] at hst ⊢
      obtain ⟨_, _, o, ho, hp, hch⟩ := hocc hst
      refine ⟨o, ho, hp, ?_⟩
      intro o' ho'
      by_cases hpj : probe w t e.hash o' = j
      · have : probe w (BasicTable.withEntry t j e s) e.hash o' = j := hpj
        rw [this, entryAt_withEntry_self w t j e s hjl]; exact hnf
      · exact hstate _ (hch o' ho' hpj)
    · rw [entryAt_withEntry_ne w t j e s i hij] at hst ⊢
      obtain ⟨o, ho, hp, hch⟩ := hwf.chain i hi hst
      exact ⟨o, ho, hp, fun o' ho' => hstate _ (hch o' ho')⟩

/-- In a well-formed table, `load` finds the slot of every key that occupies one. -/
theorem WellFormed.load_live {w : Nat} {H : K → Nat} {t : BasicTable K V}
    (hwf : WellFormed w H t) (k : K) (i : Nat) (hl : Live w t k i) :
    load w t (H k) k = some i := by
  obtain ⟨o, ho, hp, hch⟩ := hwf.chain i hl.1 hl.2.1
  have hh : (entryAt w t i).hash = H k := by
    rw [hwf.hash_eq i hl.1 hl.2.1, hl.2.2]
  rw [hh] at hp hch
  obtain ⟨i', h1, h2⟩ := loadLoop_found w t (H k) k t.capacity 0 none o (Nat.zero_le _)
    (by omega) (by rw [hp]; exact hl) (fun o' _ ho' => hch o' ho')
  unfold load
  rw [h1, hwf.uniq k i' i h2 hl]

/-- In a well-formed table, `get` finds the slot of every key that occupies one. -/
theorem WellFormed.get_live {w : Nat} {H : K → Nat} {t : BasicTable K V}
    (hwf : WellFormed w H t) (k : K) (i : Nat) (hl : Live w t k i) :
    get w H t k = some i := by
  unfold get
  rw [hwf.load_live k i hl]
  simp [hl.2.1]

/-- The slot that `load` designates for a key that occupies no slot. -/
theorem load_vacant (w : Nat) (t : BasicTable K V) (k : K) (habs : ∀ i, ¬ Live w t k i)
    (h : Nat) (j : Nat) (hj : load w t h k = some j) :
    j < t.capacity ∧ (entryAt w t j).state ≠ EntryState.Occupied ∧
      ∃ os, os < t.capacity ∧ probe w t h os = j ∧
        ∀ o', o' < os → (entryAt w t (probe w t h o')).state = EntryState.Occupied := by
  have hc : 0 < t.capacity := by
    rcases Nat.eq_zero_or_pos t.capacity with h0 | h0
    · unfold load at hj; rw [h0] at hj; simp [loadLoop] at hj
    · exact h0
  obtain ⟨os, _, h2, h3, h4, h5⟩ := loadLoop_absent_none w t h k hc habs t.capacity 0 j hj
  refine ⟨?_, h4, os, by omega, h3.symm, fun o' ho' => h5 o' (Nat.zero_le _) ho'⟩
  rw [h3]; exact probe_lt w t h os hc

/-- Storing an occupied entry, whose key occupies no slot, in the slot that `load` designates
keeps a table well formed. -/
theorem WellFormed.store {w : Nat} {H : K → Nat} {t : BasicTable K V}
    (hwf : WellFormed w H t) (e : HashEntry K V) (hocc : e.state = EntryState.Occupied)
    (hh : e.hash = H e.key) (habs : ∀ i, ¬ Live w t e.key i) (j : Nat)
    (hj : load w t e.hash e.key = some j) :
    j < t.entries.length ∧ (entryAt w t j).state ≠ EntryState.Occupied ∧
      t.size + 1 < 2 ^ 32 ∧ WellFormed w H (withEntry t j e (t.size + 1)) := by
  obtain ⟨hjc, hv, os, hos, hp, hch⟩ := load_vacant w t e.key habs e.hash j hj
  have hjl : j < t.entries.length := by rw [hwf.len]; exact hjc
  have hcount : occupiedCount (t.entries.set j e) = t.size + 1 := by
    rw [occupiedCount_set _ _ _ hjl, ← hwf.size_eq]
    rw [entryAt_eq_getElem w t j hjl] at hv
    simp [hv, hocc]
  have hlt : t.size + 1 < 2 ^ 32 := by
    have h1 := occupiedCount_le (t.entries.set j e)
    rw [hcount, List.length_set, hwf.len] at h1
    have := hwf.bound
    omega
  refine ⟨hjl, hv, hlt, ?_⟩
  refine hwf.with_entry j hjc e _ (by rw [hocc]; simp) hcount.symm ?_
  intro _
  refine ⟨hh, fun i _ => habs i, os, hos, hp, ?_⟩
  intro o' ho' _
  rw [hch o' ho']; simp

theorem WellFormed.after_set {w : Nat} {H : K → Nat} {t : BasicTable K V}
    (hwf : WellFormed w H t) (k : K) : WellFormed w H (BasicTable.set w H t k).1 := by
  unfold BasicTable.set
  simp only
  cases hl : load w t (H k) k with
  | none => exact hwf
  | some j =>
    simp only
    by_cases hocc : (entryAt w t j).state = EntryState.Occupied
    · rw [if_neg (not_not.2 hocc)]
      exact hwf
    · rw [if_pos hocc]
      have habs : ∀ i, ¬ Live w t k i := by
        intro i hi
        have := hwf.load_live k i hi
        rw [hl] at this
        obtain rfl : j = i := by simpa using this
        exact hocc hi.2.1
      obtain ⟨_, _, hlt, h⟩ := hwf.store (claimed w H t j k) rfl rfl habs j hl
      rw [Nat.mod_eq_of_lt hlt]
      exact h

theorem WellFormed.after_unset {w : Nat} {H : K → Nat} {t : BasicTable K V}
    (hwf : WellFormed w H t) (k : K) : WellFormed w H (BasicTable.unset w H t k).1 := by
  unfold BasicTable.unset
  cases hg : get w H t k with
  | none => exact hwf
  | some i =>
    simp only
    have hl := Live_of_get w H t k i hg
    have hil : i < t.entries.length := by rw [hwf.len]; exact hl.1
    have hocc : t.entries[i].state = EntryState.Occupied := by
      rw [← entryAt_eq_getElem w t i hil]; exact hl.2.1
    have hpos : 0 < t.size := by
      rw [hwf.size_eq]; exact occupiedCount_pos_of_getElem _ i hil hocc
    have hcount : occupiedCount (t.entries.set i (tombstone w t i)) = t.size - 1 := by
      rw [occupiedCount_set _ _ _ hil, ← hwf.size_eq]
      simp [hocc, tombstone]
    have hlt : t.size < 2 ^ 32 := by
      have h1 := occupiedCount_le t.entries
      rw [← hwf.size_eq, hwf.len] at h1
      have := hwf.bound
      omega
    have hsz : (t.size + 2 ^ 32 - 1) % 2 ^ 32 = t.size - 1 := by omega
    rw [hsz]
    refine hwf.with_entry i hl.1 (tombstone w t i) _ (by simp [tombstone]) hcount.symm ?_
    intro h
    simp [tombstone] at h

theorem WellFormed.of_free {w : Nat} {H : K → Nat} {t : BasicTable K V}
    (hlen : t.entries.length = t.capacity) (hb : t.capacity < 2 ^ 32) (hs : t.size = 0)
    (hfree : ∀ i, (entryAt w t i).state = EntryState.Free) : WellFormed w H t := by
  refine ⟨hlen, hb, ?_, ?_, ?_, ?_⟩
  · rw [hs]
    symm
    unfold occupiedCount
    rw [List.countP_eq_zero]
    intro a ha
    obtain ⟨j, hj, rfl⟩ := List.getElem_of_mem ha
    have := hfree j
    rw [entryAt_eq_getElem w t j hj] at this
    simp [this]
  · intro i _ h; rw [hfree i] at h; simp at h
  · intro k i j h; have := h.2.1; rw [hfree i] at this; simp at this
  · intro i _ h; rw [hfree i] at h; simp at h

theorem WellFormed.cleared {w : Nat} {H : K → Nat} {t : BasicTable K V}
    (hwf : WellFormed w H t) : WellFormed w H (clear t) :=
  WellFormed.of_free (by simp [BasicTable.clear, hwf.len]) hwf.bound rfl
    (entryAt_clear_state w t)

theorem WellFormed.fresh {w : Nat} {H : K → Nat} (c : Nat) (hc : c < 2 ^ 32) :
    WellFormed w H (init w c : BasicTable K V) :=
  WellFormed.of_free (by simp [BasicTable.init])
    (by show Math.Max c 4 < 2 ^ 32; exact Math.Max_lt_of_lt hc (by norm_num)) rfl
    (entryAt_init_state w c)

theorem WellFormed.default {w : Nat} {H : K → Nat} :
    WellFormed w H (empty : BasicTable K V) :=
  WellFormed.of_free rfl (by show 0 < 2 ^ 32; norm_num) rfl
    (by intro i; simp [entryAt, BasicTable.empty, HashEntry.empty])

end BasicTable

end SPL

namespace SPL

namespace BasicTable

variable {K V : Type} [LinearOrder K] [Inhabited K] [Inhabited V]

/-- The loop of `resize`, when it returns, leaves a well-formed table that holds `size`
entries. -/
theorem WellFormed.rehash {w : Nat} {H : K → Nat} (size : Nat) :
    ∀ (rest : List (HashEntry K V)) (table t' : BasicTable K V),
      WellFormed w H table → table.size + occupiedCount rest = size →
      (∀ e ∈ rest, e.state = EntryState.Occupied → e.hash = H e.key) →
      rest.Pairwise (fun a b =>
        a.state = EntryState.Occupied → b.state = EntryState.Occupied → a.key ≠ b.key) →
      (∀ e ∈ rest, e.state = EntryState.Occupied → ∀ i, ¬ Live w table e.key i) →
      resizeLoop w size rest table = some t' →
      WellFormed w H t' ∧ t'.capacity = table.capacity ∧ t'.size = size := by
  intro rest
  induction rest with
  | nil =>
    intro table t' hwf hsz _ _ _ hres
    have hs : table.size = size := by simpa [occupiedCount] using hsz
    simp only [resizeLoop, hs, Nat.lt_irrefl, if_false] at hres
    obtain rfl : table = t' := by simpa using hres
    exact ⟨hwf, rfl, hs⟩
  | cons e rest ih =>
    intro table t' hwf hsz hhash hpw habs hres
    rw [occupiedCount_cons] at hsz
    rw [List.pairwise_cons] at hpw
    simp only [resizeLoop] at hres
    by_cases hlt : table.size < size
    · rw [if_pos hlt] at hres
      by_cases hocc : e.state = EntryState.Occupied
      · rw [if_pos hocc] at hres hsz
        have habs_e := habs e (List.mem_cons_self _ _) hocc
        have hh := hhash e (List.mem_cons_self _ _) hocc
        cases hl : load w table e.hash e.key with
        | none => rw [hl] at hres; simp at hres
        | some j =>
          rw [hl] at hres
          simp only at hres
          obtain ⟨hjl, _, hlt2, hwf1⟩ := hwf.store e hocc hh habs_e j hl
          rw [Nat.mod_eq_of_lt hlt2] at hres
          obtain ⟨h1, h2, h3⟩ := ih (withEntry table j e (table.size + 1)) t' hwf1
            (by show table.size + 1 + occupiedCount rest = size; omega)
            (fun e' he' => hhash e' (List.mem_cons_of_mem _ he')) hpw.2
            (by
              intro e' he' hocc' i hi
              rw [Live_withEntry w table j e _ hjl hwf.len] at hi
              rcases hi with ⟨_, _, hk⟩ | ⟨_, hi⟩
              · exact hpw.1 e' he' hocc hocc' hk
              · exact habs e' (List.mem_cons_of_mem _ he') hocc' i hi)
            hres
          exact ⟨h1, h2, h3⟩
      · rw [if_neg hocc] at hres hsz
        exact ih table t' hwf (by omega)
          (fun e' he' => hhash e' (List.mem_cons_of_mem _ he')) hpw.2
          (fun e' he' => habs e' (List.mem_cons_of_mem _ he')) hres
    · rw [if_neg hlt] at hres
      obtain rfl : table = t' := by simpa using hres
      exact ⟨hwf, rfl, by omega⟩

/-- The occupied entries of a well-formed table cache their hash and have distinct keys. -/
theorem WellFormed.entries_facts {w : Nat} {H : K → Nat} {t : BasicTable K V}
    (hwf : WellFormed w H t) :
    (∀ e ∈ t.entries, e.state = EntryState.Occupied → e.hash = H e.key) ∧
    t.entries.Pairwise (fun a b =>
      a.state = EntryState.Occupied → b.state = EntryState.Occupied → a.key ≠ b.key) := by
  have hget : ∀ i (hi : i < t.entries.length), t.entries[i] = entryAt w t i :=
    fun i hi => (entryAt_eq_getElem w t i hi).symm
  constructor
  · intro e he hocc
    obtain ⟨i, hi, rfl⟩ := List.getElem_of_mem he
    rw [hget i hi] at hocc ⊢
    exact hwf.hash_eq i (by rw [← hwf.len]; exact hi) hocc
  · rw [List.pairwise_iff_getElem]
    intro i j hi hj hij ha hb hk
    rw [hget i hi] at ha hk
    rw [hget j hj] at hb hk
    have := hwf.uniq (entryAt w t j).key i j
      ⟨by rw [← hwf.len]; exact hi, ha, hk⟩ ⟨by rw [← hwf.len]; exact hj, hb, rfl⟩
    omega

/-- The method `resize`, when it returns, leaves a well-formed table of the clamped capacity
and of the same size. -/
theorem WellFormed.resized {w : Nat} {H : K → Nat} {t t' : BasicTable K V}
    (hwf : WellFormed w H t) (c : Nat) (hc : c < 2 ^ 32) (hres : resize w t c = some t') :
    WellFormed w H t' ∧ t'.capacity = Math.Max c 4 ∧ t'.size = t.size := by
  obtain ⟨h1, h2⟩ := hwf.entries_facts
  exact WellFormed.rehash (w := w) (H := H) t.size t.entries (init w c) t'
    (WellFormed.fresh c hc)
    (by show 0 + occupiedCount t.entries = t.size; rw [hwf.size_eq]; omega)
    h1 h2 (fun e _ _ i => not_live_init w c e.key i) hres

theorem WellFormed.size_le_capacity {w : Nat} {H : K → Nat} {t : BasicTable K V}
    (hwf : WellFormed w H t) : t.size ≤ t.capacity := by
  rw [hwf.size_eq, ← hwf.len]; exact occupiedCount_le _

theorem WellFormed.enlarged {w : Nat} {H : K → Nat} {t t' : BasicTable K V}
    (hwf : WellFormed w H t) (c : Nat) (hc : c < 2 ^ 32) (hres : enlarge w t c = some t') :
    WellFormed w H t' ∧ t'.size = t.size ∧ t.capacity ≤ t'.capacity := by
  unfold enlarge at hres
  simp only at hres
  by_cases h : Math.Max c 4 > t.capacity
  · rw [if_pos h] at hres
    obtain ⟨h1, h2, h3⟩ := hwf.resized (Math.Max c 4)
      (Math.Max_lt_of_lt hc (by norm_num)) hres
    rw [Math.Max_idem] at h2
    exact ⟨h1, h3, by omega⟩
  · rw [if_neg h] at hres
    obtain rfl : t = t' := by simpa using hres
    exact ⟨hwf, rfl, Nat.le_refl _⟩

theorem WellFormed.shrunk {w : Nat} {H : K → Nat} {t t' : BasicTable K V}
    (hwf : WellFormed w H t) (c : Nat) (hc : c < 2 ^ 32) (hres : shrink w t c = some t') :
    WellFormed w H t' ∧ t'.size = t.size ∧ t'.capacity ≤ t.capacity := by
  unfold shrink at hres
  simp only at hres
  by_cases h : Math.Max c 4 > t.size ∧ Math.Max c 4 < t.capacity
  · rw [if_pos h] at hres
    obtain ⟨h1, h2, h3⟩ := hwf.resized (Math.Max c 4)
      (Math.Max_lt_of_lt hc (by norm_num)) hres
    rw [Math.Max_idem] at h2
    exact ⟨h1, h3, by omega⟩
  · rw [if_neg h] at hres
    obtain rfl : t = t' := by simpa using hres
    exact ⟨hwf, rfl, Nat.le_refl _⟩

theorem WellFormed.copied {w : Nat} {H : K → Nat} {t t' : BasicTable K V}
    (hwf : WellFormed w H t) (hres : copy w t = some t') :
    WellFormed w H t' ∧ t'.size = t.size ∧ t'.capacity = Math.Max t.capacity 4 := by
  rw [copy_eq_resize] at hres
  obtain ⟨h1, h2, h3⟩ := hwf.resized t.capacity hwf.bound hres
  exact ⟨h1, h3, h2⟩

/-- Every reachable table is well formed. -/
theorem ReachableTable.well_formed {w : Nat} {H : K → Nat} {t : BasicTable K V}
    (hr : ReachableTable w H t) : WellFormed w H t := by
  induction hr with
  | empty => exact WellFormed.default
  | init c hc => exact WellFormed.fresh c hc
  | set k _ ih => exact ih.after_set k
  | unset k _ ih => exact ih.after_unset k
  | clear _ ih => exact ih.cleared
  | enlarge c hc _ hres ih => exact (ih.enlarged c hc hres).1
  | shrink c hc _ hres ih => exact (ih.shrunk c hc hres).1
  | copy _ hres ih => exact (ih.copied hres).1
  | moved _ ih => exact ih
  | movedFrom _ _ => exact WellFormed.default
  | assign _ _ _ ih2 => exact ih2

set_option maxRecDepth 100000 in
theorem fiveTable_reachable : ReachableTable 64 id fiveTable := by
  have h : (BasicTable.set 64 id (BasicTable.set 64 id (BasicTable.set 64 id
      (BasicTable.set 64 id (BasicTable.init 64 5) 5).1 1).1 2).1 3).1 = fiveTable := by
    decide
  rw [← h]
  exact ReachableTable.set 3 (ReachableTable.set 2 (ReachableTable.set 1
    (ReachableTable.set 5 (ReachableTable.init 5 (by norm_num)))))

set_option maxRecDepth 100000 in
theorem eightTable_reachable : ReachableTable 64 id eightTable := by
  have h : (BasicTable.set 64 id (BasicTable.set 64 id (BasicTable.set 64 id
      (BasicTable.set 64 id (BasicTable.set 64 id (BasicTable.init 64 8) 0).1 1).1 2).1 3).1
      (2 ^ 64 - 2)).1 = eightTable := by
    decide
  rw [← h]
  exact ReachableTable.set (2 ^ 64 - 2) (ReachableTable.set 3 (ReachableTable.set 2
    (ReachableTable.set 1 (ReachableTable.set 0 (ReachableTable.init 8 (by norm_num))))))

end BasicTable

end SPL

namespace SPL

/-! ## Invariants of the reachable tables -/

namespace BasicTable

variable {K V : Type} [LinearOrder K] [Inhabited K] [Inhabited V]

theorem WellFormed.size_counts {w : Nat} {H : K → Nat} {t : BasicTable K V}
    (hwf : WellFormed w H t) : SizeCounts w t :=
  ⟨by rw [occupiedSlots_length w t hwf.len]; exact hwf.size_eq, hwf.size_le_capacity⟩

theorem WellFormed.unique_keys {w : Nat} {H : K → Nat} {t : BasicTable K V}
    (hwf : WellFormed w H t) : UniqueKeys w t := by
  intro i j hi hj hoi hoj hc
  exact hwf.uniq (entryAt w t j).key i j ⟨hi, hoi, (Compare_eq_zero_iff _ _).1 hc⟩
    ⟨hj, hoj, rfl⟩

theorem WellFormed.chain_intact {w : Nat} {H : K → Nat} {t : BasicTable K V}
    (hwf : WellFormed w H t) : ChainIntact w H t := by
  intro i hi hocc
  have hh := hwf.hash_eq i hi hocc
  obtain ⟨o, ho, hp, hch⟩ := hwf.chain i hi hocc
  rw [hh] at hp hch
  exact ⟨hh, o, ho, hp, hch⟩

set_option maxRecDepth 100000 in
theorem tombstoneTable_reachable : ReachableTable 64 id tombstoneTable := by
  have h : (BasicTable.unset 64 id (BasicTable.set 64 id (BasicTable.set 64 id
      (BasicTable.init 64 4) 15).1 23).1 15).1 = tombstoneTable := by
    decide
  rw [← h]
  exact ReachableTable.unset 15 (ReachableTable.set 23 (ReachableTable.set 15
    (ReachableTable.init 4 (by norm_num))))

end BasicTable

/-- C33: in every table reachable from a constructor through `set`, `unset`, `clear`,
`enlarge`, `shrink`, copy, move and assignment (whatever the capacities requested), the size
field equals the number of slots whose state is `Occupied` and `size <= capacity`; an
`enlarge` or a `shrink` that returns keeps the size, so the capacity it leaves is not below the
number of live entries (`enlarge` does not reduce the capacity, `shrink` does not raise it);
a copy that returns has the size of its source.  The same holds for the table of every
reachable map and of every reachable set. -/
theorem size_invariant {K V : Type} [LinearOrder K] [Inhabited K] [Inhabited V]
    (w : Nat) (H : K → Nat) (t : BasicTable K V) (hr : BasicTable.ReachableTable w H t) :
    BasicTable.SizeCounts w t ∧ t.entries.length = t.capacity ∧
    (∀ c t', c < 2 ^ 32 → BasicTable.enlarge w t c = some t' →
      t'.size = t.size ∧ t.size ≤ t'.capacity ∧ t.capacity ≤ t'.capacity ∧
      BasicTable.SizeCounts w t') ∧
    (∀ c t', c < 2 ^ 32 → BasicTable.shrink w t c = some t' →
      t'.size = t.size ∧ t.size ≤ t'.capacity ∧ t'.capacity ≤ t.capacity ∧
      BasicTable.SizeCounts w t') ∧
    (∀ t', BasicTable.copy w t = some t' →
      t'.size = t.size ∧ t.size ≤ t'.capacity ∧ BasicTable.SizeCounts w t') ∧
    (∀ k, BasicTable.SizeCounts w (BasicTable.set w H t k).1 ∧
      BasicTable.SizeCounts w (BasicTable.unset w H t k).1) ∧
    BasicTable.SizeCounts w (BasicTable.clear t) ∧
    (32 ≤ w → (∀ m : HashMap K V, Reachable w H m → BasicTable.SizeCounts w m.table) ∧
      ∀ s : HashSet K, ReachableSet w H s → BasicTable.SizeCounts w s.table) := by
  have hwf := hr.well_formed
  refine ⟨hwf.size_counts, hwf.len, fun c t' hc h => ?_, fun c t' hc h => ?_, fun t' h => ?_,
    fun k => ⟨(hwf.after_set k).size_counts, (hwf.after_unset k).size_counts⟩,
    hwf.cleared.size_counts, fun hw => ⟨fun m hm => ?_, fun s hs => ?_⟩⟩
  · obtain ⟨h1, h2, h3⟩ := hwf.enlarged c hc h
    have := h1.size_le_capacity
    exact ⟨h2, by omega, h3, h1.size_counts⟩
  · obtain ⟨h1, h2, h3⟩ := hwf.shrunk c hc h
    have := h1.size_le_capacity
    exact ⟨h2, by omega, h3, h1.size_counts⟩
  · obtain ⟨h1, h2, _⟩ := hwf.copied h
    have := h1.size_le_capacity
    exact ⟨h2, by omega, h1.size_counts⟩
  · exact (Reachable.inv hw hm).table.wellFormed.size_counts
  · exact (ReachableSet.inv_set hw hs).table.wellFormed.size_counts

set_option maxRecDepth 100000 in
/-- Witness of C33 on the table of capacity 5 holding four keys. -/
theorem size_invariant_witness :
    BasicTable.ReachableTable 64 id fiveTable ∧
    (fiveTable.size = 4 ∧ (BasicTable.occupiedSlots 64 fiveTable).length = 4 ∧
      fiveTable.capacity = 5) ∧
    BasicTable.SizeCounts 64 fiveTable :=
  ⟨BasicTable.fiveTable_reachable, by decide,
    (size_invariant 64 id fiveTable BasicTable.fiveTable_reachable).1⟩

/-- C35: in every table reachable through `set`, `unset`, `clear`, `enlarge`, `shrink`, copy,
move and assignment (the hash `H` being a function of the key), no two occupied slots hold
keys that compare equal; in particular `set(k)` on a key that occupies the slot `i` returns
that slot and leaves the table unchanged, wherever the slot lies on the probe chain of `k`,
so it creates no second slot for `k`.  The same holds for the table of every reachable map
and of every reachable set. -/
theorem key_uniqueness {K V : Type} [LinearOrder K] [Inhabited K] [Inhabited V]
    (w : Nat) (H : K → Nat) (t : BasicTable K V) (hr : BasicTable.ReachableTable w H t) :
    BasicTable.UniqueKeys w t ∧
    (∀ k i, i < t.capacity → (BasicTable.entryAt w t i).state = EntryState.Occupied →
      (BasicTable.entryAt w t i).key = k → BasicTable.set w H t k = (t, some i)) ∧
    (∀ k, BasicTable.UniqueKeys w (BasicTable.set w H t k).1) ∧
    (32 ≤ w → (∀ m : HashMap K V, Reachable w H m → BasicTable.UniqueKeys w m.table) ∧
      ∀ s : HashSet K, ReachableSet w H s → BasicTable.UniqueKeys w s.table) := by
  have hwf := hr.well_formed
  refine ⟨hwf.unique_keys, fun k i hi hocc hk => ?_, fun k => (hwf.after_set k).unique_keys,
    fun hw => ⟨fun m hm => (Reachable.inv hw hm).table.wellFormed.unique_keys,
      fun s hs => (ReachableSet.inv_set hw hs).table.wellFormed.unique_keys⟩⟩
  unfold BasicTable.set
  simp only
  rw [hwf.load_live k i ⟨hi, hocc, hk⟩]
  simp [hocc]

set_option maxRecDepth 100000 in
/-- Witness of C35 on the table with a tombstone: the key 23 occupies slot 0 behind the
tombstone of slot 3, the first slot its probes meet; `set(23)` returns slot 0 and changes
nothing. -/
theorem key_uniqueness_witness :
    BasicTable.ReachableTable 64 id tombstoneTable ∧
    BasicTable.probe 64 tombstoneTable 23 0 = 3 ∧
    (BasicTable.entryAt 64 tombstoneTable 3).state = EntryState.Deleted ∧
    BasicTable.set 64 id tombstoneTable 23 = (tombstoneTable, some 0) ∧
    BasicTable.UniqueKeys 64 tombstoneTable :=
  ⟨BasicTable.tombstoneTable_reachable, by decide, by decide, by decide,
    (key_uniqueness 64 id tombstoneTable BasicTable.tombstoneTable_reachable).1⟩

/-- C36: in every reachable table, every occupied slot `i` holding the key `k` stores the
hash `H(k)`, and none of the slots probed from `H(k)` (the first probe is the slot
`H(k) mod capacity`) before the probe that reaches `i` is `Free`; the tables that `set`,
`unset`, `clear`, `enlarge`, `shrink` and copy leave have the same property; and `get(k)`
finds the slot of every key that occupies one.  The same holds for the table of every
reachable map and of every reachable set. -/
theorem probe_chain_integrity {K V : Type} [LinearOrder K] [Inhabited K] [Inhabited V]
    (w : Nat) (H : K → Nat) (t : BasicTable K V) (hr : BasicTable.ReachableTable w H t) :
    BasicTable.ChainIntact w H t ∧
    (∀ k, H k < 2 ^ w → BasicTable.probe w t (H k) 0 = H k % t.capacity) ∧
    (∀ k i, i < t.capacity → (BasicTable.entryAt w t i).state = EntryState.Occupied →
      (BasicTable.entryAt w t i).key = k → BasicTable.get w H t k = some i) ∧
    (∀ k, BasicTable.ChainIntact w H (BasicTable.set w H t k).1 ∧
      BasicTable.ChainIntact w H (BasicTable.unset w H t k).1) ∧
    BasicTable.ChainIntact w H (BasicTable.clear t) ∧
    (∀ c t', c < 2 ^ 32 → BasicTable.enlarge w t c = some t' →
      BasicTable.ChainIntact w H t') ∧
    (∀ c t', c < 2 ^ 32 → BasicTable.shrink w t c = some t' →
      BasicTable.ChainIntact w H t') ∧
    (∀ t', BasicTable.copy w t = some t' → BasicTable.ChainIntact w H t') ∧
    (32 ≤ w → (∀ m : HashMap K V, Reachable w H m → BasicTable.ChainIntact w H m.table) ∧
      ∀ s : HashSet K, ReachableSet w H s → BasicTable.ChainIntact w H s.table) := by
  have hwf := hr.well_formed
  refine ⟨hwf.chain_intact, fun k hk => ?_,
    fun k i hi hocc hk => hwf.get_live k i ⟨hi, hocc, hk⟩,
    fun k => ⟨(hwf.after_set k).chain_intact, (hwf.after_unset k).chain_intact⟩,
    hwf.cleared.chain_intact,
    fun c t' hc h => (hwf.enlarged c hc h).1.chain_intact,
    fun c t' hc h => (hwf.shrunk c hc h).1.chain_intact,
    fun t' h => (hwf.copied h).1.chain_intact,
    fun hw => ⟨fun m hm => (Reachable.inv hw hm).table.wellFormed.chain_intact,
      fun s hs => (ReachableSet.inv_set hw hs).table.wellFormed.chain_intact⟩⟩
  unfold BasicTable.probe
  rw [Nat.add_zero, Nat.mod_eq_of_lt hk]

set_option maxRecDepth 100000 in
/-- Witness of C36 on the table of capacity 8 holding the keys 0, 1, 2, 3 and `2 ^ 64 - 2`:
`get(2 ^ 64 - 2)` finds slot 6. -/
theorem probe_chain_integrity_witness :
    BasicTable.ReachableTable 64 id eightTable ∧
    BasicTable.get 64 id eightTable (2 ^ 64 - 2) = some 6 ∧
    BasicTable.ChainIntact 64 id eightTable :=
  ⟨BasicTable.eightTable_reachable, by decide,
    (probe_chain_integrity 64 id eightTable BasicTable.eightTable_reachable).1⟩

end SPL

namespace SPL

/-! ## The calls of `load` during a rehash -/

namespace BasicTable

variable {K V : Type} [LinearOrder K] [Inhabited K] [Inhabited V]

/-- The recorded loop returns what the loop of `resize` returns. -/
theorem resizeScan_outcome (w : Nat) (size : Nat) :
    ∀ (rest : List (HashEntry K V)) (o : Nat) (table : BasicTable K V),
      (resizeScan w size rest o table).2 = resizeLoop w size rest table := by
  intro rest
  induction rest with
  | nil => intro o table; rfl
  | cons e rest ih =>
    intro o table
    simp only [resizeScan, resizeLoop]
    by_cases hlt : table.size < size
    · rw [if_pos hlt, if_pos hlt]
      by_cases hocc : e.state = EntryState.Occupied
      · rw [if_pos hocc, if_pos hocc]
        cases load w table e.hash e.key with
        | none => rfl
        | some index => exact ih _ _
      · rw [if_neg hocc, if_neg hocc]
        exact ih _ _
    · rw [if_neg hlt, if_neg hlt]

theorem occupiedOffsets_of_none :
    ∀ (l : List (HashEntry K V)) (o : Nat), occupiedCount l = 0 → occupiedOffsets l o = [] := by
  intro l
  induction l with
  | nil => intro o _; rfl
  | cons e l ih =>
    intro o h
    rw [occupiedCount_cons] at h
    have hne : ¬ e.state = EntryState.Occupied := by
      intro hocc; rw [if_pos hocc] at h; omega
    simp only [occupiedOffsets, if_neg hne]
    exact ih _ (by omega)

theorem occupiedOffsets_eq_filter (d : HashEntry K V) :
    ∀ (l : List (HashEntry K V)) (o : Nat),
      occupiedOffsets l o =
        ((List.range l.length).filter
          (fun i => decide ((l.getD i d).state = EntryState.Occupied))).map
          (fun i => i + o) := by
  intro l
  induction l with
  | nil => intro o; rfl
  | cons e l ih =>
    intro o
    rw [List.length_cons, List.range_succ_eq_map]
    have hmap : (List.map Nat.succ (List.range l.length)).filter
        (fun i => decide (((e :: l).getD i d).state = EntryState.Occupied)) =
        List.map Nat.succ ((List.range l.length).filter
          (fun i => decide ((l.getD i d).state = EntryState.Occupied))) := by
      rw [List.filter_map]
      rfl
    have hshift : ∀ X : List Nat,
        List.map (fun i => i + o) (List.map Nat.succ X) =
          List.map (fun i => i + (o + 1)) X := by
      intro X
      rw [List.map_map]
      apply List.map_congr_left
      intro i _
      show i + 1 + o = i + (o + 1)
      omega
    simp only [occupiedOffsets]
    by_cases hocc : e.state = EntryState.Occupied
    · rw [if_pos hocc, List.filter_cons_of_pos (by simpa using hocc), List.map_cons, hmap,
        hshift, ← ih (o + 1), Nat.zero_add]
    · rw [if_neg hocc, List.filter_cons_of_neg (by simpa using hocc), hmap, hshift,
        ← ih (o + 1)]

/-- The offsets of the occupied entries of the array of a table are its occupied slots. -/
theorem occupiedOffsets_entries (w : Nat) (t : BasicTable K V)
    (hlen : t.entries.length = t.capacity) :
    occupiedOffsets t.entries 0 = occupiedSlots w t := by
  rw [occupiedOffsets_eq_filter (HashEntry.empty w)]
  unfold occupiedSlots entryAt
  rw [hlen]
  simp

/-- On a fresh table that satisfies the invariant and has room for the entries to rehash,
the loop of `resize` reads exactly the occupied entries, in ascending order, and each call of
`load` designates a `Free` slot below the capacity. -/
theorem resizeScan_spec {w : Nat} {H : K → Nat} (size : Nat) :
    ∀ (rest : List (HashEntry K V)) (o : Nat) (table : BasicTable K V),
      Inv w H table → table.size + occupiedCount rest = size → size ≤ table.capacity →
      (∀ e ∈ rest, e.state = EntryState.Occupied → e.hash = H e.key) →
      rest.Pairwise (fun a b =>
        a.state = EntryState.Occupied → b.state = EntryState.Occupied → a.key ≠ b.key) →
      (∀ e ∈ rest, e.state = EntryState.Occupied → ∀ i, ¬ Live w table e.key i) →
      (∀ e ∈ table.entries, e.state ≠ EntryState.Deleted) →
      (resizeScan w size rest o table).1.map Prod.fst = occupiedOffsets rest o ∧
      ∀ c ∈ (resizeScan w size rest o table).1,
        ∃ index, c.2 = some (index, EntryState.Free) ∧ index < table.capacity := by
  intro rest
  induction rest with
  | nil =>
    intro o table _ _ _ _ _ _ _
    exact ⟨rfl, fun c hc => by simp [resizeScan] at hc⟩
  | cons e rest ih =>
    intro o table hinv hsz hcap hhash hpw habs hnd
    rw [occupiedCount_cons] at hsz
    rw [List.pairwise_cons] at hpw
    simp only [resizeScan, occupiedOffsets]
    by_cases hlt : table.size < size
    · rw [if_pos hlt]
      by_cases hocc : e.state = EntryState.Occupied
      · rw [if_pos hocc, if_pos hocc]
        rw [if_pos hocc] at hsz
        have habs_e := habs e (List.mem_cons_self _ _) hocc
        have hh := hhash e (List.mem_cons_self _ _) hocc
        obtain ⟨j, hj⟩ := load_exists_of_absent hinv e.key habs_e e.hash (by omega)
        obtain ⟨hjc, hv, os, hos, hp, hch⟩ := load_of_absent hinv e.key habs_e e.hash j hj
        have hjl : j < table.entries.length := by rw [hinv.len]; exact hjc
        have hfree : (entryAt w table j).state = EntryState.Free := by
          have hne := hnd _ (List.getElem_mem hjl)
          rw [← entryAt_eq_getElem w table j hjl] at hne
          cases hst : (entryAt w table j).state with
          | Free => rfl
          | Occupied => exact absurd hst hv
          | Deleted => exact absurd hst hne
        have hcount : occupiedCount (table.entries.set j e) = table.size + 1 := by
          rw [occupiedCount_set _ _ _ hjl, ← hinv.size_eq]
          rw [entryAt_eq_getElem w table j hjl] at hv
          simp [hv, hocc]
        have hb := hinv.bound
        have hinv1 : Inv w H (withEntry table j e (table.size + 1)) := by
          refine hinv.withEntry j hjc e _ (by rw [hocc]; simp) hcount.symm ?_
          intro _
          refine ⟨hh, fun i _ => habs_e i, os, hos, hp, ?_⟩
          intro o' ho' _
          rw [hch o' ho']; simp
        have hmod : (table.size + 1) % 2 ^ 32 = table.size + 1 :=
          Nat.mod_eq_of_lt (by omega)
        obtain ⟨h1, h2⟩ := ih (o + 1) (withEntry table j e (table.size + 1)) hinv1
          (by show table.size + 1 + occupiedCount rest = size; omega) hcap
          (fun e' he' => hhash e' (List.mem_cons_of_mem _ he')) hpw.2
          (by
            intro e' he' hocc' i hi
            rw [Live_withEntry w table j e _ hjl hinv.len] at hi
            rcases hi with ⟨_, _, hk⟩ | ⟨_, hi⟩
            · exact hpw.1 e' he' hocc hocc' hk
            · exact habs e' (List.mem_cons_of_mem _ he') hocc' i hi)
          (by
            intro e' he'
            rcases List.mem_or_eq_of_mem_set he' with h | h
            · exact hnd e' h
            · rw [h, hocc]; simp)
        rw [hj]
        simp only [hmod, List.map_cons, hfree]
        refine ⟨?_, ?_⟩
        · rw [← h1]; rfl
        · intro c hc
          rcases List.mem_cons.1 hc with rfl | hc'
          · exact ⟨j, rfl, hjc⟩
          · exact h2 c hc'
      · rw [if_neg hocc, if_neg hocc]
        rw [if_neg hocc] at hsz
        exact ih (o + 1) table hinv (by omega) hcap
          (fun e' he' => hhash e' (List.mem_cons_of_mem _ he')) hpw.2
          (fun e' he' => habs e' (List.mem_cons_of_mem _ he')) hnd
    · rw [if_neg hlt]
      have hzero : occupiedCount (e :: rest) = 0 := by
        rw [occupiedCount_cons]; omega
      have := occupiedOffsets_of_none (e :: rest) o hzero
      simp only [occupiedOffsets] at this
      rw [this]
      exact ⟨rfl, fun c hc => by simp at hc⟩

end BasicTable

end SPL

namespace SPL

namespace BasicTable

variable {K V : Type} [LinearOrder K] [Inhabited K] [Inhabited V]

theorem init_Max (w c : Nat) : (init w (Math.Max c 4) : BasicTable K V) = init w c := by
  unfold init
  rw [Math.Max_idem]

/-- The rehash of a table that satisfies the invariant into a fresh table whose capacity
divides `2 ^ w` and has room for its entries: the recorded loop returns the resized table, it
reads exactly the occupied slots in ascending order, and every call of `load` designates a
`Free` slot below the new capacity. -/
theorem resizeScan_resize {w : Nat} {H : K → Nat} {t : BasicTable K V} (hinv : Inv w H t)
    (n : Nat) (h4 : 4 ≤ n) (hs : t.size ≤ n) (hb : n < 2 ^ 32) (hd : n ∣ 2 ^ w) :
    ∃ log t', resizeScan w t.size t.entries 0 (init w n) = (log, some t') ∧
      resize w t n = some t' ∧ Inv w H t' ∧ t'.capacity = n ∧ t'.size = t.size ∧
      (∀ c ∈ log, ∃ index, c.2 = some (index, EntryState.Free) ∧ index < n) ∧
      log.map Prod.fst = occupiedSlots w t := by
  have hmax : Math.Max n 4 = n := Math.Max_eq_of_four_le h4
  obtain ⟨t', h1, h2, h3, h5, _⟩ := resize_spec hinv n (by rw [hmax]; exact hd)
    (by rw [hmax]; exact hb) (by rw [hmax]; exact hs)
  rw [hmax] at h3
  obtain ⟨hfacts1, hfacts2⟩ := hinv.wellFormed.entries_facts
  obtain ⟨s1, s2⟩ := resizeScan_spec (w := w) (H := H) t.size t.entries 0 (init w n)
    (Inv.init n (by rw [hmax]; exact hd) (by rw [hmax]; exact hb))
    (by show 0 + occupiedCount t.entries = t.size; rw [hinv.size_eq]; omega)
    (by show t.size ≤ Math.Max n 4; rw [hmax]; exact hs)
    hfacts1 hfacts2 (fun e _ _ i => not_live_init w n e.key i)
    (fun e he => by
      simp only [BasicTable.init] at he
      rw [List.eq_of_mem_replicate he]
      simp [HashEntry.empty])
  have hout := resizeScan_outcome w t.size t.entries 0 (init w n)
  refine ⟨(resizeScan w t.size t.entries 0 (init w n)).1, t', ?_, h1, h2, h3, h5, ?_, ?_⟩
  · apply Prod.ext
    · rfl
    · rw [hout]; exact h1
  · intro c hc
    obtain ⟨index, hi1, hi2⟩ := s2 c hc
    exact ⟨index, hi1, by
      have : (init w n : BasicTable K V).capacity = Math.Max n 4 := rfl
      rw [this, hmax] at hi2
      exact hi2⟩
  · rw [s1, occupiedOffsets_entries w t hinv.len]

end BasicTable

set_option maxRecDepth 100000 in
/-- C37 (the claim as stated fails): the table of capacity 8 with the keys 0, 1, 2, 3 and
`2 ^ 64 - 2` is reachable, so well formed (its size 5 is the number of its occupied slots, no
key is held twice); `shrink(6)` passes its guard and rehashes into a fresh table of capacity
6, where the calls of `load` for the entries of the old slots 0 to 3 designate the `Free`
slots 0 to 3, and the call for the entry of the old slot 6 returns `-1`. -/
theorem rehash_load_returns_no_index :
    BasicTable.ReachableTable 64 id eightTable ∧
    (eightTable.size = BasicTable.occupiedCount eightTable.entries ∧
      BasicTable.occupiedSlots 64 eightTable = [0, 1, 2, 3, 6] ∧
      Math.Max 6 4 > eightTable.size ∧ Math.Max 6 4 < eightTable.capacity) ∧
    BasicTable.resizeScan 64 eightTable.size eightTable.entries 0 (BasicTable.init 64 6) =
      ([(0, some (0, EntryState.Free)), (1, some (1, EntryState.Free)),
        (2, some (2, EntryState.Free)), (3, some (3, EntryState.Free)), (6, none)], none) :=
  ⟨BasicTable.eightTable_reachable, by decide, by decide⟩

/-- C37 (amended): for every well-formed table and every new capacity `n >= 4` that is a
power of two (a divisor of `2 ^ w` below `2 ^ 32`) and not below the size, the rehash of
`resize(n)` - invoked by `enlarge(n)` when `n` exceeds the capacity, by `shrink(n)` when `n`
is below the capacity and above the size, and by the copy constructor when `n` is the
capacity raised to at least 4 - returns; every call of `load` on the fresh table returns an
index below `n` that designates a `Free` slot; and the scan reads exactly the occupied slots
of the old array, in ascending order, all below the old capacity, as many as the size. -/
theorem rehash_is_safe {K V : Type} [LinearOrder K] [Inhabited K] [Inhabited V]
    (w : Nat) (H : K → Nat) (t : BasicTable K V) (hinv : BasicTable.Inv w H t) (n : Nat)
    (h4 : 4 ≤ n) (hs : t.size ≤ n) (hb : n < 2 ^ 32) (hd : n ∣ 2 ^ w) :
    ∃ log t', BasicTable.resizeScan w t.size t.entries 0 (BasicTable.init w n) =
        (log, some t') ∧
      BasicTable.resize w t n = some t' ∧
      (t.capacity < n → BasicTable.enlarge w t n = some t') ∧
      (t.size < n → n < t.capacity → BasicTable.shrink w t n = some t') ∧
      (n = Math.Max t.capacity 4 → BasicTable.copy w t = some t') ∧
      t'.capacity = n ∧
      (∀ c ∈ log, ∃ index, c.2 = some (index, EntryState.Free) ∧ index < n) ∧
      log.map Prod.fst = BasicTable.occupiedSlots w t ∧
      (∀ c ∈ log, c.1 < t.capacity ∧
        (BasicTable.entryAt w t c.1).state = EntryState.Occupied) ∧
      log.length = t.size := by
  have hmax : Math.Max n 4 = n := Math.Max_eq_of_four_le h4
  obtain ⟨log, t', h1, h2, _, h4', _, h6, h7⟩ :=
    BasicTable.resizeScan_resize hinv n h4 hs hb hd
  refine ⟨log, t', h1, h2, fun hlt => ?_, fun hlt1 hlt2 => ?_, fun hn => ?_, h4', h6, h7,
    fun c hc => ?_, ?_⟩
  · unfold BasicTable.enlarge
    simp only
    rw [hmax, if_pos hlt]
    exact h2
  · unfold BasicTable.shrink
    simp only
    rw [hmax, if_pos ⟨hlt1, hlt2⟩]
    exact h2
  · rw [BasicTable.copy_eq_resize]
    unfold BasicTable.resize at h2 ⊢
    rw [← BasicTable.init_Max w t.capacity, ← hn]
    exact h2
  · have hm : c.1 ∈ log.map Prod.fst := List.mem_map_of_mem _ hc
    rw [h7] at hm
    exact (BasicTable.mem_occupiedSlots w t c.1).1 hm
  · have hl : (log.map Prod.fst).length = log.length := List.length_map _ _
    rw [← hl, h7, BasicTable.occupiedSlots_length w t hinv.len, ← hinv.size_eq]

set_option maxRecDepth 100000 in
/-- Witness of C37 on the sample table (capacity 4, the keys 31 and 15 in the slots 1 and 3,
a tombstone in slot 0) and the new capacity 8: `load` designates the slots 7 and 0. -/
theorem rehash_is_safe_witness :
    (BasicTable.Inv 64 id sampleMap.table ∧ 4 ≤ 8 ∧ sampleMap.table.size ≤ 8 ∧
      8 < 2 ^ 32 ∧ 8 ∣ 2 ^ 64) ∧
    (BasicTable.resizeScan 64 sampleMap.table.size sampleMap.table.entries 0
      (BasicTable.init 64 8)).1 =
      [(1, some (7, EntryState.Free)), (3, some (0, EntryState.Free))] ∧
    ∃ log t', BasicTable.resizeScan 64 sampleMap.table.size sampleMap.table.entries 0
        (BasicTable.init 64 8) = (log, some t') ∧
      BasicTable.resize 64 sampleMap.table 8 = some t' ∧
      (sampleMap.table.capacity < 8 → BasicTable.enlarge 64 sampleMap.table 8 = some t') ∧
      (sampleMap.table.size < 8 → 8 < sampleMap.table.capacity →
        BasicTable.shrink 64 sampleMap.table 8 = some t') ∧
      (8 = Math.Max sampleMap.table.capacity 4 → BasicTable.copy 64 sampleMap.table = some t') ∧
      t'.capacity = 8 ∧
      (∀ c ∈ log, ∃ index, c.2 = some (index, EntryState.Free) ∧ index < 8) ∧
      log.map Prod.fst = BasicTable.occupiedSlots 64 sampleMap.table ∧
      (∀ c ∈ log, c.1 < sampleMap.table.capacity ∧
        (BasicTable.entryAt 64 sampleMap.table c.1).state = EntryState.Occupied) ∧
      log.length = sampleMap.table.size :=
  ⟨⟨(Reachable.inv (by decide) sampleMap_reachable).table, by decide, by decide, by decide,
      by decide⟩,
    by decide,
    rehash_is_safe 64 id sampleMap.table (Reachable.inv (by decide) sampleMap_reachable).table
      8 (by decide) (by decide) (by decide) (by decide)⟩

end SPL

namespace SPL

/-! ## The order in which `resize` reinserts the entries -/

namespace BasicTable

variable {K V : Type} [LinearOrder K] [Inhabited K] [Inhabited V]

/-- Where the loop of `resize` puts the entries: the occupied slots of the fresh table are
left as they are; every occupied entry of the old array is stored at a probe of its hash
that met a slot which was not occupied, all earlier probes meeting occupied slots; and of two
entries with the same probes, the one read first is stored at the earlier probe. -/
theorem resizeLoop_order {w : Nat} {H : K → Nat} (size : Nat) :
    ∀ (rest : List (HashEntry K V)) (table t' : BasicTable K V),
      WellFormed w H table → table.size + occupiedCount rest = size →
      (∀ e ∈ rest, e.state = EntryState.Occupied → e.hash = H e.key) →
      rest.Pairwise (fun a b =>
        a.state = EntryState.Occupied → b.state = EntryState.Occupied → a.key ≠ b.key) →
      (∀ e ∈ rest, e.state = EntryState.Occupied → ∀ i, ¬ Live w table e.key i) →
      resizeLoop w size rest table = some t' →
      (∀ s, (entryAt w table s).state = EntryState.Occupied →
        entryAt w t' s = entryAt w table s) ∧
      (∀ e ∈ rest, e.state = EntryState.Occupied →
        ∃ o, o < table.capacity ∧
          (entryAt w table (probe w table e.hash o)).state ≠ EntryState.Occupied ∧
          entryAt w t' (probe w table e.hash o) = e ∧
          ∀ o', o' < o →
            (entryAt w t' (probe w table e.hash o')).state = EntryState.Occupied) ∧
      rest.Pairwise (fun a b =>
        a.state = EntryState.Occupied → b.state = EntryState.Occupied →
        (∀ o, probe w table a.hash o = probe w table b.hash o) →
        ∃ oa ob, oa < ob ∧ ob < table.capacity ∧
          entryAt w t' (probe w table a.hash oa) = a ∧
          entryAt w t' (probe w table b.hash ob) = b ∧
          ∀ o', o' < ob →
            (entryAt w t' (probe w table b.hash o')).state = EntryState.Occupied) := by
  intro rest
  induction rest with
  | nil =>
    intro table t' _ hsz _ _ _ hres
    have hs : table.size = size := by simpa [occupiedCount] using hsz
    simp only [resizeLoop, hs, Nat.lt_irrefl, if_false] at hres
    obtain rfl : table = t' := by simpa using hres
    exact ⟨fun _ _ => rfl, fun e he => by simp at he, List.Pairwise.nil⟩
  | cons e rest ih =>
    intro table t' hwf hsz hhash hpw habs hres
    rw [occupiedCount_cons] at hsz
    rw [List.pairwise_cons] at hpw
    simp only [resizeLoop] at hres
    by_cases hlt : table.size < size
    · rw [if_pos hlt] at hres
      by_cases hocc : e.state = EntryState.Occupied
      · rw [if_pos hocc] at hres hsz
        have habs_e := habs e (List.mem_cons_self _ _) hocc
        have hh := hhash e (List.mem_cons_self _ _) hocc
        cases hl : load w table e.hash e.key with
        | none => rw [hl] at hres; simp at hres
        | some j =>
          rw [hl] at hres
          simp only at hres
          obtain ⟨hjl, hv, hlt2, hwf1⟩ := hwf.store e hocc hh habs_e j hl
          obtain ⟨_, _, os, hos, hp, hch⟩ := load_vacant w table e.key habs_e e.hash j hl
          rw [Nat.mod_eq_of_lt hlt2] at hres
          obtain ⟨a1, b1, c1⟩ := ih (withEntry table j e (table.size + 1)) t' hwf1
            (by show table.size + 1 + occupiedCount rest = size; omega)
            (fun e' he' => hhash e' (List.mem_cons_of_mem _ he')) hpw.2
            (by
              intro e' he' hocc' i hi
              rw [Live_withEntry w table j e _ hjl hwf.len] at hi
              rcases hi with ⟨_, _, hk⟩ | ⟨_, hi⟩
              · exact hpw.1 e' he' hocc hocc' hk
              · exact habs e' (List.mem_cons_of_mem _ he') hocc' i hi)
            hres
          -- the slots of `table` seen from the table after the store
          have hkeep : ∀ s, (entryAt w table s).state = EntryState.Occupied →
              entryAt w (withEntry table j e (table.size + 1)) s = entryAt w table s := by
            intro s hs
            have hsj : s ≠ j := by rintro rfl; exact hv hs
            exact entryAt_withEntry_ne w table j e _ s hsj
          have hself : entryAt w (withEntry table j e (table.size + 1)) j = e :=
            entryAt_withEntry_self w table j e _ hjl
          have hA : ∀ s, (entryAt w table s).state = EntryState.Occupied →
              entryAt w t' s = entryAt w table s := by
            intro s hs
            rw [a1 s (by rw [hkeep s hs]; exact hs), hkeep s hs]
          have hj' : entryAt w t' j = e := by
            rw [a1 j (by rw [hself]; exact hocc), hself]
          have hbefore : ∀ o', o' < os →
              (entryAt w t' (probe w table e.hash o')).state = EntryState.Occupied := by
            intro o' ho'
            rw [hA _ (hch o' ho')]
            exact hch o' ho'
          have hB : ∀ e' ∈ rest, e'.state = EntryState.Occupied →
              ∃ o, o < table.capacity ∧
                (entryAt w (withEntry table j e (table.size + 1))
                  (probe w table e'.hash o)).state ≠ EntryState.Occupied ∧
                entryAt w t' (probe w table e'.hash o) = e' ∧
                ∀ o', o' < o →
                  (entryAt w t' (probe w table e'.hash o')).state = EntryState.Occupied :=
            fun e' he' hocc' => b1 e' he' hocc'
          refine ⟨hA, ?_, ?_⟩
          · intro e' he' hocc'
            rcases List.mem_cons.1 he' with rfl | he''
            · exact ⟨os, hos, by rw [hp]; exact hv, by rw [hp]; exact hj', hbefore⟩
            · obtain ⟨o, ho, hne, hat, hall⟩ := hB e' he'' hocc'
              refine ⟨o, ho, ?_, hat, hall⟩
              intro hc
              exact hne (by rw [hkeep _ hc]; exact hc)
          · rw [List.pairwise_cons]
            refine ⟨?_, c1⟩
            intro b hb _ hoccb hsame
            obtain ⟨ob, hob, hne, hat, hall⟩ := hB b hb hoccb
            refine ⟨os, ob, ?_, hob, by rw [hp]; exact hj', hat, hall⟩
            by_contra hle
            have hle' : ob ≤ os := by omega
            rcases Nat.lt_or_ge ob os with h | h
            · have h1 := hch ob h
              rw [hsame ob] at h1
              exact hne (by rw [hkeep _ h1]; exact h1)
            · have hobs : ob = os := by omega
              rw [hobs, ← hsame os, hp, hself] at hne
              exact hne hocc
      · rw [if_neg hocc] at hres hsz
        obtain ⟨a1, b1, c1⟩ := ih table t' hwf (by omega)
          (fun e' he' => hhash e' (List.mem_cons_of_mem _ he')) hpw.2
          (fun e' he' => habs e' (List.mem_cons_of_mem _ he')) hres
        refine ⟨a1, ?_, ?_⟩
        · intro e' he' hocc'
          rcases List.mem_cons.1 he' with rfl | he''
          · exact absurd hocc' hocc
          · exact b1 e' he'' hocc'
        · rw [List.pairwise_cons]
          exact ⟨fun b _ ha => absurd ha hocc, c1⟩
    · rw [if_neg hlt] at hres
      obtain rfl : table = t' := by simpa using hres
      have hzero : occupiedCount (e :: rest) = 0 := by
        rw [occupiedCount_cons]; omega
      have hnone : ∀ e' ∈ e :: rest, e'.state ≠ EntryState.Occupied := by
        unfold occupiedCount at hzero
        rw [List.countP_eq_zero] at hzero
        intro e' he'
        simpa using hzero e' he'
      refine ⟨fun _ _ => rfl, fun e' he' hocc' => absurd hocc' (hnone e' he'), ?_⟩
      rw [List.pairwise_iff_forall_sublist]
      intro a b hab ha
      exact absurd ha (hnone a (hab.subset (List.mem_cons_self _ _)))

end BasicTable

end SPL

namespace SPL

namespace BasicTable

variable {K V : Type} [LinearOrder K] [Inhabited K] [Inhabited V]

theorem probe_congr (w : Nat) (t t' : BasicTable K V) (hc : t.capacity = t'.capacity)
    (h o : Nat) : probe w t h o = probe w t' h o := by
  unfold probe
  rw [hc]

theorem probe_eq_of_mod_eq (w : Nat) (t : BasicTable K V) (hd : t.capacity ∣ 2 ^ w)
    (h h' : Nat) (hm : h % t.capacity = h' % t.capacity) (o : Nat) :
    probe w t h o = probe w t h' o := by
  rw [probe_eq_mod w t h o hd, probe_eq_mod w t h' o hd]
  exact Nat.ModEq.add_right o hm

end BasicTable

set_option maxRecDepth 100000 in
/-- C31 (the claim as stated fails): in the map of capacity 4 holding the keys 23, 31 and 15
in the slots 0, 1 and 3, the three hashes collide at capacity 8 (probes 7, 0, 1, ...).
`resize(8)` reads the old slots in the order 0, 1, 3 and stores their entries in the slots
7, 0 and 1: the entry from the lowest old index is at the first probe and the entry from the
highest old index at the last one, the reverse of the order claimed. -/
theorem resize_places_lower_index_first :
    [0, 1, 3].map (fun i => (BasicTable.entryAt 64 sampleLiteral.table i).key) =
      [23, 31, 15] ∧
    BasicTable.occupiedSlots 64 sampleLiteral.table = [0, 1, 3] ∧
    [23, 31, 15].map (fun h => (List.range 3).map
      (BasicTable.probe 64 (BasicTable.init 64 8 : BasicTable Nat Nat) h)) =
      [[7, 0, 1], [7, 0, 1], [7, 0, 1]] ∧
    (BasicTable.resizeScan 64 sampleLiteral.table.size sampleLiteral.table.entries 0
      (BasicTable.init 64 8)).1 =
      [(0, some (7, EntryState.Free)), (1, some (0, EntryState.Free)),
        (3, some (1, EntryState.Free))] ∧
    (BasicTable.resize 64 sampleLiteral.table 8).map
      (fun t => [7, 0, 1].map (fun i => (BasicTable.entryAt 64 t i).key)) =
      some [23, 31, 15] := by
  decide

/-- C31 (amended): `resize(n)` of a well-formed table into a capacity `n >= 4` that is a power
of two (a divisor of `2 ^ w` below `2 ^ 32`) with room for its entries reinserts the occupied
entries of the old array in ascending slot order; so when two occupied entries collide in the
new table (their hashes are equal modulo `n`), the entry that came from the lower old index
is stored at the earlier probe of the common chain and the one from the higher old index at
a later probe, every probe before it meeting an occupied slot. -/
theorem resize_reinserts_ascending {K V : Type} [LinearOrder K] [Inhabited K] [Inhabited V]
    (w : Nat) (H : K → Nat) (t : BasicTable K V) (hinv : BasicTable.Inv w H t) (n : Nat)
    (h4 : 4 ≤ n) (hs : t.size ≤ n) (hb : n < 2 ^ 32) (hd : n ∣ 2 ^ w) :
    ∃ log t', BasicTable.resizeScan w t.size t.entries 0 (BasicTable.init w n) =
        (log, some t') ∧
      BasicTable.resize w t n = some t' ∧
      log.map Prod.fst = BasicTable.occupiedSlots w t ∧
      (log.map Prod.fst).Pairwise (fun i j => i < j) ∧
      ∀ i j, i < j → j < t.capacity →
        (BasicTable.entryAt w t i).state = EntryState.Occupied →
        (BasicTable.entryAt w t j).state = EntryState.Occupied →
        (BasicTable.entryAt w t i).hash % n = (BasicTable.entryAt w t j).hash % n →
        ∃ oi oj, oi < oj ∧ oj < n ∧
          BasicTable.entryAt w t' (BasicTable.probe w t' (BasicTable.entryAt w t i).hash oi) =
            BasicTable.entryAt w t i ∧
          BasicTable.entryAt w t' (BasicTable.probe w t' (BasicTable.entryAt w t j).hash oj) =
            BasicTable.entryAt w t j ∧
          ∀ o', o' < oj →
            (BasicTable.entryAt w t'
              (BasicTable.probe w t' (BasicTable.entryAt w t j).hash o')).state =
              EntryState.Occupied := by
  have hmax : Math.Max n 4 = n := Math.Max_eq_of_four_le h4
  obtain ⟨log, t', h1, h2, _, h3, _, _, h7⟩ :=
    BasicTable.resizeScan_resize hinv n h4 hs hb hd
  have hcap0 : (BasicTable.init w n : BasicTable K V).capacity = n := hmax
  have hcap : (BasicTable.init w n : BasicTable K V).capacity = t'.capacity := by
    rw [hcap0, h3]
  obtain ⟨hf1, hf2⟩ := hinv.wellFormed.entries_facts
  obtain ⟨_, _, hord⟩ := BasicTable.resizeLoop_order (w := w) (H := H) t.size t.entries
    (BasicTable.init w n) t' (BasicTable.WellFormed.fresh n hb)
    (by show 0 + BasicTable.occupiedCount t.entries = t.size; rw [hinv.size_eq]; omega)
    hf1 hf2 (fun e _ _ i => BasicTable.not_live_init w n e.key i) h2
  refine ⟨log, t', h1, h2, h7, by rw [h7]; exact BasicTable.occupiedSlots_increasing w t, ?_⟩
  intro i j hij hj hoi hoj hmod
  have hjl : j < t.entries.length := by rw [hinv.len]; exact hj
  have hil : i < t.entries.length := by omega
  rw [List.pairwise_iff_getElem] at hord
  have hgi := BasicTable.entryAt_eq_getElem w t i hil
  have hgj := BasicTable.entryAt_eq_getElem w t j hjl
  have hsame : ∀ o, BasicTable.probe w (BasicTable.init w n : BasicTable K V)
      t.entries[i].hash o =
      BasicTable.probe w (BasicTable.init w n : BasicTable K V) t.entries[j].hash o := by
    intro o
    apply BasicTable.probe_eq_of_mod_eq w (BasicTable.init w n : BasicTable K V)
      (by rw [hcap0]; exact hd)
    rw [hcap0, ← hgi, ← hgj]
    exact hmod
  obtain ⟨oi, oj, h8, h9, h10, h11, h12⟩ := hord i j hil hjl hij
    (by rw [← hgi]; exact hoi) (by rw [← hgj]; exact hoj) hsame
  refine ⟨oi, oj, h8, by rw [← hcap0]; exact h9, ?_, ?_, ?_⟩
  · rw [hgi, ← BasicTable.probe_congr w _ t' hcap]; exact h10
  · rw [hgj, ← BasicTable.probe_congr w _ t' hcap]; exact h11
  · intro o' ho'
    rw [hgj, ← BasicTable.probe_congr w _ t' hcap]
    exact h12 o' ho'

set_option maxRecDepth 100000 in
/-- Witness of C31 on the literal map of capacity 4 (keys 23, 31, 15 in the slots 0, 1, 3)
resized to 8. -/
theorem resize_reinserts_ascending_witness :
    (BasicTable.Inv 64 id sampleLiteral.table ∧ 4 ≤ 8 ∧ sampleLiteral.table.size ≤ 8 ∧
      8 < 2 ^ 32 ∧ 8 ∣ 2 ^ 64) ∧
    ∃ log t', BasicTable.resizeScan 64 sampleLiteral.table.size sampleLiteral.table.entries 0
        (BasicTable.init 64 8) = (log, some t') ∧
      BasicTable.resize 64 sampleLiteral.table 8 = some t' ∧
      log.map Prod.fst = BasicTable.occupiedSlots 64 sampleLiteral.table ∧
      (log.map Prod.fst).Pairwise (fun i j => i < j) ∧
      ∀ i j, i < j → j < sampleLiteral.table.capacity →
        (BasicTable.entryAt 64 sampleLiteral.table i).state = EntryState.Occupied →
        (BasicTable.entryAt 64 sampleLiteral.table j).state = EntryState.Occupied →
        (BasicTable.entryAt 64 sampleLiteral.table i).hash % 8 =
          (BasicTable.entryAt 64 sampleLiteral.table j).hash % 8 →
        ∃ oi oj, oi < oj ∧ oj < 8 ∧
          BasicTable.entryAt 64 t'
            (BasicTable.probe 64 t' (BasicTable.entryAt 64 sampleLiteral.table i).hash oi) =
            BasicTable.entryAt 64 sampleLiteral.table i ∧
          BasicTable.entryAt 64 t'
            (BasicTable.probe 64 t' (BasicTable.entryAt 64 sampleLiteral.table j).hash oj) =
            BasicTable.entryAt 64 sampleLiteral.table j ∧
          ∀ o', o' < oj →
            (BasicTable.entryAt 64 t'
              (BasicTable.probe 64 t'
                (BasicTable.entryAt 64 sampleLiteral.table j).hash o')).state =
              EntryState.Occupied :=
  ⟨⟨(Reachable.inv (by decide)
        (Constructed.to_reachable (by decide) sampleLiteral_constructed).1).table,
      by decide, by decide, by decide, by decide⟩,
    resize_reinserts_ascending 64 id sampleLiteral.table
      (Reachable.inv (by decide)
        (Constructed.to_reachable (by decide) sampleLiteral_constructed).1).table
      8 (by decide) (by decide) (by decide) (by decide)⟩

end SPL

namespace SPL

/-! ## The claims on iteration, on every reachable table -/

namespace EntryIterator

variable {K V : Type} [LinearOrder K] [Inhabited K] [Inhabited V]

/-- Along an iteration over a table whose array has `capacity` entries and whose size counts
the occupied entries, the iterator has returned `count` entries and `size - count` occupied
slots are ahead of `index`. -/
theorem Reached.iterator_facts {w : Nat} {t : BasicTable K V}
    (hlen : t.entries.length = t.capacity) (hb : t.capacity < 2 ^ 32)
    (hsz : t.size = BasicTable.occupiedCount t.entries)
    {self : EntryIterator K V} (h : Reached w t self) :
    self.table = t ∧ self.index ≤ t.capacity ∧
      self.count + ((List.range' self.index (t.capacity - self.index)).filter
        (fun i => decide ((BasicTable.entryAt w t i).state = EntryState.Occupied))).length =
        t.size := by
  have hsize : t.size < 2 ^ 32 := by
    rw [hsz]
    have := BasicTable.occupiedCount_le t.entries
    omega
  induction h with
  | fresh =>
    refine ⟨rfl, Nat.zero_le _, ?_⟩
    show 0 + ((List.range' 0 (t.capacity - 0)).filter _).length = t.size
    rw [Nat.zero_add, Nat.sub_zero, ← List.range_eq_range', hsz,
      ← BasicTable.occupiedSlots_length w t hlen]
    rfl
  | @next self0 self1 index _ hnext ih =>
    obtain ⟨h1, h2, h3⟩ := ih
    have hfind := findNextLoop_spec w t hb (t.capacity - self0.index) self0 h1
      (by omega)
    unfold EntryIterator.next findNext at hnext
    rw [h1, hfind] at hnext
    cases hL : (List.range' self0.index (t.capacity - self0.index)).filter
        (fun i => decide ((BasicTable.entryAt w t i).state = EntryState.Occupied)) with
    | nil =>
      rw [hL] at hnext
      simp at hnext
    | cons i tl =>
      rw [hL] at hnext h3
      simp only [Prod.mk.injEq, Except.ok.injEq, List.length_cons] at hnext h3
      obtain ⟨a1, a2, a3, a4⟩ := filter_range'_cons _ _ _ _ _ hL
      have hcount : (self0.count + 1) % 2 ^ 32 = self0.count + 1 :=
        Nat.mod_eq_of_lt (by omega)
      rw [← hnext.2]
      refine ⟨h1, by simp only; omega, ?_⟩
      simp only [hcount]
      have e : self0.index + (t.capacity - self0.index) - (i + 1) = t.capacity - (i + 1) := by
        omega
      rw [← e, a4]
      omega

/-- Everything the client loop does on a fresh iterator over a well-formed table of any
capacity. -/
theorem drain_table {w : Nat} {H : K → Nat} {t : BasicTable K V}
    (ht : BasicTable.WellFormed w H t) :
    (∀ fuel, BasicTable.occupiedCount t.entries < fuel →
      drain w fuel (EntryIterator.new t) = some (Except.ok (BasicTable.occupiedSlots w t))) ∧
    (BasicTable.occupiedSlots w t).length = BasicTable.occupiedCount t.entries ∧
    BasicTable.occupiedCount t.entries = t.size ∧
    (∀ i ∈ BasicTable.occupiedSlots w t,
      i < t.capacity ∧ (BasicTable.entryAt w t i).state = EntryState.Occupied) ∧
    (BasicTable.occupiedSlots w t).Pairwise (fun i j => i < j) ∧
    (BasicTable.occupiedSlots w t).Nodup ∧
    (∀ k, (BasicTable.get w H t k).isSome = true ↔
      k ∈ (BasicTable.occupiedSlots w t).map (fun i => (BasicTable.entryAt w t i).key)) ∧
    (∀ k, (∃ i, i < t.capacity ∧ (BasicTable.entryAt w t i).state = EntryState.Occupied ∧
        (BasicTable.entryAt w t i).key = k) ↔
      k ∈ (BasicTable.occupiedSlots w t).map (fun i => (BasicTable.entryAt w t i).key)) := by
  have hlen := BasicTable.occupiedSlots_length w t ht.len
  have hsize : t.size < 2 ^ 32 := by
    rw [ht.size_eq]
    have := BasicTable.occupiedCount_le t.entries
    have := ht.len
    have := ht.bound
    omega
  have hinc := BasicTable.occupiedSlots_increasing w t
  refine ⟨?_, hlen, ht.size_eq.symm, fun i hi => (BasicTable.mem_occupiedSlots w t i).1 hi,
    hinc, hinc.imp (fun h => Nat.ne_of_lt h), ?_, ?_⟩
  · intro fuel hfuel
    apply drain_spec w t ht.bound hsize _ _ fuel rfl (Nat.zero_le _)
    · show List.filter _ (List.range' 0 (t.capacity - 0)) = _
      rw [Nat.sub_zero, ← List.range_eq_range']
      rfl
    · show 0 + _ = _
      rw [Nat.zero_add, hlen, ht.size_eq]
    · rw [hlen]; exact hfuel
  · intro k
    rw [BasicTable.mem_keys_occupiedSlots, Option.isSome_iff_exists]
    constructor
    · rintro ⟨i, hi⟩; exact ⟨i, BasicTable.Live_of_get w H t k i hi⟩
    · rintro ⟨i, hi⟩; exact ⟨i, ht.get_live k i hi⟩
  · intro k
    rw [BasicTable.mem_keys_occupiedSlots]
    rfl

/-- On an iterator over a table whose array has `capacity` entries and whose size counts the
occupied entries, `next()` throws exactly when `hasNext()` is false. -/
theorem next_error_iff_table {w : Nat} {t : BasicTable K V}
    (hlen : t.entries.length = t.capacity) (hb : t.capacity < 2 ^ 32)
    (hsz : t.size = BasicTable.occupiedCount t.entries)
    {self : EntryIterator K V} (h : Reached w t self) :
    (next w self).1 = Except.error {} ↔ self.hasNext = false := by
  obtain ⟨h1, h2, h3⟩ := Reached.iterator_facts hlen hb hsz h
  have hfind := findNextLoop_spec w t hb (t.capacity - self.index) self h1 (by omega)
  unfold next findNext hasNext
  rw [h1, hfind]
  cases hL : (List.range' self.index (t.capacity - self.index)).filter
      (fun i => decide ((BasicTable.entryAt w t i).state = EntryState.Occupied)) with
  | nil =>
    rw [hL] at h3
    simp only [List.length_nil, Nat.add_zero] at h3
    simp only [decide_eq_false_iff_not, true_iff]
    omega
  | cons i tl =>
    rw [hL] at h3
    simp only [List.length_cons] at h3
    simp only [decide_eq_false_iff_not, reduceCtorEq, false_iff, not_not]
    omega

end EntryIterator

/-- C14: on every reachable table (built by a constructor of any capacity and changed by
`set`, `unset`, `clear`, `enlarge`, `shrink`, copy, move and assignment) with `N` occupied
slots, the loop `while (hasNext()) next()` on a fresh iterator performs exactly `N` calls of
`next()`, none of which throws (any `fuel` above `N` is enough for the loop to end); each
returned slot is occupied, the returned slots come in strictly increasing index order and
are pairwise distinct, and the keys of the returned entries are exactly the keys that occupy
a slot, which are the keys that `get` finds.  The same holds on the table of every reachable
map and of every reachable set, the keys returned being those that `has` reports. -/
theorem iteration_complete {K V : Type} [LinearOrder K] [Inhabited K] [Inhabited V]
    (w : Nat) (H : K → Nat) (t : BasicTable K V) (ht : BasicTable.ReachableTable w H t) :
    ((∀ fuel, BasicTable.occupiedCount t.entries < fuel →
        EntryIterator.drain w fuel (EntryIterator.new t) =
          some (Except.ok (BasicTable.occupiedSlots w t))) ∧
      (BasicTable.occupiedSlots w t).length = BasicTable.occupiedCount t.entries ∧
      BasicTable.occupiedCount t.entries = t.size ∧
      (∀ i ∈ BasicTable.occupiedSlots w t,
        i < t.capacity ∧ (BasicTable.entryAt w t i).state = EntryState.Occupied) ∧
      (BasicTable.occupiedSlots w t).Pairwise (fun i j => i < j) ∧
      (BasicTable.occupiedSlots w t).Nodup ∧
      (∀ k, (BasicTable.get w H t k).isSome = true ↔
        k ∈ (BasicTable.occupiedSlots w t).map (fun i => (BasicTable.entryAt w t i).key)) ∧
      (∀ k, (∃ i, i < t.capacity ∧ (BasicTable.entryAt w t i).state = EntryState.Occupied ∧
          (BasicTable.entryAt w t i).key = k) ↔
        k ∈ (BasicTable.occupiedSlots w t).map
          (fun i => (BasicTable.entryAt w t i).key))) ∧
    (32 ≤ w →
      (∀ m : HashMap K V, Reachable w H m →
        (∀ fuel, BasicTable.occupiedCount m.table.entries < fuel →
          EntryIterator.drain w fuel m.getIterator =
            some (Except.ok (BasicTable.occupiedSlots w m.table))) ∧
        (BasicTable.occupiedSlots w m.table).length =
          BasicTable.occupiedCount m.table.entries ∧
        BasicTable.occupiedCount m.table.entries = m.getSize ∧
        (∀ i ∈ BasicTable.occupiedSlots w m.table,
          i < m.getCapacity ∧
            (BasicTable.entryAt w m.table i).state = EntryState.Occupied) ∧
        (BasicTable.occupiedSlots w m.table).Pairwise (fun i j => i < j) ∧
        (BasicTable.occupiedSlots w m.table).Nodup ∧
        (∀ k, HashMap.has w H m k = true ↔
          k ∈ (BasicTable.occupiedSlots w m.table).map
            (fun i => (BasicTable.entryAt w m.table i).key))) ∧
      (∀ s : HashSet K, ReachableSet w H s →
        (∀ fuel, BasicTable.occupiedCount s.table.entries < fuel →
          EntryIterator.drain w fuel s.getIterator =
            some (Except.ok (BasicTable.occupiedSlots w s.table))) ∧
        (BasicTable.occupiedSlots w s.table).length =
          BasicTable.occupiedCount s.table.entries ∧
        BasicTable.occupiedCount s.table.entries = s.getSize ∧
        (∀ i ∈ BasicTable.occupiedSlots w s.table,
          i < s.getCapacity ∧
            (BasicTable.entryAt w s.table i).state = EntryState.Occupied) ∧
        (BasicTable.occupiedSlots w s.table).Pairwise (fun i j => i < j) ∧
        (BasicTable.occupiedSlots w s.table).Nodup ∧
        (∀ k, HashSet.has w H s k = true ↔
          k ∈ (BasicTable.occupiedSlots w s.table).map
            (fun i => (BasicTable.entryAt w s.table i).key)))) := by
  refine ⟨EntryIterator.drain_table ht.well_formed, fun hw => ⟨fun m hm => ?_, fun s hs => ?_⟩⟩
  · obtain ⟨h1, h2, h3, h4, h5, h6, h7, _⟩ :=
      EntryIterator.drain_table (Reachable.inv hw hm).table.wellFormed
    exact ⟨h1, h2, h3, h4, h5, h6, h7⟩
  · obtain ⟨h1, h2, h3, h4, h5, h6, h7, _⟩ :=
      EntryIterator.drain_table (ReachableSet.inv_set hw hs).table.wellFormed
    exact ⟨h1, h2, h3, h4, h5, h6, h7⟩

set_option maxRecDepth 100000 in
/-- Witness of claim C14 on the table of capacity 5 (slots `0, 1, 2, 3`), on the table with a
tombstone (slot `0`), on the sample map (slot 0 is a tombstone; slots `1, 3`) and on the
sample set (slots `0, 1, 3`). -/
theorem iteration_complete_witness :
    (BasicTable.ReachableTable 64 id fiveTable ∧ 32 ≤ 64 ∧ Reachable 64 id sampleMap ∧
      ReachableSet 64 id sampleSet) ∧
    EntryIterator.drain 64 5 (EntryIterator.new fiveTable) = some (Except.ok [0, 1, 2, 3]) ∧
    EntryIterator.drain 64 2 (EntryIterator.new tombstoneTable) = some (Except.ok [0]) ∧
    (EntryIterator.drain 64 3 sampleMap.getIterator = some (Except.ok [1, 3]) ∧
      [15, 23, 31].map (fun k => HashMap.has 64 id sampleMap k) = [true, false, true]) ∧
    (EntryIterator.drain 64 4 sampleSet.getIterator = some (Except.ok [0, 1, 3]) ∧
      [15, 23, 31].map (fun k => HashSet.has 64 id sampleSet k) = [true, true, true]) :=
  ⟨⟨BasicTable.fiveTable_reachable, by decide, sampleMap_reachable, sampleSet_reachable⟩,
    (iteration_complete 64 id fiveTable BasicTable.fiveTable_reachable).1.1 5 (by decide),
    (iteration_complete 64 id tombstoneTable BasicTable.tombstoneTable_reachable).1.1 2
      (by decide),
    ⟨(((iteration_complete 64 id fiveTable BasicTable.fiveTable_reachable).2 (by decide)).1
        sampleMap sampleMap_reachable).1 3 (by decide), by decide⟩,
    ⟨(((iteration_complete 64 id (BasicTable.init 64 4 : BasicTable Nat Unit)
        (BasicTable.ReachableTable.init 4 (by decide))).2 (by decide)).2
        sampleSet sampleSet_reachable).1 4 (by decide), by decide⟩⟩

/-- C15: on every reachable table (of any capacity), and for every iterator state obtained
from a fresh iterator over it by successful calls of `next()`, `next()` throws
`InvalidOperation` if and only if `hasNext()` is false.  The same holds on the table of every
reachable map and of every reachable set. -/
theorem next_throws_iff_not_hasNext {K V : Type} [LinearOrder K] [Inhabited K] [Inhabited V]
    (w : Nat) (H : K → Nat) (t : BasicTable K V) (ht : BasicTable.ReachableTable w H t)
    (it : EntryIterator K V) (hit : EntryIterator.Reached w t it) :
    ((EntryIterator.next w it).1 = Except.error {} ↔ it.hasNext = false) ∧
    (32 ≤ w →
      (∀ (m : HashMap K V) (it' : EntryIterator K V), Reachable w H m →
        EntryIterator.Reached w m.table it' →
        ((EntryIterator.next w it').1 = Except.error {} ↔ it'.hasNext = false)) ∧
      (∀ (s : HashSet K) (it' : EntryIterator K Unit), ReachableSet w H s →
        EntryIterator.Reached w s.table it' →
        ((EntryIterator.next w it').1 = Except.error {} ↔ it'.hasNext = false))) := by
  have hwf := ht.well_formed
  refine ⟨EntryIterator.next_error_iff_table hwf.len hwf.bound hwf.size_eq hit,
    fun hw => ⟨fun m it' hm h => ?_, fun s it' hs h => ?_⟩⟩
  · have hm' := (Reachable.inv hw hm).table
    exact EntryIterator.next_error_iff_table hm'.len hm'.bound hm'.size_eq h
  · have hs' := (ReachableSet.inv_set hw hs).table
    exact EntryIterator.next_error_iff_table hs'.len hs'.bound hs'.size_eq h

set_option maxRecDepth 100000 in
/-- Witness of claim C15: the iterator over the table of capacity 5 after one call of
`next()`, where `next()` returns slot 1, and the exhausted iterator over the table with a
tombstone, where `next()` throws; then the iterator over the sample map after one call of
`next()`, and the fresh iterator over the sample set. -/
theorem next_throws_iff_not_hasNext_witness :
    (BasicTable.ReachableTable 64 id fiveTable ∧
      EntryIterator.Reached 64 fiveTable { table := fiveTable, count := 1, index := 1 } ∧
      BasicTable.ReachableTable 64 id tombstoneTable ∧
      EntryIterator.Reached 64 tombstoneTable
        { table := tombstoneTable, count := 1, index := 1 }) ∧
    ((EntryIterator.next 64
        ({ table := fiveTable, count := 1, index := 1 } : EntryIterator Nat Nat)).1 =
        Except.ok 1 ∧
      EntryIterator.hasNext
        ({ table := fiveTable, count := 1, index := 1 } : EntryIterator Nat Nat) = true ∧
      EntryIterator.hasNext
        ({ table := tombstoneTable, count := 1, index := 1 } : EntryIterator Nat Nat) =
        false) ∧
    ((EntryIterator.next 64
        ({ table := fiveTable, count := 1, index := 1 } : EntryIterator Nat Nat)).1 =
        Except.error {} ↔
      EntryIterator.hasNext
        ({ table := fiveTable, count := 1, index := 1 } : EntryIterator Nat Nat) = false) ∧
    ((EntryIterator.next 64
        ({ table := tombstoneTable, count := 1, index := 1 } : EntryIterator Nat Nat)).1 =
        Except.error {} ↔
      EntryIterator.hasNext
        ({ table := tombstoneTable, count := 1, index := 1 } : EntryIterator Nat Nat) =
        false) ∧
    ((32 ≤ 64 ∧ Reachable 64 id sampleMap ∧ ReachableSet 64 id sampleSet ∧
        EntryIterator.Reached 64 sampleMap.table
          { table := sampleMap.table, count := 1, index := 2 } ∧
        EntryIterator.Reached 64 sampleSet.table (EntryIterator.new sampleSet.table)) ∧
      ((EntryIterator.next 64
          ({ table := sampleMap.table, count := 1, index := 2 } : EntryIterator Nat Nat)).1 =
          Except.error {} ↔
        EntryIterator.hasNext
          ({ table := sampleMap.table, count := 1, index := 2 } : EntryIterator Nat Nat) =
          false) ∧
      ((EntryIterator.next 64 (EntryIterator.new sampleSet.table)).1 = Except.error {} ↔
        (EntryIterator.new sampleSet.table).hasNext = false)) :=
  ⟨⟨BasicTable.fiveTable_reachable,
      EntryIterator.Reached.next EntryIterator.Reached.fresh (by rfl),
      BasicTable.tombstoneTable_reachable,
      EntryIterator.Reached.next EntryIterator.Reached.fresh (by rfl)⟩,
    ⟨by rfl, by decide, by decide⟩,
    (next_throws_iff_not_hasNext 64 id fiveTable BasicTable.fiveTable_reachable _
      (EntryIterator.Reached.next EntryIterator.Reached.fresh (by rfl))).1,
    (next_throws_iff_not_hasNext 64 id tombstoneTable BasicTable.tombstoneTable_reachable _
      (EntryIterator.Reached.next EntryIterator.Reached.fresh (by rfl))).1,
    ⟨by decide, sampleMap_reachable, sampleSet_reachable,
      EntryIterator.Reached.next EntryIterator.Reached.fresh (by rfl),
      EntryIterator.Reached.fresh⟩,
    ((next_throws_iff_not_hasNext 64 id fiveTable BasicTable.fiveTable_reachable _
      EntryIterator.Reached.fresh).2 (by decide)).1 sampleMap _ sampleMap_reachable
      (EntryIterator.Reached.next EntryIterator.Reached.fresh (by rfl)),
    ((next_throws_iff_not_hasNext 64 id fiveTable BasicTable.fiveTable_reachable _
      EntryIterator.Reached.fresh).2 (by decide)).2 sampleSet _ sampleSet_reachable
      EntryIterator.Reached.fresh⟩

end SPL
